import Mathlib

/-!
# bencode-go: the decoders of `parser.go` and `parse.go`

A shallow embedding of `parser.go` (package `bencode`: the builder-driven
decoder `parseFromReader` and the reader pool of `parse`) and of `parse.go`
(package `bencodego`: the generic decoder `unmarshal`).

* A byte is a natural number; a Go `string` or `[]byte` is a `List Nat`.
* `strconv.ParseInt` / `strconv.ParseUint` (base 10, 64 bits) are embedded
  from their Go definitions; `strconv.ParseFloat` is a parameter of the
  development (floating point is not modelled), a `float64` being its bit
  pattern.
* `bufio.Reader` is embedded as a state record: the buffered unread bytes,
  the read index, the buffer capacity, the pending error, the last byte read
  and the underlying source, which delivers its bytes in chunks.
* The `builder` interface is embedded as an instrumented builder: every
  builder instance is a number, `Elem` and `Key` hand out fresh numbers, and
  each call is recorded as an event `(instance, call)`.
* `int` is 64 bits wide (`int(length)` is the identity on non-negative
  `int64`), and `make([]byte, n)` panics exactly when `n` is negative or
  exceeds `maxAlloc`, the limit of the runtime on one allocation; below it
  memory is taken to suffice, as it is for the line that `ReadBytes` collects.
* The `any` that `unmarshal` returns is a `Value`; a `map[string]any` is the
  list of its bindings, one per key.
* `sync.Pool` is embedded as the list of the pooled readers, the choice of
  `Get` being a parameter; concurrent use is not modelled.
-/

namespace Bencode

/-! ## Definitions -/

/-- The bytes of an ASCII string literal. -/
def bytes (s : String) : List Nat := s.toList.map Char.toNat

/-- The `Err` field of a `*strconv.NumError`. -/
inductive NumErr where
  | ErrSyntax
  | ErrRange
  deriving DecidableEq, Repr

/-- The `Func` field of a `*strconv.NumError`. -/
inductive NumFn where
  | fnParseInt
  | fnParseUint
  | fnAtoi
  deriving DecidableEq, Repr

/-- The error values that `parser.go` and `parse.go` can return: the
sentinels of `io` and `bufio`, the `*strconv.NumError` of a failed parse, and
the errors that the two files build themselves with `errors.New` and
`fmt.Errorf`. -/
inductive Error where
  | EOF
  | ErrUnexpectedEOF
  | ErrShortBuffer
  | ErrNoProgress
  | ErrBufferFull
  | ErrInvalidUnreadByte
  | NumError (fn : NumFn) (num : List Nat) (err : NumErr)
  | badStringLength
  | badInteger
  | unexpectedCharacter (c : Nat)
  | invalidDictKey
  deriving DecidableEq, Repr

/-- What a Go function of `parser.go` does: return a value with a nil error,
return a non-nil error, or panic. -/
inductive Result (α : Type) where
  | ok (a : α)
  | error (e : Error)
  | panic
  deriving DecidableEq, Repr

/-- The test `'0' <= c && c <= '9'`. -/
def isDigit (c : Nat) : Bool := decide (48 ≤ c) && decide (c ≤ 57)

def maxUint64 : Nat := 2 ^ 64 - 1

/-- The smallest number whose product with 10 exceeds `maxUint64`. -/
def uintCutoff : Nat := maxUint64 / 10 + 1

/-- The digit loop of `strconv.ParseUint(s, 10, 64)`; `s0` is the whole
argument, kept for the error value. A byte that is not a decimal digit is a
letter of value at least 10 or no digit at all: a syntax error either way. -/
def ParseUintLoop (s0 : List Nat) : List Nat → Nat → Except Error Nat
  | [], n => .ok n
  | c :: cs, n =>
    if isDigit c then
      let d := c - 48
      if uintCutoff ≤ n then .error (.NumError .fnParseUint s0 .ErrRange)
      else
        let n10 := n * 10
        let n1 := (n10 + d) % 2 ^ 64
        if n1 < n10 ∨ maxUint64 < n1 then .error (.NumError .fnParseUint s0 .ErrRange)
        else ParseUintLoop s0 cs n1
    else .error (.NumError .fnParseUint s0 .ErrSyntax)

/-- The function `strconv.ParseUint(s, 10, 64)`. -/
def ParseUint (s : List Nat) : Except Error Nat :=
  if s = [] then .error (.NumError .fnParseUint s .ErrSyntax)
  else ParseUintLoop s s 0

/-- The function `strconv.ParseInt(s, 10, 64)`: an optional sign, then
`ParseUint`; a range error of `ParseUint` leaves `un = maxUint64`, which the
range checks below reject. `int64(un)` negated is `-un` also at `un = 2^63`. -/
def ParseInt (s : List Nat) : Except Error Int :=
  match s with
  | [] => .error (.NumError .fnParseInt s .ErrSyntax)
  | c :: rest =>
    let neg := c == 45
    let s1 := if c == 43 || c == 45 then rest else s
    let un : Option Nat :=
      match ParseUint s1 with
      | .ok u => some u
      | .error (.NumError _ _ .ErrRange) => some maxUint64
      | .error _ => none
    match un with
    | none => .error (.NumError .fnParseInt s .ErrSyntax)
    | some un =>
      if !neg && decide (2 ^ 63 ≤ un) then .error (.NumError .fnParseInt s .ErrRange)
      else if neg && decide (2 ^ 63 < un) then .error (.NumError .fnParseInt s .ErrRange)
      else .ok (if neg then -(un : Int) else (un : Int))

/-- A `float64`, as its bit pattern. -/
abbrev Float64 := Nat

/-- The state of a `*bufio.Reader`: `buf` is `b.buf[b.r:b.w]`, `rpos` is
`b.r`, `size` is `len(b.buf)`, `err` is `b.err`, `lastByte` is `b.lastByte`
(`none` for -1), and `src` is the underlying `io.Reader`, given by the chunks
it still delivers: a `Read` returns bytes of the first chunk and, once no
chunk is left, `io.EOF`. -/
structure Reader where
  buf : List Nat
  rpos : Nat
  size : Nat
  err : Option Error
  lastByte : Option Nat
  src : List (List Nat)
  deriving DecidableEq, Repr

namespace Reader

/-- The bytes not yet consumed: buffered ones, then those still in the source. -/
def unread (b : Reader) : List Nat := b.buf ++ b.src.flatten

/-- A reader as `bufio.NewReaderSize` returns it, over a source that delivers
the given chunks. -/
def new (size : Nat) (chunks : List (List Nat)) : Reader :=
  { buf := [], rpos := 0, size := size, err := none, lastByte := none, src := chunks }

/-- One `Read(p)` of the underlying source with `len(p) = n`: the bytes
delivered, the error, and the source afterwards. -/
def srcRead (src : List (List Nat)) (n : Nat) : List Nat × Option Error × List (List Nat) :=
  match src with
  | [] => ([], some .EOF, [])
  | c :: cs => (c.take n, none, if c.length ≤ n then cs else c.drop n :: cs)

/-- The read loop of `fill`: up to `maxConsecutiveEmptyReads` tries. -/
def fillLoop : Nat → Reader → Reader
  | 0, b => { b with err := some .ErrNoProgress }
  | i + 1, b =>
    match srcRead b.src (b.size - (b.rpos + b.buf.length)) with
    | (data, e, src1) =>
      let b1 := { b with buf := b.buf ++ data, src := src1 }
      match e with
      | some e => { b1 with err := some e }
      | none => if 0 < data.length then b1 else fillLoop i b1

/-- The method `fill`: slide the buffered bytes to the start of the buffer,
then read new data into the free space. Callers call it on a buffer that is
not full. -/
def fill (b : Reader) : Reader :=
  fillLoop 100 (if 0 < b.rpos then { b with rpos := 0 } else b)

/-- The method `ReadByte`. After `fill` the buffer holds a byte or an error
is pending, so the loop runs at most twice. -/
def ReadByte (b : Reader) : Nat × Option Error × Reader :=
  match b.buf with
  | c :: rest => (c, none, { b with buf := rest, rpos := b.rpos + 1, lastByte := some c })
  | [] =>
    if b.err.isSome then (0, b.err, { b with err := none })
    else
      let b1 := fill b
      match b1.buf with
      | c :: rest => (c, none, { b1 with buf := rest, rpos := b1.rpos + 1, lastByte := some c })
      | [] => (0, b1.err, { b1 with err := none })

/-- The method `UnreadByte`. -/
def UnreadByte (b : Reader) : Option Error × Reader :=
  match b.lastByte with
  | none => (some .ErrInvalidUnreadByte, b)
  | some c =>
    if b.rpos = 0 ∧ 0 < b.buf.length then (some .ErrInvalidUnreadByte, b)
    else if 0 < b.rpos then
      (none, { b with buf := c :: b.buf, rpos := b.rpos - 1, lastByte := none })
    else (none, { b with buf := [c], lastByte := none })

/-- The function `bytes.IndexByte`. -/
def IndexByte : List Nat → Nat → Option Nat
  | [], _ => none
  | c :: cs, d => if c = d then some 0 else (IndexByte cs d).map (· + 1)

/-- The loop of `ReadSlice`; `s` is the search start index. Every turn that
does not leave the loop buffers a byte or records an error, so `size + 1`
turns are enough. -/
def ReadSliceLoop (delim : Nat) : Nat → Nat → Reader → List Nat × Option Error × Reader
  | 0, _, b => ([], some .ErrNoProgress, b)
  | k + 1, s, b =>
    match IndexByte (b.buf.drop s) delim with
    | some i =>
      (b.buf.take (i + s + 1), none,
        { b with buf := b.buf.drop (i + s + 1), rpos := b.rpos + (i + s + 1) })
    | none =>
      if b.err.isSome then
        (b.buf, b.err, { b with buf := [], rpos := b.rpos + b.buf.length, err := none })
      else if b.size ≤ b.buf.length then
        (b.buf, some .ErrBufferFull, { b with buf := [], rpos := b.rpos + b.buf.length })
      else ReadSliceLoop delim k b.buf.length (fill b)

/-- The method `ReadSlice`. -/
def ReadSlice (b : Reader) (delim : Nat) : List Nat × Option Error × Reader :=
  match ReadSliceLoop delim (b.size + 1) 0 b with
  | (line, e, b1) =>
    (line, e, if line = [] then b1 else { b1 with lastByte := line.getLast? })

/-- The loop of `Peek`. -/
def PeekLoop (n : Nat) : Nat → Reader → Reader
  | 0, b => b
  | k + 1, b =>
    if b.buf.length < n ∧ b.buf.length < b.size ∧ b.err = none then PeekLoop n k (fill b)
    else b

/-- The method `Peek`, for `n ≥ 0`. -/
def Peek (b : Reader) (n : Nat) : List Nat × Option Error × Reader :=
  let b1 := PeekLoop n (b.size + 1) { b with lastByte := none }
  if b1.size < n then (b1.buf, some .ErrBufferFull, b1)
  else if b1.buf.length < n then
    (b1.buf, some (b1.err.getD .ErrBufferFull), { b1 with err := none })
  else (b1.buf.take n, none, b1)

/-- The loop of `Discard`. -/
def DiscardLoop (n : Nat) : Nat → Nat → Reader → Nat × Option Error × Reader
  | 0, remain, b => (n - remain, some .ErrNoProgress, b)
  | k + 1, remain, b =>
    let b1 := if b.buf.length = 0 then fill b else b
    let skip := min b1.buf.length remain
    let b2 := { b1 with buf := b1.buf.drop skip, rpos := b1.rpos + skip }
    if remain - skip = 0 then (n, none, b2)
    else if b2.err.isSome then (n - (remain - skip), b2.err, { b2 with err := none })
    else DiscardLoop n k (remain - skip) b2

/-- The method `Discard`, for `n ≥ 0`. -/
def Discard (b : Reader) (n : Nat) : Nat × Option Error × Reader :=
  if n = 0 then (0, none, b)
  else DiscardLoop n (n + 1) n { b with lastByte := none }

/-- The method `Read(p)` with `len(p) = n`: the bytes copied into `p`, the
error, and the reader afterwards. -/
def Read (b : Reader) (n : Nat) : List Nat × Option Error × Reader :=
  if n = 0 then
    if 0 < b.buf.length then ([], none, b) else ([], b.err, { b with err := none })
  else
    match b.buf with
    | [] =>
      if b.err.isSome then ([], b.err, { b with err := none })
      else if b.size ≤ n then
        match srcRead b.src n with
        | (data, e, src1) =>
          (data, e,
            { b with src := src1, err := none,
                     lastByte := if data = [] then b.lastByte else data.getLast? })
      else
        match srcRead b.src b.size with
        | (data, e, src1) =>
          if data = [] then ([], e, { b with rpos := 0, src := src1, err := none })
          else
            (data.take n, none,
              { b with buf := data.drop n, rpos := (data.take n).length, src := src1,
                       err := e, lastByte := (data.take n).getLast? })
    | _ :: _ =>
      (b.buf.take n, none,
        { b with buf := b.buf.drop n, rpos := b.rpos + (b.buf.take n).length,
                 lastByte := (b.buf.take n).getLast? })

end Reader

/-- One call on a builder. `Elem i sub` and `Key s sub` record the call and
the sub-builder instance `sub` it returned. -/
inductive Call where
  | Int64 (i : Int)
  | Uint64 (u : Nat)
  | Float64 (f : Float64)
  | String (s : List Nat)
  | Array
  | Map
  | Elem (i : Nat) (sub : Nat)
  | Key (s : List Nat) (sub : Nat)
  | Flush
  deriving DecidableEq, Repr

/-- A call together with the builder instance that received it. -/
abbrev Event := Nat × Call

/-- What one run of `parseFromReader` or of one of its loops leaves behind:
how it ended, the reader, the builder calls it made in order, and the next
unused builder instance. -/
abbrev Run := Result Unit × Reader × List Event × Nat

/-- The function `readSlice`: the bytes up to the first `delim`, without it. -/
def readSlice (r : Reader) (delim : Nat) : Result (List Nat) × Reader :=
  match r.ReadSlice delim with
  | (_, some e, r1) => (.error e, r1)
  | (data, none, r1) =>
    if 0 < data.length then (.ok (data.take (data.length - 1)), r1)
    else (.panic, r1)

/-- The function `decodeInt64`. -/
def decodeInt64 (r : Reader) (delim : Nat) : Result Int × Reader :=
  match readSlice r delim with
  | (.ok buf, r1) =>
    match ParseInt buf with
    | .ok i => (.ok i, r1)
    | .error e => (.error e, r1)
  | (.error e, r1) => (.error e, r1)
  | (.panic, r1) => (.panic, r1)

/-- The loop of `readAtLeast`: `acc` holds the `n` bytes read so far into a
buffer of length `bufLen`. -/
def readAtLeastLoop (bufLen min : Nat) :
    Nat → Reader → List Nat → Option Error → List Nat × Option Error × Reader
  | 0, r, acc, err => (acc, err, r)
  | k + 1, r, acc, err =>
    if acc.length < min ∧ err = none then
      match r.Read (bufLen - acc.length) with
      | (data, e, r1) => readAtLeastLoop bufLen min k r1 (acc ++ data) e
    else (acc, err, r)

/-- The function `readAtLeast` on a buffer of length `bufLen`: the bytes read
into the buffer (`n` is their number), the error, the reader afterwards.
Every turn of the loop reads a byte or ends it, so `min + 1` turns are enough. -/
def readAtLeast (r : Reader) (bufLen min : Nat) : List Nat × Option Error × Reader :=
  if bufLen < min then ([], some .ErrShortBuffer, r)
  else
    match readAtLeastLoop bufLen min (min + 1) r [] none with
    | (data, err, r1) =>
      if min ≤ data.length then (data, none, r1)
      else if 0 < data.length ∧ err = some .EOF then (data, some .ErrUnexpectedEOF, r1)
      else (data, err, r1)

/-- The function `readFull`. -/
def readFull (r : Reader) (bufLen : Nat) : List Nat × Option Error × Reader :=
  readAtLeast r bufLen bufLen

/-- The largest length `make([]byte, n)` accepts without panicking
(`maxAlloc` of the Go runtime on a 64-bit platform). An allocation within
this limit is taken to succeed: a process that cannot obtain the memory dies
in `make`, which is no result of the function and is not modelled. -/
def maxAlloc : Nat := 2 ^ 48

/-- The function `decodeString`. When `Peek` fails, `make([]byte, length)` is
called before any of the `length` bytes is read: it panics above `maxAlloc`
and is taken to succeed within it. -/
def decodeString (r : Reader) : Result (List Nat) × Reader :=
  match decodeInt64 r 58 with
  | (.error e, r1) => (.error e, r1)
  | (.panic, r1) => (.panic, r1)
  | (.ok length, r1) =>
    if length < 0 then (.error .badStringLength, r1)
    else
      match r1.Peek length.toNat with
      | (peekBuf, none, r2) =>
        match r2.Discard length.toNat with
        | (_, none, r3) => (.ok peekBuf, r3)
        | (_, some e, r3) => (.error e, r3)
      | (_, some _, r2) =>
        if maxAlloc < length.toNat then (.panic, r2)
        else
          match readFull r2 length.toNat with
          | (_, some e, r3) => (.error e, r3)
          | (data, none, r3) =>
            (.ok (data ++ List.replicate (length.toNat - data.length) 0), r3)

/-- The `for` loop of the `'d'` case of `parseFromReader`; `parse` is the
recursive call, `build.Key(key)` returns the fresh instance `next`. -/
def dictLoop (parse : Reader → Nat → Nat → Option Run) (build : Nat) :
    Nat → Reader → Nat → Option Run
  | 0, _, _ => none
  | k + 1, r, next =>
    match r.ReadByte with
    | (_, some e, r1) => some (.error e, r1, [], next)
    | (c, none, r1) =>
      if c = 101 then some (.ok (), r1, [], next)
      else
        match r1.UnreadByte with
        | (some e, r2) => some (.error e, r2, [], next)
        | (none, r2) =>
          match decodeString r2 with
          | (.error e, r3) => some (.error e, r3, [], next)
          | (.panic, r3) => some (.panic, r3, [], next)
          | (.ok key, r3) =>
            match parse r3 next (next + 1) with
            | none => none
            | some (.ok (), r4, evs, next4) =>
              match dictLoop parse build k r4 next4 with
              | none => none
              | some (res, r5, evs5, next5) =>
                some (res, r5, (build, .Key key next) :: evs ++ evs5, next5)
            | some (res, r4, evs, next4) =>
              some (res, r4, (build, .Key key next) :: evs, next4)

/-- The `for` loop of the `'l'` case of `parseFromReader`; `n` is the index
of the next element, `build.Elem(n)` returns the fresh instance `next`. -/
def listLoop (parse : Reader → Nat → Nat → Option Run) (build : Nat) :
    Nat → Reader → Nat → Nat → Option Run
  | 0, _, _, _ => none
  | k + 1, r, n, next =>
    match r.ReadByte with
    | (_, some e, r1) => some (.error e, r1, [], next)
    | (c, none, r1) =>
      if c = 101 then some (.ok (), r1, [], next)
      else
        match r1.UnreadByte with
        | (some e, r2) => some (.error e, r2, [], next)
        | (none, r2) =>
          match parse r2 next (next + 1) with
          | none => none
          | some (.ok (), r3, evs, next3) =>
            match listLoop parse build k r3 (n + 1) next3 with
            | none => none
            | some (res, r4, evs4, next4) =>
              some (res, r4, (build, .Elem n next) :: evs ++ evs4, next4)
          | some (res, r3, evs, next3) =>
            some (res, r3, (build, .Elem n next) :: evs, next3)

/-- The `'i'` case of `parseFromReader`: the literal up to `'e'`, tried as
`int64`, then as `uint64`, then as `float64`. -/
def parseInteger (ParseFloat : List Nat → Option Float64) (r : Reader) (build next : Nat) :
    Run :=
  match readSlice r 101 with
  | (.error e, r1) => (.error e, r1, [], next)
  | (.panic, r1) => (.panic, r1, [], next)
  | (.ok str, r1) =>
    match ParseInt str with
    | .ok i => (.ok (), r1, [(build, .Int64 i)], next)
    | .error _ =>
      match ParseUint str with
      | .ok u => (.ok (), r1, [(build, .Uint64 u)], next)
      | .error _ =>
        match ParseFloat str with
        | some f => (.ok (), r1, [(build, .Float64 f)], next)
        | none => (.error .badInteger, r1, [], next)

/-- The digit case of `parseFromReader`: push the digit back, decode a string. -/
def parseString (r : Reader) (build next : Nat) : Run :=
  match r.UnreadByte with
  | (some e, r1) => (.error e, r1, [], next)
  | (none, r1) =>
    match decodeString r1 with
    | (.ok s, r2) => (.ok (), r2, [(build, .String s)], next)
    | (.error e, r2) => (.error e, r2, [], next)
    | (.panic, r2) => (.panic, r2, [], next)

/-- The label `exit:` of `parseFromReader`: every path that reaches it calls
`build.Flush()` and returns; a panic does not reach it. -/
def exit (build : Nat) : Option Run → Option Run
  | none => none
  | some (.panic, r, evs, next) => some (.panic, r, evs, next)
  | some (res, r, evs, next) => some (res, r, evs ++ [(build, .Flush)], next)

/-- The function `parseFromReader(r, build)`. The first argument bounds the
depth of the recursion and the turns of each loop; `none` means that the
bound was reached. `build` is the builder instance, `next` the next unused
instance. -/
def parseFromReader (ParseFloat : List Nat → Option Float64) :
    Nat → Reader → Nat → Nat → Option Run
  | 0, _, _, _ => none
  | f + 1, r, build, next =>
    exit build
      (match r.ReadByte with
      | (_, some e, r1) => some (.error e, r1, [], next)
      | (c, none, r1) =>
        if 48 ≤ c ∧ c ≤ 57 then some (parseString r1 build next)
        else if c = 105 then some (parseInteger ParseFloat r1 build next)
        else if c = 100 then
          match dictLoop (parseFromReader ParseFloat f) build f r1 next with
          | none => none
          | some (res, r2, evs, next2) => some (res, r2, (build, .Map) :: evs, next2)
        else if c = 108 then
          match listLoop (parseFromReader ParseFloat f) build f r1 0 next with
          | none => none
          | some (res, r2, evs, next2) => some (res, r2, (build, .Array) :: evs, next2)
        else some (.error (.unexpectedCharacter c), r1, [], next))

namespace Reader

/-- Well-formed reader states. -/
def WF (b : Reader) : Prop :=
  0 < b.size ∧ b.rpos + b.buf.length ≤ b.size ∧ [] ∉ b.src ∧
    (b.err = none ∨ (b.err = some .EOF ∧ b.src = [] ∧ b.rpos + b.buf.length < b.size))

instance (b : Reader) : Decidable b.WF := by unfold WF; infer_instance

end Reader

namespace Stream

/-- What `ReadSlice` does to the unread bytes `u` of a reader of capacity
`size`: the line, the error, the bytes left unread. -/
def ReadSlice (size : Nat) (delim : Nat) (u : List Nat) :
    List Nat × Option Error × List Nat :=
  match Reader.IndexByte (u.take size) delim with
  | some i => (u.take (i + 1), none, u.drop (i + 1))
  | none =>
    if u.length < size then (u, some .EOF, [])
    else (u.take size, some .ErrBufferFull, u.drop size)

/-- What `readFull` into a buffer of length `n` does to the unread bytes `u`. -/
def readFull (n : Nat) (u : List Nat) : List Nat × Option Error × List Nat :=
  if n ≤ u.length then (u.take n, none, u.drop n)
  else if 0 < u.length then (u, some .ErrUnexpectedEOF, [])
  else ([], some .EOF, [])

/-- The function `readSlice` on the unread bytes. -/
def readSlice (size : Nat) (u : List Nat) (delim : Nat) : Result (List Nat) × List Nat :=
  match ReadSlice size delim u with
  | (_, some e, u1) => (.error e, u1)
  | (data, none, u1) =>
    if 0 < data.length then (.ok (data.take (data.length - 1)), u1)
    else (.panic, u1)

/-- The function `decodeInt64` on the unread bytes. -/
def decodeInt64 (size : Nat) (u : List Nat) (delim : Nat) : Result Int × List Nat :=
  match readSlice size u delim with
  | (.ok buf, u1) =>
    match ParseInt buf with
    | .ok i => (.ok i, u1)
    | .error e => (.error e, u1)
  | (.error e, u1) => (.error e, u1)
  | (.panic, u1) => (.panic, u1)

/-- The function `decodeString` on the unread bytes: `Peek` succeeds exactly
when the declared length fits the buffer and the stream. -/
def decodeString (size : Nat) (u : List Nat) : Result (List Nat) × List Nat :=
  match decodeInt64 size u 58 with
  | (.error e, u1) => (.error e, u1)
  | (.panic, u1) => (.panic, u1)
  | (.ok length, u1) =>
    if length < 0 then (.error .badStringLength, u1)
    else if length.toNat ≤ size ∧ length.toNat ≤ u1.length then
      (.ok (u1.take length.toNat), u1.drop length.toNat)
    else if maxAlloc < length.toNat then (.panic, u1)
    else
      match readFull length.toNat u1 with
      | (_, some e, u2) => (.error e, u2)
      | (data, none, u2) => (.ok data, u2)

end Stream

/-- A run as the stream semantics sees it: the unread bytes stand for the reader. -/
abbrev SRun := Result Unit × List Nat × List Event × Nat

namespace Stream

/-- The loop `dictLoop` on the unread bytes. -/
def dictLoop (size : Nat) (parse : List Nat → Nat → Nat → Option SRun) (build : Nat) :
    Nat → List Nat → Nat → Option SRun
  | 0, _, _ => none
  | k + 1, u, next =>
    match u with
    | [] => some (.error .EOF, [], [], next)
    | c :: t =>
      if c = 101 then some (.ok (), t, [], next)
      else
        match decodeString size (c :: t) with
        | (.error e, u3) => some (.error e, u3, [], next)
        | (.panic, u3) => some (.panic, u3, [], next)
        | (.ok key, u3) =>
          match parse u3 next (next + 1) with
          | none => none
          | some (.ok (), u4, evs, next4) =>
            match dictLoop size parse build k u4 next4 with
            | none => none
            | some (res, u5, evs5, next5) =>
              some (res, u5, (build, .Key key next) :: evs ++ evs5, next5)
          | some (res, u4, evs, next4) =>
            some (res, u4, (build, .Key key next) :: evs, next4)

/-- The loop `listLoop` on the unread bytes. -/
def listLoop (parse : List Nat → Nat → Nat → Option SRun) (build : Nat) :
    Nat → List Nat → Nat → Nat → Option SRun
  | 0, _, _, _ => none
  | k + 1, u, n, next =>
    match u with
    | [] => some (.error .EOF, [], [], next)
    | c :: t =>
      if c = 101 then some (.ok (), t, [], next)
      else
        match parse (c :: t) next (next + 1) with
        | none => none
        | some (.ok (), u3, evs, next3) =>
          match listLoop parse build k u3 (n + 1) next3 with
          | none => none
          | some (res, u4, evs4, next4) =>
            some (res, u4, (build, .Elem n next) :: evs ++ evs4, next4)
        | some (res, u3, evs, next3) =>
          some (res, u3, (build, .Elem n next) :: evs, next3)

/-- The `'i'` case on the unread bytes after the `'i'`. -/
def parseInteger (ParseFloat : List Nat → Option Float64) (size : Nat) (u : List Nat)
    (build next : Nat) : SRun :=
  match readSlice size u 101 with
  | (.error e, u1) => (.error e, u1, [], next)
  | (.panic, u1) => (.panic, u1, [], next)
  | (.ok str, u1) =>
    match ParseInt str with
    | .ok i => (.ok (), u1, [(build, .Int64 i)], next)
    | .error _ =>
      match ParseUint str with
      | .ok v => (.ok (), u1, [(build, .Uint64 v)], next)
      | .error _ =>
        match ParseFloat str with
        | some f => (.ok (), u1, [(build, .Float64 f)], next)
        | none => (.error .badInteger, u1, [], next)

/-- The digit case on the unread bytes, the digit included. -/
def parseString (size : Nat) (u : List Nat) (build next : Nat) : SRun :=
  match decodeString size u with
  | (.ok s, u2) => (.ok (), u2, [(build, .String s)], next)
  | (.error e, u2) => (.error e, u2, [], next)
  | (.panic, u2) => (.panic, u2, [], next)

/-- The label `exit:` on a run of the stream semantics. -/
def exit (build : Nat) : Option SRun → Option SRun
  | none => none
  | some (.panic, u, evs, next) => some (.panic, u, evs, next)
  | some (res, u, evs, next) => some (res, u, evs ++ [(build, .Flush)], next)

/-- The `switch` of `parseFromReader` on the unread bytes; `parse` stands for
the recursive call and `k` bounds the turns of the loops. -/
def dispatch (ParseFloat : List Nat → Option Float64) (size : Nat)
    (parse : List Nat → Nat → Nat → Option SRun) (k : Nat) (u : List Nat) (build next : Nat) :
    Option SRun :=
  match u with
  | [] => some (.error .EOF, [], [], next)
  | c :: t =>
    if 48 ≤ c ∧ c ≤ 57 then some (parseString size (c :: t) build next)
    else if c = 105 then some (parseInteger ParseFloat size t build next)
    else if c = 100 then
      match dictLoop size parse build k t next with
      | none => none
      | some (res, u2, evs, next2) => some (res, u2, (build, .Map) :: evs, next2)
    else if c = 108 then
      match listLoop parse build k t 0 next with
      | none => none
      | some (res, u2, evs, next2) => some (res, u2, (build, .Array) :: evs, next2)
    else some (.error (.unexpectedCharacter c), t, [], next)

/-- The function `parseFromReader` on the unread bytes `u` of a reader of
capacity `size`. -/
def parseFromReader (ParseFloat : List Nat → Option Float64) (size : Nat) :
    Nat → List Nat → Nat → Nat → Option SRun
  | 0, _, _, _ => none
  | f + 1, u, build, next =>
    exit build (dispatch ParseFloat size (parseFromReader ParseFloat size f) f u build next)

end Stream

/-- The stream view of a run. -/
def absRun (x : Run) : SRun := (x.1, x.2.1.unread, x.2.2.1, x.2.2.2)

/-- A run of the code and a run of the stream semantics agree: same result,
same builder calls, the reader is well formed, keeps its capacity and has
exactly the stream's bytes left. -/
def Sim (size : Nat) (x : Option Run) (y : Option SRun) : Prop :=
  y = x.map absRun ∧ ∀ run, x = some run → run.2.1.WF ∧ run.2.1.size = size

/-- The digits of `n`, most significant first, in front of `acc`; the first
argument bounds the number of digits. -/
def natTextAux : Nat → Nat → List Nat → List Nat
  | 0, _, acc => acc
  | fuel + 1, n, acc =>
    if n / 10 = 0 then (48 + n % 10) :: acc
    else natTextAux fuel (n / 10) ((48 + n % 10) :: acc)

/-- The decimal text of a natural number, as `strconv.FormatUint(n, 10)`
writes it: no sign, no leading zero. -/
def natText (n : Nat) : List Nat := natTextAux (n + 1) n []

/-- The decimal text of an integer, as `strconv.FormatInt(n, 10)` writes it. -/
def intText (n : Int) : List Nat :=
  if n < 0 then 45 :: natText n.natAbs else natText n.natAbs

mutual
/-- A bencode value: an integer, a byte string, a list or a dictionary
(its pairs in stream order). -/
inductive Value where
  | int (n : Int)
  | str (s : List Nat)
  | list (xs : ValueList)
  | dict (kvs : ValueDict)
/-- The items of a list value. -/
inductive ValueList where
  | nil
  | cons (v : Value) (vs : ValueList)
/-- The pairs of a dictionary value. -/
inductive ValueDict where
  | nil
  | cons (k : List Nat) (v : Value) (kvs : ValueDict)
end

deriving instance DecidableEq for Value, ValueList, ValueDict

/-- The standard encoding of a byte string: decimal length, `':'`, the bytes. -/
def strEnc (s : List Nat) : List Nat := natText s.length ++ 58 :: s

mutual
/-- The standard encoding of a value. -/
def Value.enc : Value → List Nat
  | .int n => 105 :: intText n ++ [101]
  | .str s => strEnc s
  | .list xs => 108 :: xs.enc
  | .dict kvs => 100 :: kvs.enc
/-- The encoded items of a list, then the closing `'e'`. -/
def ValueList.enc : ValueList → List Nat
  | .nil => [101]
  | .cons v vs => v.enc ++ vs.enc
/-- The encoded pairs of a dictionary, then the closing `'e'`. -/
def ValueDict.enc : ValueDict → List Nat
  | .nil => [101]
  | .cons k v kvs => strEnc k ++ v.enc ++ kvs.enc
end

mutual
/-- The number of sub-builders a depth-first walk of the value creates. -/
def Value.subs : Value → Nat
  | .int _ => 0
  | .str _ => 0
  | .list xs => xs.subs
  | .dict kvs => kvs.subs
/-- The sub-builders of the items of a list. -/
def ValueList.subs : ValueList → Nat
  | .nil => 0
  | .cons v vs => 1 + v.subs + vs.subs
/-- The sub-builders of the pairs of a dictionary. -/
def ValueDict.subs : ValueDict → Nat
  | .nil => 0
  | .cons _ v kvs => 1 + v.subs + kvs.subs
end

mutual
/-- The depth-first call sequence of a value on builder `b`, the
sub-builders being numbered from `next` on. -/
def Value.calls : Value → Nat → Nat → List Event
  | .int n, b, _ => [(b, .Int64 n), (b, .Flush)]
  | .str s, b, _ => [(b, .String s), (b, .Flush)]
  | .list xs, b, next => (b, .Array) :: xs.calls b 0 next ++ [(b, .Flush)]
  | .dict kvs, b, next => (b, .Map) :: kvs.calls b next ++ [(b, .Flush)]
/-- The calls for the items of a list from index `i` on: `Elem(i)`, then the
item's own calls on the sub-builder. -/
def ValueList.calls : ValueList → Nat → Nat → Nat → List Event
  | .nil, _, _, _ => []
  | .cons v vs, b, i, next =>
    (b, .Elem i next) :: v.calls next (next + 1) ++ vs.calls b (i + 1) (next + 1 + v.subs)
/-- The calls for the pairs of a dictionary: `Key(k)`, then the value's own
calls on the sub-builder. -/
def ValueDict.calls : ValueDict → Nat → Nat → List Event
  | .nil, _, _ => []
  | .cons k v kvs, b, next =>
    (b, .Key k next) :: v.calls next (next + 1) ++ kvs.calls b (next + 1 + v.subs)
end

mutual
/-- The values that Go can hold: integers in the signed 64-bit range,
byte strings that `make` can allocate. -/
def Value.valid : Value → Bool
  | .int n => decide (-2 ^ 63 ≤ n) && decide (n < 2 ^ 63)
  | .str s => decide (s.length ≤ maxAlloc)
  | .list xs => xs.valid
  | .dict kvs => kvs.valid
/-- Validity of the items of a list. -/
def ValueList.valid : ValueList → Bool
  | .nil => true
  | .cons v vs => v.valid && vs.valid
/-- Validity of the pairs of a dictionary. -/
def ValueDict.valid : ValueDict → Bool
  | .nil => true
  | .cons k v kvs => decide (k.length ≤ maxAlloc) && v.valid && kvs.valid
end

namespace Stream

/-- A run of the stream semantics that consumed input: it is there, it left
no more bytes than it found, and fewer when it succeeded. -/
def Consumes (x : Option SRun) (u : List Nat) : Prop :=
  ∃ res u1 evs n1, x = some (res, u1, evs, n1) ∧ u1.length ≤ u.length ∧
    (res = .ok () → u1.length < u.length)

/-- A parse function has the frame property when a successful run does not
look at the bytes that follow the ones it consumed. -/
def Framed (P : List Nat → Nat → Nat → Option SRun) : Prop :=
  ∀ u b n u1 evs n1, P u b n = some (.ok (), u1, evs, n1) →
    ∀ t, P (u ++ t) b n = some (.ok (), u1 ++ t, evs, n1)

end Stream

/-- The events of a run on builder `b` that numbers its sub-builders from
`n` up to `n1`: each is a call on `b` or on one of those sub-builders. -/
def Owned (b n n1 : Nat) (evs : List Event) : Prop :=
  n ≤ n1 ∧ ∀ e ∈ evs, e.1 = b ∨ (n ≤ e.1 ∧ e.1 < n1)

/-- The calls the items `xs` of a list are expected to cause on builder
`build` from index `i` on, each item being decoded on its own: `Elem(i)`
hands out the sub-builder `next`, then come the calls of `parseFromReader`
on a reader over that item alone. `none` when some item does not decode
successfully or is not consumed to its end. -/
def itemCalls (ParseFloat : List Nat → Option Float64) (size build : Nat) :
    List (List Nat) → Nat → Nat → Option (List Event × Nat)
  | [], _, next => some ([], next)
  | x :: xs, i, next =>
    match parseFromReader ParseFloat (x.length + 1) (Reader.new size [x]) next (next + 1) with
    | some (.ok (), r1, evs, next1) =>
      if r1.unread = [] then
        match itemCalls ParseFloat size build xs (i + 1) next1 with
        | some (rest, next2) => some ((build, .Elem i next) :: evs ++ rest, next2)
        | none => none
      else none
    | _ => none

/-- The indices of the `Elem` calls made on builder `build`, in order. -/
def elemIndices (build : Nat) (evs : List Event) : List Nat :=
  evs.filterMap fun e =>
    match e with
    | (b, .Elem i _) => if b = build then some i else none
    | _ => none

/-- The key text that `decodeString` reads from a reader over the bytes `kx`
alone, when it succeeds and consumes them all. -/
def keyOf (size : Nat) (kx : List Nat) : Option (List Nat) :=
  match decodeString (Reader.new size [kx]) with
  | (.ok key, r0) => if r0.unread = [] then some key else none
  | _ => none

/-- The calls the pairs `ps` of a dictionary (the bytes of each key string,
the bytes of each value) are expected to cause on builder `build`, each key
and each value being decoded on its own: `Key(k)` hands out the sub-builder
`next`, then come the calls of `parseFromReader` on a reader over that value
alone. `none` when some key or value does not decode successfully. -/
def pairCalls (ParseFloat : List Nat → Option Float64) (size build : Nat) :
    List (List Nat × List Nat) → Nat → Option (List Event × Nat)
  | [], next => some ([], next)
  | p :: ps, next =>
    match keyOf size p.1 with
    | some key =>
      match parseFromReader ParseFloat (p.2.length + 1) (Reader.new size [p.2]) next
          (next + 1) with
      | some (.ok (), r1, evs, next1) =>
        if r1.unread = [] then
          match pairCalls ParseFloat size build ps next1 with
          | some (rest, next2) => some ((build, .Key key next) :: evs ++ rest, next2)
          | none => none
        else none
      | _ => none
    | none => none

/-- The key texts of the `Key` calls made on builder `build`, in order. -/
def keyTexts (build : Nat) (evs : List Event) : List (List Nat) :=
  evs.filterMap fun e =>
    match e with
    | (b, .Key s _) => if b = build then some s else none
    | _ => none

/-- The list `xs` with the item `v` added at its end. -/
def ValueList.snoc : ValueList → Value → ValueList
  | .nil, v => .cons v .nil
  | .cons x xs, v => .cons x (xs.snoc v)

/-- The number of items of a list. -/
def ValueList.length : ValueList → Nat
  | .nil => 0
  | .cons _ xs => xs.length + 1

/-- The items of `xs`, then those of `ys`. -/
def ValueList.append : ValueList → ValueList → ValueList
  | .nil, ys => ys
  | .cons x xs, ys => .cons x (xs.append ys)

/-- The dictionary `kvs` with the pair `(k, v)` added at its end. -/
def ValueDict.snoc : ValueDict → List Nat → Value → ValueDict
  | .nil, k, v => .cons k v .nil
  | .cons k0 v0 kvs, k, v => .cons k0 v0 (kvs.snoc k v)

/-- The pairs of `xs`, then those of `ys`. -/
def ValueDict.append : ValueDict → ValueDict → ValueDict
  | .nil, ys => ys
  | .cons k v xs, ys => .cons k v (xs.append ys)

/-- Modelled from the spec: where a builder of the reference tree builder
commits its value on `Flush` (the tree builder is a test fixture, not part of
the decoder's source): nowhere but the final result for the top-level
builder, position `i` of the parent's list for a builder that `Elem(i)`
returned, key `k` of the parent's dictionary for one that `Key(k)` returned. -/
inductive Slot where
  | root
  | index (i : Nat)
  | key (k : List Nat)

/-- Modelled from the spec: one open builder of the reference tree builder:
its instance, where it commits, and the value it holds so far. -/
structure Frame where
  id : Nat
  slot : Slot
  val : Option Value

/-- Modelled from the spec: the state of the reference tree builder (the
fixture of the spec's testable property "decoding into a reference builder
yields a structure equal to the value", missing from the source): the open
builders, innermost first, and the structure the top-level builder ended up
holding. -/
structure Tree where
  stack : List Frame
  result : Option Value

/-- Modelled from the spec: `Flush` of the reference tree builder: the
innermost builder finalizes its value `v` and commits it into its parent at
its bound position or key (the next free position of the parent's list, the
end of the parent's dictionary, stream order being kept); the top-level
builder commits into the result. -/
def Tree.commit (slot : Slot) (v : Value) (stack : List Frame) (result : Option Value) :
    Option Tree :=
  match slot, stack with
  | .root, [] => some ⟨[], some v⟩
  | .index i, ⟨pid, pslot, some (.list xs)⟩ :: rest =>
    if i = xs.length then some ⟨⟨pid, pslot, some (.list (xs.snoc v))⟩ :: rest, result⟩
    else none
  | .key k, ⟨pid, pslot, some (.dict kvs)⟩ :: rest =>
    some ⟨⟨pid, pslot, some (.dict (kvs.snoc k v))⟩ :: rest, result⟩
  | _, _ => none

/-- Modelled from the spec: one builder call on the reference tree builder.
A call on a builder other than the innermost open one, a call it has no node
for (`Uint64`, `Float64`) and a `Flush` with nothing to commit leave it
stuck (`none`). -/
def Tree.step (t : Tree) (e : Event) : Option Tree :=
  match t.stack with
  | [] => none
  | top :: rest =>
    if e.1 = top.id then
      match e.2 with
      | .Int64 n => some ⟨⟨top.id, top.slot, some (.int n)⟩ :: rest, t.result⟩
      | .String s => some ⟨⟨top.id, top.slot, some (.str s)⟩ :: rest, t.result⟩
      | .Array => some ⟨⟨top.id, top.slot, some (.list .nil)⟩ :: rest, t.result⟩
      | .Map => some ⟨⟨top.id, top.slot, some (.dict .nil)⟩ :: rest, t.result⟩
      | .Elem i sub => some ⟨⟨sub, .index i, none⟩ :: top :: rest, t.result⟩
      | .Key k sub => some ⟨⟨sub, .key k, none⟩ :: top :: rest, t.result⟩
      | .Flush =>
        match top.val with
        | some v => Tree.commit top.slot v rest t.result
        | none => none
      | _ => none
    else none

/-- Modelled from the spec: the reference tree builder driven by a sequence
of calls. -/
def Tree.run : Tree → List Event → Option Tree
  | t, [] => some t
  | t, e :: es =>
    match t.step e with
    | some t1 => t1.run es
    | none => none

/-- Modelled from the spec: the structure the reference tree builder holds
after the calls `evs`, its top-level builder being the instance `b`. -/
def treeOf (b : Nat) (evs : List Event) : Option Value :=
  match Tree.run ⟨[⟨b, .root, none⟩], none⟩ evs with
  | some t => t.result
  | none => none

/-- The calls that a run made on builder instance `x`, in order. -/
def callsOn (x : Nat) (evs : List Event) : List Call :=
  (evs.filter (fun e => decide (e.1 = x))).map (fun e => e.2)

/-- The builder instance that a call returned, if it returns one. -/
def Call.sub : Call → Option Nat
  | .Elem _ s => some s
  | .Key _ s => some s
  | _ => none

/-- The sub-builders that a run obtained from `Elem` and `Key`, in order. -/
def subBuilders (evs : List Event) : List Nat := evs.filterMap (fun e => e.2.sub)

/-- A terminal call: `Int64`, `Uint64`, `Float64` or `String`. -/
def Call.isValue : Call → Bool
  | .Int64 _ => true
  | .Uint64 _ => true
  | .Float64 _ => true
  | .String _ => true
  | _ => false

def Call.isElem : Call → Bool
  | .Elem _ _ => true
  | _ => false

def Call.isKey : Call → Bool
  | .Key _ _ => true
  | _ => false

/-- The calls of one builder before its `Flush`: nothing, one terminal call,
`Array` and then `Elem` calls, or `Map` and then `Key` calls. -/
def PreShape (pre : List Call) : Prop :=
  pre = [] ∨ (∃ c, c.isValue = true ∧ pre = [c]) ∨
    (∃ es, pre = Call.Array :: es ∧ ∀ c ∈ es, c.isElem = true) ∨
    (∃ ks, pre = Call.Map :: ks ∧ ∀ c ∈ ks, c.isKey = true)

/-- The calls of one builder of a run that returned: a `PreShape` and then
`Flush`. -/
def CallShape (cs : List Call) : Prop := ∃ pre, cs = pre ++ [Call.Flush] ∧ PreShape pre

/-- Exactly one `Flush`, as last call. -/
def FlushedLast (cs : List Call) : Prop := ∃ pre, cs = pre ++ [Call.Flush] ∧ Call.Flush ∉ pre

/-- What holds of the events of a loop on builder `b` that returned: the
sub-builders are `n, ..., n1 - 1` in this order, the calls on `b` are all
of the kind `item`, and each sub-builder saw a `CallShape`. -/
def GoodLoop (item : Call → Bool) (b n n1 : Nat) (evs : List Event) : Prop :=
  subBuilders evs = List.range' n (n1 - n) ∧ (∀ c ∈ callsOn b evs, item c = true) ∧
    ∀ x, n ≤ x → x < n1 → CallShape (callsOn x evs)

/-- What holds of the events of `parseFromReader` on builder `b` when it
returned: the sub-builders are `n, ..., n1 - 1` in this order, and `b` and
each sub-builder saw a `CallShape`. -/
def Good (b n n1 : Nat) (evs : List Event) : Prop :=
  subBuilders evs = List.range' n (n1 - n) ∧ CallShape (callsOn b evs) ∧
    ∀ x, n ≤ x → x < n1 → CallShape (callsOn x evs)

/-- A run with the events `pre` put in front of its own. -/
def withCalls (pre : List Event) : Option SRun → Option SRun
  | none => none
  | some (res, u, evs, n) => some (res, u, pre ++ evs, n)

/-- The bytes of the pairs of a dictionary: each key string followed by its
value. -/
def pairsEnc (ps : List (List Nat × List Nat)) : List Nat :=
  (ps.map fun p => p.1 ++ p.2).flatten

/-- A list or dictionary that is still open when a child value is decoded:
the bytes of the items (of the key strings and values) already decoded and,
for a dictionary, the bytes of the key string of the child. -/
inductive Open where
  | list (done : List (List Nat))
  | dict (done : List (List Nat × List Nat)) (key : List Nat)

/-- The bytes of an open container in front of the child. -/
def Open.enc : Open → List Nat
  | .list xs => 108 :: xs.flatten
  | .dict ps kx => 100 :: (pairsEnc ps ++ kx)

/-- The calls on builder `b` and its sub-builders up to the `Elem` or `Key`
call for the child, and the sub-builder that this call hands out, when the
container numbers its sub-builders from `n` on; the calls of the items
already decoded are those of their separate decodes (`itemCalls`,
`pairCalls`, `keyOf`). `none` when one of them does not decode. -/
def Open.calls (ParseFloat : List Nat → Option Float64) (size : Nat) :
    Open → Nat → Nat → Option (List Event × Nat)
  | .list xs, b, n =>
    match itemCalls ParseFloat size b xs 0 n with
    | some (items, n1) => some ((b, .Array) :: (items ++ [(b, .Elem xs.length n1)]), n1)
    | none => none
  | .dict ps kx, b, n =>
    match pairCalls ParseFloat size b ps n with
    | some (items, n1) =>
      match keyOf size kx with
      | some key => some ((b, .Map) :: (items ++ [(b, .Key key n1)]), n1)
      | none => none
    | none => none

/-- The bytes of nested open containers, outermost first. -/
def ctxEnc : List Open → List Nat
  | [] => []
  | o :: os => o.enc ++ ctxEnc os

/-- The run of nested open containers around the innermost child: the calls
in front of the child, the `Flush` calls after it (innermost first), the
builder of the child and the next unused instance. -/
def ctxRun (ParseFloat : List Nat → Option Float64) (size : Nat) :
    List Open → Nat → Nat → Option (List Event × List Event × Nat × Nat)
  | [], b, n => some ([], [], b, n)
  | o :: os, b, n =>
    match o.calls ParseFloat size b n with
    | some (evs, sub) =>
      match ctxRun ParseFloat size os sub (sub + 1) with
      | some (pre, post, cb, cn) => some (evs ++ pre, post ++ [(b, Call.Flush)], cb, cn)
      | none => none
    | none => none

/-- The loop of a list calls `parseFromReader` for a child only on a byte
other than `'e'`; a dictionary calls it after every key. -/
def childStarts : List Open → List Nat → Bool
  | [], _ => true
  | [.list _], w =>
    match w with
    | [] => false
    | c :: _ => decide (c ≠ 101)
  | [.dict _ _], _ => true
  | _ :: o :: os, w => childStarts (o :: os) w

/-- The innermost open container of an input that ends early: a list cut
where an item or its `'e'` is expected, a dictionary cut where a key or its
`'e'` is expected, a dictionary cut after a key, where the value is
expected. -/
inductive CutAt where
  | item (xs : List (List Nat))
  | key (ps : List (List Nat × List Nat))
  | value (ps : List (List Nat × List Nat)) (kx : List Nat)

/-- The bytes of the innermost open container, up to the end of the input. -/
def CutAt.enc : CutAt → List Nat
  | .item xs => 108 :: xs.flatten
  | .key ps => 100 :: pairsEnc ps
  | .value ps kx => 100 :: (pairsEnc ps ++ kx)

/-- The calls that the innermost open container causes on builder `b` when
the input ends, and the next unused instance; `none` when one of the items
already decoded does not decode on its own. -/
def CutAt.calls (ParseFloat : List Nat → Option Float64) (size : Nat) :
    CutAt → Nat → Nat → Option (List Event × Nat)
  | .item xs, b, n =>
    match itemCalls ParseFloat size b xs 0 n with
    | some (items, n1) => some ((b, .Array) :: (items ++ [(b, .Flush)]), n1)
    | none => none
  | .key ps, b, n =>
    match pairCalls ParseFloat size b ps n with
    | some (items, n1) => some ((b, .Map) :: (items ++ [(b, .Flush)]), n1)
    | none => none
  | .value ps kx, b, n =>
    match pairCalls ParseFloat size b ps n with
    | some (items, n1) =>
      match keyOf size kx with
      | some text =>
        some ((b, .Map) :: (items ++ [(b, .Key text n1), (n1, .Flush), (b, .Flush)]), n1 + 1)
      | none => none
    | none => none

/-- No builder of the run saw the bare sequence `[Flush]`. -/
def NoBare (evs : List Event) : Prop := ∀ x, callsOn x evs ≠ [Call.Flush]

/-- Whether `decodeString` on a reader positioned after the `':'` of a
string of declared length `n` takes the zero-copy path: `Peek(n)` succeeds
exactly when `n` bytes fit the buffer and are left in the stream. -/
def peekPath (r : Reader) (n : Nat) : Bool :=
  match r.Peek n with
  | (_, none, _) => true
  | (_, some _, _) => false

/-- The constant `defaultBufSize` of `bufio`. -/
def defaultBufSize : Nat := 4096

namespace Reader

/-- The function `bufio.NewReader(rd)` for a source `rd` that is not itself a
`*bufio.Reader`. -/
def NewReader (chunks : List (List Nat)) : Reader := Reader.new defaultBufSize chunks

/-- The method `Reset`: the buffer is kept (allocated with `defaultBufSize`
if there is none), the reader is re-bound to the new source, and the
indices, the pending error and the last byte are cleared. -/
def Reset (b : Reader) (chunks : List (List Nat)) : Reader :=
  { buf := [], rpos := 0, size := if b.size = 0 then defaultBufSize else b.size, err := none,
    lastByte := none, src := chunks }

end Reader

/-- The state of `bufioReaderPool`: the readers put back and not yet handed
out again. -/
abbrev Pool := List Reader

/-- The method `Get` of `sync.Pool` (no `New` function is set): it hands out
any one of the pooled readers, or nil, also when the pool is not empty;
`pick` is that choice. -/
def Pool.Get (p : Pool) (pick : Option Nat) : Option Reader × Pool :=
  match pick with
  | none => (none, p)
  | some i =>
    match p.get? i with
    | some b => (some b, p.eraseIdx i)
    | none => (none, p)

/-- The method `Put` of `sync.Pool`. -/
def Pool.Put (p : Pool) (b : Reader) : Pool := b :: p

/-- The function `newBufioReader`. -/
def newBufioReader (p : Pool) (pick : Option Nat) (chunks : List (List Nat)) : Reader × Pool :=
  match p.Get pick with
  | (some br, p1) => (br.Reset chunks, p1)
  | (none, p1) => (Reader.NewReader chunks, p1)

/-- The `io.Reader` handed to `parse`: a source that is not a `*bufio.Reader`,
given by the chunks it delivers, or a `*bufio.Reader`. -/
inductive Source where
  | raw (chunks : List (List Nat))
  | buffered (r : Reader)

/-- The function `parse`: the run of `parseFromReader` and the pool
afterwards; the deferred `Put` also runs when `parseFromReader` panics. -/
def parse (ParseFloat : List Nat → Option Float64) (fuel : Nat) (p : Pool) (pick : Option Nat)
    (reader : Source) (build next : Nat) : Option (Run × Pool) :=
  match reader with
  | .buffered r =>
    match parseFromReader ParseFloat fuel r build next with
    | none => none
    | some run => some (run, p)
  | .raw chunks =>
    match newBufioReader p pick chunks with
    | (r, p1) =>
      match parseFromReader ParseFloat fuel r build next with
      | none => none
      | some run => some (run, p1.Put run.2.1)

/-- The reader that a decode of `"i1eJUNK"` puts back into the pool: the
bytes `"JUNK"` are left in its buffer. -/
def usedReader : Reader :=
  { buf := bytes "JUNK", rpos := 3, size := 4096, err := none, lastByte := some 101,
    src := [] }

/-- What holds of every pool that `parse` can leave behind: each pooled
reader was made by `bufio.NewReader`, so its buffer has `defaultBufSize`
bytes. -/
def Pool.Inv (p : Pool) : Prop := ∀ b ∈ p, b.size = defaultBufSize

instance (p : Pool) : Decidable p.Inv := by unfold Pool.Inv; infer_instance

/-- The digit loop of the fast path of `strconv.Atoi`: `ch -= '0'` on a byte
leaves a value above 9 for every byte that is not a decimal digit. The
strings of the fast path have fewer than 19 bytes, so `n` stays below
`10^18` and the `int` arithmetic does not overflow. -/
def AtoiLoop (s0 : List Nat) : List Nat → Nat → Except Error Nat
  | [], n => .ok n
  | ch :: rest, n =>
    if ch < 48 ∨ 57 < ch then .error (.NumError .fnAtoi s0 .ErrSyntax)
    else AtoiLoop s0 rest (n * 10 + (ch - 48))

/-- The function `strconv.Atoi` with a 64-bit `int`: the fast path for
strings of 1 to 18 bytes, otherwise `ParseInt(s, 10, 0)` with the `Func` of
its error renamed. -/
def Atoi (s : List Nat) : Except Error Int :=
  if 0 < s.length ∧ s.length < 19 then
    match s with
    | [] => .error (.NumError .fnAtoi s .ErrSyntax)
    | c :: rest =>
      let digits := if c = 45 ∨ c = 43 then rest else s
      if (c = 45 ∨ c = 43) ∧ rest.length < 1 then .error (.NumError .fnAtoi s .ErrSyntax)
      else
        match AtoiLoop s digits 0 with
        | .error e => .error e
        | .ok n => .ok (if c = 45 then -(n : Int) else (n : Int))
  else
    match ParseInt s with
    | .ok i => .ok i
    | .error (.NumError _ num err) => .error (.NumError .fnAtoi num err)
    | .error e => .error e

namespace Reader

/-- The method `Buffered`. -/
def Buffered (b : Reader) : Nat := b.buf.length

/-- The loop of `collectFragments`: `ReadSlice` until the delimiter or an
error other than `ErrBufferFull`; `acc` holds the full buffers collected so
far. Every turn that goes on has taken a full buffer out of the stream, so
one turn per unread byte and one more are enough. -/
def collectFragments (delim : Nat) : Nat → Reader → List Nat → List Nat × Option Error × Reader
  | 0, b, acc => (acc, some .ErrNoProgress, b)
  | k + 1, b, acc =>
    match b.ReadSlice delim with
    | (frag, none, b1) => (acc ++ frag, none, b1)
    | (frag, some e, b1) =>
      if e = .ErrBufferFull then collectFragments delim k b1 (acc ++ frag)
      else (acc ++ frag, some e, b1)

/-- The method `ReadBytes`: the fragments of `collectFragments` copied into
one slice (whose allocation is taken to succeed). -/
def ReadBytes (b : Reader) (delim : Nat) : List Nat × Option Error × Reader :=
  collectFragments delim (b.unread.length + 1) b []

end Reader

/-- The function `optimisticReadBytes`. -/
def optimisticReadBytes (data : Reader) (delim : Nat) : List Nat × Option Error × Reader :=
  match data.Peek data.Buffered with
  | (_, some e, d1) => ([], some e, d1)
  | (buffer, none, d1) =>
    match Reader.IndexByte buffer delim with
    | some _ => d1.ReadSlice delim
    | none => d1.ReadBytes delim

/-- The assignment `dic[k] = value` on a `map[string]any`, the map being the
list of its bindings in the order in which their keys were first set (an
order that Go does not show): the value of an existing key is replaced, a
new key is added. -/
def ValueDict.set : ValueDict → List Nat → Value → ValueDict
  | .nil, k, v => .cons k v .nil
  | .cons k0 v0 kvs, k, v => if k0 = k then .cons k0 v kvs else .cons k0 v0 (kvs.set k v)

/-- The loop of the `'l'` case of `unmarshal`; `unm` stands for the
recursive call and `list` is the slice built so far. When `ReadByte` fails
the loop goes on to `unmarshal`, which meets the same error. -/
def unmarshalList (unm : Reader → Option (Result Value × Reader)) :
    Nat → Reader → ValueList → Option (Result Value × Reader)
  | 0, _, _ => none
  | k + 1, data, list =>
    let step : Reader → Option (Result Value × Reader) := fun d =>
      match unm d with
      | none => none
      | some (.ok value, d3) => unmarshalList unm k d3 (list.snoc value)
      | some (.error e, d3) => some (.error e, d3)
      | some (.panic, d3) => some (.panic, d3)
    match data.ReadByte with
    | (c, none, d1) =>
      if c = 101 then some (.ok (.list list), d1)
      else
        match d1.UnreadByte with
        | (_, d2) => step d2
    | (_, some _, d1) => step d1

/-- The loop of the `'d'` case of `unmarshal`; `dic` is the map built so
far. A key that is not a string ends the decode with the error of
`errors.New("bencode: invalid string dictionary key")`. -/
def unmarshalDict (unm : Reader → Option (Result Value × Reader)) :
    Nat → Reader → ValueDict → Option (Result Value × Reader)
  | 0, _, _ => none
  | k + 1, data, dic =>
    let step : Reader → Option (Result Value × Reader) := fun d =>
      match unm d with
      | none => none
      | some (.error e, d3) => some (.error e, d3)
      | some (.panic, d3) => some (.panic, d3)
      | some (.ok (.str key), d3) =>
        match unm d3 with
        | none => none
        | some (.ok value, d4) => unmarshalDict unm k d4 (dic.set key value)
        | some (.error e, d4) => some (.error e, d4)
        | some (.panic, d4) => some (.panic, d4)
      | some (.ok _, d3) => some (.error .invalidDictKey, d3)
    match data.ReadByte with
    | (c, none, d1) =>
      if c = 101 then some (.ok (.dict dic), d1)
      else
        match d1.UnreadByte with
        | (_, d2) => step d2
    | (_, some _, d1) => step d1

/-- The function `unmarshal`; the first argument bounds the depth of the
recursion and the turns of the loops (`none` when it runs out). The `any` it
returns is a `Value`: an `int`, a `string`, a `[]any` or a `map[string]any`;
with a non-nil error only the error is kept (in the string case Go returns
the partly filled buffer along with it, which every caller drops). The slice
expression `buf[:len(buf)-1]` panics on an empty `buf`, and
`make([]byte, length)` panics on a negative length and on one above
`maxAlloc`. -/
def unmarshal : Nat → Reader → Option (Result Value × Reader)
  | 0, _ => none
  | f + 1, data =>
    match data.ReadByte with
    | (_, some e, d1) => some (.error e, d1)
    | (st, none, d1) =>
      if st = 105 then
        match optimisticReadBytes d1 101 with
        | (_, some e, d2) => some (.error e, d2)
        | (buf, none, d2) =>
          if buf.length = 0 then some (.panic, d2)
          else
            match Atoi (buf.take (buf.length - 1)) with
            | .error e => some (.error e, d2)
            | .ok integer => some (.ok (.int integer), d2)
      else if st = 108 then unmarshalList (unmarshal f) f d1 .nil
      else if st = 100 then unmarshalDict (unmarshal f) f d1 .nil
      else
        match d1.UnreadByte with
        | (_, d1u) =>
          match optimisticReadBytes d1u 58 with
          | (_, some e, d2) => some (.error e, d2)
          | (buf, none, d2) =>
            if buf.length = 0 then some (.panic, d2)
            else
              match ParseInt (buf.take (buf.length - 1)) with
              | .error e => some (.error e, d2)
              | .ok length =>
                if length < 0 ∨ maxAlloc < length.toNat then some (.panic, d2)
                else
                  match readAtLeast d2 length.toNat length.toNat with
                  | (_, some e, d3) => some (.error e, d3)
                  | (buffer, none, d3) => some (.ok (.str buffer), d3)

/-- The function `decodeFromReader`. -/
def decodeFromReader (fuel : Nat) (r : Reader) : Option (Result Value × Reader) :=
  match unmarshal fuel r with
  | none => none
  | some (.error e, r1) => some (.error e, r1)
  | some (.ok result, r1) => some (.ok result, r1)
  | some (.panic, r1) => some (.panic, r1)

/-- The stream view of a run of `unmarshal`. -/
def absVal (x : Result Value × Reader) : Result Value × List Nat := (x.1, x.2.unread)

namespace Stream

/-- What `optimisticReadBytes` does to the unread bytes: the line up to and
with the first `delim`, or everything and `io.EOF` when there is none. The
capacity of the buffer plays no part. -/
def optimisticReadBytes (u : List Nat) (delim : Nat) : List Nat × Option Error × List Nat :=
  match Reader.IndexByte u delim with
  | some i => (u.take (i + 1), none, u.drop (i + 1))
  | none => (u, some .EOF, [])

/-- The loop of the `'l'` case of `unmarshal` on the unread bytes. -/
def unmarshalList (unm : List Nat → Option (Result Value × List Nat)) :
    Nat → List Nat → ValueList → Option (Result Value × List Nat)
  | 0, _, _ => none
  | k + 1, u, list =>
    let step : List Nat → Option (Result Value × List Nat) := fun w =>
      match unm w with
      | none => none
      | some (.ok value, u3) => unmarshalList unm k u3 (list.snoc value)
      | some (.error e, u3) => some (.error e, u3)
      | some (.panic, u3) => some (.panic, u3)
    match u with
    | [] => step []
    | c :: t => if c = 101 then some (.ok (.list list), t) else step (c :: t)

/-- The loop of the `'d'` case of `unmarshal` on the unread bytes. -/
def unmarshalDict (unm : List Nat → Option (Result Value × List Nat)) :
    Nat → List Nat → ValueDict → Option (Result Value × List Nat)
  | 0, _, _ => none
  | k + 1, u, dic =>
    let step : List Nat → Option (Result Value × List Nat) := fun w =>
      match unm w with
      | none => none
      | some (.error e, u3) => some (.error e, u3)
      | some (.panic, u3) => some (.panic, u3)
      | some (.ok (.str key), u3) =>
        match unm u3 with
        | none => none
        | some (.ok value, u4) => unmarshalDict unm k u4 (dic.set key value)
        | some (.error e, u4) => some (.error e, u4)
        | some (.panic, u4) => some (.panic, u4)
      | some (.ok _, u3) => some (.error .invalidDictKey, u3)
    match u with
    | [] => step []
    | c :: t => if c = 101 then some (.ok (.dict dic), t) else step (c :: t)

/-- The `'i'` case of `unmarshal` on the unread bytes after the `'i'`. -/
def unmarshalInt (u : List Nat) : Result Value × List Nat :=
  match optimisticReadBytes u 101 with
  | (_, some e, u2) => (.error e, u2)
  | (buf, none, u2) =>
    if buf.length = 0 then (.panic, u2)
    else
      match Atoi (buf.take (buf.length - 1)) with
      | .error e => (.error e, u2)
      | .ok integer => (.ok (.int integer), u2)

/-- The default case of `unmarshal` on the unread bytes, the first byte
included. -/
def unmarshalString (u : List Nat) : Result Value × List Nat :=
  match optimisticReadBytes u 58 with
  | (_, some e, u2) => (.error e, u2)
  | (buf, none, u2) =>
    if buf.length = 0 then (.panic, u2)
    else
      match ParseInt (buf.take (buf.length - 1)) with
      | .error e => (.error e, u2)
      | .ok length =>
        if length < 0 ∨ maxAlloc < length.toNat then (.panic, u2)
        else
          match readFull length.toNat u2 with
          | (_, some e, u3) => (.error e, u3)
          | (buffer, none, u3) => (.ok (.str buffer), u3)

/-- The function `unmarshal` on the unread bytes. -/
def unmarshal : Nat → List Nat → Option (Result Value × List Nat)
  | 0, _ => none
  | _ + 1, [] => some (.error .EOF, [])
  | f + 1, st :: t =>
    if st = 105 then some (unmarshalInt t)
    else if st = 108 then unmarshalList (unmarshal f) f t .nil
    else if st = 100 then unmarshalDict (unmarshal f) f t .nil
    else some (unmarshalString (st :: t))

end Stream

/-- A run of `unmarshal` and a run of its stream semantics agree. -/
def USim (size : Nat) (x : Option (Result Value × Reader))
    (y : Option (Result Value × List Nat)) : Prop :=
  y = x.map absVal ∧ ∀ run, x = some run → run.2.WF ∧ run.2.size = size

/-- Whether the dictionary has a binding for the key. -/
def ValueDict.hasKey : ValueDict → List Nat → Bool
  | .nil, _ => false
  | .cons k0 _ kvs, k => decide (k0 = k) || kvs.hasKey k

mutual
/-- The values whose dictionaries have distinct keys, at every depth. -/
def Value.distinct : Value → Bool
  | .int _ => true
  | .str _ => true
  | .list xs => xs.distinct
  | .dict kvs => kvs.distinct
/-- Distinct keys in the items of a list. -/
def ValueList.distinct : ValueList → Bool
  | .nil => true
  | .cons v vs => v.distinct && vs.distinct
/-- Distinct keys among the pairs of a dictionary and inside their values. -/
def ValueDict.distinct : ValueDict → Bool
  | .nil => true
  | .cons k v kvs => !kvs.hasKey k && v.distinct && kvs.distinct
end

mutual
/-- The value that `unmarshal` builds from the encoding of `v`: the same
value, except that a dictionary keeps one binding per key, with the value
that came last in the stream. -/
def Value.norm : Value → Value
  | .int n => .int n
  | .str s => .str s
  | .list xs => .list xs.norm
  | .dict kvs => .dict (kvs.normInto .nil)
/-- The items of a list, each as `unmarshal` builds it. -/
def ValueList.norm : ValueList → ValueList
  | .nil => .nil
  | .cons v vs => .cons v.norm vs.norm
/-- The map `dic` after the pairs have been assigned to it in stream
order. -/
def ValueDict.normInto : ValueDict → ValueDict → ValueDict
  | .nil, dic => dic
  | .cons k v kvs, dic => kvs.normInto (dic.set k v.norm)
end

/-- A call that reports an integer that is not an `int64`: `Uint64` or
`Float64`. -/
def Call.isWide : Call → Bool
  | .Uint64 _ => true
  | .Float64 _ => true
  | _ => false

/-- No `Uint64` and no `Float64` among the calls. -/
def int64Only (evs : List Event) : Bool := evs.all (fun e => !e.2.isWide)

/-! ## Theorems -/

namespace Reader

theorem flatten_eq_nil_of_wf {src : List (List Nat)} (h : [] ∉ src) (h2 : src.flatten = []) :
    src = [] := by
  cases src with
  | nil => rfl
  | cons c cs =>
    simp at h2
    simp [h2.1] at h

theorem fillLoop_spec (i : Nat) (b : Reader) (h : b.WF) (herr : b.err = none)
    (hfull : b.rpos + b.buf.length < b.size) :
    (fillLoop (i + 1) b).WF ∧ (fillLoop (i + 1) b).unread = b.unread ∧
      (fillLoop (i + 1) b).size = b.size ∧ (fillLoop (i + 1) b).lastByte = b.lastByte ∧
      (fillLoop (i + 1) b).rpos = b.rpos ∧
      (((fillLoop (i + 1) b).err = some .EOF ∧ (fillLoop (i + 1) b).buf = b.buf ∧ b.src = []) ∨
        ((fillLoop (i + 1) b).err = none ∧
          ∃ d, d ≠ [] ∧ (fillLoop (i + 1) b).buf = b.buf ++ d)) := by
  obtain ⟨h1, h2, h3, h4⟩ := h
  cases hs : b.src with
  | nil =>
    simp [fillLoop, srcRead, hs, WF, unread, h1, hfull, h2]
  | cons c cs =>
    have hc : c ≠ [] := by
      intro hc; apply h3; rw [hs, hc]; simp
    have hpos : 0 < b.size - (b.rpos + b.buf.length) := by omega
    have hlen : 0 < (List.take (b.size - (b.rpos + b.buf.length)) c).length := by
      rw [List.length_take]
      have : 0 < c.length := List.length_pos.mpr hc
      omega
    simp only [fillLoop, srcRead, hs, hlen, if_true]
    refine ⟨⟨h1, ?_, ?_, ?_⟩, ?_, trivial, trivial, trivial, ?_⟩
    · simp only [List.length_append, List.length_take]; omega
    · rw [hs] at h3
      split
      · intro hm; exact h3 (List.mem_cons_of_mem _ hm)
      · rename_i hlt
        intro hm
        rcases List.mem_cons.mp hm with hm | hm
        · have := congrArg List.length hm
          simp at this
          omega
        · exact h3 (List.mem_cons_of_mem _ hm)
    · left; exact herr
    · simp only [unread, hs]
      split
      · rename_i hle
        rw [List.take_of_length_le hle]; simp
      · simp only [List.flatten_cons, List.append_assoc]
        rw [← List.append_assoc (List.take _ c), List.take_append_drop]
    · right
      refine ⟨herr, _, ?_, rfl⟩
      exact List.ne_nil_of_length_pos hlen

theorem fill_spec (b : Reader) (h : b.WF) (herr : b.err = none)
    (hfull : b.buf.length < b.size) :
    (fill b).WF ∧ (fill b).unread = b.unread ∧ (fill b).size = b.size ∧
      (fill b).lastByte = b.lastByte ∧ (fill b).rpos = 0 ∧
      (((fill b).err = some .EOF ∧ (fill b).buf = b.buf ∧ b.src = []) ∨
        ((fill b).err = none ∧ ∃ d, d ≠ [] ∧ (fill b).buf = b.buf ++ d)) := by
  obtain ⟨h1, h2, h3, h4⟩ := h
  have key := fillLoop_spec 99 { b with rpos := 0 }
    ⟨h1, by simpa using hfull.le, h3, Or.inl herr⟩ herr (by simpa using hfull)
  unfold fill
  by_cases hr : 0 < b.rpos
  · simp only [hr, if_true]
    exact key
  · have hr0 : b.rpos = 0 := by omega
    have hb : ({ b with rpos := 0 } : Reader) = b := by
      cases b; simp_all
    simp only [hr, if_false]
    rw [hb] at key
    refine ⟨key.1, key.2.1, key.2.2.1, key.2.2.2.1, ?_, key.2.2.2.2.2⟩
    rw [key.2.2.2.2.1, hr0]

theorem unread_nil {b : Reader} (h : b.WF) (hu : b.unread = []) : b.buf = [] ∧ b.src = [] := by
  unfold unread at hu
  have := List.append_eq_nil.mp hu
  exact ⟨this.1, flatten_eq_nil_of_wf h.2.2.1 this.2⟩

theorem ReadByte_nil {b : Reader} (h : b.WF) (hu : b.unread = []) :
    ∃ b1, ReadByte b = (0, some .EOF, b1) ∧ b1.WF ∧ b1.unread = [] ∧ b1.size = b.size := by
  obtain ⟨hb, hs⟩ := unread_nil h hu
  cases he : b.err with
  | some e =>
    have : e = .EOF := by
      rcases h.2.2.2 with h4 | h4
      · rw [he] at h4; cases h4
      · rw [he] at h4; exact Option.some.inj h4.1
    subst this
    refine ⟨{ b with err := none }, ?_, ?_, ?_, rfl⟩
    · simp [ReadByte, hb, he]
    · exact ⟨h.1, h.2.1, h.2.2.1, Or.inl rfl⟩
    · simpa [unread] using hu
  | none =>
    have hf := fill_spec b h he (by rw [hb]; exact h.1)
    obtain ⟨f1, f2, f3, _, _, f6⟩ := hf
    rcases f6 with ⟨e1, e2, _⟩ | ⟨_, d, hd, e2⟩
    · refine ⟨{ fill b with err := none }, ?_, ?_, ?_, f3⟩
      · simp [ReadByte, hb, he, e2, e1]
      · exact ⟨f1.1, f1.2.1, f1.2.2.1, Or.inl rfl⟩
      · have : (fill b).unread = [] := by rw [f2, hu]
        simpa [unread] using this
    · exfalso
      have : (fill b).unread = [] := by rw [f2, hu]
      unfold unread at this
      rw [e2, hb] at this
      simp at this
      exact hd this.1

theorem ReadByte_cons {b : Reader} {c : Nat} {t : List Nat} (h : b.WF)
    (hu : b.unread = c :: t) :
    ∃ b1, ReadByte b = (c, none, b1) ∧ b1.WF ∧ b1.unread = t ∧ b1.size = b.size ∧
      b1.lastByte = some c ∧ 0 < b1.rpos := by
  have step : ∀ b0 : Reader, b0.WF → ∀ rest, b0.buf = c :: rest → 
      ({ b0 with buf := rest, rpos := b0.rpos + 1, lastByte := some c } : Reader).WF := by
    intro b0 h0 rest hb
    obtain ⟨h1, h2, h3, h4⟩ := h0
    rw [hb] at h2 h4
    simp only [List.length_cons] at h2 h4
    refine ⟨h1, ?_, h3, ?_⟩
    · simp only; omega
    · rcases h4 with h4 | h4
      · exact Or.inl h4
      · refine Or.inr ⟨h4.1, h4.2.1, ?_⟩
        simp only; omega
  cases hb : b.buf with
  | cons c1 rest =>
    have hc : c1 = c ∧ rest ++ b.src.flatten = t := by
      unfold unread at hu; rw [hb] at hu; simpa using hu
    obtain ⟨rfl, ht⟩ := hc
    refine ⟨_, ?_, step b h rest hb, ?_, rfl, rfl, ?_⟩
    · simp [ReadByte, hb]
    · simpa [unread] using ht
    · simp
  | nil =>
    have he : b.err = none := by
      rcases h.2.2.2 with h4 | h4
      · exact h4
      · exfalso
        unfold unread at hu
        rw [hb, h4.2.1] at hu
        simp at hu
    have hf := fill_spec b h he (by rw [hb]; exact h.1)
    obtain ⟨f1, f2, f3, _, _, f6⟩ := hf
    rcases f6 with ⟨_, e2, e3⟩ | ⟨_, d, hd, e2⟩
    · exfalso
      unfold unread at hu
      rw [hb, e3] at hu
      simp at hu
    · rw [hb, List.nil_append] at e2
      have hfu : (fill b).unread = c :: t := by rw [f2, hu]
      cases hd2 : d with
      | nil => exact absurd hd2 hd
      | cons c1 rest =>
        rw [hd2] at e2
        have hc : c1 = c ∧ rest ++ (fill b).src.flatten = t := by
          unfold unread at hfu; rw [e2] at hfu; simpa using hfu
        obtain ⟨rfl, ht⟩ := hc
        refine ⟨_, ?_, step (fill b) f1 rest e2, ?_, f3, rfl, ?_⟩
        · simp [ReadByte, hb, he, e2]
        · simpa [unread] using ht
        · simp

theorem UnreadByte_spec {b : Reader} {c : Nat} (h : b.WF) (hl : b.lastByte = some c)
    (hr : 0 < b.rpos) :
    ∃ b1, UnreadByte b = (none, b1) ∧ b1.WF ∧ b1.unread = c :: b.unread ∧ b1.size = b.size := by
  refine ⟨{ b with buf := c :: b.buf, rpos := b.rpos - 1, lastByte := none }, ?_, ?_, ?_, rfl⟩
  · have : ¬ b.rpos = 0 := by omega
    simp [UnreadByte, hl, hr, this]
  · obtain ⟨h1, h2, h3, h4⟩ := h
    refine ⟨h1, ?_, h3, ?_⟩
    · simp only [List.length_cons]; omega
    · rcases h4 with h4 | h4
      · exact Or.inl h4
      · refine Or.inr ⟨h4.1, h4.2.1, ?_⟩
        simp only [List.length_cons]; omega
  · simp [unread]

theorem IndexByte_cons (x : Nat) (xs : List Nat) (d : Nat) :
    IndexByte (x :: xs) d = if x = d then some 0 else (IndexByte xs d).map (· + 1) := rfl

theorem IndexByte_append (xs ys : List Nat) (d : Nat) :
    IndexByte (xs ++ ys) d =
      match IndexByte xs d with
      | some i => some i
      | none => (IndexByte ys d).map (· + xs.length) := by
  induction xs with
  | nil => simp [IndexByte]
  | cons x xs ih =>
    rw [List.cons_append, IndexByte_cons, IndexByte_cons]
    by_cases hx : x = d
    · simp [hx]
    · simp only [hx, if_false]
      rw [ih]
      cases IndexByte xs d with
      | some i => simp
      | none =>
        cases IndexByte ys d with
        | some j => simp [Nat.add_assoc]
        | none => simp

theorem IndexByte_lt {xs : List Nat} {d : Nat} {i : Nat} (h : IndexByte xs d = some i) :
    i < xs.length := by
  induction xs generalizing i with
  | nil => simp [IndexByte] at h
  | cons x xs ih =>
    simp only [IndexByte] at h
    by_cases hx : x = d
    · simp [hx] at h; subst h; simp
    · simp only [hx, if_false] at h
      cases hj : IndexByte xs d with
      | none => rw [hj] at h; simp at h
      | some j =>
        rw [hj] at h
        simp at h
        subst h
        have := ih hj
        simp; omega

theorem ReadSliceLoop_spec (delim : Nat) (k : Nat) : ∀ (s : Nat) (b : Reader), b.WF →
    s ≤ b.buf.length → IndexByte (b.buf.take s) delim = none →
    (b.size - b.buf.length) + (if b.err = none then 1 else 0) ≤ k →
    (ReadSliceLoop delim k s b).1 = (Stream.ReadSlice b.size delim b.unread).1 ∧
    (ReadSliceLoop delim k s b).2.1 = (Stream.ReadSlice b.size delim b.unread).2.1 ∧
    (ReadSliceLoop delim k s b).2.2.WF ∧
    (ReadSliceLoop delim k s b).2.2.unread = (Stream.ReadSlice b.size delim b.unread).2.2 ∧
    (ReadSliceLoop delim k s b).2.2.size = b.size := by
  induction k with
  | zero =>
    intro s b h _ _ hk
    exfalso
    rcases h.2.2.2 with h4 | h4
    · simp [h4] at hk
    · have := h4.2.2
      omega
  | succ k ih =>
    intro s b h hs hno hk
    have hle : b.buf.length ≤ b.size := by have := h.2.1; omega
    have hsplit : IndexByte b.buf delim =
        (IndexByte (b.buf.drop s) delim).map (· + s) := by
      conv_lhs => rw [← List.take_append_drop s b.buf]
      rw [IndexByte_append, hno]
      simp [List.length_take, Nat.min_eq_left hs]
    have htake : b.unread.take b.size =
        b.buf ++ b.src.flatten.take (b.size - b.buf.length) := by
      unfold unread
      rw [List.take_append_eq_append_take, List.take_of_length_le hle]
    cases hi : IndexByte (b.buf.drop s) delim with
    | some i =>
      have hib : IndexByte b.buf delim = some (i + s) := by rw [hsplit, hi]; rfl
      have hlt := IndexByte_lt hib
      have hS : Stream.ReadSlice b.size delim b.unread =
          (b.buf.take (i + s + 1), none, b.buf.drop (i + s + 1) ++ b.src.flatten) := by
        unfold Stream.ReadSlice
        rw [htake, IndexByte_append, hib]
        simp only
        unfold unread
        rw [List.take_append_of_le_length (by omega), List.drop_append_of_le_length (by omega)]
      simp only [ReadSliceLoop, hi, hS]
      refine ⟨trivial, trivial, ?_, ?_, trivial⟩
      · obtain ⟨h1, h2, h3, h4⟩ := h
        refine ⟨h1, ?_, h3, ?_⟩
        · simp only [List.length_drop]; omega
        · rcases h4 with h4 | h4
          · exact Or.inl h4
          · refine Or.inr ⟨h4.1, h4.2.1, ?_⟩
            simp only [List.length_drop]; omega
      · simp [unread]
    | none =>
      have hib : IndexByte b.buf delim = none := by rw [hsplit, hi]; rfl
      cases he : b.err with
      | some e =>
        have h4 : b.err = some .EOF ∧ b.src = [] ∧ b.rpos + b.buf.length < b.size := by
          rcases h.2.2.2 with h4 | h4
          · rw [he] at h4; cases h4
          · exact h4
        have hu : b.unread = b.buf := by simp [unread, h4.2.1]
        have hS : Stream.ReadSlice b.size delim b.unread = (b.buf, some .EOF, []) := by
          unfold Stream.ReadSlice
          rw [hu, List.take_of_length_le hle, hib]
          have : b.buf.length < b.size := by omega
          simp [this]
        simp only [ReadSliceLoop, hi, he, hS, Option.isSome_some, if_true]
        refine ⟨trivial, ?_, ?_, ?_, trivial⟩
        · rw [← he, h4.1]
        · exact ⟨h.1, by simp only [List.length_nil]; omega, h.2.2.1, Or.inl rfl⟩
        · simp [unread, h4.2.1]
      | none =>
        by_cases hfull : b.size ≤ b.buf.length
        · have heq : b.buf.length = b.size := by omega
          have hS : Stream.ReadSlice b.size delim b.unread =
              (b.buf, some .ErrBufferFull, b.src.flatten) := by
            unfold Stream.ReadSlice
            rw [htake, heq]
            simp only [Nat.sub_self, List.take_zero, List.append_nil, hib]
            have hnl : ¬ b.unread.length < b.size := by
              simp [unread]; omega
            simp only [hnl, if_false]
            unfold unread
            rw [← heq]
            simp
          simp only [ReadSliceLoop, hi, he, hS, hfull, Option.isSome_none, if_true,
            Bool.false_eq_true, if_false]
          refine ⟨trivial, trivial, ?_, ?_, trivial⟩
          · exact ⟨h.1, by have := h.2.1; simpa using this, h.2.2.1, Or.inl rfl⟩
          · simp [unread]
        · have hlt : b.buf.length < b.size := by omega
          obtain ⟨f1, f2, f3, _, _, f6⟩ := fill_spec b h he hlt
          have hbuf : ∃ d, (fill b).buf = b.buf ++ d := by
            rcases f6 with ⟨_, e2, _⟩ | ⟨_, d, _, e2⟩
            · exact ⟨[], by simp [e2]⟩
            · exact ⟨d, e2⟩
          obtain ⟨d, hd⟩ := hbuf
          have hfl : (fill b).buf.length ≤ (fill b).size := by have := f1.2.1; omega
          have := ih b.buf.length (fill b) f1 (by rw [hd]; simp)
            (by rw [hd, List.take_left]; exact hib)
            (by
              rcases f6 with ⟨e1, e2, _⟩ | ⟨e1, d2, hd2, e2⟩
              · rw [e1, e2, f3]; simp [he] at hk ⊢; omega
              · have hl2 : 0 < d2.length := List.length_pos.mpr hd2
                rw [f3] at hfl ⊢
                rw [e2] at hfl ⊢
                simp only [List.length_append] at hfl ⊢
                simp only [e1, he, if_true] at hk ⊢
                omega)
          rw [f2, f3] at this
          simp only [ReadSliceLoop, hi, he, hfull, Option.isSome_none, if_false,
            Bool.false_eq_true]
          exact this

theorem ReadSlice_spec (delim : Nat) (b : Reader) (h : b.WF) :
    (ReadSlice b delim).1 = (Stream.ReadSlice b.size delim b.unread).1 ∧
    (ReadSlice b delim).2.1 = (Stream.ReadSlice b.size delim b.unread).2.1 ∧
    (ReadSlice b delim).2.2.WF ∧
    (ReadSlice b delim).2.2.unread = (Stream.ReadSlice b.size delim b.unread).2.2 ∧
    (ReadSlice b delim).2.2.size = b.size := by
  have key := ReadSliceLoop_spec delim (b.size + 1) 0 b h (Nat.zero_le _)
    (by simp [IndexByte]) (by split <;> omega)
  unfold ReadSlice
  generalize ReadSliceLoop delim (b.size + 1) 0 b = res at key
  obtain ⟨line, e, b1⟩ := res
  simp only at key ⊢
  refine ⟨key.1, key.2.1, ?_, ?_, ?_⟩
  · split
    · exact key.2.2.1
    · exact key.2.2.1
  · split
    · exact key.2.2.2.1
    · exact key.2.2.2.1
  · split
    · exact key.2.2.2.2
    · exact key.2.2.2.2

theorem PeekLoop_spec (n : Nat) (k : Nat) : ∀ (b : Reader), b.WF →
    (b.size - b.buf.length) + (if b.err = none then 1 else 0) ≤ k →
    (PeekLoop n k b).WF ∧ (PeekLoop n k b).unread = b.unread ∧
    (PeekLoop n k b).size = b.size ∧
    (n ≤ (PeekLoop n k b).buf.length ∨ (PeekLoop n k b).size ≤ (PeekLoop n k b).buf.length ∨
      (PeekLoop n k b).err ≠ none) := by
  induction k with
  | zero =>
    intro b h hk
    exfalso
    rcases h.2.2.2 with h4 | h4
    · simp [h4] at hk
    · have := h4.2.2
      omega
  | succ k ih =>
    intro b h hk
    by_cases hc : b.buf.length < n ∧ b.buf.length < b.size ∧ b.err = none
    · obtain ⟨f1, f2, f3, _, _, f6⟩ := fill_spec b h hc.2.2 hc.2.1
      have hfl : (fill b).buf.length ≤ (fill b).size := by have := f1.2.1; omega
      have := ih (fill b) f1 (by
        rcases f6 with ⟨e1, e2, _⟩ | ⟨e1, d2, hd2, e2⟩
        · rw [e1, e2, f3]; simp [hc.2.2] at hk ⊢; omega
        · have hl2 : 0 < d2.length := List.length_pos.mpr hd2
          rw [f3] at hfl ⊢
          rw [e2] at hfl ⊢
          simp only [List.length_append] at hfl ⊢
          simp only [e1, hc.2.2, if_true] at hk ⊢
          omega)
      rw [f2, f3] at this
      simp only [PeekLoop, hc, and_self, if_true]
      exact this
    · simp only [PeekLoop, hc, if_false]
      refine ⟨h, trivial, trivial, ?_⟩
      by_cases h1 : n ≤ b.buf.length
      · exact Or.inl h1
      · by_cases h2 : b.size ≤ b.buf.length
        · exact Or.inr (Or.inl h2)
        · refine Or.inr (Or.inr ?_)
          intro he
          exact hc ⟨by omega, by omega, he⟩

theorem Peek_proj (b : Reader) (n : Nat) (h : b.WF) :
    (Peek b n).2.2.WF ∧ (Peek b n).2.2.unread = b.unread ∧ (Peek b n).2.2.size = b.size ∧
    ((n ≤ b.size ∧ n ≤ b.unread.length) →
      (Peek b n).1 = b.unread.take n ∧ (Peek b n).2.1 = none ∧ n ≤ (Peek b n).2.2.buf.length) ∧
    (¬ (n ≤ b.size ∧ n ≤ b.unread.length) → (Peek b n).2.1 ≠ none) := by
  have h0 : ({ b with lastByte := none } : Reader).WF := h
  obtain ⟨p1, p2, p3, p4⟩ := PeekLoop_spec n (b.size + 1) { b with lastByte := none } h0
    (by simp only; split <;> omega)
  have p2b : (PeekLoop n (b.size + 1) { b with lastByte := none }).unread = b.unread := p2
  have p3b : (PeekLoop n (b.size + 1) { b with lastByte := none }).size = b.size := p3
  unfold Peek
  simp only
  generalize PeekLoop n (b.size + 1) { b with lastByte := none } = b1 at p1 p2b p3b p4 ⊢
  have hbl : b1.buf.length ≤ b1.size := by have := p1.2.1; omega
  have hul : b1.buf.length ≤ b.unread.length := by
    rw [← p2b]; simp [unread]
  by_cases hn1 : b1.size < n
  · simp only [hn1, if_true]
    refine ⟨p1, p2b, p3b, ?_, ?_⟩
    · intro hh; omega
    · intro _; simp
  · by_cases hn2 : b1.buf.length < n
    · simp only [hn1, hn2, if_false, if_true]
      refine ⟨⟨p1.1, p1.2.1, p1.2.2.1, Or.inl rfl⟩, ?_, p3b, ?_, ?_⟩
      · rw [← p2b]; rfl
      · intro hh
        exfalso
        rcases p4 with p4 | p4 | p4
        · omega
        · omega
        · rcases p1.2.2.2 with q | q
          · exact p4 q
          · have hu : b1.unread = b1.buf := by simp [unread, q.2.1]
            rw [← p2b, hu] at hh
            omega
      · intro _; simp
    · simp only [hn1, hn2, if_false]
      refine ⟨p1, p2b, p3b, ?_, ?_⟩
      · intro _
        refine ⟨?_, trivial, by omega⟩
        rw [← p2b]
        unfold unread
        rw [List.take_append_of_le_length (by omega)]
      · intro hh
        exfalso
        apply hh
        constructor <;> omega

theorem Peek_ok {b : Reader} {n : Nat} (h : b.WF) (h1 : n ≤ b.size) (h2 : n ≤ b.unread.length) :
    ∃ b1, Peek b n = (b.unread.take n, none, b1) ∧ b1.WF ∧ b1.unread = b.unread ∧
      b1.size = b.size ∧ n ≤ b1.buf.length := by
  obtain ⟨q1, q2, q3, q4, _⟩ := Peek_proj b n h
  obtain ⟨q5, q6, q7⟩ := q4 ⟨h1, h2⟩
  exact ⟨(Peek b n).2.2, Prod.ext q5 (Prod.ext q6 rfl), q1, q2, q3, q7⟩

theorem Peek_err {b : Reader} {n : Nat} (h : b.WF) (h1 : ¬ (n ≤ b.size ∧ n ≤ b.unread.length)) :
    ∃ data e b1, Peek b n = (data, some e, b1) ∧ b1.WF ∧ b1.unread = b.unread ∧
      b1.size = b.size := by
  obtain ⟨q1, q2, q3, _, q5⟩ := Peek_proj b n h
  have := q5 h1
  cases he : (Peek b n).2.1 with
  | none => exact absurd he this
  | some e => exact ⟨(Peek b n).1, e, (Peek b n).2.2, Prod.ext rfl (Prod.ext he rfl), q1, q2, q3⟩

theorem Discard_spec {b : Reader} {n : Nat} (h : b.WF) (hn : n ≤ b.buf.length) :
    ∃ b1, Discard b n = (n, none, b1) ∧ b1.WF ∧ b1.unread = b.unread.drop n ∧
      b1.size = b.size := by
  by_cases h0 : n = 0
  · subst h0
    exact ⟨b, by simp [Discard], h, by simp, rfl⟩
  · have hne : ¬ b.buf.length = 0 := by omega
    refine ⟨{ b with buf := b.buf.drop n, rpos := b.rpos + n, lastByte := none }, ?_, ?_, ?_, rfl⟩
    · simp [Discard, h0, DiscardLoop, hne, Nat.min_eq_right hn]
    · obtain ⟨h1, h2, h3, h4⟩ := h
      refine ⟨h1, ?_, h3, ?_⟩
      · simp only [List.length_drop]; omega
      · rcases h4 with h4 | h4
        · exact Or.inl h4
        · refine Or.inr ⟨h4.1, h4.2.1, ?_⟩
          simp only [List.length_drop]; omega
    · simp only [unread]
      rw [List.drop_append_of_le_length hn]

theorem take_append_rest (c : List Nat) (cs : List (List Nat)) (n : Nat) :
    c.take n ++ (if c.length ≤ n then cs else c.drop n :: cs).flatten = c ++ cs.flatten := by
  split
  · rename_i hle
    rw [List.take_of_length_le hle]
  · simp only [List.flatten_cons]
    rw [← List.append_assoc, List.take_append_drop]

theorem Read_spec (b : Reader) (n : Nat) (h : b.WF) (hn : 0 < n) :
    (Read b n).2.2.WF ∧ (Read b n).2.2.size = b.size ∧
    (Read b n).1 ++ (Read b n).2.2.unread = b.unread ∧ (Read b n).1.length ≤ n ∧
    (((Read b n).2.1 = none ∧ (Read b n).1 ≠ []) ∨
      ((Read b n).2.1 = some .EOF ∧ (Read b n).1 = [] ∧ b.unread = [])) := by
  obtain ⟨h1, h2, h3, h4⟩ := h
  have hn0 : ¬ n = 0 := by omega
  cases hb : b.buf with
  | cons c rest =>
    simp only [Read, hn0, if_false, hb]
    rw [hb] at h2 h4
    refine ⟨⟨h1, ?_, h3, ?_⟩, trivial, ?_, ?_, ?_⟩
    · simp only [List.length_take, List.length_drop, List.length_cons] at h2 ⊢; omega
    · rcases h4 with h4 | h4
      · exact Or.inl h4
      · refine Or.inr ⟨h4.1, h4.2.1, ?_⟩
        have := h4.2.2
        simp only [List.length_take, List.length_drop, List.length_cons] at this ⊢; omega
    · simp only [unread, hb]
      rw [← List.append_assoc, List.take_append_drop]
    · simp only [List.length_take]; omega
    · left
      refine ⟨trivial, ?_⟩
      cases n with
      | zero => omega
      | succ m => simp
  | nil =>
    cases he : b.err with
    | some e =>
      have h5 : b.err = some .EOF ∧ b.src = [] ∧ b.rpos + b.buf.length < b.size := by
        rcases h4 with h4 | h4
        · rw [he] at h4; cases h4
        · exact h4
      have hee : e = .EOF := by
        have := h5.1; rw [he] at this; exact Option.some.inj this
      subst hee
      simp only [Read, hn0, if_false, hb, he, Option.isSome_some, if_true]
      refine ⟨⟨h1, ?_, h3, Or.inl rfl⟩, trivial, ?_, ?_, ?_⟩
      · simpa [hb] using h2
      · simp [unread, hb]
      · simp
      · right
        exact ⟨trivial, trivial, by simp [unread, hb, h5.2.1]⟩
    | none =>
      by_cases hsz : b.size ≤ n
      · cases hs : b.src with
        | nil =>
          simp only [Read, hn0, if_false, hb, he, Option.isSome_none, Bool.false_eq_true, hsz,
            if_true, srcRead, hs]
          refine ⟨⟨h1, ?_, ?_, Or.inl rfl⟩, trivial, ?_, ?_, ?_⟩
          · simpa [hb] using h2
          · simp
          · simp [unread, hb, hs]
          · simp
          · right
            exact ⟨trivial, trivial, by simp [unread, hb, hs]⟩
        | cons c cs =>
          have hc : c ≠ [] := by
            intro hc; apply h3; rw [hs, hc]; simp
          have hcl : 0 < c.length := List.length_pos.mpr hc
          simp only [Read, hn0, if_false, hb, he, Option.isSome_none, Bool.false_eq_true, hsz,
            if_true, srcRead, hs]
          refine ⟨⟨h1, ?_, ?_, Or.inl rfl⟩, trivial, ?_, ?_, ?_⟩
          · simpa [hb] using h2
          · rw [hs] at h3
            simp only
            split
            · intro hm; exact h3 (List.mem_cons_of_mem _ hm)
            · intro hm
              rcases List.mem_cons.mp hm with hm | hm
              · have := congrArg List.length hm
                simp at this
                omega
              · exact h3 (List.mem_cons_of_mem _ hm)
          · rw [show b.unread = c ++ cs.flatten by simp [unread, hb, hs]]
            simp only [unread, List.nil_append]
            exact take_append_rest c cs n
          · simp only [List.length_take]; omega
          · left
            refine ⟨trivial, ?_⟩
            apply List.ne_nil_of_length_pos
            simp only [List.length_take]; omega
      · cases hs : b.src with
        | nil =>
          simp only [Read, hn0, if_false, hb, he, Option.isSome_none, Bool.false_eq_true, hsz,
            if_true, srcRead, hs]
          refine ⟨⟨h1, ?_, ?_, Or.inl rfl⟩, trivial, ?_, ?_, ?_⟩
          · simp
          · simp
          · simp [unread, hb, hs]
          · simp
          · right
            exact ⟨trivial, trivial, by simp [unread, hb, hs]⟩
        | cons c cs =>
          have hc : c ≠ [] := by
            intro hc; apply h3; rw [hs, hc]; simp
          have hcl : 0 < c.length := List.length_pos.mpr hc
          have hd : ¬ List.take b.size c = [] := by
            apply List.ne_nil_of_length_pos
            simp only [List.length_take]; omega
          simp only [Read, hn0, if_false, hb, he, Option.isSome_none, Bool.false_eq_true, hsz,
            if_true, srcRead, hs, hd]
          refine ⟨⟨h1, ?_, ?_, Or.inl rfl⟩, trivial, ?_, ?_, ?_⟩
          · simp only [List.length_take, List.length_drop]; omega
          · rw [hs] at h3
            simp only
            split
            · intro hm; exact h3 (List.mem_cons_of_mem _ hm)
            · intro hm
              rcases List.mem_cons.mp hm with hm | hm
              · have := congrArg List.length hm
                simp at this
                omega
              · exact h3 (List.mem_cons_of_mem _ hm)
          · rw [show b.unread = c ++ cs.flatten by simp [unread, hb, hs]]
            simp only [unread]
            rw [← List.append_assoc, List.take_append_drop]
            exact take_append_rest c cs b.size
          · simp only [List.length_take]; omega
          · left
            refine ⟨trivial, ?_⟩
            apply List.ne_nil_of_length_pos
            simp only [List.length_take]; omega

end Reader

theorem readAtLeastLoop_exit (n : Nat) (r : Reader) (acc : List Nat) (err : Option Error)
    (hacc : acc.length ≤ n) (hinv : err = none ∨ (err = some .EOF ∧ r.unread = []))
    (hm : (if err = none then n - acc.length else 0) = 0) :
    acc.length = n ∨ (acc.length < n ∧ err = some .EOF ∧ r.unread = []) := by
  rcases hinv with hinv | hinv
  · simp only [hinv, if_true] at hm
    left; omega
  · by_cases hl : acc.length = n
    · exact Or.inl hl
    · exact Or.inr ⟨by omega, hinv.1, hinv.2⟩

theorem readAtLeastLoop_spec (n : Nat) (k : Nat) : ∀ (r : Reader) (acc : List Nat)
    (err : Option Error), r.WF → acc.length ≤ n →
    (err = none ∨ (err = some .EOF ∧ r.unread = [])) →
    (if err = none then n - acc.length else 0) ≤ k →
    (readAtLeastLoop n n k r acc err).2.2.WF ∧
    (readAtLeastLoop n n k r acc err).2.2.size = r.size ∧
    (readAtLeastLoop n n k r acc err).1 ++ (readAtLeastLoop n n k r acc err).2.2.unread =
      acc ++ r.unread ∧
    ((readAtLeastLoop n n k r acc err).1.length = n ∨
      ((readAtLeastLoop n n k r acc err).1.length < n ∧
        (readAtLeastLoop n n k r acc err).2.1 = some .EOF ∧
        (readAtLeastLoop n n k r acc err).2.2.unread = [])) := by
  induction k with
  | zero =>
    intro r acc err h hacc hinv hm
    simp only [readAtLeastLoop]
    exact ⟨h, trivial, trivial, readAtLeastLoop_exit n r acc err hacc hinv (by omega)⟩
  | succ k ih =>
    intro r acc err h hacc hinv hm
    by_cases hc : acc.length < n ∧ err = none
    · have hpos : 0 < n - acc.length := by omega
      obtain ⟨s1, s2, s3, s4, s5⟩ := Reader.Read_spec r (n - acc.length) h hpos
      simp only [readAtLeastLoop, hc, and_self, if_true]
      generalize Reader.Read r (n - acc.length) = res at s1 s2 s3 s4 s5
      obtain ⟨data, e, r1⟩ := res
      simp only at s1 s2 s3 s4 s5 ⊢
      have hacc1 : (acc ++ data).length ≤ n := by
        simp only [List.length_append]; omega
      have hinv1 : e = none ∨ (e = some .EOF ∧ r1.unread = []) := by
        rcases s5 with s5 | s5
        · exact Or.inl s5.1
        · refine Or.inr ⟨s5.1, ?_⟩
          have := s3
          rw [s5.2.1, s5.2.2] at this
          simpa using this
      have hm1 : (if e = none then n - (acc ++ data).length else 0) ≤ k := by
        rcases s5 with s5 | s5
        · have hl : 0 < data.length := List.length_pos.mpr s5.2
          simp only [s5.1, if_true, List.length_append]
          simp only [hc.2, if_true] at hm
          omega
        · simp [s5.1]
      obtain ⟨i1, i2, i3, i4⟩ := ih r1 (acc ++ data) e s1 hacc1 hinv1 hm1
      refine ⟨i1, by rw [i2, s2], ?_, i4⟩
      rw [i3, List.append_assoc, s3]
    · simp only [readAtLeastLoop, hc, if_false]
      refine ⟨h, trivial, trivial, readAtLeastLoop_exit n r acc err hacc hinv ?_⟩
      by_cases he : err = none
      · simp only [he, if_true]
        have : ¬ acc.length < n := fun hh => hc ⟨hh, he⟩
        omega
      · simp [he]

theorem readFull_spec (r : Reader) (n : Nat) (h : r.WF) :
    (readFull r n).1 = (Stream.readFull n r.unread).1 ∧
    (readFull r n).2.1 = (Stream.readFull n r.unread).2.1 ∧
    (readFull r n).2.2.WF ∧
    (readFull r n).2.2.unread = (Stream.readFull n r.unread).2.2 ∧
    (readFull r n).2.2.size = r.size := by
  obtain ⟨i1, i2, i3, i4⟩ := readAtLeastLoop_spec n (n + 1) r [] none h (Nat.zero_le _)
    (Or.inl rfl) (by simp)
  unfold readFull readAtLeast
  simp only [Nat.lt_irrefl, if_false]
  generalize readAtLeastLoop n n (n + 1) r [] none = res at i1 i2 i3 i4
  obtain ⟨data, err, r1⟩ := res
  simp only [List.nil_append] at i1 i2 i3 i4 ⊢
  unfold Stream.readFull
  rcases i4 with i4 | ⟨i4, i5, i6⟩
  · have hle : n ≤ r.unread.length := by
      rw [← i3]; simp only [List.length_append]; omega
    simp only [i4, Nat.le_refl, if_true, hle]
    refine ⟨?_, trivial, i1, ?_, i2⟩
    · rw [← i3, ← i4, List.take_left]
    · rw [← i3, ← i4, List.drop_left]
  · have hu : r.unread = data := by rw [← i3, i6]; simp
    have hn1 : ¬ n ≤ data.length := by omega
    simp only [hu, hn1, if_false, i5]
    by_cases hd : 0 < data.length
    · simp only [hd, and_self, if_true]
      exact ⟨trivial, trivial, i1, i6, i2⟩
    · have : data = [] := by
        cases data with
        | nil => rfl
        | cons _ _ => simp at hd
      subst this
      simp only [hd, false_and, if_false]
      exact ⟨trivial, trivial, i1, i6, i2⟩

theorem readSlice_sim (r : Reader) (delim : Nat) (h : r.WF) :
    (readSlice r delim).1 = (Stream.readSlice r.size r.unread delim).1 ∧
    (readSlice r delim).2.WF ∧
    (readSlice r delim).2.unread = (Stream.readSlice r.size r.unread delim).2 ∧
    (readSlice r delim).2.size = r.size := by
  obtain ⟨a1, a2, a3, a4, a5⟩ := Reader.ReadSlice_spec delim r h
  unfold readSlice Stream.readSlice
  generalize Reader.ReadSlice r delim = res at a1 a2 a3 a4 a5
  obtain ⟨line, e, r1⟩ := res
  generalize Stream.ReadSlice r.size delim r.unread = sres at a1 a2 a4
  obtain ⟨l2, e2, u2⟩ := sres
  simp only at a1 a2 a3 a4 a5
  subst a1 a2 a4
  cases e with
  | some e => exact ⟨rfl, a3, rfl, a5⟩
  | none =>
    simp only
    split
    · exact ⟨rfl, a3, rfl, a5⟩
    · exact ⟨rfl, a3, rfl, a5⟩

theorem decodeInt64_sim (r : Reader) (delim : Nat) (h : r.WF) :
    (decodeInt64 r delim).1 = (Stream.decodeInt64 r.size r.unread delim).1 ∧
    (decodeInt64 r delim).2.WF ∧
    (decodeInt64 r delim).2.unread = (Stream.decodeInt64 r.size r.unread delim).2 ∧
    (decodeInt64 r delim).2.size = r.size := by
  obtain ⟨a1, a2, a3, a4⟩ := readSlice_sim r delim h
  unfold decodeInt64 Stream.decodeInt64
  generalize readSlice r delim = res at a1 a2 a3 a4
  obtain ⟨x, r1⟩ := res
  generalize Stream.readSlice r.size r.unread delim = sres at a1 a3
  obtain ⟨x2, u2⟩ := sres
  simp only at a1 a2 a3 a4
  subst a1 a3
  cases x with
  | ok buf =>
    simp only
    cases ParseInt buf with
    | ok i => exact ⟨rfl, a2, rfl, a4⟩
    | error e => exact ⟨rfl, a2, rfl, a4⟩
  | error e => exact ⟨rfl, a2, rfl, a4⟩
  | panic => exact ⟨rfl, a2, rfl, a4⟩

theorem decodeString_sim (r : Reader) (h : r.WF) :
    (decodeString r).1 = (Stream.decodeString r.size r.unread).1 ∧
    (decodeString r).2.WF ∧
    (decodeString r).2.unread = (Stream.decodeString r.size r.unread).2 ∧
    (decodeString r).2.size = r.size := by
  obtain ⟨a1, a2, a3, a4⟩ := decodeInt64_sim r 58 h
  unfold decodeString Stream.decodeString
  generalize decodeInt64 r 58 = res at a1 a2 a3 a4
  obtain ⟨x, r1⟩ := res
  generalize Stream.decodeInt64 r.size r.unread 58 = sres at a1 a3
  obtain ⟨x2, u2⟩ := sres
  simp only at a1 a2 a3 a4
  subst a1 a3
  cases x with
  | error e => exact ⟨rfl, a2, rfl, a4⟩
  | panic => exact ⟨rfl, a2, rfl, a4⟩
  | ok length =>
    simp only
    by_cases hneg : length < 0
    · simp only [hneg, if_true]
      exact ⟨trivial, a2, trivial, a4⟩
    · simp only [hneg, if_false]
      rw [← a4]
      by_cases hp : length.toNat ≤ r1.size ∧ length.toNat ≤ r1.unread.length
      · obtain ⟨b1, p1, p2, p3, p4, p5⟩ := Reader.Peek_ok a2 hp.1 hp.2
        obtain ⟨b2, d1, d2, d3, d4⟩ := Reader.Discard_spec p2 p5
        simp only [p1, d1, hp, and_self, if_true]
        exact ⟨trivial, d2, by rw [d3, p3], by rw [d4, p4]⟩
      · obtain ⟨data, e, b1, p1, p2, p3, p4⟩ := Reader.Peek_err a2 hp
        simp only [p1, hp, if_false]
        by_cases hm : maxAlloc < length.toNat
        · simp only [hm, if_true]
          exact ⟨trivial, p2, p3, p4⟩
        · simp only [hm, if_false]
          obtain ⟨f1, f2, f3, f4, f5⟩ := readFull_spec b1 length.toNat p2
          rw [p3] at f1 f2 f4
          generalize readFull b1 length.toNat = fres at f1 f2 f3 f4 f5
          obtain ⟨fd, fe, fr⟩ := fres
          simp only at f1 f2 f3 f4 f5
          have hlen : fe = none → fd.length = length.toNat := by
            intro hfe
            rw [hfe] at f2
            unfold Stream.readFull at f1 f2
            by_cases hle : length.toNat ≤ r1.unread.length
            · simp only [hle, if_true] at f1
              rw [f1, List.length_take]; omega
            · exfalso
              simp only [hle, if_false] at f2
              split at f2 <;> simp at f2
          generalize Stream.readFull length.toNat r1.unread = sres at f1 f2 f4
          obtain ⟨sd, se, su⟩ := sres
          simp only at f1 f2 f4
          subst f1 f2 f4
          cases fe with
          | some e => exact ⟨rfl, f3, rfl, by rw [f5, p4]⟩
          | none =>
            simp only
            rw [hlen rfl]
            simp only [Nat.sub_self, List.replicate_zero, List.append_nil]
            exact ⟨trivial, f3, trivial, by rw [f5, p4]⟩

theorem Sim_none (size : Nat) : Sim size none none := ⟨rfl, fun _ h => by cases h⟩

theorem Sim_some {size : Nat} {res : Result Unit} {r : Reader} {u : List Nat}
    {evs : List Event} {n : Nat} (h : r.WF) (hs : r.size = size) (hu : r.unread = u) :
    Sim size (some (res, r, evs, n)) (some (res, u, evs, n)) := by
  subst hu
  refine ⟨rfl, ?_⟩
  intro run hrun
  cases hrun
  exact ⟨h, hs⟩

theorem Sim_cases {size : Nat} {x : Option Run} {y : Option SRun} (h : Sim size x y) :
    (x = none ∧ y = none) ∨
    ∃ res r evs n, x = some (res, r, evs, n) ∧ y = some (res, r.unread, evs, n) ∧
      r.WF ∧ r.size = size := by
  cases x with
  | none => left; exact ⟨rfl, h.1⟩
  | some run =>
    right
    obtain ⟨res, r, evs, n⟩ := run
    exact ⟨res, r, evs, n, rfl, h.1, h.2 _ rfl⟩

theorem exit_sim {size : Nat} {x : Option Run} {y : Option SRun} (build : Nat)
    (h : Sim size x y) : Sim size (exit build x) (Stream.exit build y) := by
  rcases Sim_cases h with ⟨rfl, rfl⟩ | ⟨res, r, evs, n, rfl, rfl, hw, hs⟩
  · exact Sim_none size
  · cases res with
    | panic => exact Sim_some hw hs rfl
    | ok a => exact Sim_some hw hs rfl
    | error e => exact Sim_some hw hs rfl

theorem parseString_sim {r : Reader} {c : Nat} (build next : Nat) (h : r.WF)
    (hl : r.lastByte = some c) (hr : 0 < r.rpos) :
    Sim r.size (some (parseString r build next))
      (some (Stream.parseString r.size (c :: r.unread) build next)) := by
  obtain ⟨b1, u1, u2, u3, u4⟩ := Reader.UnreadByte_spec h hl hr
  obtain ⟨a1, a2, a3, a4⟩ := decodeString_sim b1 u2
  rw [u3, u4] at a1 a3
  unfold parseString Stream.parseString
  rw [u1]
  simp only
  generalize decodeString b1 = res at a1 a2 a3 a4
  obtain ⟨x, r2⟩ := res
  generalize Stream.decodeString r.size (c :: r.unread) = sres at a1 a3
  obtain ⟨x2, u2⟩ := sres
  simp only at a1 a2 a3 a4
  subst a1 a3
  cases x with
  | ok s => exact Sim_some a2 (by rw [a4, u4]) rfl
  | error e => exact Sim_some a2 (by rw [a4, u4]) rfl
  | panic => exact Sim_some a2 (by rw [a4, u4]) rfl

theorem parseInteger_sim (pf : List Nat → Option Float64) {r : Reader} (build next : Nat)
    (h : r.WF) :
    Sim r.size (some (parseInteger pf r build next))
      (some (Stream.parseInteger pf r.size r.unread build next)) := by
  obtain ⟨a1, a2, a3, a4⟩ := readSlice_sim r 101 h
  unfold parseInteger Stream.parseInteger
  generalize readSlice r 101 = res at a1 a2 a3 a4
  obtain ⟨x, r2⟩ := res
  generalize Stream.readSlice r.size r.unread 101 = sres at a1 a3
  obtain ⟨x2, u2⟩ := sres
  simp only at a1 a2 a3 a4
  subst a1 a3
  cases x with
  | error e => exact Sim_some a2 a4 rfl
  | panic => exact Sim_some a2 a4 rfl
  | ok str =>
    simp only
    cases ParseInt str with
    | ok i => exact Sim_some a2 a4 rfl
    | error _ =>
      simp only
      cases ParseUint str with
      | ok v => exact Sim_some a2 a4 rfl
      | error _ =>
        simp only
        cases pf str with
        | some f => exact Sim_some a2 a4 rfl
        | none => exact Sim_some a2 a4 rfl

theorem listLoop_sim {size : Nat} {P : Reader → Nat → Nat → Option Run}
    {Q : List Nat → Nat → Nat → Option SRun}
    (hP : ∀ r b n, r.WF → r.size = size → Sim size (P r b n) (Q r.unread b n)) (build : Nat)
    (k : Nat) : ∀ (r : Reader) (n next : Nat), r.WF → r.size = size →
    Sim size (listLoop P build k r n next) (Stream.listLoop Q build k r.unread n next) := by
  induction k with
  | zero => intro r n next _ _; exact Sim_none size
  | succ k ih =>
    intro r n next h hs
    cases hu : r.unread with
    | nil =>
      obtain ⟨b1, e1, e2, e3, e4⟩ := Reader.ReadByte_nil h hu
      simp only [listLoop, Stream.listLoop, e1]
      exact Sim_some e2 (by rw [e4, hs]) e3
    | cons c t =>
      obtain ⟨b1, e1, e2, e3, e4, e5, e6⟩ := Reader.ReadByte_cons h hu
      simp only [listLoop, Stream.listLoop, e1]
      by_cases hc : c = 101
      · simp only [hc, if_true]
        exact Sim_some e2 (by rw [e4, hs]) e3
      · simp only [hc, if_false]
        obtain ⟨b2, u1, u2, u3, u4⟩ := Reader.UnreadByte_spec e2 e5 e6
        rw [u1]
        simp only
        have hb2 : b2.size = size := by rw [u4, e4, hs]
        have hp := hP b2 next (next + 1) u2 hb2
        rw [u3, e3] at hp
        rcases Sim_cases hp with ⟨p1, p2⟩ | ⟨res, r3, evs, n3, p1, p2, p3, p4⟩
        · rw [p1, p2]
          exact Sim_none size
        · rw [p1, p2]
          cases res with
          | ok a =>
            cases a
            simp only
            rcases Sim_cases (ih r3 (n + 1) n3 p3 p4) with ⟨q1, q2⟩ | ⟨res4, r4, evs4, n4, q1, q2, q3, q4⟩
            · rw [q1, q2]
              exact Sim_none size
            · rw [q1, q2]
              exact Sim_some q3 q4 rfl
          | error e => exact Sim_some p3 p4 rfl
          | panic => exact Sim_some p3 p4 rfl

theorem dictLoop_sim {size : Nat} {P : Reader → Nat → Nat → Option Run}
    {Q : List Nat → Nat → Nat → Option SRun}
    (hP : ∀ r b n, r.WF → r.size = size → Sim size (P r b n) (Q r.unread b n)) (build : Nat)
    (k : Nat) : ∀ (r : Reader) (next : Nat), r.WF → r.size = size →
    Sim size (dictLoop P build k r next) (Stream.dictLoop size Q build k r.unread next) := by
  induction k with
  | zero => intro r next _ _; exact Sim_none size
  | succ k ih =>
    intro r next h hs
    cases hu : r.unread with
    | nil =>
      obtain ⟨b1, e1, e2, e3, e4⟩ := Reader.ReadByte_nil h hu
      simp only [dictLoop, Stream.dictLoop, e1]
      exact Sim_some e2 (by rw [e4, hs]) e3
    | cons c t =>
      obtain ⟨b1, e1, e2, e3, e4, e5, e6⟩ := Reader.ReadByte_cons h hu
      simp only [dictLoop, Stream.dictLoop, e1]
      by_cases hc : c = 101
      · simp only [hc, if_true]
        exact Sim_some e2 (by rw [e4, hs]) e3
      · simp only [hc, if_false]
        obtain ⟨b2, u1, u2, u3, u4⟩ := Reader.UnreadByte_spec e2 e5 e6
        rw [u1]
        simp only
        have hb2 : b2.size = size := by rw [u4, e4, hs]
        obtain ⟨a1, a2, a3, a4⟩ := decodeString_sim b2 u2
        rw [u3, e3, hb2] at a1 a3
        generalize decodeString b2 = res at a1 a2 a3 a4
        obtain ⟨x, r3⟩ := res
        generalize Stream.decodeString size (c :: t) = sres at a1 a3
        obtain ⟨x2, u2⟩ := sres
        simp only at a1 a2 a3 a4
        subst a1 a3
        have hr3 : r3.size = size := by rw [a4, hb2]
        cases x with
        | error e => exact Sim_some a2 hr3 rfl
        | panic => exact Sim_some a2 hr3 rfl
        | ok key =>
          simp only
          have hp := hP r3 next (next + 1) a2 hr3
          rcases Sim_cases hp with ⟨p1, p2⟩ | ⟨res, r4, evs, n4, p1, p2, p3, p4⟩
          · rw [p1, p2]
            exact Sim_none size
          · rw [p1, p2]
            cases res with
            | ok a =>
              cases a
              simp only
              rcases Sim_cases (ih r4 n4 p3 p4) with ⟨q1, q2⟩ | ⟨res5, r5, evs5, n5, q1, q2, q3, q4⟩
              · rw [q1, q2]
                exact Sim_none size
              · rw [q1, q2]
                exact Sim_some q3 q4 rfl
            | error e => exact Sim_some p3 p4 rfl
            | panic => exact Sim_some p3 p4 rfl

theorem parseFromReader_sim (pf : List Nat → Option Float64) (size : Nat) (f : Nat) :
    ∀ (r : Reader) (build next : Nat), r.WF → r.size = size →
    Sim size (parseFromReader pf f r build next)
      (Stream.parseFromReader pf size f r.unread build next) := by
  induction f with
  | zero => intro r build next _ _; exact Sim_none size
  | succ f ih =>
    intro r build next h hs
    unfold parseFromReader Stream.parseFromReader Stream.dispatch
    apply exit_sim
    cases hu : r.unread with
    | nil =>
      obtain ⟨b1, e1, e2, e3, e4⟩ := Reader.ReadByte_nil h hu
      simp only [e1]
      exact Sim_some e2 (by rw [e4, hs]) e3
    | cons c t =>
      obtain ⟨b1, e1, e2, e3, e4, e5, e6⟩ := Reader.ReadByte_cons h hu
      have hb1 : b1.size = size := by rw [e4, hs]
      simp only [e1]
      by_cases hd : 48 ≤ c ∧ c ≤ 57
      · simp only [hd, and_self, if_true]
        have := parseString_sim build next e2 e5 e6
        rw [e3, hb1] at this
        exact this
      · simp only [hd, if_false]
        by_cases hi : c = 105
        · simp only [hi, if_true]
          have := parseInteger_sim pf build next e2
          rw [e3, hb1] at this
          exact this
        · simp only [hi, if_false]
          by_cases hdd : c = 100
          · simp only [hdd, if_true]
            have := dictLoop_sim ih build f b1 next e2 hb1
            rw [e3] at this
            rcases Sim_cases this with ⟨q1, q2⟩ | ⟨res, r2, evs, n2, q1, q2, q3, q4⟩
            · rw [q1, q2]
              exact Sim_none size
            · rw [q1, q2]
              exact Sim_some q3 q4 rfl
          · simp only [hdd, if_false]
            by_cases hl : c = 108
            · simp only [hl, if_true]
              have := listLoop_sim ih build f b1 0 next e2 hb1
              rw [e3] at this
              rcases Sim_cases this with ⟨q1, q2⟩ | ⟨res, r2, evs, n2, q1, q2, q3, q4⟩
              · rw [q1, q2]
                exact Sim_none size
              · rw [q1, q2]
                exact Sim_some q3 q4 rfl
            · simp only [hl, if_false]
              exact Sim_some e2 hb1 e3

theorem natTextAux_acc (fuel : Nat) : ∀ (n : Nat) (acc : List Nat),
    natTextAux fuel n acc = natTextAux fuel n [] ++ acc := by
  induction fuel with
  | zero => intro n acc; simp [natTextAux]
  | succ fuel ih =>
    intro n acc
    simp only [natTextAux]
    split
    · simp
    · rw [ih (n / 10) ((48 + n % 10) :: acc), ih (n / 10) [48 + n % 10]]
      simp

theorem natTextAux_fuel (fuel : Nat) : ∀ (n : Nat) (fuel2 : Nat), n < fuel → n < fuel2 →
    natTextAux fuel n [] = natTextAux fuel2 n [] := by
  induction fuel with
  | zero => intro n fuel2 h; omega
  | succ fuel ih =>
    intro n fuel2 h h2
    cases fuel2 with
    | zero => omega
    | succ fuel2 =>
      simp only [natTextAux]
      split
      · rfl
      · rename_i hne
        have hlt : n / 10 < n := Nat.div_lt_self (by omega) (by omega)
        rw [natTextAux_acc fuel, natTextAux_acc fuel2,
          ih (n / 10) fuel2 (by omega) (by omega)]

theorem natText_small {n : Nat} (h : n < 10) : natText n = [48 + n] := by
  have h0 : n / 10 = 0 := Nat.div_eq_of_lt h
  have hm : n % 10 = n := Nat.mod_eq_of_lt h
  simp [natText, natTextAux, h0, hm]

theorem natText_step {n : Nat} (h : 10 ≤ n) :
    natText n = natText (n / 10) ++ [48 + n % 10] := by
  have h0 : ¬ n / 10 = 0 := by
    have := (Nat.le_div_iff_mul_le (by omega : 0 < 10)).mpr (by omega : 1 * 10 ≤ n)
    omega
  have hlt : n / 10 < n := Nat.div_lt_self (by omega) (by omega)
  unfold natText
  rw [natTextAux]
  simp only [h0, if_false]
  rw [natTextAux_acc, natTextAux_fuel n (n / 10) (n / 10 + 1) hlt (by omega)]

theorem ParseUintLoop_append (s0 xs ys : List Nat) : ∀ (a : Nat),
    ParseUintLoop s0 (xs ++ ys) a =
      match ParseUintLoop s0 xs a with
      | .ok b => ParseUintLoop s0 ys b
      | .error e => .error e := by
  induction xs with
  | nil => intro a; simp [ParseUintLoop]
  | cons x xs ih =>
    intro a
    simp only [List.cons_append, ParseUintLoop]
    split
    · split
      · rfl
      · split
        · rfl
        · exact ih _
    · rfl

theorem ParseUintLoop_natText (s0 : List Nat) (n : Nat) (h : n ≤ maxUint64) :
    ParseUintLoop s0 (natText n) 0 = .ok n := by
  have hmax : maxUint64 = 18446744073709551615 := by decide
  have hcut : uintCutoff = 1844674407370955162 := by decide
  induction n using Nat.strong_induction_on with
  | _ n ih =>
    rw [hmax] at h
    have hn : n < 2 ^ 64 := by omega
    by_cases h10 : n < 10
    · rw [natText_small h10]
      have hd : isDigit (48 + n) = true := by simp [isDigit]; omega
      have h1 : ¬ uintCutoff ≤ 0 := by decide
      have he : 0 * 10 + (48 + n - 48) = n := by omega
      simp only [ParseUintLoop, hd, h1, if_true, if_false, he, Nat.mod_eq_of_lt hn]
      have h2 : ¬ (n < 0 * 10 ∨ maxUint64 < n) := by rw [hmax]; omega
      simp only [h2, if_false]
    · have hlt : n / 10 < n := Nat.div_lt_self (by omega) (by omega)
      rw [natText_step (by omega), ParseUintLoop_append,
        ih (n / 10) hlt (by rw [hmax]; omega)]
      have hd : isDigit (48 + n % 10) = true := by simp [isDigit]; omega
      have h1 : ¬ uintCutoff ≤ n / 10 := by rw [hcut]; omega
      have he : n / 10 * 10 + (48 + n % 10 - 48) = n := by omega
      simp only [ParseUintLoop, hd, h1, if_true, if_false, he, Nat.mod_eq_of_lt hn]
      have h2 : ¬ (n < n / 10 * 10 ∨ maxUint64 < n) := by rw [hmax]; omega
      simp only [h2, if_false]

theorem natText_digits (n : Nat) : ∀ c ∈ natText n, 48 ≤ c ∧ c ≤ 57 := by
  induction n using Nat.strong_induction_on with
  | _ n ih =>
    by_cases h10 : n < 10
    · rw [natText_small h10]
      intro c hc
      simp at hc
      omega
    · have hlt : n / 10 < n := Nat.div_lt_self (by omega) (by omega)
      rw [natText_step (by omega)]
      intro c hc
      rcases List.mem_append.mp hc with hc | hc
      · exact ih _ hlt c hc
      · simp at hc
        omega

theorem natText_ne_nil (n : Nat) : natText n ≠ [] := by
  by_cases h10 : n < 10
  · rw [natText_small h10]; simp
  · rw [natText_step (by omega)]; simp

theorem natText_length (k : Nat) : ∀ n, n < 10 ^ (k + 1) → (natText n).length ≤ k + 1 := by
  induction k with
  | zero =>
    intro n h
    rw [natText_small (by simpa using h)]
    simp
  | succ k ih =>
    intro n h
    by_cases h10 : n < 10
    · rw [natText_small h10]; simp
    · rw [natText_step (by omega)]
      have : n / 10 < 10 ^ (k + 1) := by
        apply Nat.div_lt_of_lt_mul
        rw [Nat.pow_succ, Nat.mul_comm] at h
        exact h
      have := ih _ this
      simp only [List.length_append, List.length_singleton]
      omega

theorem natText_head (n : Nat) : ∃ c t, natText n = c :: t ∧ 48 ≤ c ∧ c ≤ 57 := by
  cases h : natText n with
  | nil => exact absurd h (natText_ne_nil n)
  | cons c t =>
    have := natText_digits n c (by rw [h]; simp)
    exact ⟨c, t, rfl, this⟩

theorem ParseUint_natText (n : Nat) (h : n ≤ maxUint64) : ParseUint (natText n) = .ok n := by
  unfold ParseUint
  simp only [natText_ne_nil, if_false]
  exact ParseUintLoop_natText _ n h

theorem ParseInt_natText (n : Nat) (h : n < 2 ^ 63) : ParseInt (natText n) = .ok (n : Int) := by
  obtain ⟨c, t, hct, hc1, hc2⟩ := natText_head n
  have hu := ParseUint_natText n (by unfold maxUint64; omega)
  rw [hct] at hu
  have h43 : (c == 43) = false := by simp; omega
  have h45 : (c == 45) = false := by simp; omega
  have hlt : ¬ 2 ^ 63 ≤ n := by omega
  rw [hct]
  simp [ParseInt, h43, h45, hu]
  omega

theorem ParseInt_natText_range (n : Nat) (h1 : 2 ^ 63 ≤ n) (h2 : n ≤ maxUint64) :
    ParseInt (natText n) = .error (.NumError .fnParseInt (natText n) .ErrRange) := by
  obtain ⟨c, t, hct, hc1, hc2⟩ := natText_head n
  have hu := ParseUint_natText n h2
  rw [hct] at hu
  have h43 : (c == 43) = false := by simp; omega
  have h45 : (c == 45) = false := by simp; omega
  rw [hct]
  simp [ParseInt, h43, h45, hu]
  omega

theorem ParseInt_neg_natText (n : Nat) (h : n ≤ 2 ^ 63) :
    ParseInt (45 :: natText n) = .ok (-(n : Int)) := by
  have hu := ParseUint_natText n (by unfold maxUint64; omega)
  have hlt : ¬ 2 ^ 63 < n := by omega
  simp [ParseInt, hu]
  omega

theorem ParseInt_intText (n : Int) (h1 : -2 ^ 63 ≤ n) (h2 : n < 2 ^ 63) :
    ParseInt (intText n) = .ok n := by
  unfold intText
  by_cases hn : n < 0
  · simp only [hn, if_true]
    rw [ParseInt_neg_natText _ (by omega)]
    congr 1
    omega
  · simp only [hn, if_false]
    rw [ParseInt_natText _ (by omega)]
    congr 1
    omega

theorem intText_length (n : Int) (h1 : -2 ^ 63 ≤ n) (h2 : n < 2 ^ 63) :
    (intText n).length ≤ 20 := by
  unfold intText
  have : n.natAbs < 10 ^ (18 + 1) := by omega
  have := natText_length 18 _ this
  split
  · simp only [List.length_cons]; omega
  · omega

theorem intText_no_delim (n : Int) (d : Nat) (hd : d ≠ 45) (hd2 : ¬ (48 ≤ d ∧ d ≤ 57)) :
    d ∉ intText n := by
  unfold intText
  intro hm
  split at hm
  · rcases List.mem_cons.mp hm with hm | hm
    · exact hd hm
    · exact hd2 (natText_digits _ _ hm)
  · exact hd2 (natText_digits _ _ hm)

namespace Reader

theorem IndexByte_none {xs : List Nat} {d : Nat} (h : d ∉ xs) : IndexByte xs d = none := by
  induction xs with
  | nil => rfl
  | cons x xs ih =>
    have hx : ¬ x = d := fun e => h (by rw [e]; simp)
    have := ih (fun hm => h (List.mem_cons_of_mem _ hm))
    simp [IndexByte, hx, this]

theorem IndexByte_none_not_mem {xs : List Nat} {d : Nat} (h : IndexByte xs d = none) :
    d ∉ xs := by
  induction xs with
  | nil => simp
  | cons x xs ih =>
    rw [IndexByte_cons] at h
    by_cases hx : x = d
    · simp [hx] at h
    · simp only [hx, if_false, Option.map_eq_none'] at h
      intro hm
      rcases List.mem_cons.mp hm with hm | hm
      · exact hx hm.symm
      · exact ih h hm

end Reader

namespace Stream

theorem ReadSlice_found {size : Nat} {delim : Nat} {text rest : List Nat}
    (h1 : delim ∉ text) (h2 : text.length < size) :
    ReadSlice size delim (text ++ delim :: rest) = (text ++ [delim], none, rest) := by
  unfold ReadSlice
  have htake : (text ++ delim :: rest).take size =
      text ++ delim :: rest.take (size - text.length - 1) := by
    rw [List.take_append_eq_append_take, List.take_of_length_le (by omega)]
    have : size - text.length = (size - text.length - 1) + 1 := by omega
    rw [this, List.take_succ_cons]
    simp
  rw [htake, Reader.IndexByte_append, Reader.IndexByte_none h1]
  simp only [Reader.IndexByte_cons, if_true, Option.map_some', Nat.zero_add]
  have e1 : (text ++ delim :: rest).take (text.length + 1) = text ++ [delim] := by
    rw [List.take_append_eq_append_take, List.take_of_length_le (by omega)]
    simp
  have e2 : (text ++ delim :: rest).drop (text.length + 1) = rest := by
    rw [List.drop_append_eq_append_drop, List.drop_of_length_le (by omega)]
    simp
  rw [e1, e2]

theorem readSlice_found {size : Nat} {delim : Nat} {text rest : List Nat}
    (h1 : delim ∉ text) (h2 : text.length < size) :
    readSlice size (text ++ delim :: rest) delim = (.ok text, rest) := by
  unfold readSlice
  rw [ReadSlice_found h1 h2]
  simp

end Stream

theorem parseFromReader_of_stream {pf : List Nat → Option Float64} {f : Nat} {r : Reader}
    {b n : Nat} {res : Result Unit} {u : List Nat} {evs : List Event} {n1 : Nat} (h : r.WF)
    (hs : Stream.parseFromReader pf r.size f r.unread b n = some (res, u, evs, n1)) :
    ∃ r1, parseFromReader pf f r b n = some (res, r1, evs, n1) ∧ r1.WF ∧ r1.unread = u ∧
      r1.size = r.size := by
  rcases Sim_cases (parseFromReader_sim pf r.size f r b n h rfl) with
    ⟨_, q2⟩ | ⟨res2, r2, evs2, n2, q1, q2, q3, q4⟩
  · rw [q2] at hs; cases hs
  · rw [q2] at hs
    cases hs
    exact ⟨r2, q1, q3, rfl, q4⟩

theorem parseFromReader_to_stream {pf : List Nat → Option Float64} {f : Nat} {r : Reader}
    {b n : Nat} {res : Result Unit} {r1 : Reader} {evs : List Event} {n1 : Nat} (h : r.WF)
    (hs : parseFromReader pf f r b n = some (res, r1, evs, n1)) :
    Stream.parseFromReader pf r.size f r.unread b n = some (res, r1.unread, evs, n1) ∧
      r1.WF ∧ r1.size = r.size := by
  rcases Sim_cases (parseFromReader_sim pf r.size f r b n h rfl) with
    ⟨q1, _⟩ | ⟨res2, r2, evs2, n2, q1, q2, q3, q4⟩
  · rw [q1] at hs; cases hs
  · rw [q1] at hs
    cases hs
    exact ⟨q2, q3, q4⟩

namespace Stream

theorem parse_integer (pf : List Nat → Option Float64) (size f : Nat) (u : List Nat)
    (build next : Nat) :
    parseFromReader pf size (f + 1) (105 :: u) build next =
      exit build (some (parseInteger pf size u build next)) := by
  simp [parseFromReader, dispatch]

theorem parseInteger_int64 (pf : List Nat → Option Float64) {size : Nat} (n : Int)
    (h1 : -2 ^ 63 ≤ n) (h2 : n < 2 ^ 63) (hsz : 21 ≤ size) (rest : List Nat)
    (build next : Nat) :
    parseInteger pf size (intText n ++ 101 :: rest) build next =
      (.ok (), rest, [(build, .Int64 n)], next) := by
  have hl := intText_length n h1 h2
  unfold parseInteger
  rw [readSlice_found (intText_no_delim n 101 (by decide) (by decide)) (by omega)]
  simp only [ParseInt_intText n h1 h2]

theorem parseInteger_uint64 (pf : List Nat → Option Float64) {size : Nat} (n : Nat)
    (h1 : 2 ^ 63 ≤ n) (h2 : n ≤ 2 ^ 64 - 1) (hsz : 21 ≤ size) (rest : List Nat)
    (build next : Nat) :
    parseInteger pf size (natText n ++ 101 :: rest) build next =
      (.ok (), rest, [(build, .Uint64 n)], next) := by
  have hl := natText_length 19 n (by omega)
  have hno : 101 ∉ natText n := fun hm => by
    have := natText_digits n 101 hm
    omega
  unfold parseInteger
  rw [readSlice_found hno (by omega)]
  simp only [ParseInt_natText_range n h1 h2, ParseUint_natText n h2]

theorem ReadSlice_not_found (size : Nat) (delim : Nat) (t rest : List Nat)
    (h1 : delim ∉ t) (h2 : size ≤ t.length) :
    ∃ data e u1, ReadSlice size delim (t ++ rest) = (data, some e, u1) := by
  unfold ReadSlice
  have htake : (t ++ rest).take size = t.take size := by
    rw [List.take_append_of_le_length h2]
  have hno : delim ∉ t.take size := fun hm => h1 (List.mem_of_mem_take hm)
  rw [htake, Reader.IndexByte_none hno]
  simp only
  split
  · exact ⟨_, _, _, rfl⟩
  · exact ⟨_, _, _, rfl⟩

theorem parseInteger_bad (pf : List Nat → Option Float64) (size : Nat) (t rest : List Nat)
    (ht : 101 ∉ t) (hi : (ParseInt t).toOption = none) (hu : (ParseUint t).toOption = none)
    (hf : pf t = none) (build next : Nat) :
    ∃ e u1, parseInteger pf size (t ++ 101 :: rest) build next = (.error e, u1, [], next) ∧
      (t.length < size → e = .badInteger) := by
  unfold parseInteger
  by_cases hl : t.length < size
  · rw [readSlice_found ht hl]
    simp only
    cases hpi : ParseInt t with
    | ok i => rw [hpi] at hi; simp [Except.toOption] at hi
    | error e1 =>
      simp only
      cases hpu : ParseUint t with
      | ok v => rw [hpu] at hu; simp [Except.toOption] at hu
      | error e2 =>
        simp only [hf]
        exact ⟨_, _, rfl, fun _ => rfl⟩
  · obtain ⟨data, e, u1, he⟩ := ReadSlice_not_found size 101 t (101 :: rest) ht (by omega)
    unfold readSlice
    rw [he]
    exact ⟨e, u1, rfl, fun h => absurd h hl⟩

end Stream

/-- C4 (amended): for every `n` in the signed 64-bit range, on the input
`'i'`, the decimal text of `n`, `'e'`, read through a reader whose buffer
holds at least 21 bytes (the longest such literal and its delimiter),
`parseFromReader` returns no error and its builder calls are exactly
`Int64(n)` and the final `Flush`. -/
theorem C4_int64_literal (pf : List Nat → Option Float64) (n : Int) (h1 : -2 ^ 63 ≤ n)
    (h2 : n < 2 ^ 63) (r : Reader) (hr : r.WF) (hsz : 21 ≤ r.size)
    (hu : r.unread = 105 :: intText n ++ [101]) (fuel build next : Nat) (hf : 0 < fuel) :
    ∃ r1, parseFromReader pf fuel r build next =
        some (.ok (), r1, [(build, .Int64 n), (build, .Flush)], next) ∧ r1.unread = [] := by
  obtain ⟨f, rfl⟩ : ∃ f, fuel = f + 1 := ⟨fuel - 1, by omega⟩
  have hs : Stream.parseFromReader pf r.size (f + 1) r.unread build next =
      some (.ok (), [], [(build, .Int64 n), (build, .Flush)], next) := by
    rw [hu, List.cons_append, Stream.parse_integer,
      Stream.parseInteger_int64 pf n h1 h2 hsz]
    rfl
  obtain ⟨r1, e1, _, e3, _⟩ := parseFromReader_of_stream hr hs
  exact ⟨r1, e1, e3⟩

theorem C4_int64_literal_witness :
    (-2 ^ 63 ≤ (42 : Int)) ∧ ((42 : Int) < 2 ^ 63) ∧ (Reader.new 4096 [bytes "i42e"]).WF ∧
    21 ≤ (Reader.new 4096 [bytes "i42e"]).size ∧
    (Reader.new 4096 [bytes "i42e"]).unread = 105 :: intText 42 ++ [101] ∧
    ∃ r1, parseFromReader (fun _ => none) 1 (Reader.new 4096 [bytes "i42e"]) 0 1 =
        some (.ok (), r1, [(0, .Int64 42), (0, .Flush)], 1) ∧ r1.unread = [] :=
  ⟨by decide, by decide, by decide, by decide, by decide,
    C4_int64_literal (fun _ => none) 42 (by decide) (by decide) (Reader.new 4096 [bytes "i42e"])
      (by decide) (by decide) (by decide) 1 0 1 (by decide)⟩

/-- C5 (amended): for every `n` with `2^63 ≤ n ≤ 2^64 - 1`, on the input
`'i'`, the unsigned decimal text of `n`, `'e'`, read through a reader whose
buffer holds at least 21 bytes, `parseFromReader` returns no error and its
builder calls are exactly `Uint64(n)` and the final `Flush`: the signed parse
fails, the unsigned parse is tried next and succeeds, the floating-point parse
(whatever it would answer) is never consulted. -/
theorem C5_uint64_literal (pf : List Nat → Option Float64) (n : Nat) (h1 : 2 ^ 63 ≤ n)
    (h2 : n ≤ 2 ^ 64 - 1) (r : Reader) (hr : r.WF) (hsz : 21 ≤ r.size)
    (hu : r.unread = 105 :: natText n ++ [101]) (fuel build next : Nat) (hf : 0 < fuel) :
    ∃ r1, parseFromReader pf fuel r build next =
        some (.ok (), r1, [(build, .Uint64 n), (build, .Flush)], next) ∧ r1.unread = [] := by
  obtain ⟨f, rfl⟩ : ∃ f, fuel = f + 1 := ⟨fuel - 1, by omega⟩
  have hs : Stream.parseFromReader pf r.size (f + 1) r.unread build next =
      some (.ok (), [], [(build, .Uint64 n), (build, .Flush)], next) := by
    rw [hu, List.cons_append, Stream.parse_integer,
      Stream.parseInteger_uint64 pf n h1 h2 hsz]
    rfl
  obtain ⟨r1, e1, _, e3, _⟩ := parseFromReader_of_stream hr hs
  exact ⟨r1, e1, e3⟩

theorem C5_uint64_literal_witness :
    (2 ^ 63 ≤ 18446744073709551615) ∧ (18446744073709551615 ≤ 2 ^ 64 - 1) ∧
    (Reader.new 4096 [bytes "i18446744073709551615e"]).WF ∧
    21 ≤ (Reader.new 4096 [bytes "i18446744073709551615e"]).size ∧
    (Reader.new 4096 [bytes "i18446744073709551615e"]).unread =
      105 :: natText 18446744073709551615 ++ [101] ∧
    ∃ r1, parseFromReader (fun _ => some 0) 1
        (Reader.new 4096 [bytes "i18446744073709551615e"]) 0 1 =
        some (.ok (), r1, [(0, .Uint64 18446744073709551615), (0, .Flush)], 1) ∧
      r1.unread = [] :=
  ⟨by decide, by decide, by decide, by decide, by decide,
    C5_uint64_literal (fun _ => some 0) 18446744073709551615 (by decide) (by decide)
      (Reader.new 4096 [bytes "i18446744073709551615e"])
      (by decide) (by decide) (by decide) 1 0 1 (by decide)⟩

/-- C6: for every literal text `t` (no `'e'` in it) that the signed parse,
the unsigned parse and the floating-point parse all reject, on the input
`'i'`, `t`, `'e'` (whatever follows) `parseFromReader` returns an error and
its only builder call is the final `Flush`: no `Int64`, `Uint64` or `Float64`
call is made. When `t` fits the reader's buffer the error is the one of
`errors.New("bad integer")`. -/
theorem C6_bad_integer_literal (pf : List Nat → Option Float64) (t rest : List Nat)
    (ht : 101 ∉ t) (hi : (ParseInt t).toOption = none) (hu : (ParseUint t).toOption = none)
    (hf : pf t = none) (r : Reader) (hr : r.WF) (hur : r.unread = 105 :: t ++ 101 :: rest)
    (fuel build next : Nat) (hfuel : 0 < fuel) :
    ∃ e r1, parseFromReader pf fuel r build next =
        some (.error e, r1, [(build, .Flush)], next) ∧
      (t.length < r.size → e = .badInteger) := by
  obtain ⟨f, rfl⟩ : ∃ f, fuel = f + 1 := ⟨fuel - 1, by omega⟩
  obtain ⟨e, u1, he, hb⟩ := Stream.parseInteger_bad pf r.size t rest ht hi hu hf build next
  have hs : Stream.parseFromReader pf r.size (f + 1) r.unread build next =
      some (.error e, u1, [(build, .Flush)], next) := by
    rw [hur, List.cons_append, Stream.parse_integer, he]
    rfl
  obtain ⟨r1, e1, _, _, _⟩ := parseFromReader_of_stream hr hs
  exact ⟨e, r1, e1, hb⟩

theorem C6_bad_integer_literal_witness :
    101 ∉ bytes "1.5x" ∧ (ParseInt (bytes "1.5x")).toOption = none ∧
    (ParseUint (bytes "1.5x")).toOption = none ∧
    (Reader.new 4096 [bytes "i1.5xe"]).WF ∧
    (Reader.new 4096 [bytes "i1.5xe"]).unread = 105 :: bytes "1.5x" ++ 101 :: [] ∧
    ∃ e r1, parseFromReader (fun _ => none) 1 (Reader.new 4096 [bytes "i1.5xe"]) 0 1 =
        some (.error e, r1, [(0, .Flush)], 1) ∧
      ((bytes "1.5x").length < (Reader.new 4096 [bytes "i1.5xe"]).size → e = .badInteger) :=
  ⟨by decide, by decide, by decide, by decide, by decide,
    C6_bad_integer_literal (fun _ => none) (bytes "1.5x") [] (by decide) (by decide)
      (by decide) rfl (Reader.new 4096 [bytes "i1.5xe"]) (by decide) (by decide) 1 0 1
      (by decide)⟩

/-- The empty literal and the literal `"-"` are rejected by the signed and by
the unsigned parse. -/
theorem ParseInt_rejects_empty_and_minus :
    (ParseInt []).toOption = none ∧ (ParseUint []).toOption = none ∧
    (ParseInt (bytes "-")).toOption = none ∧ (ParseUint (bytes "-")).toOption = none := by
  decide

/-- The inputs `"ie"` and `"i-e"`, with a floating-point parse that rejects
them, end in the error of `errors.New("bad integer")` after the single
`Flush`. -/
theorem bad_integer_empty_and_minus :
    (parseFromReader (fun _ => none) 1 (Reader.new 4096 [bytes "ie"]) 0 1).map absRun =
      some (.error .badInteger, [], [(0, .Flush)], 1) ∧
    (parseFromReader (fun _ => none) 1 (Reader.new 4096 [bytes "i-e"]) 0 1).map absRun =
      some (.error .badInteger, [], [(0, .Flush)], 1) :=
  ⟨by decide, by decide⟩

/-- C4 as stated fails at `"i-9223372036854775808e"` read through a reader
with the smallest buffer `bufio` allocates (16 bytes): `-2^63` is in the
signed 64-bit range, but its literal does not fit the buffer before the `'e'`,
`ReadSlice` fails with `bufio.ErrBufferFull`, and `parseFromReader` returns
that error with `Flush` as its only call: no `Int64` call is made. -/
theorem C4_counterexample_small_buffer :
    (-2 ^ 63 ≤ (-9223372036854775808 : Int)) ∧ ((-9223372036854775808 : Int) < 2 ^ 63) ∧
    (Reader.new 16 [bytes "i-9223372036854775808e"]).WF ∧
    (Reader.new 16 [bytes "i-9223372036854775808e"]).unread =
      105 :: intText (-9223372036854775808) ++ [101] ∧
    (parseFromReader (fun _ => none) 1 (Reader.new 16 [bytes "i-9223372036854775808e"])
        0 1).map absRun =
      some (.error .ErrBufferFull, bytes "5808e", [(0, .Flush)], 1) :=
  ⟨by decide, by decide, by decide, by decide, by decide⟩

/-- C5 as stated fails at `"i18446744073709551615e"` read through a reader
with the smallest buffer `bufio` allocates (16 bytes): the literal of
`2^64 - 1` has 20 digits and does not fit the buffer before the `'e'`, so
`ReadSlice` fails with `bufio.ErrBufferFull` before any parse is tried, and
`parseFromReader` returns that error with `Flush` as its only call: no
`Uint64` call is made. -/
theorem C5_counterexample_small_buffer :
    (2 ^ 63 ≤ 18446744073709551615) ∧ (18446744073709551615 ≤ 2 ^ 64 - 1) ∧
    (Reader.new 16 [bytes "i18446744073709551615e"]).WF ∧
    (Reader.new 16 [bytes "i18446744073709551615e"]).unread =
      105 :: natText 18446744073709551615 ++ [101] ∧
    (parseFromReader (fun _ => some 0) 1 (Reader.new 16 [bytes "i18446744073709551615e"])
        0 1).map absRun =
      some (.error .ErrBufferFull, bytes "1615e", [(0, .Flush)], 1) :=
  ⟨by decide, by decide, by decide, by decide, by decide⟩

theorem strEnc_head (s : List Nat) : ∃ c t, strEnc s = c :: t ∧ 48 ≤ c ∧ c ≤ 57 := by
  obtain ⟨c, t, h, h1, h2⟩ := natText_head s.length
  exact ⟨c, t ++ 58 :: s, by simp [strEnc, h], h1, h2⟩

theorem Value.enc_head (v : Value) : ∃ c t, v.enc = c :: t ∧ c ≠ 101 := by
  cases v with
  | int n => exact ⟨105, intText n ++ [101], by simp [Value.enc], by decide⟩
  | str s =>
    obtain ⟨c, t, h, h1, h2⟩ := strEnc_head s
    exact ⟨c, t, by simp [Value.enc, h], by omega⟩
  | list xs => exact ⟨108, xs.enc, by simp [Value.enc], by decide⟩
  | dict kvs => exact ⟨100, kvs.enc, by simp [Value.enc], by decide⟩

namespace Stream

theorem decodeString_strEnc {size : Nat} (s t : List Nat) (hs : s.length ≤ maxAlloc)
    (hsz : 21 ≤ size) : decodeString size (strEnc s ++ t) = (.ok s, t) := by
  have hma : maxAlloc = 281474976710656 := by decide
  have hl := natText_length 19 s.length (by rw [hma] at hs; omega)
  have hno : 58 ∉ natText s.length := fun hm => by
    have := natText_digits _ 58 hm
    omega
  have hrs : readSlice size (strEnc s ++ t) 58 = (.ok (natText s.length), s ++ t) := by
    have : strEnc s ++ t = natText s.length ++ 58 :: (s ++ t) := by simp [strEnc]
    rw [this, readSlice_found hno (by omega)]
  have hpi := ParseInt_natText s.length (by rw [hma] at hs; omega)
  unfold decodeString decodeInt64
  rw [hrs]
  simp only [hpi]
  have hnn : ¬ ((s.length : Int) < 0) := by omega
  simp only [hnn, if_false, Int.toNat_ofNat]
  by_cases hp : s.length ≤ size ∧ s.length ≤ (s ++ t).length
  · simp only [hp, and_self, if_true]
    simp
  · have hm : ¬ maxAlloc < s.length := by omega
    simp only [hp, hm, if_false]
    unfold readFull
    have : s.length ≤ (s ++ t).length := by simp
    simp only [this, if_true]
    simp

theorem parse_digit (pf : List Nat → Option Float64) (size f : Nat) (c : Nat) (u : List Nat)
    (build next : Nat) (h1 : 48 ≤ c) (h2 : c ≤ 57) :
    parseFromReader pf size (f + 1) (c :: u) build next =
      exit build (some (parseString size (c :: u) build next)) := by
  simp [parseFromReader, dispatch, h1, h2]

theorem parse_list (pf : List Nat → Option Float64) (size f : Nat) (u : List Nat)
    (build next : Nat) :
    parseFromReader pf size (f + 1) (108 :: u) build next =
      exit build
        (match listLoop (parseFromReader pf size f) build f u 0 next with
        | none => none
        | some (res, u2, evs, next2) => some (res, u2, (build, .Array) :: evs, next2)) := by
  simp [parseFromReader, dispatch]

theorem parse_dict (pf : List Nat → Option Float64) (size f : Nat) (u : List Nat)
    (build next : Nat) :
    parseFromReader pf size (f + 1) (100 :: u) build next =
      exit build
        (match dictLoop size (parseFromReader pf size f) build f u next with
        | none => none
        | some (res, u2, evs, next2) => some (res, u2, (build, .Map) :: evs, next2)) := by
  simp [parseFromReader, dispatch]

end Stream

theorem Value.enc_length_pos (v : Value) : 0 < v.enc.length := by
  obtain ⟨c, t, h, _⟩ := v.enc_head
  rw [h]; simp

theorem ValueList.items_enc_length_pos (xs : ValueList) : 0 < xs.enc.length := by
  cases xs with
  | nil => simp [ValueList.enc]
  | cons v vs =>
    have := v.enc_length_pos
    simp only [ValueList.enc, List.length_append]
    omega

theorem ValueDict.pairs_enc_length_pos (kvs : ValueDict) : 0 < kvs.enc.length := by
  cases kvs with
  | nil => simp [ValueDict.enc]
  | cons k v vs =>
    have := v.enc_length_pos
    simp only [ValueDict.enc, List.length_append]
    omega

mutual
theorem Stream.parse_enc (pf : List Nat → Option Float64) (size : Nat) (hsz : 21 ≤ size) :
    (v : Value) → ∀ (t : List Nat) (f b n : Nat), v.valid = true → v.enc.length ≤ f →
      Stream.parseFromReader pf size f (v.enc ++ t) b n =
        some (.ok (), t, v.calls b n, n + v.subs)
  | .int n0 => by
    intro t f b n hv hf
    simp only [Value.valid, Bool.and_eq_true, decide_eq_true_eq] at hv
    obtain ⟨f1, rfl⟩ : ∃ f1, f = f1 + 1 := ⟨f - 1, by
      have := (Value.int n0).enc_length_pos; omega⟩
    simp only [Value.enc, Value.calls, Value.subs, List.cons_append, List.append_assoc,
      List.nil_append]
    rw [Stream.parse_integer, Stream.parseInteger_int64 pf n0 hv.1 hv.2 hsz]
    rfl
  | .str s => by
    intro t f b n hv hf
    simp only [Value.valid, decide_eq_true_eq] at hv
    obtain ⟨f1, rfl⟩ : ∃ f1, f = f1 + 1 := ⟨f - 1, by
      have := (Value.str s).enc_length_pos; omega⟩
    obtain ⟨c, t1, hc, h1, h2⟩ := strEnc_head s
    have hd := Stream.decodeString_strEnc s t hv hsz
    simp only [Value.enc, Value.calls, Value.subs]
    rw [hc] at hd ⊢
    rw [List.cons_append] at hd ⊢
    rw [Stream.parse_digit pf size f1 c _ b n h1 h2]
    unfold Stream.parseString
    rw [hd]
    rfl
  | .list xs => by
    intro t f b n hv hf
    simp only [Value.valid] at hv
    simp only [Value.enc, List.length_cons] at hf
    obtain ⟨f1, rfl⟩ : ∃ f1, f = f1 + 1 := ⟨f - 1, by omega⟩
    simp only [Value.enc, Value.calls, Value.subs, List.cons_append]
    rw [Stream.parse_list,
      Stream.listLoop_enc pf size hsz xs t f1 f1 b 0 n hv (by omega) (by omega)]
    rfl
  | .dict kvs => by
    intro t f b n hv hf
    simp only [Value.valid] at hv
    simp only [Value.enc, List.length_cons] at hf
    obtain ⟨f1, rfl⟩ : ∃ f1, f = f1 + 1 := ⟨f - 1, by omega⟩
    simp only [Value.enc, Value.calls, Value.subs, List.cons_append]
    rw [Stream.parse_dict,
      Stream.dictLoop_enc pf size hsz kvs t f1 f1 b n hv (by omega) (by omega)]
    rfl
theorem Stream.listLoop_enc (pf : List Nat → Option Float64) (size : Nat) (hsz : 21 ≤ size) :
    (xs : ValueList) → ∀ (t : List Nat) (f k b i n : Nat), xs.valid = true →
      xs.enc.length ≤ f → xs.enc.length ≤ k →
      Stream.listLoop (Stream.parseFromReader pf size f) b k (xs.enc ++ t) i n =
        some (.ok (), t, xs.calls b i n, n + xs.subs)
  | .nil => by
    intro t f k b i n _ _ hk
    simp only [ValueList.enc, List.length_singleton] at hk
    obtain ⟨k1, rfl⟩ : ∃ k1, k = k1 + 1 := ⟨k - 1, by omega⟩
    simp [ValueList.enc, ValueList.calls, ValueList.subs, Stream.listLoop]
  | .cons v vs => by
    intro t f k b i n hv hf hk
    simp only [ValueList.valid, Bool.and_eq_true] at hv
    simp only [ValueList.enc, List.length_append] at hf hk
    have hvp := v.enc_length_pos
    have hvsp := vs.items_enc_length_pos
    obtain ⟨k1, rfl⟩ : ∃ k1, k = k1 + 1 := ⟨k - 1, by omega⟩
    obtain ⟨c, t1, hc, hne⟩ := v.enc_head
    have hp := Stream.parse_enc pf size hsz v (vs.enc ++ t) f n (n + 1) hv.1 (by omega)
    have hl := Stream.listLoop_enc pf size hsz vs t f k1 b (i + 1) (n + 1 + v.subs) hv.2
      (by omega) (by omega)
    simp only [ValueList.enc, ValueList.calls, ValueList.subs, List.append_assoc]
    rw [hc] at hp ⊢
    rw [List.cons_append] at hp ⊢
    simp only [Stream.listLoop, hne, if_false, hp, hl]
    simp [Nat.add_assoc, Nat.add_comm, Nat.add_left_comm]
theorem Stream.dictLoop_enc (pf : List Nat → Option Float64) (size : Nat) (hsz : 21 ≤ size) :
    (kvs : ValueDict) → ∀ (t : List Nat) (f k b n : Nat), kvs.valid = true →
      kvs.enc.length ≤ f → kvs.enc.length ≤ k →
      Stream.dictLoop size (Stream.parseFromReader pf size f) b k (kvs.enc ++ t) n =
        some (.ok (), t, kvs.calls b n, n + kvs.subs)
  | .nil => by
    intro t f k b n _ _ hk
    simp only [ValueDict.enc, List.length_singleton] at hk
    obtain ⟨k1, rfl⟩ : ∃ k1, k = k1 + 1 := ⟨k - 1, by omega⟩
    simp [ValueDict.enc, ValueDict.calls, ValueDict.subs, Stream.dictLoop]
  | .cons key v vs => by
    intro t f k b n hv hf hk
    simp only [ValueDict.valid, Bool.and_eq_true, decide_eq_true_eq] at hv
    simp only [ValueDict.enc, List.length_append] at hf hk
    have hvp := v.enc_length_pos
    have hvsp := vs.pairs_enc_length_pos
    obtain ⟨k1, rfl⟩ : ∃ k1, k = k1 + 1 := ⟨k - 1, by omega⟩
    obtain ⟨c, t1, hc, h1, h2⟩ := strEnc_head key
    have hne : c ≠ 101 := by omega
    have hd := Stream.decodeString_strEnc key (v.enc ++ (vs.enc ++ t)) hv.1.1 hsz
    have hp := Stream.parse_enc pf size hsz v (vs.enc ++ t) f n (n + 1) hv.1.2 (by omega)
    have hl := Stream.dictLoop_enc pf size hsz vs t f k1 b (n + 1 + v.subs) hv.2
      (by omega) (by omega)
    simp only [ValueDict.enc, ValueDict.calls, ValueDict.subs, List.append_assoc]
    rw [hc] at hd ⊢
    rw [List.cons_append] at hd ⊢
    simp only [Stream.dictLoop, hne, if_false, hd, hp, hl]
    simp [Nat.add_assoc, Nat.add_comm, Nat.add_left_comm]
end

namespace Stream

theorem exit_eq_some {build : Nat} {x : Option SRun} {run : SRun} (h : exit build x = some run) :
    ∃ y, x = some y := by
  cases x with
  | none => simp [exit] at h
  | some y => exact ⟨y, rfl⟩

theorem listLoop_mono {P Q : List Nat → Nat → Nat → Option SRun}
    (hP : ∀ u b n run, P u b n = some run → Q u b n = some run) (build : Nat) (k : Nat) :
    ∀ (u : List Nat) (i n : Nat) (run : SRun), listLoop P build k u i n = some run →
      listLoop Q build (k + 1) u i n = some run := by
  induction k with
  | zero => intro u i n run h; simp [listLoop] at h
  | succ k ih =>
    intro u i n run h
    cases u with
    | nil =>
      simp only [listLoop] at h ⊢
      exact h
    | cons c t =>
      by_cases hc : c = 101
      · simp only [listLoop, hc, if_true] at h ⊢
        exact h
      · rw [listLoop] at h ⊢
        simp only [hc, if_false] at h ⊢
        cases hp : P (c :: t) n (n + 1) with
        | none => rw [hp] at h; simp at h
        | some x =>
          obtain ⟨res, u3, evs, n3⟩ := x
          rw [hp] at h
          rw [hP _ _ _ _ hp]
          cases res with
          | ok a =>
            cases a
            simp only at h ⊢
            cases hl : listLoop P build k u3 (i + 1) n3 with
            | none => rw [hl] at h; simp at h
            | some y =>
              rw [hl] at h
              rw [ih _ _ _ _ hl]
              exact h
          | error e => exact h
          | panic => exact h

theorem dictLoop_mono {size : Nat} {P Q : List Nat → Nat → Nat → Option SRun}
    (hP : ∀ u b n run, P u b n = some run → Q u b n = some run) (build : Nat) (k : Nat) :
    ∀ (u : List Nat) (n : Nat) (run : SRun), dictLoop size P build k u n = some run →
      dictLoop size Q build (k + 1) u n = some run := by
  induction k with
  | zero => intro u n run h; simp [dictLoop] at h
  | succ k ih =>
    intro u n run h
    cases u with
    | nil =>
      simp only [dictLoop] at h ⊢
      exact h
    | cons c t =>
      by_cases hc : c = 101
      · simp only [dictLoop, hc, if_true] at h ⊢
        exact h
      · rw [dictLoop] at h ⊢
        simp only [hc, if_false] at h ⊢
        generalize decodeString size (c :: t) = ds at h ⊢
        obtain ⟨dres, u3⟩ := ds
        cases dres with
        | error e => exact h
        | panic => exact h
        | ok key =>
          simp only at h ⊢
          cases hp : P u3 n (n + 1) with
          | none => rw [hp] at h; simp at h
          | some x =>
            obtain ⟨res, u4, evs, n4⟩ := x
            rw [hp] at h
            rw [hP _ _ _ _ hp]
            cases res with
            | ok a =>
              cases a
              simp only at h ⊢
              cases hl : dictLoop size P build k u4 n4 with
              | none => rw [hl] at h; simp at h
              | some y =>
                rw [hl] at h
                rw [ih _ _ _ hl]
                exact h
            | error e => exact h
            | panic => exact h

theorem dispatch_mono (pf : List Nat → Option Float64) (size : Nat)
    {P Q : List Nat → Nat → Nat → Option SRun}
    (hP : ∀ u b n run, P u b n = some run → Q u b n = some run) (k : Nat) (u : List Nat)
    (b n : Nat) (y : SRun) (hy : dispatch pf size P k u b n = some y) :
    dispatch pf size Q (k + 1) u b n = some y := by
  unfold dispatch at hy ⊢
  cases u with
  | nil => exact hy
  | cons c t =>
    simp only at hy ⊢
    by_cases hd : 48 ≤ c ∧ c ≤ 57
    · simp only [hd, and_self, if_true] at hy ⊢
      exact hy
    · simp only [hd, if_false] at hy ⊢
      by_cases hi : c = 105
      · simp only [hi, if_true] at hy ⊢
        exact hy
      · simp only [hi, if_false] at hy ⊢
        by_cases hdd : c = 100
        · simp only [hdd, if_true] at hy ⊢
          cases hl : dictLoop size P b k t n with
          | none => rw [hl] at hy; simp at hy
          | some z =>
            rw [hl] at hy
            rw [dictLoop_mono hP b k _ _ _ hl]
            exact hy
        · simp only [hdd, if_false] at hy ⊢
          by_cases hll : c = 108
          · simp only [hll, if_true] at hy ⊢
            cases hl : listLoop P b k t 0 n with
            | none => rw [hl] at hy; simp at hy
            | some z =>
              rw [hl] at hy
              rw [listLoop_mono hP b k _ _ _ _ hl]
              exact hy
          · simp only [hll, if_false] at hy ⊢
            exact hy

theorem parse_mono_succ (pf : List Nat → Option Float64) (size : Nat) (f : Nat) :
    ∀ (u : List Nat) (b n : Nat) (run : SRun), parseFromReader pf size f u b n = some run →
      parseFromReader pf size (f + 1) u b n = some run := by
  induction f with
  | zero => intro u b n run h; simp [parseFromReader] at h
  | succ f ih =>
    intro u b n run h
    rw [parseFromReader] at h
    rw [parseFromReader]
    obtain ⟨y, hy⟩ := exit_eq_some h
    rw [hy] at h
    rw [dispatch_mono pf size ih f u b n y hy]
    exact h

theorem parse_mono (pf : List Nat → Option Float64) (size : Nat) {f g : Nat} (hfg : f ≤ g)
    {u : List Nat} {b n : Nat} {run : SRun} (h : parseFromReader pf size f u b n = some run) :
    parseFromReader pf size g u b n = some run := by
  induction hfg with
  | refl => exact h
  | step _ ih => exact parse_mono_succ pf size _ _ _ _ _ ih

theorem ReadSlice_length (size delim : Nat) (u : List Nat) :
    (ReadSlice size delim u).2.2.length ≤ u.length ∧
    ((ReadSlice size delim u).2.1 = none → (ReadSlice size delim u).2.2.length < u.length) := by
  unfold ReadSlice
  cases hi : Reader.IndexByte (u.take size) delim with
  | some i =>
    have := Reader.IndexByte_lt hi
    simp only [List.length_take] at this
    simp only [List.length_drop]
    constructor
    · omega
    · intro _; omega
  | none =>
    simp only
    split
    · simp
    · simp only [List.length_drop]
      constructor
      · omega
      · intro h; cases h

theorem readSlice_length (size : Nat) (u : List Nat) (delim : Nat) :
    (readSlice size u delim).2.length ≤ u.length ∧
    (∀ x, (readSlice size u delim).1 = .ok x → (readSlice size u delim).2.length < u.length) := by
  have h := ReadSlice_length size delim u
  unfold readSlice
  generalize ReadSlice size delim u = rs at h
  obtain ⟨data, e, u1⟩ := rs
  simp only at h
  cases e with
  | some e => exact ⟨h.1, fun x hx => by cases hx⟩
  | none =>
    simp only
    split
    · exact ⟨h.1, fun _ _ => h.2 rfl⟩
    · exact ⟨h.1, fun _ _ => h.2 rfl⟩

theorem readFull_length (n : Nat) (u : List Nat) : (readFull n u).2.2.length ≤ u.length := by
  unfold readFull
  split
  · simp only [List.length_drop]; omega
  · split <;> simp

theorem decodeString_length (size : Nat) (u : List Nat) :
    (decodeString size u).2.length ≤ u.length ∧
    (∀ x, (decodeString size u).1 = .ok x → (decodeString size u).2.length < u.length) := by
  have h := readSlice_length size u 58
  unfold decodeString decodeInt64
  generalize readSlice size u 58 = rs at h
  obtain ⟨x, u1⟩ := rs
  simp only at h
  cases x with
  | error e => exact ⟨h.1, fun x hx => by cases hx⟩
  | panic => exact ⟨h.1, fun x hx => by cases hx⟩
  | ok buf =>
    have hlt := h.2 buf rfl
    simp only
    cases ParseInt buf with
    | error e => exact ⟨h.1, fun x hx => by cases hx⟩
    | ok len =>
      simp only
      split
      · exact ⟨h.1, fun x hx => by cases hx⟩
      · split
        · simp only [List.length_drop]
          exact ⟨by omega, fun _ _ => by omega⟩
        · split
          · exact ⟨h.1, fun x hx => by cases hx⟩
          · have hr := readFull_length len.toNat u1
            generalize readFull len.toNat u1 = rf at hr
            obtain ⟨d, e, u2⟩ := rf
            simp only at hr
            cases e with
            | some e => exact ⟨by simp only; omega, fun x hx => by cases hx⟩
            | none => exact ⟨by simp only; omega, fun _ _ => by simp only; omega⟩

theorem parseString_length (size : Nat) (u : List Nat) (b n : Nat) :
    (parseString size u b n).2.1.length ≤ u.length ∧
    ((parseString size u b n).1 = .ok () → (parseString size u b n).2.1.length < u.length) := by
  have h := decodeString_length size u
  unfold parseString
  generalize decodeString size u = ds at h
  obtain ⟨x, u1⟩ := ds
  simp only at h
  cases x with
  | ok s => exact ⟨h.1, fun _ => h.2 s rfl⟩
  | error e => exact ⟨h.1, fun hx => by cases hx⟩
  | panic => exact ⟨h.1, fun hx => by cases hx⟩

theorem parseInteger_length (pf : List Nat → Option Float64) (size : Nat) (u : List Nat)
    (b n : Nat) : (parseInteger pf size u b n).2.1.length ≤ u.length := by
  have h := readSlice_length size u 101
  unfold parseInteger
  generalize readSlice size u 101 = rs at h
  obtain ⟨x, u1⟩ := rs
  simp only at h
  cases x with
  | error e => exact h.1
  | panic => exact h.1
  | ok str =>
    simp only
    cases ParseInt str with
    | ok i => exact h.1
    | error _ =>
      simp only
      cases ParseUint str with
      | ok v => exact h.1
      | error _ =>
        simp only
        cases pf str with
        | some f => exact h.1
        | none => exact h.1

theorem listLoop_total {P : List Nat → Nat → Nat → Option SRun} (build : Nat) (k : Nat) :
    ∀ (u : List Nat) (i n : Nat), u.length < k →
      (∀ u1 b1 n1, u1.length ≤ u.length → Consumes (P u1 b1 n1) u1) →
      Consumes (listLoop P build k u i n) u := by
  induction k with
  | zero => intro u i n h; omega
  | succ k ih =>
    intro u i n hk hP
    cases u with
    | nil => exact ⟨_, _, _, _, rfl, by simp, fun h => by cases h⟩
    | cons c t =>
      by_cases hc : c = 101
      · simp only [listLoop, hc, if_true]
        exact ⟨_, _, _, _, rfl, by simp, fun _ => by simp⟩
      · obtain ⟨res, u3, evs, n3, hp, h1, h2⟩ := hP (c :: t) n (n + 1) (Nat.le_refl _)
        rw [listLoop]
        simp only [hc, if_false, hp]
        cases res with
        | ok a =>
          cases a
          have hlt := h2 rfl
          simp only [List.length_cons] at hlt hk
          obtain ⟨res4, u4, evs4, n4, hl, h3, h4⟩ := ih u3 (i + 1) n3 (by omega)
            (fun u1 b1 n1 hu1 => hP u1 b1 n1 (by simp only [List.length_cons]; omega))
          simp only [hl]
          exact ⟨_, _, _, _, rfl, by simp only [List.length_cons]; omega,
            fun _ => by simp only [List.length_cons]; omega⟩
        | error e => exact ⟨_, _, _, _, rfl, h1, fun h => by cases h⟩
        | panic => exact ⟨_, _, _, _, rfl, h1, fun h => by cases h⟩

theorem dictLoop_total {size : Nat} {P : List Nat → Nat → Nat → Option SRun} (build : Nat)
    (k : Nat) : ∀ (u : List Nat) (n : Nat), u.length < k →
      (∀ u1 b1 n1, u1.length ≤ u.length → Consumes (P u1 b1 n1) u1) →
      Consumes (dictLoop size P build k u n) u := by
  induction k with
  | zero => intro u n h; omega
  | succ k ih =>
    intro u n hk hP
    cases u with
    | nil => exact ⟨_, _, _, _, rfl, by simp, fun h => by cases h⟩
    | cons c t =>
      by_cases hc : c = 101
      · simp only [dictLoop, hc, if_true]
        exact ⟨_, _, _, _, rfl, by simp, fun _ => by simp⟩
      · have hd := decodeString_length size (c :: t)
        rw [dictLoop]
        simp only [hc, if_false]
        generalize decodeString size (c :: t) = ds at hd
        obtain ⟨dres, u3⟩ := ds
        simp only at hd
        cases dres with
        | error e => exact ⟨_, _, _, _, rfl, hd.1, fun h => by cases h⟩
        | panic => exact ⟨_, _, _, _, rfl, hd.1, fun h => by cases h⟩
        | ok key =>
          have hd2 := hd.2 key rfl
          obtain ⟨res, u4, evs, n4, hp, h1, h2⟩ := hP u3 n (n + 1) hd.1
          simp only [hp]
          cases res with
          | ok a =>
            cases a
            have hlt := h2 rfl
            simp only [List.length_cons] at hd2 hk
            obtain ⟨res5, u5, evs5, n5, hl, h3, h4⟩ := ih u4 n4 (by omega)
              (fun u1 b1 n1 hu1 => hP u1 b1 n1 (by simp only [List.length_cons]; omega))
            simp only [hl]
            exact ⟨_, _, _, _, rfl, by simp only [List.length_cons]; omega,
              fun _ => by simp only [List.length_cons]; omega⟩
          | error e => exact ⟨_, _, _, _, rfl, by omega, fun h => by cases h⟩
          | panic => exact ⟨_, _, _, _, rfl, by omega, fun h => by cases h⟩

theorem exit_consumes {build : Nat} {u : List Nat} (res : Result Unit) (u1 : List Nat)
    (evs : List Event) (n1 : Nat) (h1 : u1.length < u.length) :
    Consumes (exit build (some (res, u1, evs, n1))) u := by
  cases res with
  | ok a => exact ⟨_, _, _, _, rfl, by omega, fun _ => by omega⟩
  | error e => exact ⟨_, _, _, _, rfl, by omega, fun _ => by omega⟩
  | panic => exact ⟨_, _, _, _, rfl, by omega, fun _ => by omega⟩

theorem parse_total (pf : List Nat → Option Float64) (size : Nat) (f : Nat) :
    ∀ (u : List Nat) (b n : Nat), u.length < f → Consumes (parseFromReader pf size f u b n) u := by
  induction f with
  | zero => intro u b n h; omega
  | succ f ih =>
    intro u b n hf
    rw [parseFromReader]
    unfold dispatch
    cases u with
    | nil => exact ⟨_, _, _, _, rfl, by simp, fun h => by cases h⟩
    | cons c t =>
      simp only
      simp only [List.length_cons] at hf
      by_cases hd : 48 ≤ c ∧ c ≤ 57
      · simp only [hd, and_self, if_true]
        have := parseString_length size (c :: t) b n
        generalize parseString size (c :: t) b n = ps at this
        obtain ⟨res, u1, evs, n1⟩ := ps
        simp only at this
        cases res with
        | ok a =>
          cases a
          exact ⟨_, _, _, _, rfl, this.1, fun _ => this.2 rfl⟩
        | error e => exact ⟨_, _, _, _, rfl, this.1, fun h => by cases h⟩
        | panic => exact ⟨_, _, _, _, rfl, this.1, fun h => by cases h⟩
      · simp only [hd, if_false]
        by_cases hi : c = 105
        · simp only [hi, if_true]
          have := parseInteger_length pf size t b n
          generalize parseInteger pf size t b n = ps at this
          obtain ⟨res, u1, evs, n1⟩ := ps
          simp only at this
          exact exit_consumes res u1 evs n1 (by simp only [List.length_cons]; omega)
        · simp only [hi, if_false]
          by_cases hdd : c = 100
          · simp only [hdd, if_true]
            obtain ⟨res, u1, evs, n1, hl, h1, _⟩ := @dictLoop_total size _ b f t n
              (by omega) (fun u1 b1 n1 hu1 => ih u1 b1 n1 (by omega))
            simp only [hl]
            exact exit_consumes res u1 _ n1 (by simp only [List.length_cons]; omega)
          · simp only [hdd, if_false]
            by_cases hll : c = 108
            · simp only [hll, if_true]
              obtain ⟨res, u1, evs, n1, hl, h1, _⟩ := listLoop_total b f t 0 n
                (by omega) (fun u1 b1 n1 hu1 => ih u1 b1 n1 (by omega))
              simp only [hl]
              exact exit_consumes res u1 _ n1 (by simp only [List.length_cons]; omega)
            · simp only [hll, if_false]
              exact exit_consumes _ t _ n (by simp)

theorem ReadSlice_frame {size delim : Nat} {u line u1 : List Nat}
    (h : ReadSlice size delim u = (line, none, u1)) (t : List Nat) :
    ReadSlice size delim (u ++ t) = (line, none, u1 ++ t) := by
  unfold ReadSlice at h ⊢
  cases hi : Reader.IndexByte (u.take size) delim with
  | none =>
    rw [hi] at h
    simp only at h
    split at h <;> simp at h
  | some i =>
    rw [hi] at h
    simp only [Prod.mk.injEq, true_and] at h
    have hlt := Reader.IndexByte_lt hi
    simp only [List.length_take] at hlt
    have htake : (u ++ t).take size = u.take size ++ t.take (size - u.length) :=
      List.take_append_eq_append_take
    rw [htake, Reader.IndexByte_append, hi]
    simp only
    rw [List.take_append_of_le_length (by omega), List.drop_append_of_le_length (by omega),
      h.1, h.2]

theorem readSlice_frame {size delim : Nat} {u x u1 : List Nat}
    (h : readSlice size u delim = (.ok x, u1)) (t : List Nat) :
    readSlice size (u ++ t) delim = (.ok x, u1 ++ t) := by
  unfold readSlice at h ⊢
  cases hr : ReadSlice size delim u with
  | mk line rest =>
    obtain ⟨e, u2⟩ := rest
    rw [hr] at h
    cases e with
    | some e => simp at h
    | none =>
      rw [ReadSlice_frame hr t]
      simp only at h ⊢
      split at h
      · rename_i hpos
        simp only [hpos, if_true]
        simp only [Prod.mk.injEq, Result.ok.injEq] at h
        rw [h.1, h.2]
      · simp at h

theorem decodeString_frame {size : Nat} {u s u1 : List Nat}
    (h : decodeString size u = (.ok s, u1)) (t : List Nat) :
    decodeString size (u ++ t) = (.ok s, u1 ++ t) := by
  unfold decodeString decodeInt64 at h ⊢
  cases hr : readSlice size u 58 with
  | mk x u2 =>
    rw [hr] at h
    cases x with
    | error e => simp at h
    | panic => simp at h
    | ok buf =>
      rw [readSlice_frame hr t]
      simp only at h ⊢
      cases hp : ParseInt buf with
      | error e => rw [hp] at h; simp at h
      | ok len =>
        rw [hp] at h
        simp only at h ⊢
        by_cases hneg : len < 0
        · simp [hneg] at h
        · simp only [hneg, if_false] at h ⊢
          by_cases hpk : len.toNat ≤ size ∧ len.toNat ≤ u2.length
          · have hpk2 : len.toNat ≤ size ∧ len.toNat ≤ (u2 ++ t).length := by
              simp only [List.length_append]; omega
            simp only [hpk, hpk2, and_self, if_true, Prod.mk.injEq, Result.ok.injEq] at h ⊢
            rw [List.take_append_of_le_length hpk.2, List.drop_append_of_le_length hpk.2,
              h.1, h.2]
            exact ⟨rfl, rfl⟩
          · simp only [hpk, if_false] at h
            by_cases hm : maxAlloc < len.toNat
            · simp [hm] at h
            · simp only [hm, if_false] at h
              unfold readFull at h
              by_cases hle : len.toNat ≤ u2.length
              · simp only [hle, if_true, Prod.mk.injEq, Result.ok.injEq] at h
                have hsz : ¬ len.toNat ≤ size := fun hh => hpk ⟨hh, hle⟩
                have hpk2 : ¬ (len.toNat ≤ size ∧ len.toNat ≤ (u2 ++ t).length) :=
                  fun hh => hsz hh.1
                have hle2 : len.toNat ≤ (u2 ++ t).length := by
                  simp only [List.length_append]; omega
                simp only [hpk2, hm, if_false]
                unfold readFull
                simp only [hle2, if_true]
                rw [List.take_append_of_le_length hle, List.drop_append_of_le_length hle,
                  h.1, h.2]
              · simp only [hle, if_false] at h
                by_cases h0 : 0 < u2.length <;> simp [h0] at h

theorem parseString_frame {size : Nat} {u u1 : List Nat} {b n : Nat} {evs : List Event}
    {n1 : Nat} (h : parseString size u b n = (.ok (), u1, evs, n1)) (t : List Nat) :
    parseString size (u ++ t) b n = (.ok (), u1 ++ t, evs, n1) := by
  unfold parseString at h ⊢
  cases hd : decodeString size u with
  | mk x u2 =>
    rw [hd] at h
    cases x with
    | error e => simp at h
    | panic => simp at h
    | ok s =>
      rw [decodeString_frame hd t]
      simp only [Prod.mk.injEq, true_and] at h ⊢
      exact ⟨by rw [h.1], h.2.1, h.2.2⟩

theorem parseInteger_frame {pf : List Nat → Option Float64} {size : Nat} {u u1 : List Nat}
    {b n : Nat} {evs : List Event} {n1 : Nat}
    (h : parseInteger pf size u b n = (.ok (), u1, evs, n1)) (t : List Nat) :
    parseInteger pf size (u ++ t) b n = (.ok (), u1 ++ t, evs, n1) := by
  unfold parseInteger at h ⊢
  cases hr : readSlice size u 101 with
  | mk x u2 =>
    rw [hr] at h
    cases x with
    | error e => simp at h
    | panic => simp at h
    | ok str =>
      rw [readSlice_frame hr t]
      simp only at h ⊢
      cases hpi : ParseInt str with
      | ok i =>
        rw [hpi] at h
        simp only [Prod.mk.injEq, true_and] at h ⊢
        exact ⟨by rw [h.1], h.2.1, h.2.2⟩
      | error _ =>
        rw [hpi] at h
        simp only at h ⊢
        cases hpu : ParseUint str with
        | ok v =>
          rw [hpu] at h
          simp only [Prod.mk.injEq, true_and] at h ⊢
          exact ⟨by rw [h.1], h.2.1, h.2.2⟩
        | error _ =>
          rw [hpu] at h
          simp only at h ⊢
          cases hpf : pf str with
          | some f =>
            rw [hpf] at h
            simp only [Prod.mk.injEq, true_and] at h ⊢
            exact ⟨by rw [h.1], h.2.1, h.2.2⟩
          | none => rw [hpf] at h; simp at h

theorem listLoop_frame {P : List Nat → Nat → Nat → Option SRun} (hP : Framed P) (build : Nat)
    (k : Nat) : ∀ (u : List Nat) (i n : Nat) (u1 : List Nat) (evs : List Event) (n1 : Nat),
      listLoop P build k u i n = some (.ok (), u1, evs, n1) →
      ∀ t, listLoop P build k (u ++ t) i n = some (.ok (), u1 ++ t, evs, n1) := by
  induction k with
  | zero => intro u i n u1 evs n1 h; simp [listLoop] at h
  | succ k ih =>
    intro u i n u1 evs n1 h t
    cases u with
    | nil => simp [listLoop] at h
    | cons c t0 =>
      rw [List.cons_append]
      by_cases hc : c = 101
      · simp only [listLoop, hc, if_true, Option.some.injEq, Prod.mk.injEq, true_and] at h ⊢
        exact ⟨by rw [h.1], h.2.1, h.2.2⟩
      · rw [listLoop] at h ⊢
        simp only [hc, if_false] at h ⊢
        cases hp : P (c :: t0) n (n + 1) with
        | none => rw [hp] at h; simp at h
        | some x =>
          obtain ⟨res, u3, evs3, n3⟩ := x
          rw [hp] at h
          cases res with
          | ok a =>
            cases a
            have := hP _ _ _ _ _ _ hp t
            rw [List.cons_append] at this
            rw [this]
            simp only at h ⊢
            cases hl : listLoop P build k u3 (i + 1) n3 with
            | none => rw [hl] at h; simp at h
            | some y =>
              obtain ⟨res4, u4, evs4, n4⟩ := y
              rw [hl] at h
              simp only [Option.some.injEq, Prod.mk.injEq] at h
              obtain ⟨h1, h2, h3, h4⟩ := h
              subst h1
              rw [ih _ _ _ _ _ _ hl t]
              simp only [Option.some.injEq, Prod.mk.injEq, true_and]
              exact ⟨by rw [h2], h3, h4⟩
          | error e => simp at h
          | panic => simp at h

theorem dictLoop_frame {size : Nat} {P : List Nat → Nat → Nat → Option SRun} (hP : Framed P)
    (build : Nat) (k : Nat) : ∀ (u : List Nat) (n : Nat) (u1 : List Nat) (evs : List Event)
      (n1 : Nat), dictLoop size P build k u n = some (.ok (), u1, evs, n1) →
      ∀ t, dictLoop size P build k (u ++ t) n = some (.ok (), u1 ++ t, evs, n1) := by
  induction k with
  | zero => intro u n u1 evs n1 h; simp [dictLoop] at h
  | succ k ih =>
    intro u n u1 evs n1 h t
    cases u with
    | nil => simp [dictLoop] at h
    | cons c t0 =>
      rw [List.cons_append]
      by_cases hc : c = 101
      · simp only [dictLoop, hc, if_true, Option.some.injEq, Prod.mk.injEq, true_and] at h ⊢
        exact ⟨by rw [h.1], h.2.1, h.2.2⟩
      · rw [dictLoop] at h ⊢
        simp only [hc, if_false] at h ⊢
        cases hd : decodeString size (c :: t0) with
        | mk dres u3 =>
          rw [hd] at h
          cases dres with
          | error e => simp at h
          | panic => simp at h
          | ok key =>
            have hdf := decodeString_frame hd t
            rw [List.cons_append] at hdf
            rw [hdf]
            simp only at h ⊢
            cases hp : P u3 n (n + 1) with
            | none => rw [hp] at h; simp at h
            | some x =>
              obtain ⟨res, u4, evs4, n4⟩ := x
              rw [hp] at h
              cases res with
              | ok a =>
                cases a
                rw [hP _ _ _ _ _ _ hp t]
                simp only at h ⊢
                cases hl : dictLoop size P build k u4 n4 with
                | none => rw [hl] at h; simp at h
                | some y =>
                  obtain ⟨res5, u5, evs5, n5⟩ := y
                  rw [hl] at h
                  simp only [Option.some.injEq, Prod.mk.injEq] at h
                  obtain ⟨h1, h2, h3, h4⟩ := h
                  subst h1
                  rw [ih _ _ _ _ _ hl t]
                  simp only [Option.some.injEq, Prod.mk.injEq, true_and]
                  exact ⟨by rw [h2], h3, h4⟩
              | error e => simp at h
              | panic => simp at h

theorem exit_ok {build : Nat} {x : Option SRun} {u1 : List Nat} {evs : List Event} {n1 : Nat}
    (h : exit build x = some (.ok (), u1, evs, n1)) :
    ∃ evs0, x = some (.ok (), u1, evs0, n1) ∧ evs = evs0 ++ [(build, .Flush)] := by
  cases x with
  | none => simp [exit] at h
  | some y =>
    obtain ⟨res, u2, evs2, n2⟩ := y
    cases res with
    | ok a =>
      simp only [exit, Option.some.injEq, Prod.mk.injEq, true_and] at h
      exact ⟨evs2, by rw [h.1, h.2.2], h.2.1.symm⟩
    | error e => simp [exit] at h
    | panic => simp [exit] at h

theorem dispatch_frame (pf : List Nat → Option Float64) (size : Nat)
    {P : List Nat → Nat → Nat → Option SRun} (hP : Framed P) (k : Nat) :
    Framed (dispatch pf size P k) := by
  intro u b n u1 evs n1 h t
  unfold dispatch at h ⊢
  cases u with
  | nil => simp at h
  | cons c t0 =>
    rw [List.cons_append]
    simp only at h ⊢
    by_cases hd : 48 ≤ c ∧ c ≤ 57
    · simp only [hd, and_self, if_true, Option.some.injEq] at h ⊢
      have := parseString_frame h t
      rw [List.cons_append] at this
      exact this
    · simp only [hd, if_false] at h ⊢
      by_cases hi : c = 105
      · simp only [hi, if_true, Option.some.injEq] at h ⊢
        exact parseInteger_frame h t
      · simp only [hi, if_false] at h ⊢
        by_cases hdd : c = 100
        · simp only [hdd, if_true] at h ⊢
          cases hl : dictLoop size P b k t0 n with
          | none => rw [hl] at h; simp at h
          | some y =>
            obtain ⟨res, u2, evs2, n2⟩ := y
            rw [hl] at h
            simp only [Option.some.injEq, Prod.mk.injEq] at h
            obtain ⟨h1, h2, h3, h4⟩ := h
            subst h1
            rw [dictLoop_frame hP b k _ _ _ _ _ hl t]
            simp only [Option.some.injEq, Prod.mk.injEq, true_and]
            exact ⟨by rw [h2], h3, h4⟩
        · simp only [hdd, if_false] at h ⊢
          by_cases hll : c = 108
          · simp only [hll, if_true] at h ⊢
            cases hl : listLoop P b k t0 0 n with
            | none => rw [hl] at h; simp at h
            | some y =>
              obtain ⟨res, u2, evs2, n2⟩ := y
              rw [hl] at h
              simp only [Option.some.injEq, Prod.mk.injEq] at h
              obtain ⟨h1, h2, h3, h4⟩ := h
              subst h1
              rw [listLoop_frame hP b k _ _ _ _ _ _ hl t]
              simp only [Option.some.injEq, Prod.mk.injEq, true_and]
              exact ⟨by rw [h2], h3, h4⟩
          · simp [hll] at h

theorem parse_frame (pf : List Nat → Option Float64) (size : Nat) (f : Nat) :
    Framed (parseFromReader pf size f) := by
  induction f with
  | zero => intro u b n u1 evs n1 h; simp [parseFromReader] at h
  | succ f ih =>
    intro u b n u1 evs n1 h t
    rw [parseFromReader] at h ⊢
    obtain ⟨evs0, hx, he⟩ := exit_ok h
    rw [dispatch_frame pf size ih f _ _ _ _ _ _ hx t, he]
    rfl

theorem listLoop_owned {P : List Nat → Nat → Nat → Option SRun}
    (hP : ∀ u b n res u1 evs n1, P u b n = some (res, u1, evs, n1) → Owned b n n1 evs)
    (build : Nat) (k : Nat) : ∀ (u : List Nat) (i n : Nat) (res : Result Unit) (u1 : List Nat)
      (evs : List Event) (n1 : Nat), listLoop P build k u i n = some (res, u1, evs, n1) →
      Owned build n n1 evs := by
  induction k with
  | zero => intro u i n res u1 evs n1 h; simp [listLoop] at h
  | succ k ih =>
    intro u i n res u1 evs n1 h
    cases u with
    | nil =>
      simp only [listLoop, Option.some.injEq, Prod.mk.injEq] at h
      obtain ⟨_, _, h3, h4⟩ := h
      subst h3 h4
      exact ⟨Nat.le_refl _, fun e he => by simp at he⟩
    | cons c t0 =>
      by_cases hc : c = 101
      · simp only [listLoop, hc, if_true, Option.some.injEq, Prod.mk.injEq] at h
        obtain ⟨_, _, h3, h4⟩ := h
        subst h3 h4
        exact ⟨Nat.le_refl _, fun e he => by simp at he⟩
      · rw [listLoop] at h
        simp only [hc, if_false] at h
        cases hp : P (c :: t0) n (n + 1) with
        | none => rw [hp] at h; simp at h
        | some x =>
          obtain ⟨res3, u3, evs3, n3⟩ := x
          rw [hp] at h
          obtain ⟨o1, o2⟩ := hP _ _ _ _ _ _ _ hp
          have hsub : ∀ e ∈ (build, Call.Elem i n) :: evs3,
              e.1 = build ∨ (n ≤ e.1 ∧ e.1 < n3) := by
            intro e he
            rcases List.mem_cons.mp he with he | he
            · left; rw [he]
            · rcases o2 e he with h1 | h1
              · right; omega
              · right; omega
          cases res3 with
          | ok a =>
            cases a
            simp only at h
            cases hl : listLoop P build k u3 (i + 1) n3 with
            | none => rw [hl] at h; simp at h
            | some y =>
              obtain ⟨res4, u4, evs4, n4⟩ := y
              rw [hl] at h
              simp only [Option.some.injEq, Prod.mk.injEq] at h
              obtain ⟨_, _, h3, h4⟩ := h
              subst h3 h4
              obtain ⟨p1, p2⟩ := ih _ _ _ _ _ _ _ hl
              refine ⟨by omega, ?_⟩
              intro e he
              rcases List.mem_append.mp he with he | he
              · rcases hsub e he with h1 | h1
                · exact Or.inl h1
                · right; omega
              · rcases p2 e he with h1 | h1
                · exact Or.inl h1
                · right; omega
          | error er =>
            simp only [Option.some.injEq, Prod.mk.injEq] at h
            obtain ⟨_, _, h3, h4⟩ := h
            subst h3 h4
            exact ⟨by omega, hsub⟩
          | panic =>
            simp only [Option.some.injEq, Prod.mk.injEq] at h
            obtain ⟨_, _, h3, h4⟩ := h
            subst h3 h4
            exact ⟨by omega, hsub⟩

theorem dictLoop_owned {size : Nat} {P : List Nat → Nat → Nat → Option SRun}
    (hP : ∀ u b n res u1 evs n1, P u b n = some (res, u1, evs, n1) → Owned b n n1 evs)
    (build : Nat) (k : Nat) : ∀ (u : List Nat) (n : Nat) (res : Result Unit) (u1 : List Nat)
      (evs : List Event) (n1 : Nat), dictLoop size P build k u n = some (res, u1, evs, n1) →
      Owned build n n1 evs := by
  induction k with
  | zero => intro u n res u1 evs n1 h; simp [dictLoop] at h
  | succ k ih =>
    intro u n res u1 evs n1 h
    cases u with
    | nil =>
      simp only [dictLoop, Option.some.injEq, Prod.mk.injEq] at h
      obtain ⟨_, _, h3, h4⟩ := h
      subst h3 h4
      exact ⟨Nat.le_refl _, fun e he => by simp at he⟩
    | cons c t0 =>
      by_cases hc : c = 101
      · simp only [dictLoop, hc, if_true, Option.some.injEq, Prod.mk.injEq] at h
        obtain ⟨_, _, h3, h4⟩ := h
        subst h3 h4
        exact ⟨Nat.le_refl _, fun e he => by simp at he⟩
      · rw [dictLoop] at h
        simp only [hc, if_false] at h
        cases hd : decodeString size (c :: t0) with
        | mk dres u2 =>
          rw [hd] at h
          cases dres with
          | error er =>
            simp only [Option.some.injEq, Prod.mk.injEq] at h
            obtain ⟨_, _, h3, h4⟩ := h
            subst h3 h4
            exact ⟨Nat.le_refl _, fun e he => by simp at he⟩
          | panic =>
            simp only [Option.some.injEq, Prod.mk.injEq] at h
            obtain ⟨_, _, h3, h4⟩ := h
            subst h3 h4
            exact ⟨Nat.le_refl _, fun e he => by simp at he⟩
          | ok key =>
            simp only at h
            cases hp : P u2 n (n + 1) with
            | none => rw [hp] at h; simp at h
            | some x =>
              obtain ⟨res3, u3, evs3, n3⟩ := x
              rw [hp] at h
              obtain ⟨o1, o2⟩ := hP _ _ _ _ _ _ _ hp
              have hsub : ∀ e ∈ (build, Call.Key key n) :: evs3,
                  e.1 = build ∨ (n ≤ e.1 ∧ e.1 < n3) := by
                intro e he
                rcases List.mem_cons.mp he with he | he
                · left; rw [he]
                · rcases o2 e he with h1 | h1
                  · right; omega
                  · right; omega
              cases res3 with
              | ok a =>
                cases a
                simp only at h
                cases hl : dictLoop size P build k u3 n3 with
                | none => rw [hl] at h; simp at h
                | some y =>
                  obtain ⟨res4, u4, evs4, n4⟩ := y
                  rw [hl] at h
                  simp only [Option.some.injEq, Prod.mk.injEq] at h
                  obtain ⟨_, _, h3, h4⟩ := h
                  subst h3 h4
                  obtain ⟨p1, p2⟩ := ih _ _ _ _ _ _ hl
                  refine ⟨by omega, ?_⟩
                  intro e he
                  rcases List.mem_append.mp he with he | he
                  · rcases hsub e he with h1 | h1
                    · exact Or.inl h1
                    · right; omega
                  · rcases p2 e he with h1 | h1
                    · exact Or.inl h1
                    · right; omega
              | error er =>
                simp only [Option.some.injEq, Prod.mk.injEq] at h
                obtain ⟨_, _, h3, h4⟩ := h
                subst h3 h4
                exact ⟨by omega, hsub⟩
              | panic =>
                simp only [Option.some.injEq, Prod.mk.injEq] at h
                obtain ⟨_, _, h3, h4⟩ := h
                subst h3 h4
                exact ⟨by omega, hsub⟩

theorem parseString_owned (size : Nat) (u : List Nat) (b n : Nat) :
    (parseString size u b n).2.2.2 = n ∧ ∀ e ∈ (parseString size u b n).2.2.1, e.1 = b := by
  unfold parseString
  cases decodeString size u with
  | mk x u1 =>
    cases x with
    | ok s => exact ⟨rfl, fun e he => by simp at he; rw [he]⟩
    | error er => exact ⟨rfl, fun e he => by simp at he⟩
    | panic => exact ⟨rfl, fun e he => by simp at he⟩

theorem parseInteger_owned (pf : List Nat → Option Float64) (size : Nat) (u : List Nat)
    (b n : Nat) :
    (parseInteger pf size u b n).2.2.2 = n ∧
      ∀ e ∈ (parseInteger pf size u b n).2.2.1, e.1 = b := by
  unfold parseInteger
  cases readSlice size u 101 with
  | mk x u1 =>
    cases x with
    | error er => exact ⟨rfl, fun e he => by simp at he⟩
    | panic => exact ⟨rfl, fun e he => by simp at he⟩
    | ok str =>
      simp only
      cases ParseInt str with
      | ok i => exact ⟨rfl, fun e he => by simp at he; rw [he]⟩
      | error _ =>
        simp only
        cases ParseUint str with
        | ok v => exact ⟨rfl, fun e he => by simp at he; rw [he]⟩
        | error _ =>
          simp only
          cases pf str with
          | some f => exact ⟨rfl, fun e he => by simp at he; rw [he]⟩
          | none => exact ⟨rfl, fun e he => by simp at he⟩

theorem exit_owned {build n : Nat} {x : Option SRun} {res : Result Unit} {u1 : List Nat}
    {evs : List Event} {n1 : Nat} (h : exit build x = some (res, u1, evs, n1))
    (hx : ∀ res0 u0 evs0 n0, x = some (res0, u0, evs0, n0) → Owned build n n0 evs0) :
    Owned build n n1 evs := by
  cases x with
  | none => simp [exit] at h
  | some y =>
    obtain ⟨res2, u2, evs2, n2⟩ := y
    obtain ⟨o1, o2⟩ := hx _ _ _ _ rfl
    cases res2 with
    | panic =>
      simp only [exit, Option.some.injEq, Prod.mk.injEq] at h
      obtain ⟨_, _, h3, h4⟩ := h
      subst h3 h4
      exact ⟨o1, o2⟩
    | ok a =>
      simp only [exit, Option.some.injEq, Prod.mk.injEq] at h
      obtain ⟨_, _, h3, h4⟩ := h
      subst h3 h4
      refine ⟨o1, fun e he => ?_⟩
      rcases List.mem_append.mp he with he | he
      · exact o2 e he
      · simp at he; left; rw [he]
    | error er =>
      simp only [exit, Option.some.injEq, Prod.mk.injEq] at h
      obtain ⟨_, _, h3, h4⟩ := h
      subst h3 h4
      refine ⟨o1, fun e he => ?_⟩
      rcases List.mem_append.mp he with he | he
      · exact o2 e he
      · simp at he; left; rw [he]

theorem parse_owned (pf : List Nat → Option Float64) (size : Nat) (f : Nat) :
    ∀ (u : List Nat) (b n : Nat) (res : Result Unit) (u1 : List Nat) (evs : List Event)
      (n1 : Nat), parseFromReader pf size f u b n = some (res, u1, evs, n1) →
      Owned b n n1 evs := by
  induction f with
  | zero => intro u b n res u1 evs n1 h; simp [parseFromReader] at h
  | succ f ih =>
    intro u b n res u1 evs n1 h
    rw [parseFromReader] at h
    apply exit_owned h
    intro res0 u0 evs0 n0 hx
    unfold dispatch at hx
    cases u with
    | nil =>
      simp only [Option.some.injEq, Prod.mk.injEq] at hx
      obtain ⟨_, _, h3, h4⟩ := hx
      subst h3 h4
      exact ⟨Nat.le_refl _, fun e he => by simp at he⟩
    | cons c t0 =>
      simp only at hx
      by_cases hd : 48 ≤ c ∧ c ≤ 57
      · simp only [hd, and_self, if_true, Option.some.injEq] at hx
        have := parseString_owned size (c :: t0) b n
        rw [hx] at this
        simp only at this
        exact ⟨by omega, fun e he => Or.inl (this.2 e he)⟩
      · simp only [hd, if_false] at hx
        by_cases hi : c = 105
        · simp only [hi, if_true, Option.some.injEq] at hx
          have := parseInteger_owned pf size t0 b n
          rw [hx] at this
          simp only at this
          exact ⟨by omega, fun e he => Or.inl (this.2 e he)⟩
        · simp only [hi, if_false] at hx
          by_cases hdd : c = 100
          · simp only [hdd, if_true] at hx
            cases hl : dictLoop size (parseFromReader pf size f) b f t0 n with
            | none => rw [hl] at hx; simp at hx
            | some y =>
              obtain ⟨res2, u2, evs2, n2⟩ := y
              rw [hl] at hx
              simp only [Option.some.injEq, Prod.mk.injEq] at hx
              obtain ⟨_, _, h3, h4⟩ := hx
              subst h3 h4
              obtain ⟨p1, p2⟩ := dictLoop_owned ih b f _ _ _ _ _ _ hl
              refine ⟨p1, fun e he => ?_⟩
              rcases List.mem_cons.mp he with he | he
              · left; rw [he]
              · exact p2 e he
          · simp only [hdd, if_false] at hx
            by_cases hll : c = 108
            · simp only [hll, if_true] at hx
              cases hl : listLoop (parseFromReader pf size f) b f t0 0 n with
              | none => rw [hl] at hx; simp at hx
              | some y =>
                obtain ⟨res2, u2, evs2, n2⟩ := y
                rw [hl] at hx
                simp only [Option.some.injEq, Prod.mk.injEq] at hx
                obtain ⟨_, _, h3, h4⟩ := hx
                subst h3 h4
                obtain ⟨p1, p2⟩ := listLoop_owned ih b f _ _ _ _ _ _ _ hl
                refine ⟨p1, fun e he => ?_⟩
                rcases List.mem_cons.mp he with he | he
                · left; rw [he]
                · exact p2 e he
            · simp only [hll, if_false, Option.some.injEq, Prod.mk.injEq] at hx
              obtain ⟨_, _, h3, h4⟩ := hx
              subst h3 h4
              exact ⟨Nat.le_refl _, fun e he => by simp at he⟩

theorem listLoop_mono_le {P Q : List Nat → Nat → Nat → Option SRun}
    (hP : ∀ u b n run, P u b n = some run → Q u b n = some run) (build : Nat) (k : Nat) :
    ∀ (k1 : Nat) (u : List Nat) (i n : Nat) (run : SRun), k ≤ k1 →
      listLoop P build k u i n = some run → listLoop Q build k1 u i n = some run := by
  induction k with
  | zero => intro k1 u i n run _ h; simp [listLoop] at h
  | succ k ih =>
    intro k1 u i n run hk h
    obtain ⟨k2, rfl⟩ : ∃ k2, k1 = k2 + 1 := ⟨k1 - 1, by omega⟩
    cases u with
    | nil =>
      simp only [listLoop] at h ⊢
      exact h
    | cons c t =>
      by_cases hc : c = 101
      · simp only [listLoop, hc, if_true] at h ⊢
        exact h
      · rw [listLoop] at h ⊢
        simp only [hc, if_false] at h ⊢
        cases hp : P (c :: t) n (n + 1) with
        | none => rw [hp] at h; simp at h
        | some x =>
          obtain ⟨res, u3, evs, n3⟩ := x
          rw [hp] at h
          rw [hP _ _ _ _ hp]
          cases res with
          | ok a =>
            cases a
            simp only at h ⊢
            cases hl : listLoop P build k u3 (i + 1) n3 with
            | none => rw [hl] at h; simp at h
            | some y =>
              rw [hl] at h
              rw [ih k2 _ _ _ _ (by omega) hl]
              exact h
          | error e => exact h
          | panic => exact h

theorem dictLoop_mono_le {size : Nat} {P Q : List Nat → Nat → Nat → Option SRun}
    (hP : ∀ u b n run, P u b n = some run → Q u b n = some run) (build : Nat) (k : Nat) :
    ∀ (k1 : Nat) (u : List Nat) (n : Nat) (run : SRun), k ≤ k1 →
      dictLoop size P build k u n = some run → dictLoop size Q build k1 u n = some run := by
  induction k with
  | zero => intro k1 u n run _ h; simp [dictLoop] at h
  | succ k ih =>
    intro k1 u n run hk h
    obtain ⟨k2, rfl⟩ : ∃ k2, k1 = k2 + 1 := ⟨k1 - 1, by omega⟩
    cases u with
    | nil =>
      simp only [dictLoop] at h ⊢
      exact h
    | cons c t =>
      by_cases hc : c = 101
      · simp only [dictLoop, hc, if_true] at h ⊢
        exact h
      · rw [dictLoop] at h ⊢
        simp only [hc, if_false] at h ⊢
        generalize decodeString size (c :: t) = ds at h ⊢
        obtain ⟨dres, u3⟩ := ds
        cases dres with
        | error e => exact h
        | panic => exact h
        | ok key =>
          simp only at h ⊢
          cases hp : P u3 n (n + 1) with
          | none => rw [hp] at h; simp at h
          | some x =>
            obtain ⟨res, u4, evs, n4⟩ := x
            rw [hp] at h
            rw [hP _ _ _ _ hp]
            cases res with
            | ok a =>
              cases a
              simp only at h ⊢
              cases hl : dictLoop size P build k u4 n4 with
              | none => rw [hl] at h; simp at h
              | some y =>
                rw [hl] at h
                rw [ih k2 _ _ _ (by omega) hl]
                exact h
            | error e => exact h
            | panic => exact h

theorem parse_eq_of_total (pf : List Nat → Option Float64) (size : Nat) {f g : Nat}
    {u : List Nat} {b n : Nat} {run : SRun} (hf : u.length < f)
    (h : parseFromReader pf size g u b n = some run) :
    parseFromReader pf size f u b n = some run := by
  obtain ⟨res, u1, evs, n1, hx, _, _⟩ := parse_total pf size f u b n hf
  have h1 := parse_mono pf size (Nat.le_max_left f g) hx
  have h2 := parse_mono pf size (Nat.le_max_right f g) h
  rw [h1] at h2
  rw [hx, h2]

theorem parse_ok_head (pf : List Nat → Option Float64) (size : Nat) {f : Nat} {u : List Nat}
    {b n : Nat} {u1 : List Nat} {evs : List Event} {n1 : Nat}
    (h : parseFromReader pf size f u b n = some (.ok (), u1, evs, n1)) :
    ∃ c t, u = c :: t ∧ c ≠ 101 := by
  cases f with
  | zero => simp [parseFromReader] at h
  | succ f =>
    rw [parseFromReader] at h
    obtain ⟨evs0, hx, _⟩ := exit_ok h
    cases u with
    | nil => simp [dispatch] at hx
    | cons c t =>
      refine ⟨c, t, rfl, ?_⟩
      intro hc
      subst hc
      simp [dispatch] at hx

theorem parse_list_of_loop (pf : List Nat → Option Float64) (size : Nat) {F k : Nat}
    {u : List Nat} {b n : Nat} {res : Result Unit} {u1 : List Nat} {evs : List Event} {n1 : Nat}
    (h : listLoop (parseFromReader pf size F) b k u 0 n = some (res, u1, evs, n1)) :
    parseFromReader pf size (max F k + 1) (108 :: u) b n =
      exit b (some (res, u1, (b, .Array) :: evs, n1)) := by
  have := listLoop_mono_le (fun u b n run hr => parse_mono pf size (Nat.le_max_left F k) hr)
    b k (max F k) u 0 n _ (Nat.le_max_right F k) h
  rw [parse_list, this]

theorem parse_dict_of_loop (pf : List Nat → Option Float64) (size : Nat) {F k : Nat}
    {u : List Nat} {b n : Nat} {res : Result Unit} {u1 : List Nat} {evs : List Event} {n1 : Nat}
    (h : dictLoop size (parseFromReader pf size F) b k u n = some (res, u1, evs, n1)) :
    parseFromReader pf size (max F k + 1) (100 :: u) b n =
      exit b (some (res, u1, (b, .Map) :: evs, n1)) := by
  have := dictLoop_mono_le (fun u b n run hr => parse_mono pf size (Nat.le_max_left F k) hr)
    b k (max F k) u n _ (Nat.le_max_right F k) h
  rw [parse_dict, this]

end Stream

theorem Reader.new_WF {size : Nat} {chunks : List (List Nat)} (hs : 0 < size)
    (hc : [] ∉ chunks) : (Reader.new size chunks).WF :=
  ⟨hs, by simp [Reader.new], hc, Or.inl rfl⟩

theorem parse_alone_nil (pf : List Nat → Option Float64) (size b n : Nat) :
    parseFromReader pf 1 (Reader.new size [[]]) b n =
      some (.error .EOF, { Reader.new size [] with err := none }, [(b, .Flush)], n) := by
  simp [parseFromReader, exit, Reader.ReadByte, Reader.fill, Reader.fillLoop, Reader.srcRead,
    Reader.new]

theorem alone_to_stream {pf : List Nat → Option Float64} {size : Nat} (hsz : 0 < size)
    {x : List Nat} {b n : Nat} {r1 : Reader} {evs : List Event} {n1 : Nat}
    (h : parseFromReader pf (x.length + 1) (Reader.new size [x]) b n = some (.ok (), r1, evs, n1))
    (hu : r1.unread = []) :
    Stream.parseFromReader pf size (x.length + 1) x b n = some (.ok (), [], evs, n1) := by
  by_cases hx : x = []
  · subst hx
    rw [List.length_nil, parse_alone_nil] at h
    simp at h
  · have hw : (Reader.new size [x]).WF :=
      Reader.new_WF hsz (by simp; exact fun e => hx e)
    have := (parseFromReader_to_stream hw h).1
    rw [hu] at this
    simpa [Reader.new, Reader.unread] using this

theorem itemCalls_cons {pf : List Nat → Option Float64} {size build : Nat} {x : List Nat}
    {xs : List (List Nat)} {i n : Nat} {items : List Event} {n2 : Nat}
    (h : itemCalls pf size build (x :: xs) i n = some (items, n2)) :
    ∃ r1 evs n1 rest,
      parseFromReader pf (x.length + 1) (Reader.new size [x]) n (n + 1) =
        some (.ok (), r1, evs, n1) ∧ r1.unread = [] ∧
      itemCalls pf size build xs (i + 1) n1 = some (rest, n2) ∧
      items = (build, .Elem i n) :: evs ++ rest := by
  rw [itemCalls] at h
  cases hrun : parseFromReader pf (x.length + 1) (Reader.new size [x]) n (n + 1) with
  | none => rw [hrun] at h; simp at h
  | some run =>
    obtain ⟨res, r1, evs, n1⟩ := run
    rw [hrun] at h
    cases res with
    | error e => simp at h
    | panic => simp at h
    | ok a =>
      cases a
      simp only at h
      by_cases hu : r1.unread = []
      · simp only [hu, if_true] at h
        cases hrest : itemCalls pf size build xs (i + 1) n1 with
        | none => rw [hrest] at h; simp at h
        | some p =>
          obtain ⟨rest, n3⟩ := p
          rw [hrest] at h
          simp only [Option.some.injEq, Prod.mk.injEq] at h
          exact ⟨r1, evs, n1, rest, rfl, hu, by rw [← h.2, hrest], h.1.symm⟩
      · simp [hu] at h

namespace Stream

theorem listLoop_items (pf : List Nat → Option Float64) {size : Nat} (hsz : 0 < size)
    (build : Nat) (t : List Nat) : ∀ (xs : List (List Nat)) (i n : Nat) (items : List Event)
      (n2 : Nat), itemCalls pf size build xs i n = some (items, n2) →
      ∃ F k, listLoop (parseFromReader pf size F) build k (xs.flatten ++ 101 :: t) i n =
        some (.ok (), t, items, n2) := by
  intro xs
  induction xs with
  | nil =>
    intro i n items n2 h
    simp only [itemCalls, Option.some.injEq, Prod.mk.injEq] at h
    refine ⟨0, 1, ?_⟩
    simp [listLoop, h.1, h.2]
  | cons x xs ih =>
    intro i n items n2 h
    obtain ⟨r1, evs, n1, rest, hrun, hu, hrest, hitems⟩ := itemCalls_cons h
    have hs := alone_to_stream hsz hrun hu
    obtain ⟨c, x0, hx, hc⟩ := parse_ok_head pf size hs
    have hfr := parse_frame pf size _ _ _ _ _ _ _ hs (xs.flatten ++ 101 :: t)
    rw [List.nil_append] at hfr
    obtain ⟨F1, k1, hl⟩ := ih (i + 1) n1 rest n2 hrest
    refine ⟨max (x.length + 1) F1, k1 + 1, ?_⟩
    have hp := parse_mono pf size (Nat.le_max_left (x.length + 1) F1) hfr
    have hl2 : listLoop (parseFromReader pf size (max (x.length + 1) F1)) build k1
        (xs.flatten ++ 101 :: t) (i + 1) n1 = some (.ok (), t, rest, n2) :=
      listLoop_mono_le
        (fun u b n run hr => parse_mono pf size (Nat.le_max_right (x.length + 1) F1) hr)
        build k1 k1 _ _ _ _ (Nat.le_refl _) hl
    rw [List.flatten_cons, List.append_assoc]
    generalize max (x.length + 1) F1 = F at hp hl2 ⊢
    subst hx
    rw [List.cons_append] at hp ⊢
    rw [listLoop]
    simp only [hc, if_false, hp, hl2, hitems]

end Stream

theorem elemIndices_nil_of_ne {build : Nat} {evs : List Event} (h : ∀ e ∈ evs, e.1 ≠ build) :
    elemIndices build evs = [] := by
  unfold elemIndices
  rw [List.filterMap_eq_nil_iff]
  intro e he
  obtain ⟨b, c⟩ := e
  have hb : b ≠ build := h _ he
  cases c <;> simp [hb]

theorem elemIndices_append (build : Nat) (xs ys : List Event) :
    elemIndices build (xs ++ ys) = elemIndices build xs ++ elemIndices build ys := by
  simp [elemIndices, List.filterMap_append]

theorem itemCalls_indices (pf : List Nat → Option Float64) {size : Nat} (hsz : 0 < size)
    (build : Nat) : ∀ (xs : List (List Nat)) (i n : Nat) (items : List Event) (n2 : Nat),
      build < n → itemCalls pf size build xs i n = some (items, n2) →
      elemIndices build items = List.range' i xs.length := by
  intro xs
  induction xs with
  | nil =>
    intro i n items n2 _ h
    simp only [itemCalls, Option.some.injEq, Prod.mk.injEq] at h
    rw [← h.1]
    rfl
  | cons x xs ih =>
    intro i n items n2 hb h
    obtain ⟨r1, evs, n1, rest, hrun, hu, hrest, hitems⟩ := itemCalls_cons h
    have hs := alone_to_stream hsz hrun hu
    obtain ⟨o1, o2⟩ := Stream.parse_owned pf size _ _ _ _ _ _ _ _ hs
    have hne : ∀ e ∈ evs, e.1 ≠ build := by
      intro e he
      rcases o2 e he with h1 | h1 <;> omega
    have hrec := ih (i + 1) n1 rest n2 (by omega) hrest
    rw [hitems, elemIndices_append, hrec]
    have : elemIndices build ((build, Call.Elem i n) :: evs) = [i] := by
      have h2 := elemIndices_nil_of_ne hne
      unfold elemIndices at h2 ⊢
      rw [List.filterMap_cons]
      simp [h2]
    rw [this]
    simp [List.range'_succ]

theorem itemCalls_on_build (pf : List Nat → Option Float64) {size : Nat} (hsz : 0 < size)
    (build : Nat) : ∀ (xs : List (List Nat)) (i n : Nat) (items : List Event) (n2 : Nat),
      build < n → itemCalls pf size build xs i n = some (items, n2) →
      ∀ e ∈ items, e.1 = build → ∃ j s, e.2 = .Elem j s := by
  intro xs
  induction xs with
  | nil =>
    intro i n items n2 _ h
    simp only [itemCalls, Option.some.injEq, Prod.mk.injEq] at h
    rw [← h.1]
    intro e he
    simp at he
  | cons x xs ih =>
    intro i n items n2 hb h
    obtain ⟨r1, evs, n1, rest, hrun, hu, hrest, hitems⟩ := itemCalls_cons h
    have hs := alone_to_stream hsz hrun hu
    obtain ⟨o1, o2⟩ := Stream.parse_owned pf size _ _ _ _ _ _ _ _ hs
    have hrec := ih (i + 1) n1 rest n2 (by omega) hrest
    rw [hitems]
    intro e he heb
    rcases List.mem_append.mp he with he | he
    · rcases List.mem_cons.mp he with he | he
      · exact ⟨i, n, by rw [he]⟩
      · exfalso
        rcases o2 e he with h1 | h1 <;> omega
    · exact hrec e he heb

/-- C8: for every list input `'l' x_0 ... x_{k-1} 'e'` (whatever follows)
whose items each decode successfully on their own (`itemCalls` computes the
calls of those separate decodes), `parseFromReader` succeeds and its calls
are `Array()` first, then for `i = 0, ..., k-1` in stream order `Elem(i)`
followed by exactly the calls of the decode of `x_i` on the sub-builder that
`Elem(i)` returned, then `Flush`; the indices of the `Elem` calls on the
builder are `0, 1, ..., k-1` in this order, and between `Array` and `Flush`
the builder receives no other call than these `Elem` calls. -/
theorem C8_list_elements_in_order (pf : List Nat → Option Float64) (xs : List (List Nat))
    (t : List Nat) (r : Reader) (hr : r.WF) (hu : r.unread = 108 :: xs.flatten ++ 101 :: t)
    (fuel build next : Nat) (hf : r.unread.length < fuel) (hb : build < next)
    (items : List Event) (n1 : Nat)
    (hxs : itemCalls pf r.size build xs 0 next = some (items, n1)) :
    ∃ r1, parseFromReader pf fuel r build next =
        some (.ok (), r1, (build, .Array) :: items ++ [(build, .Flush)], n1) ∧
      r1.unread = t ∧
      elemIndices build ((build, .Array) :: items ++ [(build, .Flush)]) =
        List.range xs.length ∧
      ∀ e ∈ items, e.1 = build → ∃ j s, e.2 = .Elem j s := by
  obtain ⟨F, k, hl⟩ := Stream.listLoop_items pf hr.1 build t xs 0 next items n1 hxs
  have hp := Stream.parse_list_of_loop pf r.size hl
  have hp2 : Stream.parseFromReader pf r.size (max F k + 1)
      (108 :: (xs.flatten ++ 101 :: t)) build next =
      some (.ok (), t, (build, .Array) :: items ++ [(build, .Flush)], n1) := by
    rw [hp]; rfl
  rw [List.cons_append] at hu
  rw [← hu] at hp2
  have hp3 := Stream.parse_eq_of_total pf r.size hf hp2
  obtain ⟨r1, e1, _, e3, _⟩ := parseFromReader_of_stream hr hp3
  refine ⟨r1, e1, e3, ?_, itemCalls_on_build pf hr.1 build xs 0 next items n1 hb hxs⟩
  have hi := itemCalls_indices pf hr.1 build xs 0 next items n1 hb hxs
  rw [List.cons_append, ← List.singleton_append, elemIndices_append, elemIndices_append, hi]
  simp [elemIndices, List.range_eq_range']

theorem C8_list_elements_in_order_witness :
    (Reader.new 4096 [bytes "l4:spami42ee"]).WF ∧
    (Reader.new 4096 [bytes "l4:spami42ee"]).unread =
      108 :: [bytes "4:spam", bytes "i42e"].flatten ++ 101 :: [] ∧
    (Reader.new 4096 [bytes "l4:spami42ee"]).unread.length < 13 ∧ 0 < 1 ∧
    itemCalls (fun _ => none) (Reader.new 4096 [bytes "l4:spami42ee"]).size 0
      [bytes "4:spam", bytes "i42e"] 0 1 =
      some ([(0, .Elem 0 1), (1, .String (bytes "spam")), (1, .Flush),
        (0, .Elem 1 2), (2, .Int64 42), (2, .Flush)], 3) ∧
    ∃ r1, parseFromReader (fun _ => none) 13 (Reader.new 4096 [bytes "l4:spami42ee"]) 0 1 =
        some (.ok (), r1,
          (0, .Array) :: [(0, .Elem 0 1), (1, .String (bytes "spam")), (1, .Flush),
            (0, .Elem 1 2), (2, .Int64 42), (2, .Flush)] ++ [(0, .Flush)], 3) ∧
      r1.unread = [] ∧
      elemIndices 0 ((0, .Array) :: [(0, .Elem 0 1), (1, .String (bytes "spam")), (1, .Flush),
            (0, .Elem 1 2), (2, .Int64 42), (2, .Flush)] ++ [(0, .Flush)]) =
        List.range [bytes "4:spam", bytes "i42e"].length ∧
      ∀ e ∈ [(0, Call.Elem 0 1), (1, .String (bytes "spam")), (1, .Flush),
            (0, .Elem 1 2), (2, .Int64 42), (2, .Flush)],
        e.1 = 0 → ∃ j s, e.2 = Call.Elem j s :=
  ⟨by decide, by decide, by decide, by decide, by decide,
    C8_list_elements_in_order (fun _ => none) [bytes "4:spam", bytes "i42e"] []
      (Reader.new 4096 [bytes "l4:spami42ee"]) (by decide) (by decide) 13 0 1 (by decide)
      (by decide) _ 3 (by decide)⟩

theorem decodeString_alone_nil (size : Nat) (hsz : 0 < size) :
    ∃ e r1, decodeString (Reader.new size [[]]) = (.error e, r1) := by
  obtain ⟨s, rfl⟩ : ∃ s, size = s + 1 := ⟨size - 1, by omega⟩
  have h : (decodeString (Reader.new (s + 1) [[]])).1 = .error .EOF := by
    simp [decodeString, decodeInt64, readSlice, Reader.ReadSlice, Reader.ReadSliceLoop,
      Reader.fill, Reader.fillLoop, Reader.srcRead, Reader.new, Reader.IndexByte]
  exact ⟨.EOF, (decodeString (Reader.new (s + 1) [[]])).2, Prod.ext h rfl⟩

theorem keyOf_to_stream {size : Nat} (hsz : 0 < size) {kx key : List Nat}
    (h : keyOf size kx = some key) : Stream.decodeString size kx = (.ok key, []) := by
  unfold keyOf at h
  by_cases hx : kx = []
  · subst hx
    obtain ⟨e, r1, he⟩ := decodeString_alone_nil size hsz
    rw [he] at h
    simp at h
  · have hw : (Reader.new size [kx]).WF :=
      Reader.new_WF hsz (by simp; exact fun e => hx e)
    obtain ⟨a1, _, a3, _⟩ := decodeString_sim _ hw
    have hun : (Reader.new size [kx]).unread = kx := by simp [Reader.new, Reader.unread]
    rw [hun] at a1 a3
    have hsize : (Reader.new size [kx]).size = size := rfl
    rw [hsize] at a1 a3
    cases hd : decodeString (Reader.new size [kx]) with
    | mk x r0 =>
      rw [hd] at h a1 a3
      cases x with
      | error e => simp at h
      | panic => simp at h
      | ok k =>
        simp only at h a1 a3
        by_cases hu : r0.unread = []
        · simp only [hu, if_true, Option.some.injEq] at h
          subst h
          rw [hu] at a3
          exact Prod.ext a1.symm a3.symm
        · simp [hu] at h

theorem ParseInt_e (rest : List Nat) :
    ParseInt (101 :: rest) = .error (.NumError .fnParseInt (101 :: rest) .ErrSyntax) := by
  simp [ParseInt, ParseUint, ParseUintLoop, isDigit]

namespace Stream

theorem ReadSlice_ok_inv {size delim : Nat} {u line u1 : List Nat}
    (h : ReadSlice size delim u = (line, none, u1)) :
    ∃ i, i < u.length ∧ line = u.take (i + 1) ∧ u1 = u.drop (i + 1) := by
  unfold ReadSlice at h
  cases hi : Reader.IndexByte (u.take size) delim with
  | none =>
    rw [hi] at h
    simp only at h
    by_cases hl : u.length < size <;> simp [hl] at h
  | some i =>
    rw [hi] at h
    simp only [Prod.mk.injEq, true_and] at h
    have hlt := Reader.IndexByte_lt hi
    simp only [List.length_take] at hlt
    exact ⟨i, by omega, h.1.symm, h.2.symm⟩

theorem readSlice_ok_inv {size delim : Nat} {u buf u1 : List Nat}
    (h : readSlice size u delim = (.ok buf, u1)) :
    ∃ i, i < u.length ∧ buf = u.take i ∧ u1 = u.drop (i + 1) := by
  unfold readSlice at h
  cases hr : ReadSlice size delim u with
  | mk line rest =>
    obtain ⟨e, u2⟩ := rest
    rw [hr] at h
    cases e with
    | some e => simp at h
    | none =>
      obtain ⟨i, hi, hl, hu⟩ := ReadSlice_ok_inv hr
      simp only at h
      by_cases hp : 0 < line.length
      · simp only [hp, if_true, Prod.mk.injEq, Result.ok.injEq] at h
        refine ⟨i, hi, ?_, by rw [← h.2, hu]⟩
        rw [← h.1, hl, List.length_take, List.take_take]
        congr 1
        omega
      · simp [hp] at h

theorem decodeString_ok_inv {size : Nat} {u key u1 : List Nat}
    (h : decodeString size u = (.ok key, u1)) :
    ∃ buf u2 len, readSlice size u 58 = (.ok buf, u2) ∧ ParseInt buf = .ok len := by
  unfold decodeString decodeInt64 at h
  cases hr : readSlice size u 58 with
  | mk x u2 =>
    rw [hr] at h
    cases x with
    | error e => simp at h
    | panic => simp at h
    | ok buf =>
      simp only at h
      cases hp : ParseInt buf with
      | error e => rw [hp] at h; simp at h
      | ok len => exact ⟨buf, u2, len, rfl, hp⟩

theorem decodeString_ok_head {size : Nat} {u key u1 : List Nat}
    (h : decodeString size u = (.ok key, u1)) : ∃ c t, u = c :: t ∧ c ≠ 101 := by
  obtain ⟨buf, u2, len, hr, hp⟩ := decodeString_ok_inv h
  obtain ⟨i, hi, hb, _⟩ := readSlice_ok_inv hr
  cases u with
  | nil => simp at hi
  | cons c t =>
    refine ⟨c, t, rfl, ?_⟩
    intro hc
    subst hc
    cases i with
    | zero =>
      rw [hb] at hp
      simp [ParseInt] at hp
    | succ j =>
      rw [hb, List.take_succ_cons, ParseInt_e] at hp
      cases hp

theorem dictLoop_pairs (pf : List Nat → Option Float64) {size : Nat} (hsz : 0 < size)
    (build : Nat) (t : List Nat) : ∀ (ps : List (List Nat × List Nat)) (n : Nat)
      (items : List Event) (n2 : Nat), pairCalls pf size build ps n = some (items, n2) →
      ∃ F k, dictLoop size (parseFromReader pf size F) build k
          ((ps.map fun p => p.1 ++ p.2).flatten ++ 101 :: t) n =
        some (.ok (), t, items, n2) := by
  intro ps
  induction ps with
  | nil =>
    intro n items n2 h
    simp only [pairCalls, Option.some.injEq, Prod.mk.injEq] at h
    refine ⟨0, 1, ?_⟩
    simp [dictLoop, h.1, h.2]
  | cons p ps ih =>
    intro n items n2 h
    rw [pairCalls] at h
    cases hk : keyOf size p.1 with
    | none => rw [hk] at h; simp at h
    | some key =>
      rw [hk] at h
      simp only at h
      cases hrun : Bencode.parseFromReader pf (p.2.length + 1) (Reader.new size [p.2]) n
          (n + 1) with
      | none => rw [hrun] at h; simp at h
      | some run =>
        obtain ⟨res, r1, evs, n1⟩ := run
        rw [hrun] at h
        cases res with
        | error e => simp at h
        | panic => simp at h
        | ok a =>
          cases a
          simp only at h
          by_cases hu : r1.unread = []
          · simp only [hu, if_true] at h
            cases hrest : pairCalls pf size build ps n1 with
            | none => rw [hrest] at h; simp at h
            | some q =>
              obtain ⟨rest, n3⟩ := q
              rw [hrest] at h
              simp only [Option.some.injEq, Prod.mk.injEq] at h
              obtain ⟨hitems, hn⟩ := h
              subst hn
              have hks := keyOf_to_stream hsz hk
              obtain ⟨c, k0, hc1, hc⟩ := decodeString_ok_head hks
              have hkf := decodeString_frame hks
                (p.2 ++ ((ps.map fun p => p.1 ++ p.2).flatten ++ 101 :: t))
              rw [List.nil_append] at hkf
              have hs := alone_to_stream hsz hrun hu
              have hfr := parse_frame pf size _ _ _ _ _ _ _ hs
                ((ps.map fun p => p.1 ++ p.2).flatten ++ 101 :: t)
              rw [List.nil_append] at hfr
              obtain ⟨F1, k1, hl⟩ := ih n1 rest n3 hrest
              refine ⟨max (p.2.length + 1) F1, k1 + 1, ?_⟩
              have hp := parse_mono pf size (Nat.le_max_left (p.2.length + 1) F1) hfr
              have hl2 : dictLoop size (parseFromReader pf size (max (p.2.length + 1) F1))
                  build k1 ((ps.map fun p => p.1 ++ p.2).flatten ++ 101 :: t) n1 =
                  some (.ok (), t, rest, n3) :=
                dictLoop_mono_le
                  (fun u b n run hr =>
                    parse_mono pf size (Nat.le_max_right (p.2.length + 1) F1) hr)
                  build k1 k1 _ _ _ (Nat.le_refl _) hl
              rw [List.map_cons, List.flatten_cons, List.append_assoc, List.append_assoc]
              generalize max (p.2.length + 1) F1 = F at hp hl2 ⊢
              rw [hc1] at hkf ⊢
              rw [List.cons_append] at hkf ⊢
              rw [dictLoop]
              simp only [hc, if_false, hkf, hp, hl2, hitems]
          · simp [hu] at h

end Stream

theorem pairCalls_cons {pf : List Nat → Option Float64} {size build : Nat}
    {p : List Nat × List Nat} {ps : List (List Nat × List Nat)} {n : Nat} {items : List Event}
    {n2 : Nat} (h : pairCalls pf size build (p :: ps) n = some (items, n2)) :
    ∃ key r1 evs n1 rest, keyOf size p.1 = some key ∧
      parseFromReader pf (p.2.length + 1) (Reader.new size [p.2]) n (n + 1) =
        some (.ok (), r1, evs, n1) ∧ r1.unread = [] ∧
      pairCalls pf size build ps n1 = some (rest, n2) ∧
      items = (build, .Key key n) :: evs ++ rest := by
  rw [pairCalls] at h
  cases hk : keyOf size p.1 with
  | none => rw [hk] at h; simp at h
  | some key =>
    rw [hk] at h
    simp only at h
    cases hrun : parseFromReader pf (p.2.length + 1) (Reader.new size [p.2]) n (n + 1) with
    | none => rw [hrun] at h; simp at h
    | some run =>
      obtain ⟨res, r1, evs, n1⟩ := run
      rw [hrun] at h
      cases res with
      | error e => simp at h
      | panic => simp at h
      | ok a =>
        cases a
        simp only at h
        by_cases hu : r1.unread = []
        · simp only [hu, if_true] at h
          cases hrest : pairCalls pf size build ps n1 with
          | none => rw [hrest] at h; simp at h
          | some q =>
            obtain ⟨rest, n3⟩ := q
            rw [hrest] at h
            simp only [Option.some.injEq, Prod.mk.injEq] at h
            exact ⟨key, r1, evs, n1, rest, rfl, rfl, hu, by rw [← h.2, hrest], h.1.symm⟩
        · simp [hu] at h

theorem keyTexts_nil_of_ne {build : Nat} {evs : List Event} (h : ∀ e ∈ evs, e.1 ≠ build) :
    keyTexts build evs = [] := by
  unfold keyTexts
  rw [List.filterMap_eq_nil_iff]
  intro e he
  obtain ⟨b, c⟩ := e
  have hb : b ≠ build := h _ he
  cases c <;> simp [hb]

theorem keyTexts_append (build : Nat) (xs ys : List Event) :
    keyTexts build (xs ++ ys) = keyTexts build xs ++ keyTexts build ys := by
  simp [keyTexts, List.filterMap_append]

theorem pairCalls_keys (pf : List Nat → Option Float64) {size : Nat} (hsz : 0 < size)
    (build : Nat) : ∀ (ps : List (List Nat × List Nat)) (n : Nat) (items : List Event)
      (n2 : Nat), build < n → pairCalls pf size build ps n = some (items, n2) →
      (keyTexts build items).map some = ps.map (fun p => keyOf size p.1) ∧
      ∀ e ∈ items, e.1 = build → ∃ k s, e.2 = .Key k s := by
  intro ps
  induction ps with
  | nil =>
    intro n items n2 _ h
    simp only [pairCalls, Option.some.injEq, Prod.mk.injEq] at h
    rw [← h.1]
    exact ⟨rfl, fun e he => by simp at he⟩
  | cons p ps ih =>
    intro n items n2 hb h
    obtain ⟨key, r1, evs, n1, rest, hk, hrun, hu, hrest, hitems⟩ := pairCalls_cons h
    have hs := alone_to_stream hsz hrun hu
    obtain ⟨o1, o2⟩ := Stream.parse_owned pf size _ _ _ _ _ _ _ _ hs
    have hne : ∀ e ∈ evs, e.1 ≠ build := by
      intro e he
      rcases o2 e he with h1 | h1 <;> omega
    obtain ⟨hrec1, hrec2⟩ := ih n1 rest n2 (by omega) hrest
    constructor
    · rw [hitems, keyTexts_append, List.map_append, hrec1]
      have : keyTexts build ((build, Call.Key key n) :: evs) = [key] := by
        have h2 := keyTexts_nil_of_ne hne
        unfold keyTexts at h2 ⊢
        rw [List.filterMap_cons]
        simp [h2]
      rw [this]
      simp [hk]
    · rw [hitems]
      intro e he heb
      rcases List.mem_append.mp he with he | he
      · rcases List.mem_cons.mp he with he | he
        · exact ⟨key, n, by rw [he]⟩
        · exact absurd heb (hne e he)
      · exact hrec2 e he heb

/-- C9: for every dictionary input `'d' (k_j x_j)* 'e'` (whatever follows)
whose key strings and values each decode successfully on their own
(`pairCalls` computes the calls of those separate decodes), `parseFromReader`
succeeds and its calls are `Map()` first, then for each pair in stream order
`Key(k_j)` followed by exactly the calls of the decode of `x_j` on the
sub-builder that `Key` returned, then `Flush`; the key texts of the `Key`
calls on the builder are those of the pairs in stream order, one call per
pair: nothing is sorted, merged or rejected, so a key that occurs twice is
presented twice; between `Map` and `Flush` the builder receives no other call
than these `Key` calls. -/
theorem C9_dict_keys_in_stream_order (pf : List Nat → Option Float64)
    (ps : List (List Nat × List Nat)) (t : List Nat) (r : Reader) (hr : r.WF)
    (hu : r.unread = 100 :: (ps.map fun p => p.1 ++ p.2).flatten ++ 101 :: t)
    (fuel build next : Nat) (hf : r.unread.length < fuel) (hb : build < next)
    (items : List Event) (n1 : Nat)
    (hps : pairCalls pf r.size build ps next = some (items, n1)) :
    ∃ r1, parseFromReader pf fuel r build next =
        some (.ok (), r1, (build, .Map) :: items ++ [(build, .Flush)], n1) ∧
      r1.unread = t ∧
      (keyTexts build ((build, .Map) :: items ++ [(build, .Flush)])).map some =
        ps.map (fun p => keyOf r.size p.1) ∧
      ∀ e ∈ items, e.1 = build → ∃ k s, e.2 = .Key k s := by
  obtain ⟨F, k, hl⟩ := Stream.dictLoop_pairs pf hr.1 build t ps next items n1 hps
  have hp := Stream.parse_dict_of_loop pf r.size hl
  have hp2 : Stream.parseFromReader pf r.size (max F k + 1)
      (100 :: ((ps.map fun p => p.1 ++ p.2).flatten ++ 101 :: t)) build next =
      some (.ok (), t, (build, .Map) :: items ++ [(build, .Flush)], n1) := by
    rw [hp]; rfl
  rw [List.cons_append] at hu
  rw [← hu] at hp2
  have hp3 := Stream.parse_eq_of_total pf r.size hf hp2
  obtain ⟨r1, e1, _, e3, _⟩ := parseFromReader_of_stream hr hp3
  obtain ⟨hk1, hk2⟩ := pairCalls_keys pf hr.1 build ps next items n1 hb hps
  refine ⟨r1, e1, e3, ?_, hk2⟩
  rw [List.cons_append, ← List.singleton_append, keyTexts_append, keyTexts_append,
    List.map_append, List.map_append, hk1]
  simp [keyTexts]

theorem C9_dict_keys_in_stream_order_witness :
    (Reader.new 4096 [bytes "d3:cow3:moo1:ai1e3:cow4:eggse"]).WF ∧
    (Reader.new 4096 [bytes "d3:cow3:moo1:ai1e3:cow4:eggse"]).unread =
      100 :: ([(bytes "3:cow", bytes "3:moo"), (bytes "1:a", bytes "i1e"),
        (bytes "3:cow", bytes "4:eggs")].map fun p => p.1 ++ p.2).flatten ++ 101 :: [] ∧
    (Reader.new 4096 [bytes "d3:cow3:moo1:ai1e3:cow4:eggse"]).unread.length < 30 ∧ 0 < 1 ∧
    pairCalls (fun _ => none) (Reader.new 4096 [bytes "d3:cow3:moo1:ai1e3:cow4:eggse"]).size 0
      [(bytes "3:cow", bytes "3:moo"), (bytes "1:a", bytes "i1e"),
        (bytes "3:cow", bytes "4:eggs")] 1 =
      some ([(0, .Key (bytes "cow") 1), (1, .String (bytes "moo")), (1, .Flush),
        (0, .Key (bytes "a") 2), (2, .Int64 1), (2, .Flush),
        (0, .Key (bytes "cow") 3), (3, .String (bytes "eggs")), (3, .Flush)], 4) ∧
    ∃ r1, parseFromReader (fun _ => none) 30
        (Reader.new 4096 [bytes "d3:cow3:moo1:ai1e3:cow4:eggse"]) 0 1 =
        some (.ok (), r1,
          (0, .Map) :: [(0, .Key (bytes "cow") 1), (1, .String (bytes "moo")), (1, .Flush),
            (0, .Key (bytes "a") 2), (2, .Int64 1), (2, .Flush),
            (0, .Key (bytes "cow") 3), (3, .String (bytes "eggs")), (3, .Flush)] ++
            [(0, .Flush)], 4) ∧
      r1.unread = [] ∧
      (keyTexts 0 ((0, .Map) :: [(0, .Key (bytes "cow") 1), (1, .String (bytes "moo")),
            (1, .Flush), (0, .Key (bytes "a") 2), (2, .Int64 1), (2, .Flush),
            (0, .Key (bytes "cow") 3), (3, .String (bytes "eggs")), (3, .Flush)] ++
            [(0, .Flush)])).map some =
        [(bytes "3:cow", bytes "3:moo"), (bytes "1:a", bytes "i1e"),
          (bytes "3:cow", bytes "4:eggs")].map
          (fun p => keyOf (Reader.new 4096 [bytes "d3:cow3:moo1:ai1e3:cow4:eggse"]).size p.1) ∧
      ∀ e ∈ [(0, Call.Key (bytes "cow") 1), (1, .String (bytes "moo")), (1, .Flush),
            (0, .Key (bytes "a") 2), (2, .Int64 1), (2, .Flush),
            (0, .Key (bytes "cow") 3), (3, .String (bytes "eggs")), (3, .Flush)],
        e.1 = 0 → ∃ k s, e.2 = Call.Key k s :=
  ⟨by decide, by decide, by decide, by decide, by decide,
    C9_dict_keys_in_stream_order (fun _ => none)
      [(bytes "3:cow", bytes "3:moo"), (bytes "1:a", bytes "i1e"),
        (bytes "3:cow", bytes "4:eggs")] []
      (Reader.new 4096 [bytes "d3:cow3:moo1:ai1e3:cow4:eggse"]) (by decide) (by decide) 30 0 1
      (by decide) (by decide) _ 4 (by decide)⟩

/-- C7, failing input `"d+1:ai1ee"`: the first byte at the key position is
`'+'`, neither `'e'` nor a digit, yet `parseFromReader` returns no error and
calls `Key("a")`: `decodeString` hands the length prefix `"+1"` to
`strconv.ParseInt`, which accepts a sign. -/
theorem C7_signed_length_key_accepted :
    (parseFromReader (fun _ => none) 10 (Reader.new 4096 [bytes "d+1:ai1ee"]) 0 1).map absRun =
      some (.ok (), [],
        [(0, .Map), (0, .Key (bytes "a") 1), (1, .Int64 1), (1, .Flush), (0, .Flush)], 2) := by
  decide

/-- C2, failing input `"9223372036854775807:a"`: the declared length passes
`length < 0`, `Peek` fails, and `make([]byte, length)` panics; control never
reaches the label `exit:`, so the builder receives no `Flush` at all. -/
theorem C2_no_flush_on_panic :
    (parseFromReader (fun _ => none) 30 (Reader.new 4096 [bytes "9223372036854775807:a"])
        0 1).map absRun =
      some (.panic, bytes "a", [], 1) := by
  decide

/-- C10 as stated fails at `"9223372036854775808:ab"`: the declared length
`2^63` exceeds the two bytes that follow, but the error returned is the range
error of `strconv.ParseInt`, not `io.ErrUnexpectedEOF`. -/
theorem C10_counterexample_length_out_of_int64 :
    (parseFromReader (fun _ => none) 30 (Reader.new 4096 [bytes "9223372036854775808:ab"])
        0 1).map absRun =
      some (.error (.NumError .fnParseInt (bytes "9223372036854775808") .ErrRange), bytes "ab",
        [(0, .Flush)], 1) ∧
    Error.NumError .fnParseInt (bytes "9223372036854775808") .ErrRange ≠ .ErrUnexpectedEOF := by
  decide

namespace Stream

theorem decodeString_truncated {size : Nat} (n : Nat) (data : List Nat) (hk : 0 < data.length)
    (hkn : data.length < n) (hn : n ≤ maxAlloc) (hsz : 16 ≤ size) :
    decodeString size (natText n ++ 58 :: data) = (.error .ErrUnexpectedEOF, []) := by
  have hma : maxAlloc = 281474976710656 := by decide
  have hl := natText_length 14 n (by rw [hma] at hn; omega)
  have hno : 58 ∉ natText n := fun hm => by
    have := natText_digits _ 58 hm
    omega
  have hrs : readSlice size (natText n ++ 58 :: data) 58 = (.ok (natText n), data) :=
    readSlice_found hno (by omega)
  have hpi := ParseInt_natText n (by rw [hma] at hn; omega)
  unfold decodeString decodeInt64
  rw [hrs]
  simp only [hpi]
  have hnn : ¬ ((n : Int) < 0) := by omega
  have hp : ¬ (n ≤ size ∧ n ≤ data.length) := by omega
  have hm : ¬ maxAlloc < n := by omega
  simp only [hnn, if_false, Int.toNat_ofNat, hp, hm]
  unfold readFull
  have h1 : ¬ n ≤ data.length := by omega
  simp only [h1, if_false, hk, if_true]

end Stream

/-- C10 (amended): for every byte-string input whose declared length `n`,
written in decimal, is greater than the number `k` of bytes that follow the
`':'`, with `0 < k < n`, and no larger than the capacity of the reader's
buffer (so that `make([]byte, n)` asks for no more than the reader already
holds), `parseFromReader` returns `io.ErrUnexpectedEOF` and its only builder
call is the final `Flush`: `String` is never called with the partial data.
The buffer has the 16 bytes that `bufio` always allocates and is itself
within the limit of one allocation. -/
theorem C10_truncated_string (pf : List Nat → Option Float64) (n : Nat) (data : List Nat)
    (hk : 0 < data.length) (hkn : data.length < n) (r : Reader) (hr : r.WF)
    (hsz : 16 ≤ r.size) (hn : n ≤ r.size) (hcap : r.size ≤ maxAlloc)
    (hu : r.unread = natText n ++ 58 :: data) (fuel build next : Nat) (hf : 0 < fuel) :
    ∃ r1, parseFromReader pf fuel r build next =
        some (.error .ErrUnexpectedEOF, r1, [(build, .Flush)], next) ∧ r1.unread = [] := by
  obtain ⟨f, rfl⟩ : ∃ f, fuel = f + 1 := ⟨fuel - 1, by omega⟩
  obtain ⟨c, t1, hc, h1, h2⟩ := natText_head n
  have hd := Stream.decodeString_truncated n data hk hkn (le_trans hn hcap) hsz
  have hs : Stream.parseFromReader pf r.size (f + 1) r.unread build next =
      some (.error .ErrUnexpectedEOF, [], [(build, .Flush)], next) := by
    rw [hu]
    rw [hc] at hd ⊢
    rw [List.cons_append] at hd ⊢
    rw [Stream.parse_digit pf r.size f c _ build next h1 h2]
    unfold Stream.parseString
    rw [hd]
    rfl
  obtain ⟨r1, e1, _, e3, _⟩ := parseFromReader_of_stream hr hs
  exact ⟨r1, e1, e3⟩

theorem C10_truncated_string_witness :
    0 < (bytes "ab").length ∧ (bytes "ab").length < 5 ∧
    (Reader.new 4096 [bytes "5:ab"]).WF ∧ 16 ≤ (Reader.new 4096 [bytes "5:ab"]).size ∧
    5 ≤ (Reader.new 4096 [bytes "5:ab"]).size ∧
    (Reader.new 4096 [bytes "5:ab"]).size ≤ maxAlloc ∧
    (Reader.new 4096 [bytes "5:ab"]).unread = natText 5 ++ 58 :: bytes "ab" ∧
    ∃ r1, parseFromReader (fun _ => none) 1 (Reader.new 4096 [bytes "5:ab"]) 0 1 =
        some (.error .ErrUnexpectedEOF, r1, [(0, .Flush)], 1) ∧ r1.unread = [] :=
  ⟨by decide, by decide, by decide, by decide, by decide, by decide, by decide,
    C10_truncated_string (fun _ => none) 5 (bytes "ab") (by decide) (by decide)
      (Reader.new 4096 [bytes "5:ab"]) (by decide) (by decide) (by decide) (by decide)
      (by decide) 1 0 1 (by decide)⟩

theorem ValueList.snoc_append : (acc : ValueList) → (v : Value) → (vs : ValueList) →
    (acc.snoc v).append vs = acc.append (.cons v vs)
  | .nil, _, _ => by simp [ValueList.snoc, ValueList.append]
  | .cons _ xs, v, vs => by
    simp [ValueList.snoc, ValueList.append, ValueList.snoc_append xs v vs]

theorem ValueList.snoc_length : (acc : ValueList) → (v : Value) →
    (acc.snoc v).length = acc.length + 1
  | .nil, _ => by simp [ValueList.snoc, ValueList.length]
  | .cons _ xs, v => by simp [ValueList.snoc, ValueList.length, ValueList.snoc_length xs v]

theorem ValueDict.pairs_snoc_append : (acc : ValueDict) → (k : List Nat) → (v : Value) →
    (vs : ValueDict) → (acc.snoc k v).append vs = acc.append (.cons k v vs)
  | .nil, _, _, _ => by simp [ValueDict.snoc, ValueDict.append]
  | .cons _ _ xs, k, v, vs => by
    simp [ValueDict.snoc, ValueDict.append, ValueDict.pairs_snoc_append xs k v vs]

theorem ValueList.append_nil : (acc : ValueList) → acc.append .nil = acc
  | .nil => by simp [ValueList.append]
  | .cons _ xs => by simp [ValueList.append, ValueList.append_nil xs]

theorem ValueDict.pairs_append_nil : (acc : ValueDict) → acc.append .nil = acc
  | .nil => by simp [ValueDict.append]
  | .cons _ _ xs => by simp [ValueDict.append, ValueDict.pairs_append_nil xs]

theorem Tree.run_cons (t : Tree) (e : Event) (es : List Event) :
    t.run (e :: es) = match t.step e with
      | some t1 => t1.run es
      | none => none := rfl

mutual
theorem Tree.run_calls : (v : Value) → ∀ (b n : Nat) (slot : Slot) (stack : List Frame)
    (res : Option Value) (rest : List Event),
    Tree.run ⟨⟨b, slot, none⟩ :: stack, res⟩ (v.calls b n ++ rest) =
      match Tree.commit slot v stack res with
      | some t => t.run rest
      | none => none
  | .int n0 => by
    intro b n slot stack res rest
    simp [Value.calls, Tree.run, Tree.step]
  | .str s => by
    intro b n slot stack res rest
    simp [Value.calls, Tree.run, Tree.step]
  | .list xs => by
    intro b n slot stack res rest
    have h := Tree.run_list xs b 0 n slot stack res .nil rfl ((b, .Flush) :: rest)
    simp only [Value.calls, List.cons_append, List.append_assoc, List.singleton_append,
      List.nil_append]
    rw [Tree.run_cons]
    simp only [Tree.step, if_true]
    rw [h]
    simp [Tree.run, Tree.step, ValueList.append]
  | .dict kvs => by
    intro b n slot stack res rest
    have h := Tree.run_dict kvs b n slot stack res .nil ((b, .Flush) :: rest)
    simp only [Value.calls, List.cons_append, List.append_assoc, List.singleton_append,
      List.nil_append]
    rw [Tree.run_cons]
    simp only [Tree.step, if_true]
    rw [h]
    simp [Tree.run, Tree.step, ValueDict.append]
theorem Tree.run_list : (xs : ValueList) → ∀ (b i n : Nat) (slot : Slot) (stack : List Frame)
    (res : Option Value) (acc : ValueList), i = acc.length → ∀ (rest : List Event),
    Tree.run ⟨⟨b, slot, some (.list acc)⟩ :: stack, res⟩ (xs.calls b i n ++ rest) =
      Tree.run ⟨⟨b, slot, some (.list (acc.append xs))⟩ :: stack, res⟩ rest
  | .nil => by
    intro b i n slot stack res acc _ rest
    simp [ValueList.calls, ValueList.append_nil]
  | .cons v vs => by
    intro b i n slot stack res acc hi rest
    subst hi
    have hv := Tree.run_calls v n (n + 1) (.index acc.length)
      (⟨b, slot, some (.list acc)⟩ :: stack) res
      (vs.calls b (acc.length + 1) (n + 1 + v.subs) ++ rest)
    have hvs := Tree.run_list vs b (acc.length + 1) (n + 1 + v.subs) slot stack res
      (acc.snoc v) (by rw [ValueList.snoc_length]) rest
    simp only [ValueList.calls, List.cons_append, List.append_assoc]
    rw [Tree.run_cons]
    simp only [Tree.step, if_true]
    rw [hv]
    simp only [Tree.commit, if_true]
    rw [hvs, ValueList.snoc_append]
theorem Tree.run_dict : (kvs : ValueDict) → ∀ (b n : Nat) (slot : Slot) (stack : List Frame)
    (res : Option Value) (acc : ValueDict) (rest : List Event),
    Tree.run ⟨⟨b, slot, some (.dict acc)⟩ :: stack, res⟩ (kvs.calls b n ++ rest) =
      Tree.run ⟨⟨b, slot, some (.dict (acc.append kvs))⟩ :: stack, res⟩ rest
  | .nil => by
    intro b n slot stack res acc rest
    simp [ValueDict.calls, ValueDict.pairs_append_nil]
  | .cons k v vs => by
    intro b n slot stack res acc rest
    have hv := Tree.run_calls v n (n + 1) (.key k) (⟨b, slot, some (.dict acc)⟩ :: stack) res
      (vs.calls b (n + 1 + v.subs) ++ rest)
    have hvs := Tree.run_dict vs b (n + 1 + v.subs) slot stack res (acc.snoc k v) rest
    simp only [ValueDict.calls, List.cons_append, List.append_assoc]
    rw [Tree.run_cons]
    simp only [Tree.step, if_true]
    rw [hv]
    simp only [Tree.commit]
    rw [hvs, ValueDict.pairs_snoc_append]
end

theorem treeOf_calls (v : Value) (b n : Nat) : treeOf b (v.calls b n) = some v := by
  have h := Tree.run_calls v b n .root [] none []
  rw [List.append_nil] at h
  unfold treeOf
  rw [h]
  simp [Tree.commit, Tree.run]

/-- C1 as stated fails at the list holding the integer `2^63 - 1`, encoded
`"li9223372036854775807ee"`, read through a reader with the smallest buffer
`bufio` allocates (16 bytes): the 19 digits of the item do not fit the buffer
before the `'e'`, `ReadSlice` fails with `bufio.ErrBufferFull`, and
`parseFromReader` returns that error after `Array`, `Elem(0)` and the two
`Flush` calls: no `Int64` call is made. -/
theorem C1_counterexample_small_buffer :
    (Value.list (.cons (.int 9223372036854775807) .nil)).valid = true ∧
    (Reader.new 16 [bytes "li9223372036854775807ee"]).WF ∧
    (Reader.new 16 [bytes "li9223372036854775807ee"]).unread =
      (Value.list (.cons (.int 9223372036854775807) .nil)).enc ∧
    (parseFromReader (fun _ => none) 30 (Reader.new 16 [bytes "li9223372036854775807ee"])
        0 1).map absRun =
      some (.error .ErrBufferFull, bytes "807ee",
        [(0, .Array), (0, .Elem 0 1), (1, .Flush), (0, .Flush)], 2) :=
  ⟨by decide, by decide, by decide, by decide⟩

/-- C1 (amended): for every bencode value `v` built from signed 64-bit
integers, byte strings (no longer than `make` can allocate), lists and
dictionaries, on a reader over its standard encoding `v.enc` whose buffer
holds at least 21 bytes `parseFromReader` returns no error, reads the encoding to its
end and drives the builder with exactly the depth-first call sequence
`v.calls` of `v`; replaying these calls on the reference tree builder leaves
it holding a structure equal to `v`. -/
theorem C1_valid_encoding_decodes (pf : List Nat → Option Float64) (v : Value)
    (hv : v.valid = true) (r : Reader) (hr : r.WF) (hsz : 21 ≤ r.size)
    (hu : r.unread = v.enc) (fuel build next : Nat) (hf : v.enc.length ≤ fuel) :
    ∃ r1, parseFromReader pf fuel r build next =
        some (.ok (), r1, v.calls build next, next + v.subs) ∧
      r1.unread = [] ∧ treeOf build (v.calls build next) = some v := by
  have hs := Stream.parse_enc pf r.size hsz v [] fuel build next hv hf
  rw [List.append_nil, ← hu] at hs
  obtain ⟨r1, e1, _, e3, _⟩ := parseFromReader_of_stream hr hs
  exact ⟨r1, e1, e3, treeOf_calls v build next⟩

theorem C1_valid_encoding_decodes_witness :
    (Value.dict (.cons (bytes "cow") (.str (bytes "moo"))
      (.cons (bytes "spam") (.list (.cons (.int 42) .nil)) .nil))).valid = true ∧
    (Reader.new 4096 [bytes "d3:cow3:moo4:spamli42eee"]).WF ∧
    21 ≤ (Reader.new 4096 [bytes "d3:cow3:moo4:spamli42eee"]).size ∧
    (Reader.new 4096 [bytes "d3:cow3:moo4:spamli42eee"]).unread =
      (Value.dict (.cons (bytes "cow") (.str (bytes "moo"))
        (.cons (bytes "spam") (.list (.cons (.int 42) .nil)) .nil))).enc ∧
    (Value.dict (.cons (bytes "cow") (.str (bytes "moo"))
      (.cons (bytes "spam") (.list (.cons (.int 42) .nil)) .nil))).enc.length ≤ 24 ∧
    ∃ r1, parseFromReader (fun _ => none) 24
        (Reader.new 4096 [bytes "d3:cow3:moo4:spamli42eee"]) 0 1 =
        some (.ok (), r1,
          (Value.dict (.cons (bytes "cow") (.str (bytes "moo"))
            (.cons (bytes "spam") (.list (.cons (.int 42) .nil)) .nil))).calls 0 1,
          1 + (Value.dict (.cons (bytes "cow") (.str (bytes "moo"))
            (.cons (bytes "spam") (.list (.cons (.int 42) .nil)) .nil))).subs) ∧
      r1.unread = [] ∧
      treeOf 0 ((Value.dict (.cons (bytes "cow") (.str (bytes "moo"))
            (.cons (bytes "spam") (.list (.cons (.int 42) .nil)) .nil))).calls 0 1) =
        some (Value.dict (.cons (bytes "cow") (.str (bytes "moo"))
          (.cons (bytes "spam") (.list (.cons (.int 42) .nil)) .nil))) :=
  ⟨by decide, by decide, by decide, by decide, by decide,
    C1_valid_encoding_decodes (fun _ => none)
      (Value.dict (.cons (bytes "cow") (.str (bytes "moo"))
        (.cons (bytes "spam") (.list (.cons (.int 42) .nil)) .nil)))
      (by decide) (Reader.new 4096 [bytes "d3:cow3:moo4:spamli42eee"]) (by decide) (by decide)
      (by decide) 24 0 1 (by decide)⟩

/-- C3 as stated fails at the valid encoding `"i-1234567890123456e"` followed
by `"XY"`, read through readers with the smallest buffer `bufio` allocates
(16 bytes): the 17 bytes of the literal do not fit the buffer before the
`'e'`, so on the encoding followed by `"XY"` and on the encoding alone
`parseFromReader` fails with `bufio.ErrBufferFull`, and the unread bytes are
`"6eXY"`, not `"XY"`. -/
theorem C3_counterexample_small_buffer :
    (Value.int (-1234567890123456)).valid = true ∧
    (Reader.new 16 [bytes "i-1234567890123456eXY"]).WF ∧
    (Reader.new 16 [bytes "i-1234567890123456e"]).WF ∧
    (Reader.new 16 [bytes "i-1234567890123456eXY"]).unread =
      (Value.int (-1234567890123456)).enc ++ bytes "XY" ∧
    (Reader.new 16 [bytes "i-1234567890123456e"]).unread =
      (Value.int (-1234567890123456)).enc ∧
    (parseFromReader (fun _ => none) 30 (Reader.new 16 [bytes "i-1234567890123456eXY"])
        0 1).map absRun =
      some (.error .ErrBufferFull, bytes "6eXY", [(0, .Flush)], 1) ∧
    (parseFromReader (fun _ => none) 30 (Reader.new 16 [bytes "i-1234567890123456e"])
        0 1).map absRun =
      some (.error .ErrBufferFull, bytes "6e", [(0, .Flush)], 1) :=
  ⟨by decide, by decide, by decide, by decide, by decide, by decide, by decide⟩

/-- C3 (amended): for every valid encoding `b = v.enc` and every byte
sequence `t`, `parseFromReader` on a reader over `b` followed by `t`, both
read through readers whose buffer holds at least 21 bytes, succeeds with the same
builder calls as on a reader over `b` alone (the depth-first calls of `v`),
and leaves exactly `t` unread: it consumes exactly `len(b)` bytes. Strings
are no longer than `make` can allocate. -/
theorem C3_consumes_exactly_one_value (pf : List Nat → Option Float64) (v : Value)
    (t : List Nat) (hv : v.valid = true) (r r0 : Reader) (hr : r.WF) (hr0 : r0.WF)
    (hsz : 21 ≤ r.size) (hsz0 : 21 ≤ r0.size) (hu : r.unread = v.enc ++ t)
    (hu0 : r0.unread = v.enc) (fuel build next : Nat) (hf : v.enc.length ≤ fuel) :
    ∃ r1 r2, parseFromReader pf fuel r build next =
        some (.ok (), r1, v.calls build next, next + v.subs) ∧
      parseFromReader pf fuel r0 build next =
        some (.ok (), r2, v.calls build next, next + v.subs) ∧
      r1.unread = t ∧ r2.unread = [] ∧
      r.unread.length - r1.unread.length = v.enc.length := by
  have hs := Stream.parse_enc pf r.size hsz v t fuel build next hv hf
  have hs0 := Stream.parse_enc pf r0.size hsz0 v [] fuel build next hv hf
  rw [← hu] at hs
  rw [List.append_nil, ← hu0] at hs0
  obtain ⟨r1, e1, _, e3, _⟩ := parseFromReader_of_stream hr hs
  obtain ⟨r2, f1, _, f3, _⟩ := parseFromReader_of_stream hr0 hs0
  refine ⟨r1, r2, e1, f1, e3, f3, ?_⟩
  rw [e3, hu, List.length_append]
  omega

theorem C3_consumes_exactly_one_value_witness :
    (Value.str (bytes "spam")).valid = true ∧
    (Reader.new 4096 [bytes "4:spamXY"]).WF ∧ (Reader.new 4096 [bytes "4:spam"]).WF ∧
    21 ≤ (Reader.new 4096 [bytes "4:spamXY"]).size ∧
    21 ≤ (Reader.new 4096 [bytes "4:spam"]).size ∧
    (Reader.new 4096 [bytes "4:spamXY"]).unread = (Value.str (bytes "spam")).enc ++ bytes "XY" ∧
    (Reader.new 4096 [bytes "4:spam"]).unread = (Value.str (bytes "spam")).enc ∧
    (Value.str (bytes "spam")).enc.length ≤ 6 ∧
    ∃ r1 r2, parseFromReader (fun _ => none) 6 (Reader.new 4096 [bytes "4:spamXY"]) 0 1 =
        some (.ok (), r1, (Value.str (bytes "spam")).calls 0 1,
          1 + (Value.str (bytes "spam")).subs) ∧
      parseFromReader (fun _ => none) 6 (Reader.new 4096 [bytes "4:spam"]) 0 1 =
        some (.ok (), r2, (Value.str (bytes "spam")).calls 0 1,
          1 + (Value.str (bytes "spam")).subs) ∧
      r1.unread = bytes "XY" ∧ r2.unread = [] ∧
      (Reader.new 4096 [bytes "4:spamXY"]).unread.length - r1.unread.length =
        (Value.str (bytes "spam")).enc.length :=
  ⟨by decide, by decide, by decide, by decide, by decide, by decide, by decide, by decide,
    C3_consumes_exactly_one_value (fun _ => none) (Value.str (bytes "spam")) (bytes "XY")
      (by decide) (Reader.new 4096 [bytes "4:spamXY"]) (Reader.new 4096 [bytes "4:spam"])
      (by decide) (by decide) (by decide) (by decide) (by decide) (by decide) 6 0 1
      (by decide)⟩

theorem callsOn_nil (x : Nat) : callsOn x [] = [] := rfl

theorem callsOn_append (x : Nat) (a b : List Event) :
    callsOn x (a ++ b) = callsOn x a ++ callsOn x b := by
  simp [callsOn]

theorem callsOn_cons_self (x : Nat) (c : Call) (evs : List Event) :
    callsOn x ((x, c) :: evs) = c :: callsOn x evs := by
  simp [callsOn]

theorem callsOn_cons_ne {x y : Nat} (h : y ≠ x) (c : Call) (evs : List Event) :
    callsOn x ((y, c) :: evs) = callsOn x evs := by
  simp [callsOn, h]

theorem callsOn_eq_nil {x : Nat} {evs : List Event} (h : ∀ e ∈ evs, e.1 ≠ x) :
    callsOn x evs = [] := by
  induction evs with
  | nil => rfl
  | cons e t ih =>
    obtain ⟨y, c⟩ := e
    rw [callsOn_cons_ne (h (y, c) (List.mem_cons_self _ _))]
    exact ih (fun e he => h e (List.mem_cons_of_mem _ he))

theorem subBuilders_append (a b : List Event) :
    subBuilders (a ++ b) = subBuilders a ++ subBuilders b := by
  simp [subBuilders]

theorem range_split {a b c : Nat} (h1 : a ≤ b) (h2 : b ≤ c) :
    List.range' a (b - a) ++ List.range' b (c - b) = List.range' a (c - a) := by
  have := List.range'_append a (b - a) (c - b) 1
  rw [show a + 1 * (b - a) = b by omega, show c - b + (b - a) = c - a by omega] at this
  exact this

theorem CallShape.flushedLast {cs : List Call} (h : CallShape cs) : FlushedLast cs := by
  obtain ⟨pre, h1, h2⟩ := h
  refine ⟨pre, h1, ?_⟩
  rcases h2 with h2 | ⟨c, hc, h2⟩ | ⟨es, h2, hes⟩ | ⟨ks, h2, hks⟩
  · rw [h2]; simp
  · rw [h2]
    intro hm
    simp at hm
    rw [← hm] at hc
    simp [Call.isValue] at hc
  · rw [h2]
    intro hm
    simp at hm
    have := hes _ hm
    simp [Call.isElem] at this
  · rw [h2]
    intro hm
    simp at hm
    have := hks _ hm
    simp [Call.isKey] at this

theorem GoodLoop_nil (item : Call → Bool) (b n : Nat) : GoodLoop item b n n [] := by
  refine ⟨by simp [subBuilders], fun c hc => by simp [callsOn] at hc, fun x h1 h2 => by omega⟩

theorem GoodLoop_step {item : Call → Bool} {b n n3 n4 : Nat} {c : Call} {evs3 evs4 : List Event}
    (hb : b < n) (hc : item c = true) (hs : c.sub = some n) (o3 : Owned n (n + 1) n3 evs3)
    (g3 : Good n (n + 1) n3 evs3) (o4 : Owned b n3 n4 evs4) (g4 : GoodLoop item b n3 n4 evs4) :
    GoodLoop item b n n4 ((b, c) :: evs3 ++ evs4) := by
  obtain ⟨o31, o32⟩ := o3
  obtain ⟨o41, o42⟩ := o4
  obtain ⟨g31, g32, g33⟩ := g3
  obtain ⟨g41, g42, g43⟩ := g4
  have e3 : ∀ x, x < n ∨ n3 ≤ x → callsOn x evs3 = [] := by
    intro x hx
    apply callsOn_eq_nil
    intro e he
    rcases o32 e he with h | h
    · omega
    · omega
  have e4 : ∀ x, x ≠ b → x < n3 → callsOn x evs4 = [] := by
    intro x hx1 hx2
    apply callsOn_eq_nil
    intro e he
    rcases o42 e he with h | h
    · omega
    · omega
  refine ⟨?_, ?_, ?_⟩
  · rw [List.cons_append, ← List.singleton_append, subBuilders_append, subBuilders_append,
      g31, g41]
    have : subBuilders [(b, c)] = [n] := by simp [subBuilders, hs]
    rw [this, ← range_split (show n ≤ n3 by omega) o41,
      ← range_split (show n ≤ n + 1 by omega) o31]
    simp [List.range']
  · rw [List.cons_append, callsOn_cons_self, callsOn_append, e3 b (Or.inl hb)]
    intro c1 hc1
    rcases List.mem_cons.mp hc1 with h | h
    · rw [h]; exact hc
    · exact g42 c1 h
  · intro x hx1 hx2
    rw [List.cons_append, callsOn_cons_ne (show b ≠ x by omega), callsOn_append]
    by_cases hx3 : x < n3
    · rw [e4 x (by omega) hx3, List.append_nil]
      by_cases hx4 : x = n
      · rw [hx4]; exact g32
      · exact g33 x (by omega) hx3
    · rw [e3 x (Or.inr (by omega)), List.nil_append]
      exact g43 x (by omega) hx2

theorem Good_of_pre {b n n1 : Nat} {pre : List Event} (hb : b < n)
    (h1 : subBuilders pre = List.range' n (n1 - n)) (h2 : PreShape (callsOn b pre))
    (h3 : ∀ x, n ≤ x → x < n1 → CallShape (callsOn x pre)) :
    Good b n n1 (pre ++ [(b, Call.Flush)]) := by
  refine ⟨?_, ?_, ?_⟩
  · rw [subBuilders_append, h1]
    simp [subBuilders, Call.sub]
  · rw [callsOn_append, callsOn_cons_self, callsOn_nil]
    exact ⟨_, rfl, h2⟩
  · intro x hx1 hx2
    rw [callsOn_append, callsOn_cons_ne (show b ≠ x by omega), callsOn_nil, List.append_nil]
    exact h3 x hx1 hx2

theorem Good_terminal {b n : Nat} {evs : List Event} (hb : b < n)
    (h : evs = [] ∨ ∃ c, c.isValue = true ∧ evs = [(b, c)]) :
    Good b n n (evs ++ [(b, Call.Flush)]) := by
  apply Good_of_pre hb
  · rcases h with h | ⟨c, hc, h⟩
    · rw [h]; simp [subBuilders]
    · rw [h]
      cases c <;> simp [Call.isValue] at hc <;> simp [subBuilders, Call.sub]
  · rcases h with h | ⟨c, hc, h⟩
    · rw [h]; exact Or.inl rfl
    · rw [h, callsOn_cons_self, callsOn_nil]
      exact Or.inr (Or.inl ⟨c, hc, rfl⟩)
  · intro x h1 h2; omega

theorem Good_of_loop {item : Call → Bool} {b n n1 : Nat} {evs : List Event} (tag : Call)
    (htag : tag.sub = none) (hb : b < n) (g : GoodLoop item b n n1 evs)
    (hs : PreShape (tag :: callsOn b evs)) :
    Good b n n1 ((b, tag) :: evs ++ [(b, Call.Flush)]) := by
  obtain ⟨g1, g2, g3⟩ := g
  apply Good_of_pre hb
  · rw [← List.singleton_append, subBuilders_append, g1]
    simp [subBuilders, htag]
  · rw [callsOn_cons_self]; exact hs
  · intro x hx1 hx2
    rw [callsOn_cons_ne (show b ≠ x by omega)]
    exact g3 x hx1 hx2

namespace Stream

theorem listLoop_good {P : List Nat → Nat → Nat → Option SRun}
    (hO : ∀ u b n res u1 evs n1, P u b n = some (res, u1, evs, n1) → Owned b n n1 evs)
    (hG : ∀ u b n res u1 evs n1, b < n → P u b n = some (res, u1, evs, n1) →
      res ≠ .panic → Good b n n1 evs)
    (build : Nat) (k : Nat) : ∀ (u : List Nat) (i n : Nat) (res : Result Unit) (u1 : List Nat)
      (evs : List Event) (n1 : Nat), build < n →
      listLoop P build k u i n = some (res, u1, evs, n1) → res ≠ .panic →
      GoodLoop Call.isElem build n n1 evs := by
  induction k with
  | zero => intro u i n res u1 evs n1 _ h; simp [listLoop] at h
  | succ k ih =>
    intro u i n res u1 evs n1 hb h hres
    cases u with
    | nil =>
      simp only [listLoop, Option.some.injEq, Prod.mk.injEq] at h
      obtain ⟨_, _, h3, h4⟩ := h
      subst h3 h4
      exact GoodLoop_nil _ _ _
    | cons c t0 =>
      by_cases hc : c = 101
      · simp only [listLoop, hc, if_true, Option.some.injEq, Prod.mk.injEq] at h
        obtain ⟨_, _, h3, h4⟩ := h
        subst h3 h4
        exact GoodLoop_nil _ _ _
      · rw [listLoop] at h
        simp only [hc, if_false] at h
        cases hp : P (c :: t0) n (n + 1) with
        | none => rw [hp] at h; simp at h
        | some x =>
          obtain ⟨res3, u3, evs3, n3⟩ := x
          rw [hp] at h
          have o3 := hO _ _ _ _ _ _ _ hp
          cases res3 with
          | ok a =>
            cases a
            simp only at h
            cases hl : listLoop P build k u3 (i + 1) n3 with
            | none => rw [hl] at h; simp at h
            | some y =>
              obtain ⟨res4, u4, evs4, n4⟩ := y
              rw [hl] at h
              simp only [Option.some.injEq, Prod.mk.injEq] at h
              obtain ⟨h1, _, h3, h4⟩ := h
              subst h1 h3 h4
              have g3 := hG _ _ _ _ _ _ _ (Nat.lt_succ_self n) hp (by simp)
              exact GoodLoop_step hb rfl rfl o3 g3 (listLoop_owned hO build k _ _ _ _ _ _ _ hl)
                (ih _ _ _ _ _ _ _ (by have := o3.1; omega) hl hres)
          | error er =>
            simp only [Option.some.injEq, Prod.mk.injEq] at h
            obtain ⟨_, _, h3, h4⟩ := h
            subst h3 h4
            have g3 := hG _ _ _ _ _ _ _ (Nat.lt_succ_self n) hp (by simp)
            have := @GoodLoop_step Call.isElem build n n3 n3 (Call.Elem i n) evs3 [] hb rfl rfl o3 g3
              ⟨Nat.le_refl _, fun e he => by simp at he⟩ (GoodLoop_nil _ build n3)
            rw [List.append_nil] at this
            exact this
          | panic =>
            simp only [Option.some.injEq, Prod.mk.injEq] at h
            exact absurd h.1.symm hres

theorem dictLoop_good {size : Nat} {P : List Nat → Nat → Nat → Option SRun}
    (hO : ∀ u b n res u1 evs n1, P u b n = some (res, u1, evs, n1) → Owned b n n1 evs)
    (hG : ∀ u b n res u1 evs n1, b < n → P u b n = some (res, u1, evs, n1) →
      res ≠ .panic → Good b n n1 evs)
    (build : Nat) (k : Nat) : ∀ (u : List Nat) (n : Nat) (res : Result Unit) (u1 : List Nat)
      (evs : List Event) (n1 : Nat), build < n →
      dictLoop size P build k u n = some (res, u1, evs, n1) → res ≠ .panic →
      GoodLoop Call.isKey build n n1 evs := by
  induction k with
  | zero => intro u n res u1 evs n1 _ h; simp [dictLoop] at h
  | succ k ih =>
    intro u n res u1 evs n1 hb h hres
    cases u with
    | nil =>
      simp only [dictLoop, Option.some.injEq, Prod.mk.injEq] at h
      obtain ⟨_, _, h3, h4⟩ := h
      subst h3 h4
      exact GoodLoop_nil _ _ _
    | cons c t0 =>
      by_cases hc : c = 101
      · simp only [dictLoop, hc, if_true, Option.some.injEq, Prod.mk.injEq] at h
        obtain ⟨_, _, h3, h4⟩ := h
        subst h3 h4
        exact GoodLoop_nil _ _ _
      · rw [dictLoop] at h
        simp only [hc, if_false] at h
        cases hd : decodeString size (c :: t0) with
        | mk dres u2 =>
          rw [hd] at h
          cases dres with
          | error er =>
            simp only [Option.some.injEq, Prod.mk.injEq] at h
            obtain ⟨_, _, h3, h4⟩ := h
            subst h3 h4
            exact GoodLoop_nil _ _ _
          | panic =>
            simp only [Option.some.injEq, Prod.mk.injEq] at h
            exact absurd h.1.symm hres
          | ok key =>
            simp only at h
            cases hp : P u2 n (n + 1) with
            | none => rw [hp] at h; simp at h
            | some x =>
              obtain ⟨res3, u3, evs3, n3⟩ := x
              rw [hp] at h
              have o3 := hO _ _ _ _ _ _ _ hp
              cases res3 with
              | ok a =>
                cases a
                simp only at h
                cases hl : dictLoop size P build k u3 n3 with
                | none => rw [hl] at h; simp at h
                | some y =>
                  obtain ⟨res4, u4, evs4, n4⟩ := y
                  rw [hl] at h
                  simp only [Option.some.injEq, Prod.mk.injEq] at h
                  obtain ⟨h1, _, h3, h4⟩ := h
                  subst h1 h3 h4
                  have g3 := hG _ _ _ _ _ _ _ (Nat.lt_succ_self n) hp (by simp)
                  exact GoodLoop_step hb rfl rfl o3 g3 (dictLoop_owned hO build k _ _ _ _ _ _ hl)
                    (ih _ _ _ _ _ _ (by have := o3.1; omega) hl hres)
              | error er =>
                simp only [Option.some.injEq, Prod.mk.injEq] at h
                obtain ⟨_, _, h3, h4⟩ := h
                subst h3 h4
                have g3 := hG _ _ _ _ _ _ _ (Nat.lt_succ_self n) hp (by simp)
                have := @GoodLoop_step Call.isKey build n n3 n3 (Call.Key key n) evs3 [] hb rfl rfl o3 g3
                  ⟨Nat.le_refl _, fun e he => by simp at he⟩ (GoodLoop_nil _ build n3)
                rw [List.append_nil] at this
                exact this
              | panic =>
                simp only [Option.some.injEq, Prod.mk.injEq] at h
                exact absurd h.1.symm hres

theorem parseString_events (size : Nat) (u : List Nat) (b n : Nat) :
    (parseString size u b n).2.2.2 = n ∧ ((parseString size u b n).2.2.1 = [] ∨
      ∃ c, c.isValue = true ∧ (parseString size u b n).2.2.1 = [(b, c)]) := by
  unfold parseString
  cases decodeString size u with
  | mk x u1 =>
    cases x with
    | ok s => exact ⟨rfl, Or.inr ⟨Call.String s, rfl, rfl⟩⟩
    | error er => exact ⟨rfl, Or.inl rfl⟩
    | panic => exact ⟨rfl, Or.inl rfl⟩

theorem parseInteger_events (pf : List Nat → Option Float64) (size : Nat) (u : List Nat)
    (b n : Nat) :
    (parseInteger pf size u b n).2.2.2 = n ∧ ((parseInteger pf size u b n).2.2.1 = [] ∨
      ∃ c, c.isValue = true ∧ (parseInteger pf size u b n).2.2.1 = [(b, c)]) := by
  unfold parseInteger
  cases readSlice size u 101 with
  | mk x u1 =>
    cases x with
    | error er => exact ⟨rfl, Or.inl rfl⟩
    | panic => exact ⟨rfl, Or.inl rfl⟩
    | ok str =>
      simp only
      cases ParseInt str with
      | ok i => exact ⟨rfl, Or.inr ⟨Call.Int64 i, rfl, rfl⟩⟩
      | error _ =>
        simp only
        cases ParseUint str with
        | ok v => exact ⟨rfl, Or.inr ⟨Call.Uint64 v, rfl, rfl⟩⟩
        | error _ =>
          simp only
          cases pf str with
          | some f => exact ⟨rfl, Or.inr ⟨Call.Float64 f, rfl, rfl⟩⟩
          | none => exact ⟨rfl, Or.inl rfl⟩

theorem exit_returned {build : Nat} {x : Option SRun} {res : Result Unit} {u1 : List Nat}
    {evs : List Event} {n1 : Nat} (h : exit build x = some (res, u1, evs, n1))
    (hres : res ≠ .panic) :
    ∃ evs0, x = some (res, u1, evs0, n1) ∧ evs = evs0 ++ [(build, Call.Flush)] := by
  cases x with
  | none => simp [exit] at h
  | some y =>
    obtain ⟨res2, u2, evs2, n2⟩ := y
    cases res2 with
    | panic =>
      simp only [exit, Option.some.injEq, Prod.mk.injEq] at h
      exact absurd h.1.symm hres
    | ok a =>
      simp only [exit, Option.some.injEq, Prod.mk.injEq] at h
      obtain ⟨h1, h2, h3, h4⟩ := h
      subst h1 h2 h3 h4
      exact ⟨_, rfl, rfl⟩
    | error er =>
      simp only [exit, Option.some.injEq, Prod.mk.injEq] at h
      obtain ⟨h1, h2, h3, h4⟩ := h
      subst h1 h2 h3 h4
      exact ⟨_, rfl, rfl⟩

/-- Every run of `parseFromReader` that returns, with or without error,
leaves each builder it touched with a `CallShape`. -/
theorem parse_good (pf : List Nat → Option Float64) (size : Nat) (f : Nat) :
    ∀ (u : List Nat) (b n : Nat) (res : Result Unit) (u1 : List Nat) (evs : List Event)
      (n1 : Nat), b < n → parseFromReader pf size f u b n = some (res, u1, evs, n1) →
      res ≠ .panic → Good b n n1 evs := by
  induction f with
  | zero => intro u b n res u1 evs n1 _ h; simp [parseFromReader] at h
  | succ f ih =>
    intro u b n res u1 evs n1 hb h hres
    rw [parseFromReader] at h
    obtain ⟨evs0, hx, he⟩ := exit_returned h hres
    subst he
    unfold dispatch at hx
    cases u with
    | nil =>
      simp only [Option.some.injEq, Prod.mk.injEq] at hx
      obtain ⟨_, _, h3, h4⟩ := hx
      subst h3 h4
      exact Good_terminal hb (Or.inl rfl)
    | cons c t0 =>
      simp only at hx
      by_cases hd : 48 ≤ c ∧ c ≤ 57
      · simp only [hd, and_self, if_true, Option.some.injEq] at hx
        have := parseString_events size (c :: t0) b n
        rw [hx] at this
        simp only at this
        rw [this.1]
        exact Good_terminal hb this.2
      · simp only [hd, if_false] at hx
        by_cases hi : c = 105
        · simp only [hi, if_true, Option.some.injEq] at hx
          have := parseInteger_events pf size t0 b n
          rw [hx] at this
          simp only at this
          rw [this.1]
          exact Good_terminal hb this.2
        · simp only [hi, if_false] at hx
          by_cases hdd : c = 100
          · simp only [hdd, if_true] at hx
            cases hl : dictLoop size (parseFromReader pf size f) b f t0 n with
            | none => rw [hl] at hx; simp at hx
            | some y =>
              obtain ⟨res2, u2, evs2, n2⟩ := y
              rw [hl] at hx
              simp only [Option.some.injEq, Prod.mk.injEq] at hx
              obtain ⟨h1, _, h3, h4⟩ := hx
              subst h1 h3 h4
              have g := dictLoop_good (parse_owned pf size f) ih b f _ _ _ _ _ _ hb hl hres
              exact Good_of_loop Call.Map rfl hb g (Or.inr (Or.inr (Or.inr ⟨_, rfl, g.2.1⟩)))
          · simp only [hdd, if_false] at hx
            by_cases hll : c = 108
            · simp only [hll, if_true] at hx
              cases hl : listLoop (parseFromReader pf size f) b f t0 0 n with
              | none => rw [hl] at hx; simp at hx
              | some y =>
                obtain ⟨res2, u2, evs2, n2⟩ := y
                rw [hl] at hx
                simp only [Option.some.injEq, Prod.mk.injEq] at hx
                obtain ⟨h1, _, h3, h4⟩ := hx
                subst h1 h3 h4
                have g := listLoop_good (parse_owned pf size f) ih b f _ _ _ _ _ _ _ hb hl hres
                exact Good_of_loop Call.Array rfl hb g (Or.inr (Or.inr (Or.inl ⟨_, rfl, g.2.1⟩)))
            · simp only [hll, if_false, Option.some.injEq, Prod.mk.injEq] at hx
              obtain ⟨_, _, h3, h4⟩ := hx
              subst h3 h4
              exact Good_terminal hb (Or.inl rfl)

end Stream

/-- On every input, from every well-formed reader state, `parseFromReader`
ends, and when it returns (with a nil error or with an error, so whenever it
does not panic) the builder it was given and every sub-builder that `Elem` or
`Key` returned during the run received exactly one `Flush`, as its last
call. -/
theorem flush_once_on_return (pf : List Nat → Option Float64) (r : Reader) (hr : r.WF)
    (fuel build next : Nat) (hb : build < next) (hf : r.unread.length < fuel) :
    ∃ res r1 evs n1, parseFromReader pf fuel r build next = some (res, r1, evs, n1) ∧
      (res ≠ .panic → ∀ x, x = build ∨ x ∈ subBuilders evs → FlushedLast (callsOn x evs)) := by
  obtain ⟨res, u1, evs, n1, hx, _, _⟩ := Stream.parse_total pf r.size fuel r.unread build next hf
  obtain ⟨r1, h1, _, _, _⟩ := parseFromReader_of_stream hr hx
  refine ⟨res, r1, evs, n1, h1, fun hres x hxx => ?_⟩
  obtain ⟨g1, g2, g3⟩ := Stream.parse_good pf r.size fuel _ _ _ _ _ _ _ hb hx hres
  rcases hxx with hxx | hxx
  · rw [hxx]; exact g2.flushedLast
  · rw [g1] at hxx
    obtain ⟨hx1, hx2⟩ := List.mem_range'_1.mp hxx
    exact (g3 x hx1 (by omega)).flushedLast

/-- C12: for every byte `c` that is not an ASCII digit and not one of `'i'`,
`'d'`, `'l'` (a stray `'e'` and the whitespace bytes included) and every
input that has `c` as first byte at a value position, that is, where a call
of `parseFromReader` starts reading, the call consumes exactly that byte,
returns the error `unexpected character: c`, and its only builder call is
the single `Flush`. -/
theorem C12_unexpected_first_byte (pf : List Nat → Option Float64) (c : Nat) (rest : List Nat)
    (hd : ¬ (48 ≤ c ∧ c ≤ 57)) (hi : c ≠ 105) (hdd : c ≠ 100) (hl : c ≠ 108) (r : Reader)
    (hr : r.WF) (hu : r.unread = c :: rest) (fuel build next : Nat) (hf : 0 < fuel) :
    ∃ r1, parseFromReader pf fuel r build next =
        some (.error (.unexpectedCharacter c), r1, [(build, .Flush)], next) ∧
      r1.unread = rest := by
  obtain ⟨f, rfl⟩ : ∃ f, fuel = f + 1 := ⟨fuel - 1, by omega⟩
  have hs : Stream.parseFromReader pf r.size (f + 1) r.unread build next =
      some (.error (.unexpectedCharacter c), rest, [(build, .Flush)], next) := by
    rw [hu, Stream.parseFromReader]
    simp [Stream.dispatch, hd, hi, hdd, hl, Stream.exit]
  obtain ⟨r1, e1, _, e3, _⟩ := parseFromReader_of_stream hr hs
  exact ⟨r1, e1, e3⟩

theorem C12_unexpected_first_byte_witness :
    ¬ (48 ≤ 101 ∧ 101 ≤ 57) ∧ 101 ≠ 105 ∧ 101 ≠ 100 ∧ 101 ≠ 108 ∧
    (Reader.new 4096 [bytes "e4:spam"]).WF ∧
    (Reader.new 4096 [bytes "e4:spam"]).unread = 101 :: bytes "4:spam" ∧ 0 < 1 ∧
    ∃ r1, parseFromReader (fun _ => none) 1 (Reader.new 4096 [bytes "e4:spam"]) 0 1 =
        some (.error (.unexpectedCharacter 101), r1, [(0, .Flush)], 1) ∧
      r1.unread = bytes "4:spam" :=
  ⟨by decide, by decide, by decide, by decide, by decide, by decide, by decide,
    C12_unexpected_first_byte (fun _ => none) 101 (bytes "4:spam") (by decide) (by decide)
      (by decide) (by decide) (Reader.new 4096 [bytes "e4:spam"]) (by decide) (by decide)
      1 0 1 (by decide)⟩

/-- A whitespace byte in front of a value and a value position inside a
list: the same error, nothing but `Flush` on the builder of the position. -/
theorem unexpected_byte_examples :
    (parseFromReader (fun _ => none) 1 (Reader.new 4096 [bytes " i1e"]) 0 1).map absRun =
      some (.error (.unexpectedCharacter 32), bytes "i1e", [(0, .Flush)], 1) ∧
    (parseFromReader (fun _ => none) 3 (Reader.new 4096 [bytes "l i1ee"]) 0 1).map absRun =
      some (.error (.unexpectedCharacter 32), bytes "i1ee",
        [(0, .Array), (0, .Elem 0 1), (1, .Flush), (0, .Flush)], 2) :=
  ⟨by decide, by decide⟩

theorem itemCalls_length_le (pf : List Nat → Option Float64) {size : Nat} (hsz : 0 < size)
    (build : Nat) : ∀ (xs : List (List Nat)) (i n : Nat) (items : List Event) (n2 : Nat),
      itemCalls pf size build xs i n = some (items, n2) → xs.length ≤ xs.flatten.length := by
  intro xs
  induction xs with
  | nil => intro i n items n2 _; simp
  | cons x xs ih =>
    intro i n items n2 h
    obtain ⟨r1, evs, n1, rest, hrun, hu, hrest, _⟩ := itemCalls_cons h
    have hs := alone_to_stream hsz hrun hu
    obtain ⟨c, x0, hx, _⟩ := Stream.parse_ok_head pf size hs
    have := ih (i + 1) n1 rest n2 hrest
    subst hx
    simp only [List.length_cons, List.flatten_cons, List.length_append]
    omega

theorem pairCalls_length_le (pf : List Nat → Option Float64) {size : Nat} (hsz : 0 < size)
    (build : Nat) : ∀ (ps : List (List Nat × List Nat)) (n : Nat) (items : List Event)
      (n2 : Nat), pairCalls pf size build ps n = some (items, n2) →
      ps.length ≤ (pairsEnc ps).length := by
  intro ps
  induction ps with
  | nil => intro n items n2 _; simp
  | cons p ps ih =>
    intro n items n2 h
    obtain ⟨key, r1, evs, n1, rest, hk, hrun, hu, hrest, _⟩ := pairCalls_cons h
    have hs := alone_to_stream hsz hrun hu
    obtain ⟨c, x0, hx, _⟩ := Stream.parse_ok_head pf size hs
    have := ih n1 rest n2 hrest
    unfold pairsEnc at this ⊢
    simp only [List.length_cons, List.map_cons, List.flatten_cons, List.length_append, hx]
    omega

namespace Stream

theorem listLoop_segs (pf : List Nat → Option Float64) {size : Nat} (hsz : 0 < size)
    (F b : Nat) (w : List Nat) : ∀ (xs : List (List Nat)) (k i n : Nat) (items : List Event)
      (n2 : Nat), itemCalls pf size b xs i n = some (items, n2) → xs.flatten.length < F →
      listLoop (parseFromReader pf size F) b (xs.length + k) (xs.flatten ++ w) i n =
        withCalls items (listLoop (parseFromReader pf size F) b k w (i + xs.length) n2) := by
  intro xs
  induction xs with
  | nil =>
    intro k i n items n2 h _
    simp only [itemCalls, Option.some.injEq, Prod.mk.injEq] at h
    obtain ⟨rfl, rfl⟩ := h
    simp only [List.length_nil, Nat.zero_add, Nat.add_zero, List.flatten_nil, List.nil_append]
    cases listLoop (parseFromReader pf size F) b k w i n with
    | none => rfl
    | some y => rfl
  | cons x xs ih =>
    intro k i n items n2 h hF
    obtain ⟨r1, evs, n1, rest, hrun, hu, hrest, hitems⟩ := itemCalls_cons h
    have hs := alone_to_stream hsz hrun hu
    obtain ⟨c, x0, hx, hc⟩ := parse_ok_head pf size hs
    have hfr := parse_frame pf size _ _ _ _ _ _ _ hs (xs.flatten ++ w)
    rw [List.nil_append] at hfr
    simp only [List.flatten_cons, List.length_append] at hF
    have hp := parse_mono pf size (show x.length + 1 ≤ F by omega) hfr
    have hl := ih k (i + 1) n1 rest n2 hrest (by omega)
    rw [List.flatten_cons, List.append_assoc, List.length_cons,
      show xs.length + 1 + k = (xs.length + k) + 1 by omega]
    subst hx
    rw [List.cons_append] at hp ⊢
    rw [listLoop]
    simp only [hc, if_false, hp, hl, hitems]
    rw [show i + 1 + xs.length = i + (xs.length + 1) by omega]
    cases listLoop (parseFromReader pf size F) b k w (i + (xs.length + 1)) n2 with
    | none => rfl
    | some y => simp [withCalls]

theorem dictLoop_segs (pf : List Nat → Option Float64) {size : Nat} (hsz : 0 < size)
    (F b : Nat) (w : List Nat) : ∀ (ps : List (List Nat × List Nat)) (k n : Nat)
      (items : List Event) (n2 : Nat), pairCalls pf size b ps n = some (items, n2) →
      (pairsEnc ps).length < F →
      dictLoop size (parseFromReader pf size F) b (ps.length + k) (pairsEnc ps ++ w) n =
        withCalls items (dictLoop size (parseFromReader pf size F) b k w n2) := by
  intro ps
  induction ps with
  | nil =>
    intro k n items n2 h _
    simp only [pairCalls, Option.some.injEq, Prod.mk.injEq] at h
    obtain ⟨rfl, rfl⟩ := h
    simp only [pairsEnc, List.length_nil, Nat.zero_add, List.map_nil, List.flatten_nil,
      List.nil_append]
    cases dictLoop size (parseFromReader pf size F) b k w n with
    | none => rfl
    | some y => rfl
  | cons p ps ih =>
    intro k n items n2 h hF
    obtain ⟨key, r1, evs, n1, rest, hk, hrun, hu, hrest, hitems⟩ := pairCalls_cons h
    have hks := keyOf_to_stream hsz hk
    obtain ⟨c, k0, hc1, hc⟩ := decodeString_ok_head hks
    have hkf := decodeString_frame hks (p.2 ++ (pairsEnc ps ++ w))
    rw [List.nil_append] at hkf
    have hs := alone_to_stream hsz hrun hu
    have hfr := parse_frame pf size _ _ _ _ _ _ _ hs (pairsEnc ps ++ w)
    rw [List.nil_append] at hfr
    have hpe : pairsEnc (p :: ps) = p.1 ++ (p.2 ++ pairsEnc ps) := by
      simp [pairsEnc]
    rw [hpe] at hF ⊢
    simp only [List.length_append] at hF
    have hp := parse_mono pf size (show p.2.length + 1 ≤ F by omega) hfr
    have hl := ih k n1 rest n2 hrest (by omega)
    rw [List.append_assoc, List.append_assoc, List.length_cons,
      show ps.length + 1 + k = (ps.length + k) + 1 by omega]
    rw [hc1] at hkf ⊢
    rw [List.cons_append] at hkf ⊢
    rw [dictLoop]
    simp only [hc, if_false, hkf, hp, hl, hitems]
    cases dictLoop size (parseFromReader pf size F) b k w n2 with
    | none => rfl
    | some y => simp [withCalls]

theorem frame_error (pf : List Nat → Option Float64) {size : Nat} (hsz : 0 < size) (o : Open)
    (b n : Nat) (evs : List Event) (sub : Nat) (ho : o.calls pf size b n = some (evs, sub))
    (u : List Nat) (hu : ∀ xs, o = .list xs → ∃ c t, u = c :: t ∧ c ≠ 101) (F : Nat)
    (hF : (o.enc ++ u).length ≤ F) (e : Error) (u3 : List Nat) (evs3 : List Event) (n3 : Nat)
    (hchild : parseFromReader pf size F u sub (sub + 1) = some (.error e, u3, evs3, n3)) :
    parseFromReader pf size (F + 1) (o.enc ++ u) b n =
      some (.error e, u3, evs ++ (evs3 ++ [(b, .Flush)]), n3) := by
  cases o with
  | list xs =>
    obtain ⟨c, t, rfl, hc⟩ := hu xs rfl
    simp only [Open.calls] at ho
    cases hi : itemCalls pf size b xs 0 n with
    | none => rw [hi] at ho; simp at ho
    | some q =>
      obtain ⟨items, n1⟩ := q
      rw [hi] at ho
      simp only [Option.some.injEq, Prod.mk.injEq] at ho
      obtain ⟨rfl, rfl⟩ := ho
      simp only [Open.enc, List.cons_append, List.length_cons, List.length_append] at hF
      have hlen := itemCalls_length_le pf hsz b xs 0 n items n1 hi
      obtain ⟨k, hk⟩ : ∃ k, F = xs.length + (k + 1) := ⟨F - xs.length - 1, by omega⟩
      simp only [Open.enc, List.cons_append]
      rw [parse_list]
      have h1 := listLoop_segs pf hsz F b (c :: t) xs (k + 1) 0 n items n1 hi (by omega)
      rw [← hk] at h1
      rw [h1, listLoop]
      simp only [hc, if_false, Nat.zero_add, hchild]
      simp [withCalls, exit]
  | dict ps kx =>
    simp only [Open.calls] at ho
    cases hi : pairCalls pf size b ps n with
    | none => rw [hi] at ho; simp at ho
    | some q =>
      obtain ⟨items, n1⟩ := q
      rw [hi] at ho
      simp only at ho
      cases hk : keyOf size kx with
      | none => rw [hk] at ho; simp at ho
      | some key =>
        rw [hk] at ho
        simp only [Option.some.injEq, Prod.mk.injEq] at ho
        obtain ⟨rfl, rfl⟩ := ho
        simp only [Open.enc, List.cons_append, List.length_cons, List.length_append] at hF
        have hlen := pairCalls_length_le pf hsz b ps n items n1 hi
        have hks := keyOf_to_stream hsz hk
        obtain ⟨c, k0, hc1, hc⟩ := decodeString_ok_head hks
        have hkf := decodeString_frame hks u
        rw [List.nil_append] at hkf
        obtain ⟨k, hk2⟩ : ∃ k, F = ps.length + (k + 1) := ⟨F - ps.length - 1, by omega⟩
        simp only [Open.enc, List.cons_append, List.append_assoc]
        rw [parse_dict]
        have h3 := dictLoop_segs pf hsz F b (kx ++ u) ps (k + 1) n items n1 hi (by omega)
        rw [← hk2] at h3
        rw [h3]
        rw [hc1] at hkf ⊢
        rw [List.cons_append] at hkf ⊢
        rw [dictLoop]
        simp only [hc, if_false, hkf, hchild]
        simp [withCalls, exit]

theorem ctxEnc_head (o : Open) (os : List Open) (w : List Nat) :
    ∃ c t, ctxEnc (o :: os) ++ w = c :: t ∧ c ≠ 101 := by
  cases o with
  | list xs => exact ⟨108, xs.flatten ++ (ctxEnc os ++ w), by simp [ctxEnc, Open.enc], by decide⟩
  | dict ps kx =>
    exact ⟨100, pairsEnc ps ++ (kx ++ (ctxEnc os ++ w)), by simp [ctxEnc, Open.enc],
      by decide⟩

theorem ctx_error (pf : List Nat → Option Float64) {size : Nat} (hsz : 0 < size) (w : List Nat)
    (e : Error) (u3 : List Nat) (evs3 : List Event) (n3 : Nat) :
    ∀ (ctx : List Open) (b n g F : Nat) (pre post : List Event) (cb cn : Nat),
      ctxRun pf size ctx b n = some (pre, post, cb, cn) → childStarts ctx w = true →
      parseFromReader pf size g w cb cn = some (.error e, u3, evs3, n3) →
      (ctxEnc ctx ++ w).length < F →
      parseFromReader pf size F (ctxEnc ctx ++ w) b n =
        some (.error e, u3, pre ++ (evs3 ++ post), n3) := by
  intro ctx
  induction ctx with
  | nil =>
    intro b n g F pre post cb cn hctx _ hchild hF
    simp only [ctxRun, Option.some.injEq, Prod.mk.injEq] at hctx
    obtain ⟨rfl, rfl, rfl, rfl⟩ := hctx
    simp only [ctxEnc, List.nil_append, List.append_nil] at hF ⊢
    exact parse_eq_of_total pf size hF hchild
  | cons o os ih =>
    intro b n g F pre post cb cn hctx hst hchild hF
    obtain ⟨F1, rfl⟩ : ∃ F1, F = F1 + 1 := ⟨F - 1, by omega⟩
    rw [ctxRun] at hctx
    cases ho : o.calls pf size b n with
    | none => rw [ho] at hctx; simp at hctx
    | some q =>
      obtain ⟨evs, sub⟩ := q
      rw [ho] at hctx
      simp only at hctx
      cases hos : ctxRun pf size os sub (sub + 1) with
      | none => rw [hos] at hctx; simp at hctx
      | some q2 =>
        obtain ⟨pre2, post2, cb2, cn2⟩ := q2
        rw [hos] at hctx
        simp only [Option.some.injEq, Prod.mk.injEq] at hctx
        obtain ⟨rfl, rfl, rfl, rfl⟩ := hctx
        simp only [ctxEnc, List.append_assoc, List.length_append] at hF ⊢
        have hst2 : childStarts os w = true := by
          cases os with
          | nil => rfl
          | cons o2 os2 => simpa [childStarts] using hst
        have hin := ih sub (sub + 1) g F1 pre2 post2 cb2 cn2 hos hst2 hchild
          (by simp only [List.length_append]; have : 0 < o.enc.length := by
                cases o <;> simp [Open.enc]
              omega)
        have hu : ∀ xs, o = .list xs → ∃ c t, ctxEnc os ++ w = c :: t ∧ c ≠ 101 := by
          intro xs hxs
          cases os with
          | cons o2 os2 => exact ctxEnc_head o2 os2 w
          | nil =>
            subst hxs
            cases w with
            | nil => simp [childStarts] at hst
            | cons c t =>
              simp only [childStarts, decide_eq_true_eq] at hst
              exact ⟨c, t, by simp [ctxEnc], hst⟩
        rw [frame_error pf hsz o b n evs sub ho (ctxEnc os ++ w) hu F1
          (by simp only [List.length_append]; omega) e u3 _ n3 hin]
        simp

theorem childStarts_cons (c : Nat) (t : List Nat) (hc : c ≠ 101) :
    ∀ ctx : List Open, childStarts ctx (c :: t) = true
  | [] => rfl
  | [.list _] => by simp [childStarts, hc]
  | [.dict _ _] => rfl
  | _ :: o :: os => by
    rw [childStarts]
    exact childStarts_cons c t hc (o :: os)

theorem parse_nil (pf : List Nat → Option Float64) (size f b n : Nat) :
    parseFromReader pf size (f + 1) [] b n = some (.error .EOF, [], [(b, .Flush)], n) := by
  simp [parseFromReader, dispatch, exit]

theorem cutAt_error (pf : List Nat → Option Float64) {size : Nat} (hsz : 0 < size)
    (cut : CutAt) (b n : Nat) (evs : List Event) (n1 : Nat)
    (hc : cut.calls pf size b n = some (evs, n1)) (F : Nat) (hF : cut.enc.length ≤ F) :
    parseFromReader pf size (F + 1) cut.enc b n = some (.error .EOF, [], evs, n1) := by
  cases cut with
  | item xs =>
    simp only [CutAt.calls] at hc
    cases hi : itemCalls pf size b xs 0 n with
    | none => rw [hi] at hc; simp at hc
    | some q =>
      obtain ⟨items, n2⟩ := q
      rw [hi] at hc
      simp only [Option.some.injEq, Prod.mk.injEq] at hc
      obtain ⟨rfl, rfl⟩ := hc
      simp only [CutAt.enc, List.length_cons] at hF
      have hlen := itemCalls_length_le pf hsz b xs 0 n items n2 hi
      obtain ⟨k, hk⟩ : ∃ k, F = xs.length + (k + 1) := ⟨F - xs.length - 1, by omega⟩
      have h1 := listLoop_segs pf hsz F b [] xs (k + 1) 0 n items n2 hi (by omega)
      rw [← hk, List.append_nil] at h1
      simp only [CutAt.enc]
      rw [parse_list, h1, listLoop]
      simp [withCalls, exit]
  | key ps =>
    simp only [CutAt.calls] at hc
    cases hi : pairCalls pf size b ps n with
    | none => rw [hi] at hc; simp at hc
    | some q =>
      obtain ⟨items, n2⟩ := q
      rw [hi] at hc
      simp only [Option.some.injEq, Prod.mk.injEq] at hc
      obtain ⟨rfl, rfl⟩ := hc
      simp only [CutAt.enc, List.length_cons] at hF
      have hlen := pairCalls_length_le pf hsz b ps n items n2 hi
      obtain ⟨k, hk⟩ : ∃ k, F = ps.length + (k + 1) := ⟨F - ps.length - 1, by omega⟩
      have h1 := dictLoop_segs pf hsz F b [] ps (k + 1) n items n2 hi (by omega)
      rw [← hk, List.append_nil] at h1
      simp only [CutAt.enc]
      rw [parse_dict, h1, dictLoop]
      simp [withCalls, exit]
  | value ps kx =>
    have hF1 : 0 < F := by simp only [CutAt.enc, List.length_cons] at hF; omega
    obtain ⟨F1, rfl⟩ : ∃ F1, F = F1 + 1 := ⟨F - 1, by omega⟩
    simp only [CutAt.calls] at hc
    cases hi : pairCalls pf size b ps n with
    | none => rw [hi] at hc; simp at hc
    | some q =>
      obtain ⟨items, n2⟩ := q
      rw [hi] at hc
      simp only at hc
      cases hk : keyOf size kx with
      | none => rw [hk] at hc; simp at hc
      | some key =>
        rw [hk] at hc
        simp only [Option.some.injEq, Prod.mk.injEq] at hc
        obtain ⟨rfl, rfl⟩ := hc
        have ho : (Open.dict ps kx).calls pf size b n =
            some ((b, .Map) :: (items ++ [(b, .Key key n2)]), n2) := by
          simp only [Open.calls, hi, hk]
        have := frame_error pf hsz (.dict ps kx) b n _ n2 ho [] (fun xs h => by cases h)
          (F1 + 1) (by simpa [Open.enc, CutAt.enc] using hF) .EOF [] _ _
          (parse_nil pf size F1 _ _)
        simp only [Open.enc, List.append_nil] at this
        simp only [CutAt.enc]
        rw [this]
        simp

theorem cut_error (pf : List Nat → Option Float64) {size : Nat} (hsz : 0 < size)
    (ctx : List Open) (cut : CutAt) (b n : Nat) (pre post : List Event) (cb cn : Nat)
    (hctx : ctxRun pf size ctx b n = some (pre, post, cb, cn)) (evs : List Event) (n1 : Nat)
    (hc : cut.calls pf size cb cn = some (evs, n1)) (F : Nat)
    (hF : (ctxEnc ctx ++ cut.enc).length < F) :
    parseFromReader pf size F (ctxEnc ctx ++ cut.enc) b n =
      some (.error .EOF, [], pre ++ (evs ++ post), n1) := by
  have hst : childStarts ctx cut.enc = true := by
    cases cut with
    | item xs => exact childStarts_cons 108 _ (by decide) ctx
    | key ps => exact childStarts_cons 100 _ (by decide) ctx
    | value ps kx => exact childStarts_cons 100 _ (by decide) ctx
  exact ctx_error pf hsz cut.enc .EOF [] _ _ ctx b n (cut.enc.length + 1) F pre post cb cn
    hctx hst (cutAt_error pf hsz cut cb cn evs n1 hc _ (Nat.le_refl _)) hF

end Stream

theorem ctxRun_flushes (pf : List Nat → Option Float64) (size : Nat) :
    ∀ (ctx : List Open) (b n : Nat) (pre post : List Event) (cb cn : Nat),
      ctxRun pf size ctx b n = some (pre, post, cb, cn) →
      post.length = ctx.length ∧ ∀ ev ∈ post, ev.2 = Call.Flush := by
  intro ctx
  induction ctx with
  | nil =>
    intro b n pre post cb cn h
    simp only [ctxRun, Option.some.injEq, Prod.mk.injEq] at h
    obtain ⟨_, rfl, _, _⟩ := h
    exact ⟨rfl, fun ev hev => by simp at hev⟩
  | cons o os ih =>
    intro b n pre post cb cn h
    rw [ctxRun] at h
    cases ho : o.calls pf size b n with
    | none => rw [ho] at h; simp at h
    | some q =>
      obtain ⟨evs, sub⟩ := q
      rw [ho] at h
      simp only at h
      cases hos : ctxRun pf size os sub (sub + 1) with
      | none => rw [hos] at h; simp at h
      | some q2 =>
        obtain ⟨pre2, post2, cb2, cn2⟩ := q2
        rw [hos] at h
        simp only [Option.some.injEq, Prod.mk.injEq] at h
        obtain ⟨_, rfl, _, _⟩ := h
        obtain ⟨h1, h2⟩ := ih sub (sub + 1) pre2 post2 cb2 cn2 hos
        refine ⟨by simp [h1], ?_⟩
        intro ev hev
        simp only [List.mem_append, List.mem_singleton] at hev
        rcases hev with hev | hev
        · exact h2 ev hev
        · rw [hev]

/-- C13: for every list or dictionary input, given as the open containers
`ctx` around a child value whose bytes start the rest `w` of the input (the
items and keys in front of the child being any byte segments that decode on
their own through a reader of the same capacity, `ctxRun` computing their
calls), when `parseFromReader` on the child (run from any reader state `r0`
of the same capacity positioned at the child's first byte) fails with error
`e`, the top-level call returns that same error `e`; its calls are those made
up to the child, the child's own calls, and then nothing but one `Flush` for
each enclosing call, innermost first: no further `Elem` or `Key`; and the
reader is left exactly where the child left it: no further byte is read. -/
theorem C13_child_error_propagates (pf : List Nat → Option Float64) (ctx : List Open)
    (w : List Nat) (hst : childStarts ctx w = true) (r : Reader) (hr : r.WF)
    (hu : r.unread = ctxEnc ctx ++ w) (build next : Nat) (pre post : List Event) (cb cn : Nat)
    (hctx : ctxRun pf r.size ctx build next = some (pre, post, cb, cn)) (r0 : Reader)
    (h0 : r0.WF) (hs0 : r0.size = r.size) (hu0 : r0.unread = w) (g : Nat) (e : Error)
    (u3 : List Nat) (evs3 : List Event) (n3 : Nat)
    (hchild : (parseFromReader pf g r0 cb cn).map absRun = some (.error e, u3, evs3, n3))
    (fuel : Nat) (hf : r.unread.length < fuel) :
    ∃ r1, parseFromReader pf fuel r build next =
        some (.error e, r1, pre ++ (evs3 ++ post), n3) ∧
      r1.unread = u3 ∧ post.length = ctx.length ∧ ∀ ev ∈ post, ev.2 = Call.Flush := by
  have hc : Stream.parseFromReader pf r.size g w cb cn = some (.error e, u3, evs3, n3) := by
    cases hrun : parseFromReader pf g r0 cb cn with
    | none => rw [hrun] at hchild; simp at hchild
    | some run =>
      obtain ⟨res, r3, evs, n1⟩ := run
      rw [hrun] at hchild
      simp only [Option.map_some', absRun, Option.some.injEq, Prod.mk.injEq] at hchild
      obtain ⟨q1, q2, q3, q4⟩ := hchild
      subst q1 q2 q3 q4
      have := (parseFromReader_to_stream h0 hrun).1
      rw [hs0, hu0] at this
      exact this
  have hs := Stream.ctx_error pf hr.1 w e u3 evs3 n3 ctx build next g fuel pre post cb cn hctx
    hst hc (by rw [← hu]; exact hf)
  rw [← hu] at hs
  obtain ⟨r1, e1, _, e3, _⟩ := parseFromReader_of_stream hr hs
  obtain ⟨p1, p2⟩ := ctxRun_flushes pf r.size ctx build next pre post cb cn hctx
  exact ⟨r1, e1, e3, p1, p2⟩

theorem C13_child_error_propagates_witness :
    childStarts [Open.list [bytes "i18446744073709551615e"], Open.dict [] (bytes "+1:k")]
      (bytes "x9") = true ∧
    (Reader.new 4096 [bytes "li18446744073709551615ed+1:kx9"]).WF ∧
    (Reader.new 4096 [bytes "li18446744073709551615ed+1:kx9"]).unread =
      ctxEnc [Open.list [bytes "i18446744073709551615e"], Open.dict [] (bytes "+1:k")] ++
        bytes "x9" ∧
    ctxRun (fun _ => none) (Reader.new 4096 [bytes "li18446744073709551615ed+1:kx9"]).size
      [Open.list [bytes "i18446744073709551615e"], Open.dict [] (bytes "+1:k")] 0 1 =
      some ([(0, .Array), (0, .Elem 0 1), (1, .Uint64 18446744073709551615), (1, .Flush),
          (0, .Elem 1 2), (2, .Map), (2, .Key (bytes "k") 3)],
        [(2, .Flush), (0, .Flush)], 3, 4) ∧
    (Reader.new 4096 [bytes "x9"]).WF ∧
    (Reader.new 4096 [bytes "x9"]).size =
      (Reader.new 4096 [bytes "li18446744073709551615ed+1:kx9"]).size ∧
    (Reader.new 4096 [bytes "x9"]).unread = bytes "x9" ∧
    (parseFromReader (fun _ => none) 1 (Reader.new 4096 [bytes "x9"]) 3 4).map absRun =
      some (.error (.unexpectedCharacter 120), bytes "9", [(3, .Flush)], 4) ∧
    (Reader.new 4096 [bytes "li18446744073709551615ed+1:kx9"]).unread.length < 31 ∧
    ∃ r1, parseFromReader (fun _ => none) 31
          (Reader.new 4096 [bytes "li18446744073709551615ed+1:kx9"]) 0 1 =
        some (.error (.unexpectedCharacter 120), r1,
          [(0, .Array), (0, .Elem 0 1), (1, .Uint64 18446744073709551615), (1, .Flush),
              (0, .Elem 1 2), (2, .Map), (2, .Key (bytes "k") 3)] ++
            ([(3, .Flush)] ++ [(2, .Flush), (0, .Flush)]), 4) ∧
      r1.unread = bytes "9" ∧
      [(2, Call.Flush), (0, Call.Flush)].length =
        [Open.list [bytes "i18446744073709551615e"], Open.dict [] (bytes "+1:k")].length ∧
      ∀ ev ∈ [(2, Call.Flush), (0, Call.Flush)], ev.2 = Call.Flush :=
  ⟨by decide, by decide, by decide, by decide, by decide, by decide, by decide, by decide,
    by decide,
    C13_child_error_propagates (fun _ => none)
      [Open.list [bytes "i18446744073709551615e"], Open.dict [] (bytes "+1:k")]
      (bytes "x9") (by decide) (Reader.new 4096 [bytes "li18446744073709551615ed+1:kx9"])
      (by decide) (by decide) 0 1 _ _ 3 4 (by decide) (Reader.new 4096 [bytes "x9"])
      (by decide) (by decide) (by decide) 1 (.unexpectedCharacter 120) (bytes "9")
      [(3, .Flush)] 4 (by decide) 31 (by decide)⟩

/-- Two runs written out. On `"li18446744073709551615ex9"` the failing child
(sub-builder 2) follows an item reported through `Uint64`; after its `Flush`
comes the `Flush` of the list, nothing else, and the byte `'9'` is left
unread. Through a reader with a 16-byte buffer, on `"l4:spamd1:kx9"`: after
the failing child (sub-builder 3) come the `Flush` of the dictionary
(sub-builder 2) and the `Flush` of the list (builder 0). -/
theorem child_error_example :
    (parseFromReader (fun _ => none) 26 (Reader.new 4096 [bytes "li18446744073709551615ex9"])
        0 1).map absRun =
      some (.error (.unexpectedCharacter 120), bytes "9",
        [(0, .Array), (0, .Elem 0 1), (1, .Uint64 18446744073709551615), (1, .Flush),
          (0, .Elem 1 2), (2, .Flush), (0, .Flush)], 3) ∧
    (parseFromReader (fun _ => none) 14 (Reader.new 16 [bytes "l4:spamd1:kx9"])
        0 1).map absRun =
      some (.error (.unexpectedCharacter 120), bytes "9",
        [(0, .Array), (0, .Elem 0 1), (1, .String (bytes "spam")), (1, .Flush),
          (0, .Elem 1 2), (2, .Map), (2, .Key (bytes "k") 3), (3, .Flush), (2, .Flush),
          (0, .Flush)], 4) :=
  ⟨by decide, by decide⟩

/-- C11 as stated fails: on the input `"l"`, a list cut off where an item or
its `'e'` is expected, `parseFromReader` returns `io.EOF`, and on the empty
source it returns `io.EOF` too: the two errors are the same value. -/
theorem C11_counterexample_same_error :
    (parseFromReader (fun _ => none) 2 (Reader.new 4096 [bytes "l"]) 0 1).map
        (fun run => run.1) = some (.error .EOF) ∧
    (parseFromReader (fun _ => none) 2 (Reader.new 4096 []) 0 1).map
        (fun run => run.1) = some (.error .EOF) ∧
    (parseFromReader (fun _ => none) 2 (Reader.new 4096 [bytes "l"]) 0 1).map
        (fun run => run.1) =
      (parseFromReader (fun _ => none) 2 (Reader.new 4096 []) 0 1).map (fun run => run.1) :=
  ⟨by decide, by decide, by decide⟩

/-- C11 (amended): for every input that ends where the next value or the
closing `'e'` of an open list or dictionary is expected (the open containers
`ctx` around the innermost one, `cut`; the items and keys decoded before the
end are any byte segments that decode on their own through a reader of the
same capacity, `ctxRun` and `cut.calls` computing their calls),
`parseFromReader` fails with `io.EOF` at the end of the input, after `Array`
or `Map` and one `Flush` on every builder; `io.EOF` is also the error it
returns on the empty source, where the only call is `Flush`. -/
theorem C11_cut_structure_returns_EOF (pf : List Nat → Option Float64) (ctx : List Open)
    (cut : CutAt) (r : Reader) (hr : r.WF) (hu : r.unread = ctxEnc ctx ++ cut.enc)
    (build next : Nat) (pre post : List Event) (cb cn : Nat)
    (hctx : ctxRun pf r.size ctx build next = some (pre, post, cb, cn)) (evs : List Event)
    (n1 : Nat) (hcut : cut.calls pf r.size cb cn = some (evs, n1)) (r0 : Reader) (h0 : r0.WF)
    (hu0 : r0.unread = []) (fuel : Nat) (hf : r.unread.length < fuel) :
    ∃ r1 r2, parseFromReader pf fuel r build next =
        some (.error .EOF, r1, pre ++ (evs ++ post), n1) ∧
      r1.unread = [] ∧
      parseFromReader pf fuel r0 build next = some (.error .EOF, r2, [(build, .Flush)], next) ∧
      r2.unread = [] := by
  have hs := Stream.cut_error pf hr.1 ctx cut build next pre post cb cn hctx evs n1 hcut fuel
    (by rw [← hu]; exact hf)
  rw [← hu] at hs
  obtain ⟨r1, e1, _, e3, _⟩ := parseFromReader_of_stream hr hs
  obtain ⟨f, rfl⟩ : ∃ f, fuel = f + 1 := ⟨fuel - 1, by omega⟩
  have hs0 := Stream.parse_nil pf r0.size f build next
  rw [← hu0] at hs0
  obtain ⟨r2, e2, _, e4, _⟩ := parseFromReader_of_stream h0 hs0
  exact ⟨r1, r2, e1, e3, e2, by rw [e4, hu0]⟩

theorem C11_cut_structure_returns_EOF_witness :
    (Reader.new 4096 [bytes "li18446744073709551615ed+3:cow"]).WF ∧
    (Reader.new 4096 [bytes "li18446744073709551615ed+3:cow"]).unread =
      ctxEnc [Open.list [bytes "i18446744073709551615e"]] ++
        (CutAt.value [] (bytes "+3:cow")).enc ∧
    ctxRun (fun _ => none) (Reader.new 4096 [bytes "li18446744073709551615ed+3:cow"]).size
      [Open.list [bytes "i18446744073709551615e"]] 0 1 =
      some ([(0, .Array), (0, .Elem 0 1), (1, .Uint64 18446744073709551615), (1, .Flush),
          (0, .Elem 1 2)], [(0, .Flush)], 2, 3) ∧
    (CutAt.value [] (bytes "+3:cow")).calls (fun _ => none)
      (Reader.new 4096 [bytes "li18446744073709551615ed+3:cow"]).size 2 3 =
      some ([(2, .Map), (2, .Key (bytes "cow") 3), (3, .Flush), (2, .Flush)], 4) ∧
    (Reader.new 4096 []).WF ∧ (Reader.new 4096 []).unread = [] ∧
    (Reader.new 4096 [bytes "li18446744073709551615ed+3:cow"]).unread.length < 31 ∧
    ∃ r1 r2, parseFromReader (fun _ => none) 31
          (Reader.new 4096 [bytes "li18446744073709551615ed+3:cow"]) 0 1 =
        some (.error .EOF, r1,
          [(0, .Array), (0, .Elem 0 1), (1, .Uint64 18446744073709551615), (1, .Flush),
              (0, .Elem 1 2)] ++
            ([(2, .Map), (2, .Key (bytes "cow") 3), (3, .Flush), (2, .Flush)] ++
              [(0, .Flush)]), 4) ∧
      r1.unread = [] ∧
      parseFromReader (fun _ => none) 31 (Reader.new 4096 []) 0 1 =
        some (.error .EOF, r2, [(0, .Flush)], 1) ∧
      r2.unread = [] :=
  ⟨by decide, by decide, by decide, by decide, by decide, by decide, by decide,
    C11_cut_structure_returns_EOF (fun _ => none) [Open.list [bytes "i18446744073709551615e"]]
      (CutAt.value [] (bytes "+3:cow"))
      (Reader.new 4096 [bytes "li18446744073709551615ed+3:cow"]) (by decide) (by decide) 0 1
      _ _ 2 3 (by decide) _ 4 (by decide) (Reader.new 4096 []) (by decide) (by decide) 31
      (by decide)⟩

/-- Inputs cut off inside a structure: `"l"`, `"li1e"` and `"d3:cow"`, and,
through a reader with a 16-byte buffer, `"li1ed3:cow"`: each ends in
`io.EOF`. -/
theorem cut_examples :
    (parseFromReader (fun _ => none) 2 (Reader.new 4096 [bytes "l"]) 0 1).map absRun =
      some (.error .EOF, [], [(0, .Array), (0, .Flush)], 1) ∧
    (parseFromReader (fun _ => none) 5 (Reader.new 4096 [bytes "li1e"]) 0 1).map absRun =
      some (.error .EOF, [],
        [(0, .Array), (0, .Elem 0 1), (1, .Int64 1), (1, .Flush), (0, .Flush)], 2) ∧
    (parseFromReader (fun _ => none) 7 (Reader.new 4096 [bytes "d3:cow"]) 0 1).map absRun =
      some (.error .EOF, [],
        [(0, .Map), (0, .Key (bytes "cow") 1), (1, .Flush), (0, .Flush)], 2) ∧
    (parseFromReader (fun _ => none) 11 (Reader.new 16 [bytes "li1ed3:cow"]) 0 1).map absRun =
      some (.error .EOF, [],
        [(0, .Array), (0, .Elem 0 1), (1, .Int64 1), (1, .Flush), (0, .Elem 1 2), (2, .Map),
          (2, .Key (bytes "cow") 3), (3, .Flush), (2, .Flush), (0, .Flush)], 4) :=
  ⟨by decide, by decide, by decide, by decide⟩

theorem NoBare_nil : NoBare [] := fun x => by simp [callsOn]

theorem NoBare_append {a b : List Event} (ha : NoBare a) (hb : NoBare b) : NoBare (a ++ b) := by
  intro x h
  rw [callsOn_append] at h
  cases hxa : callsOn x a with
  | nil =>
    rw [hxa, List.nil_append] at h
    exact hb x h
  | cons c t =>
    rw [hxa] at h
    cases hxb : callsOn x b with
    | nil =>
      rw [hxb, List.append_nil] at h
      exact ha x (by rw [hxa, h])
    | cons c2 t2 =>
      rw [hxb] at h
      have := congrArg List.length h
      simp at this

theorem NoBare_single (b : Nat) (c : Call) (hc : c ≠ .Flush) : NoBare [(b, c)] := by
  intro x h
  by_cases hx : b = x
  · subst hx
    rw [callsOn_cons_self, callsOn_nil] at h
    exact hc (List.cons.inj h).1
  · rw [callsOn_cons_ne hx, callsOn_nil] at h
    cases h

theorem NoBare_wrap {b : Nat} {c : Call} {mid : List Event} (hm : NoBare mid) : NoBare ((b, c) :: mid ++ [(b, Call.Flush)]) := by
  intro x h
  by_cases hx : b = x
  · subst hx
    rw [List.cons_append, callsOn_cons_self, callsOn_append, callsOn_cons_self, callsOn_nil] at h
    have := congrArg List.length h
    simp at this
  · rw [List.cons_append, callsOn_cons_ne hx, callsOn_append, callsOn_cons_ne hx, callsOn_nil,
      List.append_nil] at h
    exact hm x h

namespace Stream

theorem listLoop_no_bare {P : List Nat → Nat → Nat → Option SRun}
    (hP : ∀ u b n u1 evs n1, P u b n = some (.ok (), u1, evs, n1) → NoBare evs)
    (build : Nat) (k : Nat) : ∀ (u : List Nat) (i n : Nat) (u1 : List Nat)
      (evs : List Event) (n1 : Nat),
      listLoop P build k u i n = some (.ok (), u1, evs, n1) → NoBare evs := by
  induction k with
  | zero => intro u i n u1 evs n1 h; simp [listLoop] at h
  | succ k ih =>
    intro u i n u1 evs n1 h
    cases u with
    | nil => simp [listLoop] at h
    | cons c t0 =>
      by_cases hc : c = 101
      · simp only [listLoop, hc, if_true, Option.some.injEq, Prod.mk.injEq] at h
        obtain ⟨_, _, h3, _⟩ := h
        subst h3
        exact NoBare_nil
      · rw [listLoop] at h
        simp only [hc, if_false] at h
        cases hp : P (c :: t0) n (n + 1) with
        | none => rw [hp] at h; simp at h
        | some x =>
          obtain ⟨res3, u3, evs3, n3⟩ := x
          rw [hp] at h
          cases res3 with
          | ok a =>
            cases a
            simp only at h
            cases hl : listLoop P build k u3 (i + 1) n3 with
            | none => rw [hl] at h; simp at h
            | some y =>
              obtain ⟨res4, u4, evs4, n4⟩ := y
              rw [hl] at h
              simp only [Option.some.injEq, Prod.mk.injEq] at h
              obtain ⟨h1, _, h3, _⟩ := h
              subst h1 h3
              have g3 := hP _ _ _ _ _ _ hp
              have g4 := ih _ _ _ _ _ _ hl
              rw [List.cons_append, ← List.singleton_append]
              exact NoBare_append (NoBare_single _ _ (by simp)) (NoBare_append g3 g4)
          | error er => simp at h
          | panic => simp at h

theorem dictLoop_no_bare {size : Nat} {P : List Nat → Nat → Nat → Option SRun}
    (hP : ∀ u b n u1 evs n1, P u b n = some (.ok (), u1, evs, n1) → NoBare evs)
    (build : Nat) (k : Nat) : ∀ (u : List Nat) (n : Nat) (u1 : List Nat)
      (evs : List Event) (n1 : Nat),
      dictLoop size P build k u n = some (.ok (), u1, evs, n1) → NoBare evs := by
  induction k with
  | zero => intro u n u1 evs n1 h; simp [dictLoop] at h
  | succ k ih =>
    intro u n u1 evs n1 h
    cases u with
    | nil => simp [dictLoop] at h
    | cons c t0 =>
      by_cases hc : c = 101
      · simp only [dictLoop, hc, if_true, Option.some.injEq, Prod.mk.injEq] at h
        obtain ⟨_, _, h3, _⟩ := h
        subst h3
        exact NoBare_nil
      · rw [dictLoop] at h
        simp only [hc, if_false] at h
        cases hd : decodeString size (c :: t0) with
        | mk dres u2 =>
          rw [hd] at h
          cases dres with
          | error er => simp at h
          | panic => simp at h
          | ok key =>
            simp only at h
            cases hp : P u2 n (n + 1) with
            | none => rw [hp] at h; simp at h
            | some x =>
              obtain ⟨res3, u3, evs3, n3⟩ := x
              rw [hp] at h
              cases res3 with
              | ok a =>
                cases a
                simp only at h
                cases hl : dictLoop size P build k u3 n3 with
                | none => rw [hl] at h; simp at h
                | some y =>
                  obtain ⟨res4, u4, evs4, n4⟩ := y
                  rw [hl] at h
                  simp only [Option.some.injEq, Prod.mk.injEq] at h
                  obtain ⟨h1, _, h3, _⟩ := h
                  subst h1 h3
                  have g3 := hP _ _ _ _ _ _ hp
                  have g4 := ih _ _ _ _ _ hl
                  rw [List.cons_append, ← List.singleton_append]
                  exact NoBare_append (NoBare_single _ _ (by simp)) (NoBare_append g3 g4)
              | error er => simp at h
              | panic => simp at h

/-- In a run of `parseFromReader` that returns no error, no builder is left
with the bare sequence `[Flush]`. -/
theorem parse_ok_no_bare (pf : List Nat → Option Float64) (size : Nat) (f : Nat) :
    ∀ (u : List Nat) (b n : Nat) (u1 : List Nat) (evs : List Event) (n1 : Nat),
      parseFromReader pf size f u b n = some (.ok (), u1, evs, n1) → NoBare evs := by
  induction f with
  | zero => intro u b n u1 evs n1 h; simp [parseFromReader] at h
  | succ f ih =>
    intro u b n u1 evs n1 h
    rw [parseFromReader] at h
    obtain ⟨evs0, hx, he⟩ := exit_returned h (by simp)
    subst he
    unfold dispatch at hx
    cases u with
    | nil => simp at hx
    | cons c t0 =>
      simp only at hx
      by_cases hd : 48 ≤ c ∧ c ≤ 57
      · simp only [hd, and_self, if_true, Option.some.injEq] at hx
        unfold parseString at hx
        cases hds : decodeString size (c :: t0) with
        | mk x u2 =>
          rw [hds] at hx
          cases x with
          | ok s =>
            simp only [Prod.mk.injEq] at hx
            rw [← hx.2.2.1]
            exact @NoBare_wrap b _ [] NoBare_nil
          | error er => simp at hx
          | panic => simp at hx
      · simp only [hd, if_false] at hx
        by_cases hi : c = 105
        · simp only [hi, if_true, Option.some.injEq] at hx
          have hev := parseInteger_events pf size t0 b n
          rw [hx] at hev
          simp only at hev
          rcases hev.2 with hev2 | ⟨c1, hc1, hev2⟩
          · exfalso
            subst hev2
            unfold parseInteger at hx
            cases hrs : readSlice size t0 101 with
            | mk x u2 =>
              rw [hrs] at hx
              cases x with
              | error er => simp at hx
              | panic => simp at hx
              | ok str =>
                simp only at hx
                cases hpi : ParseInt str with
                | ok i => rw [hpi] at hx; simp at hx
                | error _ =>
                  rw [hpi] at hx
                  simp only at hx
                  cases hpu : ParseUint str with
                  | ok v => rw [hpu] at hx; simp at hx
                  | error _ =>
                    rw [hpu] at hx
                    simp only at hx
                    cases hpf : pf str with
                    | some fl => rw [hpf] at hx; simp at hx
                    | none => rw [hpf] at hx; simp at hx
          · subst hev2
            exact @NoBare_wrap b _ [] NoBare_nil
        · simp only [hi, if_false] at hx
          by_cases hdd : c = 100
          · simp only [hdd, if_true] at hx
            cases hl : dictLoop size (parseFromReader pf size f) b f t0 n with
            | none => rw [hl] at hx; simp at hx
            | some y =>
              obtain ⟨res2, u2, evs2, n2⟩ := y
              rw [hl] at hx
              simp only [Option.some.injEq, Prod.mk.injEq] at hx
              obtain ⟨h1, _, h3, _⟩ := hx
              subst h1 h3
              exact NoBare_wrap (dictLoop_no_bare ih b f _ _ _ _ _ hl)
          · simp only [hdd, if_false] at hx
            by_cases hll : c = 108
            · simp only [hll, if_true] at hx
              cases hl : listLoop (parseFromReader pf size f) b f t0 0 n with
              | none => rw [hl] at hx; simp at hx
              | some y =>
                obtain ⟨res2, u2, evs2, n2⟩ := y
                rw [hl] at hx
                simp only [Option.some.injEq, Prod.mk.injEq] at hx
                obtain ⟨h1, _, h3, _⟩ := hx
                subst h1 h3
                exact NoBare_wrap (listLoop_no_bare ih b f _ _ _ _ _ _ hl)
            · simp [hll] at hx

end Stream

/-- On every input, from every well-formed reader state, when
`parseFromReader` returns (with a nil error or with an error, so whenever it
does not panic), the calls that the builder it was given and every
sub-builder received form one of the sequences `[Flush]`,
`[terminal, Flush]`, `[Array, Elem*, Flush]`, `[Map, Key*, Flush]`; and when
it returns no error none of them is the bare `[Flush]`. -/
theorem call_shapes_on_return (pf : List Nat → Option Float64) (r : Reader) (hr : r.WF)
    (fuel build next : Nat) (hb : build < next) (hf : r.unread.length < fuel) :
    ∃ res r1 evs n1, parseFromReader pf fuel r build next = some (res, r1, evs, n1) ∧
      (res ≠ .panic → ∀ x, x = build ∨ x ∈ subBuilders evs → CallShape (callsOn x evs)) ∧
      (res = .ok () → ∀ x, callsOn x evs ≠ [Call.Flush]) := by
  obtain ⟨res, u1, evs, n1, hx, _, _⟩ := Stream.parse_total pf r.size fuel r.unread build next hf
  obtain ⟨r1, h1, _, _, _⟩ := parseFromReader_of_stream hr hx
  refine ⟨res, r1, evs, n1, h1, fun hres x hxx => ?_, fun hres => ?_⟩
  · obtain ⟨g1, g2, g3⟩ := Stream.parse_good pf r.size fuel _ _ _ _ _ _ _ hb hx hres
    rcases hxx with hxx | hxx
    · rw [hxx]; exact g2
    · rw [g1] at hxx
      obtain ⟨hx1, hx2⟩ := List.mem_range'_1.mp hxx
      exact g3 x hx1 (by omega)
  · subst hres
    exact Stream.parse_ok_no_bare pf r.size fuel _ _ _ _ _ _ hx

/-- C14, failing input `"l9223372036854775807:ae"`: the string item declares
the length `MaxInt64`, `make([]byte, length)` panics, and the calls made are
`Array` and `Elem(0)` on the top-level builder, with no `Flush`, and no call
at all on the sub-builder that `Elem(0)` returned: neither sequence is one of
the four shapes. -/
theorem C14_no_shape_on_panic :
    (parseFromReader (fun _ => none) 30 (Reader.new 4096 [bytes "l9223372036854775807:ae"])
        0 1).map absRun =
      some (.panic, bytes "ae", [(0, .Array), (0, .Elem 0 1)], 2) := by
  decide

namespace Stream

theorem decodeString_strEnc_min {size : Nat} (s t : List Nat) (hs : s.length ≤ maxAlloc)
    (hsz : 16 ≤ size) : decodeString size (strEnc s ++ t) = (.ok s, t) := by
  have hma : maxAlloc = 281474976710656 := by decide
  have hl := natText_length 14 s.length (by rw [hma] at hs; omega)
  have hno : 58 ∉ natText s.length := fun hm => by
    have := natText_digits _ 58 hm
    omega
  have hrs : readSlice size (strEnc s ++ t) 58 = (.ok (natText s.length), s ++ t) := by
    have : strEnc s ++ t = natText s.length ++ 58 :: (s ++ t) := by simp [strEnc]
    rw [this, readSlice_found hno (by omega)]
  have hpi := ParseInt_natText s.length (by rw [hma] at hs; omega)
  unfold decodeString decodeInt64
  rw [hrs]
  simp only [hpi]
  have hnn : ¬ ((s.length : Int) < 0) := by omega
  simp only [hnn, if_false, Int.toNat_ofNat]
  by_cases hp : s.length ≤ size ∧ s.length ≤ (s ++ t).length
  · simp only [hp, and_self, if_true]
    simp
  · have hm : ¬ maxAlloc < s.length := by omega
    simp only [hp, hm, if_false]
    unfold readFull
    have : s.length ≤ (s ++ t).length := by simp
    simp only [this, if_true]
    simp

end Stream

/-- C17: for every reader state over the stream `len ':' s t` (every
capacity from the 16 bytes that `bufio` always allocates, every split of the
stream into buffered bytes and chunks still in the source) and every string
`s` that fits an allocation, `decodeString` returns exactly `s`, the next
`len(s)` bytes after the `':'`, and leaves exactly `t` unread; so any two
reader states over the same stream, whichever of the two paths each takes,
return the same string. -/
theorem C17_decodeString_paths_agree (s t : List Nat) (hs : s.length ≤ maxAlloc)
    (r r2 : Reader) (hr : r.WF) (hr2 : r2.WF) (hsz : 16 ≤ r.size) (hsz2 : 16 ≤ r2.size)
    (hu : r.unread = strEnc s ++ t) (hu2 : r2.unread = strEnc s ++ t) :
    ∃ r1 r3, decodeString r = (.ok s, r1) ∧ r1.unread = t ∧
      decodeString r2 = (.ok s, r3) ∧ r3.unread = t := by
  have key : ∀ q : Reader, q.WF → 16 ≤ q.size → q.unread = strEnc s ++ t →
      ∃ q1, decodeString q = (.ok s, q1) ∧ q1.unread = t := by
    intro q hq hqs hqu
    obtain ⟨d1, _, d3, _⟩ := decodeString_sim q hq
    rw [hqu, Stream.decodeString_strEnc_min s t hs hqs] at d1 d3
    exact ⟨(decodeString q).2, Prod.ext d1 rfl, d3⟩
  obtain ⟨r1, a1, a2⟩ := key r hr hsz hu
  obtain ⟨r3, b1, b2⟩ := key r2 hr2 hsz2 hu2
  exact ⟨r1, r3, a1, a2, b1, b2⟩

theorem C17_decodeString_paths_agree_witness :
    (bytes "abcdefghijklmnopqrst").length ≤ maxAlloc ∧
    (Reader.new 4096 [bytes "20:abcdefghijklmnopqrstXY"]).WF ∧
    (Reader.new 16 [bytes "20:abcde", bytes "fghijklmnopq", bytes "rstXY"]).WF ∧
    16 ≤ (Reader.new 4096 [bytes "20:abcdefghijklmnopqrstXY"]).size ∧
    16 ≤ (Reader.new 16 [bytes "20:abcde", bytes "fghijklmnopq", bytes "rstXY"]).size ∧
    (Reader.new 4096 [bytes "20:abcdefghijklmnopqrstXY"]).unread =
      strEnc (bytes "abcdefghijklmnopqrst") ++ bytes "XY" ∧
    (Reader.new 16 [bytes "20:abcde", bytes "fghijklmnopq", bytes "rstXY"]).unread =
      strEnc (bytes "abcdefghijklmnopqrst") ++ bytes "XY" ∧
    ∃ r1 r3,
      decodeString (Reader.new 4096 [bytes "20:abcdefghijklmnopqrstXY"]) =
        (.ok (bytes "abcdefghijklmnopqrst"), r1) ∧ r1.unread = bytes "XY" ∧
      decodeString (Reader.new 16 [bytes "20:abcde", bytes "fghijklmnopq", bytes "rstXY"]) =
        (.ok (bytes "abcdefghijklmnopqrst"), r3) ∧ r3.unread = bytes "XY" :=
  ⟨by decide, by decide, by decide, by decide, by decide, by decide, by decide,
    C17_decodeString_paths_agree (bytes "abcdefghijklmnopqrst") (bytes "XY") (by decide)
      (Reader.new 4096 [bytes "20:abcdefghijklmnopqrstXY"])
      (Reader.new 16 [bytes "20:abcde", bytes "fghijklmnopq", bytes "rstXY"])
      (by decide) (by decide) (by decide) (by decide) (by decide) (by decide)⟩

/-- The two readers of the witness above take different paths: after the
length prefix, `Peek(20)` succeeds on the reader of capacity 4096 and fails
on the reader of capacity 16, which then copies through `readFull`. -/
theorem decodeString_paths_example :
    peekPath (decodeInt64 (Reader.new 4096 [bytes "20:abcdefghijklmnopqrstXY"]) 58).2 20 =
      true ∧
    peekPath (decodeInt64
      (Reader.new 16 [bytes "20:abcde", bytes "fghijklmnopq", bytes "rstXY"]) 58).2 20 =
      false :=
  ⟨by decide, by decide⟩

/-- C19: for every finite input, read from any well-formed reader state,
`parseFromReader` terminates: a recursion depth of one more than the number
of unread bytes is enough for it to return (each level of the fuel is one
nested call, and the same budget bounds the turns of the list and dictionary
loops); the call never gives bytes back, and whenever it returns no error it
has consumed at least one byte, which is what makes every nested call and
every loop turn advance. More fuel does not change the outcome. -/
theorem C19_parseFromReader_terminates (pf : List Nat → Option Float64) (r : Reader)
    (hr : r.WF) (build next fuel : Nat) (hf : r.unread.length < fuel) :
    ∃ res r1 evs n1, parseFromReader pf fuel r build next = some (res, r1, evs, n1) ∧
      r1.unread.length ≤ r.unread.length ∧
      (res = .ok () → r1.unread.length < r.unread.length) ∧
      (parseFromReader pf (r.unread.length + 1) r build next).map absRun =
        some (res, r1.unread, evs, n1) := by
  obtain ⟨res, u1, evs, n1, hx, h1, h2⟩ :=
    Stream.parse_total pf r.size fuel r.unread build next hf
  obtain ⟨r1, e1, _, e3, _⟩ := parseFromReader_of_stream hr hx
  have hx0 := Stream.parse_eq_of_total pf r.size (Nat.lt_succ_self r.unread.length) hx
  obtain ⟨r2, e2, _, e4, _⟩ := parseFromReader_of_stream hr hx0
  refine ⟨res, r1, evs, n1, e1, by rw [e3]; exact h1, fun h => by rw [e3]; exact h2 h, ?_⟩
  rw [e2]
  simp [absRun, e4, e3]

theorem C19_parseFromReader_terminates_witness :
    (Reader.new 16 [bytes "ll", bytes "i1", bytes "eee"]).WF ∧
    (Reader.new 16 [bytes "ll", bytes "i1", bytes "eee"]).unread.length < 8 ∧
    ∃ res r1 evs n1,
      parseFromReader (fun _ => none) 8 (Reader.new 16 [bytes "ll", bytes "i1", bytes "eee"])
          0 1 = some (res, r1, evs, n1) ∧
      r1.unread.length ≤ (Reader.new 16 [bytes "ll", bytes "i1", bytes "eee"]).unread.length ∧
      (res = .ok () →
        r1.unread.length < (Reader.new 16 [bytes "ll", bytes "i1", bytes "eee"]).unread.length) ∧
      (parseFromReader (fun _ => none)
          ((Reader.new 16 [bytes "ll", bytes "i1", bytes "eee"]).unread.length + 1)
          (Reader.new 16 [bytes "ll", bytes "i1", bytes "eee"]) 0 1).map absRun =
        some (res, r1.unread, evs, n1) :=
  ⟨by decide, by decide,
    C19_parseFromReader_terminates (fun _ => none)
      (Reader.new 16 [bytes "ll", bytes "i1", bytes "eee"]) (by decide) 0 1 8 (by decide)⟩

/-- The deepest nesting an input of `n` bytes can ask for: `n` times `'l'`
opens `n` lists in `n` nested calls; the fuel `n + 1` decodes it (to the
error `io.EOF`), the innermost call taking one turn of its loop to meet the
end of the input, and the fuel `n` is not enough. -/
theorem nesting_depth_example :
    (parseFromReader (fun _ => none) 4 (Reader.new 4096 [bytes "lll"]) 0 1).map absRun =
      some (.error .EOF, [],
        [(0, .Array), (0, .Elem 0 1), (1, .Array), (1, .Elem 0 2), (2, .Array), (2, .Flush),
          (1, .Flush), (0, .Flush)], 3) ∧
    parseFromReader (fun _ => none) 3 (Reader.new 4096 [bytes "lll"]) 0 1 = none :=
  ⟨by decide, by decide⟩

theorem Pool.Get_mem {p : Pool} {pick : Option Nat} {b : Reader} {p1 : Pool}
    (h : p.Get pick = (some b, p1)) : b ∈ p ∧ ∀ x ∈ p1, x ∈ p := by
  unfold Pool.Get at h
  cases pick with
  | none => simp at h
  | some i =>
    simp only at h
    cases hg : p.get? i with
    | none => rw [hg] at h; simp at h
    | some b0 =>
      rw [hg] at h
      simp only [Prod.mk.injEq, Option.some.injEq] at h
      obtain ⟨h1, h2⟩ := h
      subst h1 h2
      exact ⟨List.get?_mem hg, fun x hx => List.mem_of_mem_eraseIdx hx⟩

theorem Pool.Get_none {p : Pool} {pick : Option Nat} {p1 : Pool}
    (h : p.Get pick = (none, p1)) : p1 = p := by
  unfold Pool.Get at h
  cases pick with
  | none => simp at h; exact h.symm
  | some i =>
    simp only at h
    cases hg : p.get? i with
    | none => rw [hg] at h; simp at h; exact h.symm
    | some b0 => rw [hg] at h; simp at h

theorem newBufioReader_fresh (p : Pool) (hp : p.Inv) (pick : Option Nat)
    (chunks : List (List Nat)) :
    (newBufioReader p pick chunks).1 = Reader.new defaultBufSize chunks ∧
      ∀ x ∈ (newBufioReader p pick chunks).2, x ∈ p := by
  unfold newBufioReader
  cases hg : p.Get pick with
  | mk ob p1 =>
    cases ob with
    | none =>
      simp only [Reader.NewReader, true_and]
      rw [Pool.Get_none hg]
      exact fun x hx => hx
    | some br =>
      obtain ⟨h1, h2⟩ := Pool.Get_mem hg
      have hs := hp br h1
      simp only [Reader.Reset, Reader.new, hs]
      exact ⟨by simp [defaultBufSize], h2⟩

/-- C18: for every source that is not a `*bufio.Reader` (given by its
chunks), every state of the reader pool that `parse` can have left behind
and every choice of `sync.Pool.Get`, `parse` has the same run as
`parseFromReader` on a reader freshly made by `bufio.NewReader` over that
source: the same result, the same builder calls, the same final reader. A
pooled reader is re-bound by `Reset`, which drops what an earlier decode left
in its buffer. -/
theorem C18_parse_as_fresh_reader (pf : List Nat → Option Float64) (fuel : Nat) (p : Pool)
    (hp : p.Inv) (pick : Option Nat) (chunks : List (List Nat)) (build next : Nat) :
    (parse pf fuel p pick (.raw chunks) build next).map (fun x => x.1) =
      parseFromReader pf fuel (Reader.NewReader chunks) build next := by
  obtain ⟨h1, _⟩ := newBufioReader_fresh p hp pick chunks
  unfold parse
  simp only
  generalize newBufioReader p pick chunks = x at h1
  obtain ⟨r, p1⟩ := x
  simp only at h1
  subst h1
  simp only [Reader.NewReader]
  cases parseFromReader pf fuel (Reader.new defaultBufSize chunks) build next with
  | none => rfl
  | some run => rfl

theorem C18_parse_as_fresh_reader_witness :
    Pool.Inv [usedReader] ∧
    (parse (fun _ => none) 5 [usedReader]
      (some 0) (.raw [bytes "4:spam"]) 0 1).map (fun x => x.1) =
      parseFromReader (fun _ => none) 5 (Reader.NewReader [bytes "4:spam"]) 0 1 :=
  ⟨by decide,
    C18_parse_as_fresh_reader (fun _ => none) 5 [usedReader]
      (by decide) (some 0) [bytes "4:spam"] 0 1⟩

/-- The pool invariant is kept by `parse`, so it holds of every pool that
calls of `parse` build up from the empty pool. -/
theorem parse_pool_inv (pf : List Nat → Option Float64) (fuel : Nat) (p : Pool) (hp : p.Inv)
    (pick : Option Nat) (reader : Source)
    (hsrc : ∀ chunks, reader = .raw chunks → [] ∉ chunks) (build next : Nat) (run : Run)
    (p2 : Pool) (h : parse pf fuel p pick reader build next = some (run, p2)) : p2.Inv := by
  cases reader with
  | buffered r =>
    unfold parse at h
    simp only at h
    cases hrun : parseFromReader pf fuel r build next with
    | none => rw [hrun] at h; simp at h
    | some x =>
      rw [hrun] at h
      simp only [Option.some.injEq, Prod.mk.injEq] at h
      rw [← h.2]
      exact hp
  | raw chunks =>
    obtain ⟨h1, h2⟩ := newBufioReader_fresh p hp pick chunks
    unfold parse at h
    simp only at h
    generalize newBufioReader p pick chunks = x at h1 h2 h
    obtain ⟨r, p1⟩ := x
    simp only at h1 h2 h
    subst h1
    cases hrun : parseFromReader pf fuel (Reader.new defaultBufSize chunks) build next with
    | none => rw [hrun] at h; simp at h
    | some y =>
      rw [hrun] at h
      simp only [Option.some.injEq, Prod.mk.injEq] at h
      obtain ⟨q1, q2⟩ := h
      subst q1 q2
      obtain ⟨res, r1, evs, n1⟩ := y
      have hw : (Reader.new defaultBufSize chunks).WF :=
        Reader.new_WF (by decide) (hsrc chunks rfl)
      obtain ⟨_, _, hs⟩ := parseFromReader_to_stream hw hrun
      intro b hb
      rcases List.mem_cons.mp hb with hb | hb
      · rw [hb]; exact hs
      · exact hp b (h2 b hb)

/-- Two decodes in a row through the pool: the first leaves `"JUNK"` in the
buffer of the reader it puts back; the second takes that reader from the
pool and decodes `"4:spam"` without seeing those bytes. -/
theorem pool_reuse_example :
    (parse (fun _ => none) 5 [] none (.raw [bytes "i1eJUNK"]) 0 1).map
        (fun x => (x.1.1, x.1.2.2.1, x.2)) =
      some (.ok (), [(0, .Int64 1), (0, .Flush)], [usedReader]) ∧
    (parse (fun _ => none) 5 [usedReader]
      (some 0) (.raw [bytes "4:spam"]) 0 1).map (fun x => (x.1.1, x.1.2.2.1)) =
      some (.ok (), [(0, .String (bytes "spam")), (0, .Flush)]) :=
  ⟨by decide, by decide⟩

namespace Reader

theorem IndexByte_take {u : List Nat} {d i : Nat} (n : Nat) (h : IndexByte (u.take n) d = some i) :
    IndexByte u d = some i := by
  have := IndexByte_append (u.take n) (u.drop n) d
  rw [List.take_append_drop, h] at this
  exact this

theorem IndexByte_take_none {u : List Nat} {d : Nat} (n : Nat)
    (h : IndexByte (u.take n) d = none) (hn : n ≤ u.length) :
    IndexByte u d = (IndexByte (u.drop n) d).map (· + n) := by
  have := IndexByte_append (u.take n) (u.drop n) d
  rw [List.take_append_drop, h] at this
  simp only [List.length_take, Nat.min_eq_left hn] at this
  exact this

theorem collectFragments_spec (delim : Nat) (k : Nat) : ∀ (b : Reader) (acc : List Nat),
    b.WF → b.unread.length < k →
    (collectFragments delim k b acc).1 = acc ++ (Stream.optimisticReadBytes b.unread delim).1 ∧
    (collectFragments delim k b acc).2.1 = (Stream.optimisticReadBytes b.unread delim).2.1 ∧
    (collectFragments delim k b acc).2.2.WF ∧
    (collectFragments delim k b acc).2.2.unread =
      (Stream.optimisticReadBytes b.unread delim).2.2 ∧
    (collectFragments delim k b acc).2.2.size = b.size := by
  induction k with
  | zero => intro b acc _ hk; omega
  | succ k ih =>
    intro b acc h hk
    obtain ⟨s1, s2, s3, s4, s5⟩ := ReadSlice_spec delim b h
    rw [collectFragments]
    generalize ReadSlice b delim = res at s1 s2 s3 s4 s5
    obtain ⟨frag, e, b1⟩ := res
    simp only at s1 s2 s3 s4 s5
    unfold Stream.ReadSlice at s1 s2 s4
    unfold Stream.optimisticReadBytes
    cases hi : IndexByte (b.unread.take b.size) delim with
    | some i =>
      rw [hi] at s1 s2 s4
      simp only at s1 s2 s4
      rw [IndexByte_take _ hi]
      subst s2
      simp only
      exact ⟨by rw [s1], trivial, s3, s4, s5⟩
    | none =>
      rw [hi] at s1 s2 s4
      simp only at s1 s2 s4
      by_cases hl : b.unread.length < b.size
      · simp only [hl, if_true] at s1 s2 s4
        have hall : b.unread.take b.size = b.unread := List.take_of_length_le (by omega)
        rw [hall] at hi
        rw [hi]
        subst s2
        simp only [show ¬ (Error.EOF = Error.ErrBufferFull) by decide, if_false]
        exact ⟨by rw [s1], trivial, s3, s4, s5⟩
      · simp only [hl, if_false] at s1 s2 s4
        subst s2
        simp only [if_true]
        have hpos := h.1
        have hk1 : b1.unread.length < k := by
          rw [s4, List.length_drop]; omega
        obtain ⟨i1, i2, i3, i4, i5⟩ := ih b1 (acc ++ frag) s3 hk1
        unfold Stream.optimisticReadBytes at i1 i2 i4
        rw [s4] at i1 i2 i4
        rw [IndexByte_take_none b.size hi (by omega)]
        cases hj : IndexByte (b.unread.drop b.size) delim with
        | none =>
          rw [hj] at i1 i2 i4
          simp only at i1 i2 i4
          simp only [Option.map_none']
          refine ⟨?_, i2, i3, i4, by rw [i5, s5]⟩
          rw [i1, s1, List.append_assoc, List.take_append_drop]
        | some j =>
          rw [hj] at i1 i2 i4
          simp only at i1 i2 i4
          simp only [Option.map_some']
          refine ⟨?_, i2, i3, ?_, by rw [i5, s5]⟩
          · rw [i1, s1, List.append_assoc]
            congr 1
            have : j + b.size + 1 = b.size + (j + 1) := by omega
            rw [this]
            exact (List.take_add b.unread b.size (j + 1)).symm
          · rw [i4, List.drop_drop]
            congr 1
            omega

theorem ReadBytes_spec (delim : Nat) (b : Reader) (h : b.WF) :
    (ReadBytes b delim).1 = (Stream.optimisticReadBytes b.unread delim).1 ∧
    (ReadBytes b delim).2.1 = (Stream.optimisticReadBytes b.unread delim).2.1 ∧
    (ReadBytes b delim).2.2.WF ∧
    (ReadBytes b delim).2.2.unread = (Stream.optimisticReadBytes b.unread delim).2.2 ∧
    (ReadBytes b delim).2.2.size = b.size := by
  have := collectFragments_spec delim (b.unread.length + 1) b [] h (Nat.lt_succ_self _)
  simpa [ReadBytes] using this

theorem Peek_buffered (b : Reader) (h : b.WF) :
    Peek b b.Buffered = (b.buf, none, { b with lastByte := none }) := by
  have h2 := h.2.1
  have hl : ¬ (b.buf.length < b.buf.length) := Nat.lt_irrefl _
  have hs : ¬ (b.size < b.buf.length) := by omega
  simp [Peek, Buffered, PeekLoop, hs]

end Reader

theorem optimisticReadBytes_sim (r : Reader) (delim : Nat) (h : r.WF) :
    (optimisticReadBytes r delim).1 = (Stream.optimisticReadBytes r.unread delim).1 ∧
    (optimisticReadBytes r delim).2.1 = (Stream.optimisticReadBytes r.unread delim).2.1 ∧
    (optimisticReadBytes r delim).2.2.WF ∧
    (optimisticReadBytes r delim).2.2.unread =
      (Stream.optimisticReadBytes r.unread delim).2.2 ∧
    (optimisticReadBytes r delim).2.2.size = r.size := by
  have h0 : ({ r with lastByte := none } : Reader).WF := h
  unfold optimisticReadBytes
  rw [Reader.Peek_buffered r h]
  simp only
  cases hb : Reader.IndexByte r.buf delim with
  | none => exact Reader.ReadBytes_spec delim _ h0
  | some i =>
    simp only
    obtain ⟨s1, s2, s3, s4, s5⟩ := Reader.ReadSlice_spec delim _ h0
    have hu : ({ r with lastByte := none } : Reader).unread = r.unread := rfl
    have hsz : ({ r with lastByte := none } : Reader).size = r.size := rfl
    rw [hu, hsz] at s1 s2 s4
    have hlen := h.2.1
    have hi : Reader.IndexByte (r.unread.take r.size) delim = some i := by
      have : r.unread.take r.size = r.buf ++ r.src.flatten.take (r.size - r.buf.length) := by
        unfold Reader.unread
        rw [List.take_append_eq_append_take, List.take_of_length_le (by omega)]
      rw [this, Reader.IndexByte_append, hb]
    have hi2 := Reader.IndexByte_take _ hi
    unfold Stream.ReadSlice at s1 s2 s4
    rw [hi] at s1 s2 s4
    unfold Stream.optimisticReadBytes
    rw [hi2]
    exact ⟨s1, s2, s3, s4, s5⟩

theorem USim_none (size : Nat) : USim size none none := ⟨rfl, fun _ h => by cases h⟩

theorem USim_some {size : Nat} {res : Result Value} {r : Reader} {u : List Nat} (h : r.WF)
    (hs : r.size = size) (hu : r.unread = u) : USim size (some (res, r)) (some (res, u)) := by
  subst hu
  refine ⟨rfl, ?_⟩
  intro run hrun
  cases hrun
  exact ⟨h, hs⟩

theorem USim_cases {size : Nat} {x : Option (Result Value × Reader)}
    {y : Option (Result Value × List Nat)} (h : USim size x y) :
    (x = none ∧ y = none) ∨
    ∃ res r, x = some (res, r) ∧ y = some (res, r.unread) ∧ r.WF ∧ r.size = size := by
  cases x with
  | none => left; exact ⟨rfl, h.1⟩
  | some run =>
    right
    obtain ⟨res, r⟩ := run
    exact ⟨res, r, rfl, h.1, h.2 _ rfl⟩

theorem unmarshalList_step_sim {size : Nat} {P : Reader → Option (Result Value × Reader)}
    {Q : List Nat → Option (Result Value × List Nat)}
    (hP : ∀ r, r.WF → r.size = size → USim size (P r) (Q r.unread)) (k : Nat)
    (ih : ∀ (r : Reader) (list : ValueList), r.WF → r.size = size →
      USim size (unmarshalList P k r list) (Stream.unmarshalList Q k r.unread list))
    (list : ValueList) (d : Reader) (hd : d.WF) (hds : d.size = size) :
    USim size
      (match P d with
      | none => none
      | some (.ok value, d3) => unmarshalList P k d3 (list.snoc value)
      | some (.error e, d3) => some (.error e, d3)
      | some (.panic, d3) => some (.panic, d3))
      (match Q d.unread with
      | none => none
      | some (.ok value, u3) => Stream.unmarshalList Q k u3 (list.snoc value)
      | some (.error e, u3) => some (.error e, u3)
      | some (.panic, u3) => some (.panic, u3)) := by
  rcases USim_cases (hP d hd hds) with ⟨p1, p2⟩ | ⟨res, r3, p1, p2, p3, p4⟩
  · rw [p1, p2]; exact USim_none size
  · rw [p1, p2]
    cases res with
    | ok v => exact ih r3 _ p3 p4
    | error e => exact USim_some p3 p4 rfl
    | panic => exact USim_some p3 p4 rfl

theorem unmarshalList_sim {size : Nat} {P : Reader → Option (Result Value × Reader)}
    {Q : List Nat → Option (Result Value × List Nat)}
    (hP : ∀ r, r.WF → r.size = size → USim size (P r) (Q r.unread)) (k : Nat) :
    ∀ (r : Reader) (list : ValueList), r.WF → r.size = size →
      USim size (unmarshalList P k r list) (Stream.unmarshalList Q k r.unread list) := by
  induction k with
  | zero => intro r list _ _; exact USim_none size
  | succ k ih =>
    intro r list h hs
    cases hu : r.unread with
    | nil =>
      obtain ⟨b1, e1, e2, e3, e4⟩ := Reader.ReadByte_nil h hu
      simp only [unmarshalList, Stream.unmarshalList, e1]
      have := unmarshalList_step_sim hP k ih list b1 e2 (by rw [e4, hs])
      rw [e3] at this
      exact this
    | cons c t =>
      obtain ⟨b1, e1, e2, e3, e4, e5, e6⟩ := Reader.ReadByte_cons h hu
      simp only [unmarshalList, Stream.unmarshalList, e1]
      by_cases hc : c = 101
      · simp only [hc, if_true]
        exact USim_some e2 (by rw [e4, hs]) e3
      · simp only [hc, if_false]
        obtain ⟨b2, u1, u2, u3, u4⟩ := Reader.UnreadByte_spec e2 e5 e6
        rw [u1]
        simp only
        have := unmarshalList_step_sim hP k ih list b2 u2 (by rw [u4, e4, hs])
        rw [u3, e3] at this
        exact this

theorem unmarshalDict_step_sim {size : Nat} {P : Reader → Option (Result Value × Reader)}
    {Q : List Nat → Option (Result Value × List Nat)}
    (hP : ∀ r, r.WF → r.size = size → USim size (P r) (Q r.unread)) (k : Nat)
    (ih : ∀ (r : Reader) (dic : ValueDict), r.WF → r.size = size →
      USim size (unmarshalDict P k r dic) (Stream.unmarshalDict Q k r.unread dic))
    (dic : ValueDict) (d : Reader) (hd : d.WF) (hds : d.size = size) :
    USim size
      (match P d with
      | none => none
      | some (.error e, d3) => some (.error e, d3)
      | some (.panic, d3) => some (.panic, d3)
      | some (.ok (.str key), d3) =>
        match P d3 with
        | none => none
        | some (.ok value, d4) => unmarshalDict P k d4 (dic.set key value)
        | some (.error e, d4) => some (.error e, d4)
        | some (.panic, d4) => some (.panic, d4)
      | some (.ok _, d3) => some (.error .invalidDictKey, d3))
      (match Q d.unread with
      | none => none
      | some (.error e, u3) => some (.error e, u3)
      | some (.panic, u3) => some (.panic, u3)
      | some (.ok (.str key), u3) =>
        match Q u3 with
        | none => none
        | some (.ok value, u4) => Stream.unmarshalDict Q k u4 (dic.set key value)
        | some (.error e, u4) => some (.error e, u4)
        | some (.panic, u4) => some (.panic, u4)
      | some (.ok _, u3) => some (.error .invalidDictKey, u3)) := by
  rcases USim_cases (hP d hd hds) with ⟨p1, p2⟩ | ⟨res, r3, p1, p2, p3, p4⟩
  · rw [p1, p2]; exact USim_none size
  · rw [p1, p2]
    cases res with
    | error e => exact USim_some p3 p4 rfl
    | panic => exact USim_some p3 p4 rfl
    | ok v =>
      cases v with
      | int n => exact USim_some p3 p4 rfl
      | list xs => exact USim_some p3 p4 rfl
      | dict kvs => exact USim_some p3 p4 rfl
      | str key =>
        simp only
        rcases USim_cases (hP r3 p3 p4) with ⟨q1, q2⟩ | ⟨res4, r4, q1, q2, q3, q4⟩
        · rw [q1, q2]; exact USim_none size
        · rw [q1, q2]
          cases res4 with
          | ok v => exact ih r4 _ q3 q4
          | error e => exact USim_some q3 q4 rfl
          | panic => exact USim_some q3 q4 rfl

theorem unmarshalDict_sim {size : Nat} {P : Reader → Option (Result Value × Reader)}
    {Q : List Nat → Option (Result Value × List Nat)}
    (hP : ∀ r, r.WF → r.size = size → USim size (P r) (Q r.unread)) (k : Nat) :
    ∀ (r : Reader) (dic : ValueDict), r.WF → r.size = size →
      USim size (unmarshalDict P k r dic) (Stream.unmarshalDict Q k r.unread dic) := by
  induction k with
  | zero => intro r dic _ _; exact USim_none size
  | succ k ih =>
    intro r dic h hs
    cases hu : r.unread with
    | nil =>
      obtain ⟨b1, e1, e2, e3, e4⟩ := Reader.ReadByte_nil h hu
      simp only [unmarshalDict, Stream.unmarshalDict, e1]
      have := unmarshalDict_step_sim hP k ih dic b1 e2 (by rw [e4, hs])
      rw [e3] at this
      exact this
    | cons c t =>
      obtain ⟨b1, e1, e2, e3, e4, e5, e6⟩ := Reader.ReadByte_cons h hu
      simp only [unmarshalDict, Stream.unmarshalDict, e1]
      by_cases hc : c = 101
      · simp only [hc, if_true]
        exact USim_some e2 (by rw [e4, hs]) e3
      · simp only [hc, if_false]
        obtain ⟨b2, u1, u2, u3, u4⟩ := Reader.UnreadByte_spec e2 e5 e6
        rw [u1]
        simp only
        have := unmarshalDict_step_sim hP k ih dic b2 u2 (by rw [u4, e4, hs])
        rw [u3, e3] at this
        exact this

theorem unmarshalInt_sim {size : Nat} (d1 : Reader) (h : d1.WF) (hs : d1.size = size) :
    USim size
      (match optimisticReadBytes d1 101 with
      | (_, some e, d2) => some (.error e, d2)
      | (buf, none, d2) =>
        if buf.length = 0 then some (.panic, d2)
        else
          match Atoi (buf.take (buf.length - 1)) with
          | .error e => some (.error e, d2)
          | .ok integer => some (.ok (.int integer), d2))
      (some (Stream.unmarshalInt d1.unread)) := by
  obtain ⟨o1, o2, o3, o4, o5⟩ := optimisticReadBytes_sim d1 101 h
  unfold Stream.unmarshalInt
  generalize optimisticReadBytes d1 101 = x at o1 o2 o3 o4 o5
  generalize Stream.optimisticReadBytes d1.unread 101 = y at o1 o2 o4
  obtain ⟨buf, e, d2⟩ := x
  obtain ⟨buf2, e2, u2⟩ := y
  simp only at o1 o2 o3 o4 o5
  subst o1 o2 o4
  have hsz : d2.size = size := by rw [o5, hs]
  cases e with
  | some e => exact USim_some o3 hsz rfl
  | none =>
    simp only
    by_cases hb : buf.length = 0
    · simp only [hb, if_true]
      exact USim_some o3 hsz rfl
    · simp only [hb, if_false]
      cases Atoi (buf.take (buf.length - 1)) with
      | error e => exact USim_some o3 hsz rfl
      | ok n => exact USim_some o3 hsz rfl

theorem unmarshalString_sim {size : Nat} (d1 : Reader) (h : d1.WF) (hs : d1.size = size) :
    USim size
      (match optimisticReadBytes d1 58 with
      | (_, some e, d2) => some (.error e, d2)
      | (buf, none, d2) =>
        if buf.length = 0 then some (.panic, d2)
        else
          match ParseInt (buf.take (buf.length - 1)) with
          | .error e => some (.error e, d2)
          | .ok length =>
            if length < 0 ∨ maxAlloc < length.toNat then some (.panic, d2)
            else
              match readAtLeast d2 length.toNat length.toNat with
              | (_, some e, d3) => some (.error e, d3)
              | (buffer, none, d3) => some (.ok (.str buffer), d3))
      (some (Stream.unmarshalString d1.unread)) := by
  obtain ⟨o1, o2, o3, o4, o5⟩ := optimisticReadBytes_sim d1 58 h
  unfold Stream.unmarshalString
  generalize optimisticReadBytes d1 58 = x at o1 o2 o3 o4 o5
  generalize Stream.optimisticReadBytes d1.unread 58 = y at o1 o2 o4
  obtain ⟨buf, e, d2⟩ := x
  obtain ⟨buf2, e2, u2⟩ := y
  simp only at o1 o2 o3 o4 o5
  subst o1 o2 o4
  have hsz : d2.size = size := by rw [o5, hs]
  cases e with
  | some e => exact USim_some o3 hsz rfl
  | none =>
    simp only
    by_cases hb : buf.length = 0
    · simp only [hb, if_true]
      exact USim_some o3 hsz rfl
    · simp only [hb, if_false]
      cases ParseInt (buf.take (buf.length - 1)) with
      | error e => exact USim_some o3 hsz rfl
      | ok n =>
        simp only
        by_cases hn : n < 0 ∨ maxAlloc < n.toNat
        · simp only [hn, if_true]
          exact USim_some o3 hsz rfl
        · simp only [hn, if_false]
          obtain ⟨f1, f2, f3, f4, f5⟩ := readFull_spec d2 n.toNat o3
          unfold readFull at f1 f2 f3 f4 f5
          generalize readAtLeast d2 n.toNat n.toNat = x at f1 f2 f3 f4 f5
          generalize Stream.readFull n.toNat d2.unread = y at f1 f2 f4
          obtain ⟨buffer, e3, d3⟩ := x
          obtain ⟨buffer2, e4, u3⟩ := y
          simp only at f1 f2 f3 f4 f5
          subst f1 f2 f4
          cases e3 with
          | some e => exact USim_some f3 (by rw [f5, hsz]) rfl
          | none => exact USim_some f3 (by rw [f5, hsz]) rfl

theorem unmarshal_sim (size : Nat) (f : Nat) : ∀ (r : Reader), r.WF → r.size = size →
    USim size (unmarshal f r) (Stream.unmarshal f r.unread) := by
  induction f with
  | zero => intro r _ _; exact USim_none size
  | succ f ih =>
    intro r h hs
    cases hu : r.unread with
    | nil =>
      obtain ⟨b1, e1, e2, e3, e4⟩ := Reader.ReadByte_nil h hu
      simp only [unmarshal, Stream.unmarshal, e1]
      exact USim_some e2 (by rw [e4, hs]) e3
    | cons c t =>
      obtain ⟨b1, e1, e2, e3, e4, e5, e6⟩ := Reader.ReadByte_cons h hu
      have hb1 : b1.size = size := by rw [e4, hs]
      simp only [unmarshal, Stream.unmarshal, e1]
      by_cases hi : c = 105
      · simp only [hi, if_true]
        have := unmarshalInt_sim b1 e2 hb1
        rw [e3] at this
        exact this
      · simp only [hi, if_false]
        by_cases hl : c = 108
        · simp only [hl, if_true]
          have := unmarshalList_sim ih f b1 .nil e2 hb1
          rw [e3] at this
          exact this
        · simp only [hl, if_false]
          by_cases hd : c = 100
          · simp only [hd, if_true]
            have := unmarshalDict_sim ih f b1 .nil e2 hb1
            rw [e3] at this
            exact this
          · simp only [hd, if_false]
            obtain ⟨b2, u1, u2, u3, u4⟩ := Reader.UnreadByte_spec e2 e5 e6
            rw [u1]
            simp only
            have := unmarshalString_sim b2 u2 (by rw [u4, hb1])
            rw [u3, e3] at this
            exact this

theorem unmarshal_of_stream {f : Nat} {r : Reader} {res : Result Value} {u : List Nat}
    (h : r.WF) (hs : Stream.unmarshal f r.unread = some (res, u)) :
    ∃ r1, unmarshal f r = some (res, r1) ∧ r1.WF ∧ r1.unread = u ∧ r1.size = r.size := by
  rcases USim_cases (unmarshal_sim r.size f r h rfl) with ⟨_, q2⟩ | ⟨res2, r2, q1, q2, q3, q4⟩
  · rw [q2] at hs; cases hs
  · rw [q2] at hs
    cases hs
    exact ⟨r2, q1, q3, rfl, q4⟩

theorem unmarshal_to_stream {f : Nat} {r : Reader} {res : Result Value} {r1 : Reader}
    (h : r.WF) (hs : unmarshal f r = some (res, r1)) :
    Stream.unmarshal f r.unread = some (res, r1.unread) ∧ r1.WF ∧ r1.size = r.size := by
  rcases USim_cases (unmarshal_sim r.size f r h rfl) with ⟨q1, _⟩ | ⟨res2, r2, q1, q2, q3, q4⟩
  · rw [q1] at hs; cases hs
  · rw [q1] at hs
    cases hs
    exact ⟨q2, q3, q4⟩

theorem AtoiLoop_append (s0 xs ys : List Nat) : ∀ (a : Nat),
    AtoiLoop s0 (xs ++ ys) a =
      match AtoiLoop s0 xs a with
      | .ok b => AtoiLoop s0 ys b
      | .error e => .error e := by
  induction xs with
  | nil => intro a; simp [AtoiLoop]
  | cons x xs ih =>
    intro a
    simp only [List.cons_append, AtoiLoop]
    split
    · rfl
    · exact ih _

theorem AtoiLoop_natText (s0 : List Nat) (n : Nat) : AtoiLoop s0 (natText n) 0 = .ok n := by
  induction n using Nat.strong_induction_on with
  | _ n ih =>
    by_cases h10 : n < 10
    · rw [natText_small h10]
      have hd : ¬ (48 + n < 48 ∨ 57 < 48 + n) := by omega
      have he : 0 * 10 + (48 + n - 48) = n := by omega
      simp only [AtoiLoop, hd, if_false, he]
    · have hlt : n / 10 < n := Nat.div_lt_self (by omega) (by omega)
      rw [natText_step (by omega), AtoiLoop_append, ih (n / 10) hlt]
      have hd : ¬ (48 + n % 10 < 48 ∨ 57 < 48 + n % 10) := by omega
      have he : n / 10 * 10 + (48 + n % 10 - 48) = n := by omega
      simp only [AtoiLoop, hd, if_false, he]

theorem Atoi_intText (n : Int) (h1 : -2 ^ 63 ≤ n) (h2 : n < 2 ^ 63) :
    Atoi (intText n) = .ok n := by
  unfold Atoi
  by_cases hfast : 0 < (intText n).length ∧ (intText n).length < 19
  · simp only [hfast, and_self, if_true]
    unfold intText at hfast ⊢
    by_cases hn : n < 0
    · simp only [hn, if_true] at hfast ⊢
      have hne := natText_ne_nil n.natAbs
      have hl : ¬ (natText n.natAbs).length < 1 := by
        cases h : natText n.natAbs with
        | nil => exact absurd h hne
        | cons c t => simp
      simp only [true_or, if_true, hl, and_false, if_false, AtoiLoop_natText]
      congr 1
      omega
    · simp only [hn, if_false] at hfast ⊢
      obtain ⟨c, t, hct, hc1, hc2⟩ := natText_head n.natAbs
      have hloop := AtoiLoop_natText (natText n.natAbs) n.natAbs
      rw [hct] at hloop ⊢
      have h45 : ¬ c = 45 := by omega
      have h43 : ¬ c = 43 := by omega
      simp only [h45, h43, or_self, if_false, false_and, hloop]
      congr 1
      omega
  · simp only [hfast, if_false]
    rw [ParseInt_intText n h1 h2]

namespace Stream

theorem optimisticReadBytes_found {delim : Nat} {text rest : List Nat} (h : delim ∉ text) :
    optimisticReadBytes (text ++ delim :: rest) delim = (text ++ [delim], none, rest) := by
  unfold optimisticReadBytes
  rw [Reader.IndexByte_append, Reader.IndexByte_none h]
  have h1 : List.take (text.length + 1) (text ++ delim :: rest) = text ++ [delim] := by
    rw [List.take_append_eq_append_take]
    simp
  have h2 : List.drop (text.length + 1) (text ++ delim :: rest) = rest := by
    rw [List.drop_append_eq_append_drop]
    simp
  simp only [Reader.IndexByte, if_true, Option.map_some', Nat.zero_add, h1, h2]

theorem unmarshalInt_intText (n : Int) (h1 : -2 ^ 63 ≤ n) (h2 : n < 2 ^ 63) (t : List Nat) :
    unmarshalInt (intText n ++ 101 :: t) = (.ok (.int n), t) := by
  unfold unmarshalInt
  rw [optimisticReadBytes_found (intText_no_delim n 101 (by decide) (by decide))]
  simp [Atoi_intText n h1 h2]

theorem unmarshalString_strEnc (s t : List Nat) (hs : s.length ≤ maxAlloc) :
    unmarshalString (strEnc s ++ t) = (.ok (.str s), t) := by
  have hma : maxAlloc = 281474976710656 := by decide
  have hno : 58 ∉ natText s.length := fun hm => by
    have := natText_digits _ 58 hm
    omega
  have : strEnc s ++ t = natText s.length ++ 58 :: (s ++ t) := by simp [strEnc]
  unfold unmarshalString
  rw [this, optimisticReadBytes_found hno]
  have hpi := ParseInt_natText s.length (by rw [hma] at hs; omega)
  have hnn : ¬ ((s.length : Int) < 0 ∨ maxAlloc < s.length) := by omega
  simp [hpi, hnn, readFull]

end Stream

theorem ValueDict.set_new : (acc : ValueDict) → (k : List Nat) → (v : Value) →
    acc.hasKey k = false → acc.set k v = acc.snoc k v
  | .nil, _, _, _ => by simp [ValueDict.set, ValueDict.snoc]
  | .cons k0 v0 xs, k, v, h => by
    simp only [ValueDict.hasKey, Bool.or_eq_false_iff, decide_eq_false_iff_not] at h
    simp [ValueDict.set, ValueDict.snoc, h.1, ValueDict.set_new xs k v h.2]

theorem ValueDict.hasKey_snoc : (acc : ValueDict) → (k : List Nat) → (v : Value) →
    (k2 : List Nat) → (acc.snoc k v).hasKey k2 = (acc.hasKey k2 || decide (k = k2))
  | .nil, _, _, _ => by simp [ValueDict.snoc, ValueDict.hasKey]
  | .cons k0 v0 xs, k, v, k2 => by
    simp [ValueDict.snoc, ValueDict.hasKey, ValueDict.hasKey_snoc xs k v k2, Bool.or_assoc]

theorem Stream.unmarshal_cons (f st : Nat) (t : List Nat) :
    Stream.unmarshal (f + 1) (st :: t) =
      if st = 105 then some (Stream.unmarshalInt t)
      else if st = 108 then Stream.unmarshalList (Stream.unmarshal f) f t .nil
      else if st = 100 then Stream.unmarshalDict (Stream.unmarshal f) f t .nil
      else some (Stream.unmarshalString (st :: t)) := rfl

theorem Stream.unmarshal_str (s t : List Nat) (f : Nat) (hs : s.length ≤ maxAlloc) :
    Stream.unmarshal (f + 1) (strEnc s ++ t) = some (.ok (.str s), t) := by
  obtain ⟨c, t1, hc, h1, h2⟩ := strEnc_head s
  have hd := Stream.unmarshalString_strEnc s t hs
  rw [hc] at hd ⊢
  rw [List.cons_append] at hd ⊢
  have hi : ¬ c = 105 := by omega
  have hl : ¬ c = 108 := by omega
  have hdd : ¬ c = 100 := by omega
  rw [Stream.unmarshal_cons]
  simp only [hi, hl, hdd, if_false, hd]

mutual
theorem Stream.unmarshal_enc : (v : Value) → ∀ (t : List Nat) (f : Nat), v.valid = true →
    v.distinct = true → v.enc.length ≤ f →
    Stream.unmarshal f (v.enc ++ t) = some (.ok v, t)
  | .int n => by
    intro t f hv _ hf
    simp only [Value.valid, Bool.and_eq_true, decide_eq_true_eq] at hv
    obtain ⟨f1, rfl⟩ : ∃ f1, f = f1 + 1 := ⟨f - 1, by
      have := (Value.int n).enc_length_pos; omega⟩
    simp only [Value.enc, List.cons_append, List.append_assoc, List.singleton_append]
    rw [Stream.unmarshal_cons, if_pos rfl, Stream.unmarshalInt_intText n hv.1 hv.2]
    simp
  | .str s => by
    intro t f hv _ hf
    simp only [Value.valid, decide_eq_true_eq] at hv
    obtain ⟨f1, rfl⟩ : ∃ f1, f = f1 + 1 := ⟨f - 1, by
      have := (Value.str s).enc_length_pos; omega⟩
    simp only [Value.enc]
    exact Stream.unmarshal_str s t f1 hv
  | .list xs => by
    intro t f hv hd hf
    simp only [Value.valid] at hv
    simp only [Value.distinct] at hd
    simp only [Value.enc, List.length_cons] at hf
    obtain ⟨f1, rfl⟩ : ∃ f1, f = f1 + 1 := ⟨f - 1, by omega⟩
    simp only [Value.enc, List.cons_append]
    rw [Stream.unmarshal_cons]
    simp only [show ¬ (108 = 105) by decide, if_false, if_true]
    rw [Stream.unmarshalList_enc xs t f1 f1 .nil hv hd (by omega) (by omega)]
    simp [ValueList.append]
  | .dict kvs => by
    intro t f hv hd hf
    simp only [Value.valid] at hv
    simp only [Value.distinct] at hd
    simp only [Value.enc, List.length_cons] at hf
    obtain ⟨f1, rfl⟩ : ∃ f1, f = f1 + 1 := ⟨f - 1, by omega⟩
    simp only [Value.enc, List.cons_append]
    rw [Stream.unmarshal_cons]
    simp only [show ¬ (100 = 105) by decide, show ¬ (100 = 108) by decide, if_false, if_true]
    rw [Stream.unmarshalDict_enc kvs t f1 f1 .nil hv hd (fun k _ => rfl) (by omega)
      (by omega)]
    simp [ValueDict.append]
theorem Stream.unmarshalList_enc : (xs : ValueList) → ∀ (t : List Nat) (f k : Nat)
    (acc : ValueList), xs.valid = true → xs.distinct = true → xs.enc.length ≤ f →
    xs.enc.length ≤ k →
    Stream.unmarshalList (Stream.unmarshal f) k (xs.enc ++ t) acc =
      some (.ok (.list (acc.append xs)), t)
  | .nil => by
    intro t f k acc _ _ _ hk
    simp only [ValueList.enc, List.length_singleton] at hk
    obtain ⟨k1, rfl⟩ : ∃ k1, k = k1 + 1 := ⟨k - 1, by omega⟩
    simp [ValueList.enc, Stream.unmarshalList, ValueList.append_nil]
  | .cons v vs => by
    intro t f k acc hv hd hf hk
    simp only [ValueList.valid, Bool.and_eq_true] at hv
    simp only [ValueList.distinct, Bool.and_eq_true] at hd
    simp only [ValueList.enc, List.length_append] at hf hk
    have hvp := v.enc_length_pos
    have hvsp := vs.items_enc_length_pos
    obtain ⟨k1, rfl⟩ : ∃ k1, k = k1 + 1 := ⟨k - 1, by omega⟩
    obtain ⟨c, t1, hc, hne⟩ := v.enc_head
    have hp := Stream.unmarshal_enc v (vs.enc ++ t) f hv.1 hd.1 (by omega)
    have hl := Stream.unmarshalList_enc vs t f k1 (acc.snoc v) hv.2 hd.2 (by omega) (by omega)
    simp only [ValueList.enc, List.append_assoc]
    rw [hc] at hp ⊢
    rw [List.cons_append] at hp ⊢
    simp only [Stream.unmarshalList, hne, if_false, hp, hl, ValueList.snoc_append]
theorem Stream.unmarshalDict_enc : (kvs : ValueDict) → ∀ (t : List Nat) (f k : Nat)
    (acc : ValueDict), kvs.valid = true → kvs.distinct = true →
    (∀ key, kvs.hasKey key = true → acc.hasKey key = false) → kvs.enc.length ≤ f →
    kvs.enc.length ≤ k →
    Stream.unmarshalDict (Stream.unmarshal f) k (kvs.enc ++ t) acc =
      some (.ok (.dict (acc.append kvs)), t)
  | .nil => by
    intro t f k acc _ _ _ _ hk
    simp only [ValueDict.enc, List.length_singleton] at hk
    obtain ⟨k1, rfl⟩ : ∃ k1, k = k1 + 1 := ⟨k - 1, by omega⟩
    simp [ValueDict.enc, Stream.unmarshalDict, ValueDict.pairs_append_nil]
  | .cons key v vs => by
    intro t f k acc hv hd hacc hf hk
    simp only [ValueDict.valid, Bool.and_eq_true, decide_eq_true_eq] at hv
    simp only [ValueDict.distinct, Bool.and_eq_true, Bool.not_eq_true'] at hd
    simp only [ValueDict.enc, List.length_append] at hf hk
    have hvp := v.enc_length_pos
    have hvsp := vs.pairs_enc_length_pos
    obtain ⟨k1, rfl⟩ : ∃ k1, k = k1 + 1 := ⟨k - 1, by omega⟩
    obtain ⟨c, t1, hc, h1, h2⟩ := strEnc_head key
    have hne : c ≠ 101 := by omega
    obtain ⟨f1, rfl⟩ : ∃ f1, f = f1 + 1 := ⟨f - 1, by omega⟩
    have hkey := Stream.unmarshal_str key (v.enc ++ (vs.enc ++ t)) f1 hv.1.1
    have hp := Stream.unmarshal_enc v (vs.enc ++ t) (f1 + 1) hv.1.2 hd.1.2 (by omega)
    have hnew : acc.hasKey key = false := hacc key (by simp [ValueDict.hasKey])
    have hacc2 : ∀ k2, vs.hasKey k2 = true → (acc.snoc key v).hasKey k2 = false := by
      intro k2 hk2
      rw [ValueDict.hasKey_snoc, hacc k2 (by simp [ValueDict.hasKey, hk2])]
      simp only [Bool.false_or, decide_eq_false_iff_not]
      intro he
      rw [he, hk2] at hd
      exact absurd hd.1.1 (by simp)
    have hl := Stream.unmarshalDict_enc vs t (f1 + 1) k1 (acc.snoc key v) hv.2 hd.2 hacc2 (by omega)
      (by omega)
    simp only [ValueDict.enc, List.append_assoc]
    rw [hc] at hkey ⊢
    rw [List.cons_append] at hkey ⊢
    simp only [Stream.unmarshalDict, hne, if_false, hkey, hp, ValueDict.set_new acc key v hnew,
      hl, ValueDict.pairs_snoc_append]
end

/-- C15: for every generic value `v` built from integers in the range of
the 64-bit `int`, byte strings (that fit an allocation), lists and
dictionaries with distinct keys, `unmarshal` and `decodeFromReader` on a
reader over the standard encoding of `v`, in any well-formed state, return `v`
with a nil error and leave nothing unread: an integer as `int`, a byte string
as `string`, a list as `[]any` in stream order, a dictionary as the
`map[string]any` of its bindings. -/
theorem C15_unmarshal_round_trip (v : Value) (hv : v.valid = true) (hd : v.distinct = true)
    (r : Reader) (hr : r.WF) (hu : r.unread = v.enc) (fuel : Nat) (hf : v.enc.length ≤ fuel) :
    ∃ r1, unmarshal fuel r = some (.ok v, r1) ∧ decodeFromReader fuel r = some (.ok v, r1) ∧
      r1.unread = [] := by
  have hs := Stream.unmarshal_enc v [] fuel hv hd hf
  rw [List.append_nil, ← hu] at hs
  obtain ⟨r1, e1, _, e3, _⟩ := unmarshal_of_stream hr hs
  exact ⟨r1, e1, by simp [decodeFromReader, e1], e3⟩

theorem C15_unmarshal_round_trip_witness :
    (Value.dict (.cons (bytes "cow") (.str (bytes "moo"))
      (.cons (bytes "spam") (.str (bytes "eggs")) .nil))).valid = true ∧
    (Value.dict (.cons (bytes "cow") (.str (bytes "moo"))
      (.cons (bytes "spam") (.str (bytes "eggs")) .nil))).distinct = true ∧
    (Reader.new 4096 [bytes "d3:cow3:moo4:spam4:eggse"]).WF ∧
    (Reader.new 4096 [bytes "d3:cow3:moo4:spam4:eggse"]).unread =
      (Value.dict (.cons (bytes "cow") (.str (bytes "moo"))
        (.cons (bytes "spam") (.str (bytes "eggs")) .nil))).enc ∧
    (Value.dict (.cons (bytes "cow") (.str (bytes "moo"))
      (.cons (bytes "spam") (.str (bytes "eggs")) .nil))).enc.length ≤ 24 ∧
    ∃ r1, unmarshal 24 (Reader.new 4096 [bytes "d3:cow3:moo4:spam4:eggse"]) =
        some (.ok (Value.dict (.cons (bytes "cow") (.str (bytes "moo"))
          (.cons (bytes "spam") (.str (bytes "eggs")) .nil))), r1) ∧
      decodeFromReader 24 (Reader.new 4096 [bytes "d3:cow3:moo4:spam4:eggse"]) =
        some (.ok (Value.dict (.cons (bytes "cow") (.str (bytes "moo"))
          (.cons (bytes "spam") (.str (bytes "eggs")) .nil))), r1) ∧
      r1.unread = [] :=
  ⟨by decide, by decide, by decide, by decide, by decide,
    C15_unmarshal_round_trip
      (Value.dict (.cons (bytes "cow") (.str (bytes "moo"))
        (.cons (bytes "spam") (.str (bytes "eggs")) .nil)))
      (by decide) (by decide) (Reader.new 4096 [bytes "d3:cow3:moo4:spam4:eggse"]) (by decide)
      (by decide) 24 (by decide)⟩

/-- With a key that occurs twice the map keeps one binding, the later value
(`dic[k] = value` overwrites): `"d1:ai1e1:ai2ee"` decodes to `{"a": 2}`. -/
theorem unmarshal_duplicate_key :
    Stream.unmarshal 4 (bytes "d1:ai1e1:ai2ee") =
      some (.ok (.dict (.cons (bytes "a") (.int 2) .nil)), []) := by
  decide

mutual
theorem Stream.unmarshal_enc_norm : (v : Value) → ∀ (t : List Nat) (f : Nat),
    v.valid = true → v.enc.length ≤ f →
    Stream.unmarshal f (v.enc ++ t) = some (.ok v.norm, t)
  | .int n => by
    intro t f hv hf
    simp only [Value.valid, Bool.and_eq_true, decide_eq_true_eq] at hv
    obtain ⟨f1, rfl⟩ : ∃ f1, f = f1 + 1 := ⟨f - 1, by
      have := (Value.int n).enc_length_pos; omega⟩
    simp only [Value.enc, Value.norm, List.cons_append, List.append_assoc,
      List.singleton_append]
    rw [Stream.unmarshal_cons, if_pos rfl, Stream.unmarshalInt_intText n hv.1 hv.2]
    simp
  | .str s => by
    intro t f hv hf
    simp only [Value.valid, decide_eq_true_eq] at hv
    obtain ⟨f1, rfl⟩ : ∃ f1, f = f1 + 1 := ⟨f - 1, by
      have := (Value.str s).enc_length_pos; omega⟩
    simp only [Value.enc, Value.norm]
    exact Stream.unmarshal_str s t f1 hv
  | .list xs => by
    intro t f hv hf
    simp only [Value.valid] at hv
    simp only [Value.enc, List.length_cons] at hf
    obtain ⟨f1, rfl⟩ : ∃ f1, f = f1 + 1 := ⟨f - 1, by omega⟩
    simp only [Value.enc, Value.norm, List.cons_append]
    rw [Stream.unmarshal_cons]
    simp only [show ¬ (108 = 105) by decide, if_false, if_true]
    rw [Stream.unmarshalList_enc_norm xs t f1 f1 .nil hv (by omega) (by omega)]
    simp [ValueList.append]
  | .dict kvs => by
    intro t f hv hf
    simp only [Value.valid] at hv
    simp only [Value.enc, List.length_cons] at hf
    obtain ⟨f1, rfl⟩ : ∃ f1, f = f1 + 1 := ⟨f - 1, by omega⟩
    simp only [Value.enc, Value.norm, List.cons_append]
    rw [Stream.unmarshal_cons]
    simp only [show ¬ (100 = 105) by decide, show ¬ (100 = 108) by decide, if_false, if_true]
    rw [Stream.unmarshalDict_enc_norm kvs t f1 f1 .nil hv (by omega) (by omega)]
theorem Stream.unmarshalList_enc_norm : (xs : ValueList) → ∀ (t : List Nat) (f k : Nat)
    (acc : ValueList), xs.valid = true → xs.enc.length ≤ f → xs.enc.length ≤ k →
    Stream.unmarshalList (Stream.unmarshal f) k (xs.enc ++ t) acc =
      some (.ok (.list (acc.append xs.norm)), t)
  | .nil => by
    intro t f k acc _ _ hk
    simp only [ValueList.enc, List.length_singleton] at hk
    obtain ⟨k1, rfl⟩ : ∃ k1, k = k1 + 1 := ⟨k - 1, by omega⟩
    simp [ValueList.enc, ValueList.norm, Stream.unmarshalList, ValueList.append_nil]
  | .cons v vs => by
    intro t f k acc hv hf hk
    simp only [ValueList.valid, Bool.and_eq_true] at hv
    simp only [ValueList.enc, List.length_append] at hf hk
    have hvp := v.enc_length_pos
    have hvsp := vs.items_enc_length_pos
    obtain ⟨k1, rfl⟩ : ∃ k1, k = k1 + 1 := ⟨k - 1, by omega⟩
    obtain ⟨c, t1, hc, hne⟩ := v.enc_head
    have hp := Stream.unmarshal_enc_norm v (vs.enc ++ t) f hv.1 (by omega)
    have hl := Stream.unmarshalList_enc_norm vs t f k1 (acc.snoc v.norm) hv.2 (by omega)
      (by omega)
    simp only [ValueList.enc, ValueList.norm, List.append_assoc]
    rw [hc] at hp ⊢
    rw [List.cons_append] at hp ⊢
    simp only [Stream.unmarshalList, hne, if_false, hp, hl, ValueList.snoc_append]
theorem Stream.unmarshalDict_enc_norm : (kvs : ValueDict) → ∀ (t : List Nat) (f k : Nat)
    (acc : ValueDict), kvs.valid = true → kvs.enc.length ≤ f → kvs.enc.length ≤ k →
    Stream.unmarshalDict (Stream.unmarshal f) k (kvs.enc ++ t) acc =
      some (.ok (.dict (kvs.normInto acc)), t)
  | .nil => by
    intro t f k acc _ _ hk
    simp only [ValueDict.enc, List.length_singleton] at hk
    obtain ⟨k1, rfl⟩ : ∃ k1, k = k1 + 1 := ⟨k - 1, by omega⟩
    simp [ValueDict.enc, ValueDict.normInto, Stream.unmarshalDict]
  | .cons key v vs => by
    intro t f k acc hv hf hk
    simp only [ValueDict.valid, Bool.and_eq_true, decide_eq_true_eq] at hv
    simp only [ValueDict.enc, List.length_append] at hf hk
    have hvp := v.enc_length_pos
    have hvsp := vs.pairs_enc_length_pos
    obtain ⟨k1, rfl⟩ : ∃ k1, k = k1 + 1 := ⟨k - 1, by omega⟩
    obtain ⟨c, t1, hc, h1, h2⟩ := strEnc_head key
    have hne : c ≠ 101 := by omega
    obtain ⟨f1, rfl⟩ : ∃ f1, f = f1 + 1 := ⟨f - 1, by omega⟩
    have hkey := Stream.unmarshal_str key (v.enc ++ (vs.enc ++ t)) f1 hv.1.1
    have hp := Stream.unmarshal_enc_norm v (vs.enc ++ t) (f1 + 1) hv.1.2 (by omega)
    have hl := Stream.unmarshalDict_enc_norm vs t (f1 + 1) k1 (acc.set key v.norm) hv.2
      (by omega) (by omega)
    simp only [ValueDict.enc, ValueDict.normInto, List.append_assoc]
    rw [hc] at hkey ⊢
    rw [List.cons_append] at hkey ⊢
    simp only [Stream.unmarshalDict, hne, if_false, hkey, hp, hl]
end

/-- C16 as stated fails in both directions. On `"i18446744073709551615e"`
`parseFromReader` returns no error (it reports `Uint64(2^64-1)`) while
`unmarshal` returns the range error of `strconv.Atoi`; on `"+1:a"` `unmarshal`
returns the string `"a"` with no error while `parseFromReader` returns the
error `unexpected character`. -/
theorem C16_counterexample_grammars_differ :
    (parseFromReader (fun _ => none) 2 (Reader.new 4096 [bytes "i18446744073709551615e"])
        0 1).map (fun run => run.1) = some (.ok ()) ∧
    (unmarshal 2 (Reader.new 4096 [bytes "i18446744073709551615e"])).map (fun run => run.1) =
      some (.error (.NumError .fnAtoi (bytes "18446744073709551615") .ErrRange)) ∧
    (unmarshal 2 (Reader.new 4096 [bytes "+1:a"])).map (fun run => run.1) =
      some (.ok (.str (bytes "a"))) ∧
    (parseFromReader (fun _ => none) 2 (Reader.new 4096 [bytes "+1:a"]) 0 1).map
        (fun run => run.1) = some (.error (.unexpectedCharacter 43)) :=
  ⟨by decide, by decide, by decide, by decide⟩

/-- The two decoders agree on the standard encodings. For every value `v`
built from signed 64-bit integers, byte strings (that fit an
allocation), lists and dictionaries, on readers over the encoding of `v`
(well formed, the one of `parseFromReader` with a buffer of at least 21
bytes) neither `parseFromReader` nor `unmarshal` returns an error:
`parseFromReader` makes the calls of `v`, `unmarshal` returns the value
`v.norm`. -/
theorem decoders_agree_on_encodings (pf : List Nat → Option Float64) (v : Value)
    (hv : v.valid = true) (r r2 : Reader) (hr : r.WF) (hr2 : r2.WF) (hsz : 21 ≤ r.size)
    (hu : r.unread = v.enc) (hu2 : r2.unread = v.enc) (fuel build next : Nat)
    (hf : v.enc.length ≤ fuel) :
    ∃ r1 r3, parseFromReader pf fuel r build next =
        some (.ok (), r1, v.calls build next, next + v.subs) ∧
      unmarshal fuel r2 = some (.ok v.norm, r3) := by
  have hs := Stream.parse_enc pf r.size hsz v [] fuel build next hv hf
  rw [List.append_nil, ← hu] at hs
  obtain ⟨r1, e1, _, _, _⟩ := parseFromReader_of_stream hr hs
  have hs2 := Stream.unmarshal_enc_norm v [] fuel hv hf
  rw [List.append_nil, ← hu2] at hs2
  obtain ⟨r3, e3, _, _, _⟩ := unmarshal_of_stream hr2 hs2
  exact ⟨r1, r3, e1, e3⟩

theorem decoders_agree_example :
    (Value.list (.cons (.int (-12)) (.cons (.str (bytes "abc")) .nil))).valid = true ∧
    (Reader.new 4096 [bytes "li-12e3:abce"]).WF ∧
    (Reader.new 16 [bytes "li-12", bytes "e3:abce"]).WF ∧
    21 ≤ (Reader.new 4096 [bytes "li-12e3:abce"]).size ∧
    (Reader.new 4096 [bytes "li-12e3:abce"]).unread =
      (Value.list (.cons (.int (-12)) (.cons (.str (bytes "abc")) .nil))).enc ∧
    (Reader.new 16 [bytes "li-12", bytes "e3:abce"]).unread =
      (Value.list (.cons (.int (-12)) (.cons (.str (bytes "abc")) .nil))).enc ∧
    (Value.list (.cons (.int (-12)) (.cons (.str (bytes "abc")) .nil))).enc.length ≤ 12 ∧
    ∃ r1 r3, parseFromReader (fun _ => none) 12 (Reader.new 4096 [bytes "li-12e3:abce"]) 0 1 =
        some (.ok (), r1,
          (Value.list (.cons (.int (-12)) (.cons (.str (bytes "abc")) .nil))).calls 0 1,
          1 + (Value.list (.cons (.int (-12)) (.cons (.str (bytes "abc")) .nil))).subs) ∧
      unmarshal 12 (Reader.new 16 [bytes "li-12", bytes "e3:abce"]) =
        some (.ok (Value.list (.cons (.int (-12)) (.cons (.str (bytes "abc")) .nil))).norm,
          r3) :=
  ⟨by decide, by decide, by decide, by decide, by decide, by decide, by decide,
    decoders_agree_on_encodings (fun _ => none)
      (Value.list (.cons (.int (-12)) (.cons (.str (bytes "abc")) .nil))) (by decide)
      (Reader.new 4096 [bytes "li-12e3:abce"]) (Reader.new 16 [bytes "li-12", bytes "e3:abce"])
      (by decide) (by decide) (by decide) (by decide) (by decide) 12 0 1 (by decide)⟩

namespace Stream

theorem optimisticReadBytes_line (u : List Nat) (delim : Nat)
    (h : (optimisticReadBytes u delim).2.1 = none) :
    0 < (optimisticReadBytes u delim).1.length := by
  unfold optimisticReadBytes at h ⊢
  cases hi : Reader.IndexByte u delim with
  | none => rw [hi] at h; simp at h
  | some i =>
    have := Reader.IndexByte_lt hi
    simp only [List.length_take]
    omega

/-- The `'i'` case of `unmarshal` never panics. -/
theorem unmarshalInt_no_panic (u : List Nat) : (unmarshalInt u).1 ≠ .panic := by
  have hne := optimisticReadBytes_line u 101
  unfold unmarshalInt
  generalize optimisticReadBytes u 101 = x at hne
  obtain ⟨buf, e, u2⟩ := x
  cases e with
  | some e => simp
  | none =>
    have := hne rfl
    simp only at this ⊢
    have hb : ¬ buf.length = 0 := by omega
    simp only [hb, if_false]
    cases Atoi (buf.take (buf.length - 1)) with
    | error e => simp
    | ok n => simp

/-- The default case of `unmarshal` panics exactly in the allocation: when
the length prefix parses to a negative number or to one above `maxAlloc`. -/
theorem unmarshalString_panic (u : List Nat) (h : (unmarshalString u).1 = .panic) :
    ∃ buf length, (optimisticReadBytes u 58).1 = buf ∧
      ParseInt (buf.take (buf.length - 1)) = .ok length ∧
      (length < 0 ∨ maxAlloc < length.toNat) := by
  have hne := optimisticReadBytes_line u 58
  unfold unmarshalString at h
  generalize optimisticReadBytes u 58 = x at hne h ⊢
  obtain ⟨buf, e, u2⟩ := x
  cases e with
  | some e => simp at h
  | none =>
    have := hne rfl
    simp only at this h ⊢
    have hb : ¬ buf.length = 0 := by omega
    simp only [hb, if_false] at h
    cases hp : ParseInt (buf.take (buf.length - 1)) with
    | error e => rw [hp] at h; simp at h
    | ok n =>
      rw [hp] at h
      simp only at h
      by_cases hn : n < 0 ∨ maxAlloc < n.toNat
      · exact ⟨buf, n, rfl, hp, hn⟩
      · simp only [hn, if_false] at h
        cases hr : readFull n.toNat u2 with
        | mk data rest =>
          obtain ⟨e3, u3⟩ := rest
          rw [hr] at h
          cases e3 with
          | some e => simp at h
          | none => simp at h

end Stream

/-- The slice expressions `buf[:len(buf)-1]` of `unmarshal` are in range:
when `optimisticReadBytes` returns no error, on any well-formed reader, the
line it returns is not empty (it ends with the delimiter). -/
theorem optimisticReadBytes_nonempty (r : Reader) (hr : r.WF) (delim : Nat)
    (h : (optimisticReadBytes r delim).2.1 = none) :
    0 < (optimisticReadBytes r delim).1.length := by
  obtain ⟨o1, o2, _, _, _⟩ := optimisticReadBytes_sim r delim hr
  rw [o1]
  exact Stream.optimisticReadBytes_line r.unread delim (by rw [← o2]; exact h)

/-- C20, failing input `"-1:"`: the length prefix parses to `-1`, `unmarshal`
has no check of the sign (the check `length < 0` of `decodeString` in
`parser.go` is missing here), and `make([]byte, length)` panics. -/
theorem C20_negative_length_panics :
    (unmarshal 2 (Reader.new 4096 [bytes "-1:"])).map absVal = some (.panic, []) := by
  decide

/-- A declared length above `maxAlloc` panics in the same allocation. -/
theorem unmarshal_huge_length_panics :
    (unmarshal 2 (Reader.new 4096 [bytes "9223372036854775807:a"])).map absVal =
      some (.panic, bytes "a") := by
  decide

theorem int64Only_append (a b : List Event) :
    int64Only (a ++ b) = (int64Only a && int64Only b) := by
  simp [int64Only, List.all_append]

theorem int64Only_cons (e : Event) (a : List Event) :
    int64Only (e :: a) = (!e.2.isWide && int64Only a) := by
  simp [int64Only]

theorem ParseUintLoop_ok_Atoi (s0 s1 : List Nat) : ∀ (ds : List Nat) (a un : Nat),
    ParseUintLoop s0 ds a = .ok un → AtoiLoop s1 ds a = .ok un := by
  have hmax : maxUint64 = 18446744073709551615 := by decide
  have hcut : uintCutoff = 1844674407370955162 := by decide
  intro ds
  induction ds with
  | nil => intro a un h; simpa [ParseUintLoop, AtoiLoop] using h
  | cons c cs ih =>
    intro a un h
    rw [ParseUintLoop] at h
    split at h
    · rename_i hd
      split at h
      · cases h
      · rename_i hc
        simp only at h
        split at h
        · cases h
        · rename_i hr
          simp only [isDigit, Bool.and_eq_true, decide_eq_true_eq] at hd
          rw [hcut] at hc
          rw [hmax] at hr
          have hnw : (a * 10 + (c - 48)) % 2 ^ 64 = a * 10 + (c - 48) := by omega
          rw [hnw] at h
          have hch : ¬ (c < 48 ∨ 57 < c) := by omega
          rw [AtoiLoop]
          simp only [hch, if_false]
          exact ih _ _ h
    · cases h

theorem ParseInt_ok_inv {s : List Nat} {i : Int} (h : ParseInt s = .ok i) :
    ∃ c rest un, s = c :: rest ∧
      ParseUint (if c = 43 ∨ c = 45 then rest else s) = .ok un ∧
      i = (if c = 45 then -(un : Int) else (un : Int)) := by
  cases s with
  | nil => simp [ParseInt] at h
  | cons c rest =>
    refine ⟨c, rest, ?_⟩
    simp only [ParseInt, Bool.or_eq_true, beq_iff_eq] at h
    cases hu : ParseUint (if c = 43 ∨ c = 45 then rest else c :: rest) with
    | ok un =>
      rw [hu] at h
      simp only at h
      refine ⟨un, rfl, rfl, ?_⟩
      split at h
      · cases h
      · split at h
        · cases h
        · simp only [Except.ok.injEq] at h
          exact h.symm
    | error e =>
      rw [hu] at h
      exfalso
      have hmax : maxUint64 = 18446744073709551615 := by decide
      cases e with
      | NumError fn num err =>
        cases err with
        | ErrSyntax => simp at h
        | ErrRange =>
          simp only at h
          split at h
          · cases h
          · rename_i h1
            split at h
            · cases h
            · rename_i h2
              simp [hmax] at h1 h2
              exact h2 h1
      | EOF => simp at h
      | ErrUnexpectedEOF => simp at h
      | ErrShortBuffer => simp at h
      | ErrNoProgress => simp at h
      | ErrBufferFull => simp at h
      | ErrInvalidUnreadByte => simp at h
      | badStringLength => simp at h
      | badInteger => simp at h
      | unexpectedCharacter c => simp at h
      | invalidDictKey => simp at h

theorem ParseUint_ok_Atoi {s0 ds : List Nat} {un : Nat} (h : ParseUint ds = .ok un) :
    ds ≠ [] ∧ AtoiLoop s0 ds 0 = .ok un := by
  unfold ParseUint at h
  by_cases hd : ds = []
  · simp [hd] at h
  · simp only [hd, if_false] at h
    exact ⟨hd, ParseUintLoop_ok_Atoi ds s0 ds 0 un h⟩

theorem ParseUint_ok_head {ds : List Nat} {un : Nat} (h : ParseUint ds = .ok un) :
    ∃ c t, ds = c :: t ∧ 48 ≤ c ∧ c ≤ 57 := by
  unfold ParseUint at h
  cases ds with
  | nil => simp at h
  | cons c t =>
    refine ⟨c, t, rfl, ?_⟩
    simp only [List.cons_ne_nil, if_false] at h
    rw [ParseUintLoop] at h
    split at h
    · rename_i hd
      simpa [isDigit] using hd
    · cases h

/-- Whatever `strconv.ParseInt(s, 10, 64)` accepts, `strconv.Atoi` accepts
with the same value. -/
theorem Atoi_of_ParseInt {s : List Nat} {i : Int} (h : ParseInt s = .ok i) : Atoi s = .ok i := by
  unfold Atoi
  by_cases hfast : 0 < s.length ∧ s.length < 19
  · simp only [hfast, and_self, if_true]
    obtain ⟨c, rest, un, rfl, hu, hi⟩ := ParseInt_ok_inv h
    simp only
    by_cases hs : c = 43 ∨ c = 45
    · have hs2 : c = 45 ∨ c = 43 := hs.symm
      simp only [hs, if_true] at hu
      obtain ⟨hne, hl⟩ := @ParseUint_ok_Atoi (c :: rest) _ _ hu
      have hlen : ¬ rest.length < 1 := by
        cases rest with
        | nil => exact absurd rfl hne
        | cons _ _ => simp
      simp only [hs2, if_true, hlen, and_false, if_false, hl, hi]
    · have hs2 : ¬ (c = 45 ∨ c = 43) := fun h => hs h.symm
      simp only [hs, if_false] at hu
      obtain ⟨_, hl⟩ := @ParseUint_ok_Atoi (c :: rest) _ _ hu
      have h45 : ¬ c = 45 := fun h => hs (Or.inr h)
      have h43 : ¬ c = 43 := fun h => hs (Or.inl h)
      simp only [h45, h43, or_self, if_false, false_and, hl, hi]
  · simp only [hfast, if_false, h]

theorem ParseInt_ok_head {s : List Nat} {i : Int} (h : ParseInt s = .ok i) :
    ∃ c t, s = c :: t ∧ (c = 43 ∨ c = 45 ∨ (48 ≤ c ∧ c ≤ 57)) := by
  obtain ⟨c, rest, un, rfl, hu, _⟩ := ParseInt_ok_inv h
  refine ⟨c, rest, rfl, ?_⟩
  by_cases hs : c = 43 ∨ c = 45
  · rcases hs with hs | hs
    · exact Or.inl hs
    · exact Or.inr (Or.inl hs)
  · simp only [hs, if_false] at hu
    obtain ⟨c1, t1, he, h1, h2⟩ := ParseUint_ok_head hu
    cases he
    exact Or.inr (Or.inr ⟨h1, h2⟩)

namespace Stream

theorem readSlice_ok_optimistic {size delim : Nat} {u text u1 : List Nat}
    (h : readSlice size u delim = (.ok text, u1)) :
    ∃ buf, optimisticReadBytes u delim = (buf, none, u1) ∧ buf.length ≠ 0 ∧
      buf.take (buf.length - 1) = text := by
  unfold readSlice at h
  cases hr : ReadSlice size delim u with
  | mk line rest =>
    obtain ⟨e, u2⟩ := rest
    rw [hr] at h
    cases e with
    | some e => simp at h
    | none =>
      simp only at h
      by_cases hp : 0 < line.length
      · simp only [hp, if_true, Prod.mk.injEq, Result.ok.injEq] at h
        obtain ⟨h1, h2⟩ := h
        subst h2
        unfold ReadSlice at hr
        cases hi : Reader.IndexByte (u.take size) delim with
        | none =>
          rw [hi] at hr
          simp only at hr
          by_cases hl : u.length < size <;> simp [hl] at hr
        | some i =>
          rw [hi] at hr
          simp only [Prod.mk.injEq, true_and] at hr
          refine ⟨line, ?_, by omega, h1⟩
          unfold optimisticReadBytes
          rw [Reader.IndexByte_take _ hi]
          simp only [hr.1, hr.2]
      · simp [hp] at h

theorem unmarshalInt_of_parse {pf : List Nat → Option Float64} {size : Nat} {t : List Nat}
    {b n : Nat} {u1 : List Nat} {evs : List Event} {n1 : Nat}
    (h : parseInteger pf size t b n = (.ok (), u1, evs, n1)) (hw : int64Only evs = true) :
    ∃ i, unmarshalInt t = (.ok (.int i), u1) := by
  unfold parseInteger at h
  cases hr : readSlice size t 101 with
  | mk x u2 =>
    rw [hr] at h
    cases x with
    | error e => simp at h
    | panic => simp at h
    | ok str =>
      simp only at h
      obtain ⟨buf, ho, hb, ht⟩ := readSlice_ok_optimistic hr
      cases hpi : ParseInt str with
      | ok i =>
        rw [hpi] at h
        simp only [Prod.mk.injEq, true_and] at h
        refine ⟨i, ?_⟩
        unfold unmarshalInt
        rw [ho]
        simp only [hb, if_false, ht, Atoi_of_ParseInt hpi, h.1]
      | error _ =>
        rw [hpi] at h
        simp only at h
        exfalso
        cases hpu : ParseUint str with
        | ok v =>
          rw [hpu] at h
          simp only [Prod.mk.injEq, true_and] at h
          rw [← h.2.1] at hw
          simp [int64Only, Call.isWide] at hw
        | error _ =>
          rw [hpu] at h
          simp only at h
          cases hpf : pf str with
          | some fl =>
            rw [hpf] at h
            simp only [Prod.mk.injEq, true_and] at h
            rw [← h.2.1] at hw
            simp [int64Only, Call.isWide] at hw
          | none => rw [hpf] at h; simp at h

theorem unmarshalString_of_decode {size : Nat} (hsz : size ≤ maxAlloc) {u s u1 : List Nat}
    (h : decodeString size u = (.ok s, u1)) : unmarshalString u = (.ok (.str s), u1) := by
  unfold decodeString decodeInt64 at h
  cases hr : readSlice size u 58 with
  | mk x u2 =>
    rw [hr] at h
    cases x with
    | error e => simp at h
    | panic => simp at h
    | ok text =>
      simp only at h
      obtain ⟨buf, ho, hb, ht⟩ := readSlice_ok_optimistic hr
      cases hp : ParseInt text with
      | error e => rw [hp] at h; simp at h
      | ok len =>
        rw [hp] at h
        simp only at h
        unfold unmarshalString
        rw [ho]
        simp only [hb, if_false, ht, hp]
        by_cases hneg : len < 0
        · simp [hneg] at h
        · simp only [hneg, if_false] at h
          by_cases hpk : len.toNat ≤ size ∧ len.toNat ≤ u2.length
          · simp only [hpk, and_self, if_true, Prod.mk.injEq, Result.ok.injEq] at h
            have hm : ¬ (len < 0 ∨ maxAlloc < len.toNat) := by omega
            simp only [hm, if_false, readFull, hpk.2, if_true, h.1, h.2]
          · simp only [hpk, if_false] at h
            by_cases hma : maxAlloc < len.toNat
            · simp [hma] at h
            · simp only [hma, if_false] at h
              have hm : ¬ (len < 0 ∨ maxAlloc < len.toNat) := by omega
              simp only [hm, if_false]
              cases hrf : readFull len.toNat u2 with
              | mk data rest =>
                obtain ⟨e, u3⟩ := rest
                rw [hrf] at h
                cases e with
                | some e => simp at h
                | none =>
                  simp only [Prod.mk.injEq, Result.ok.injEq] at h
                  simp only [h.1, h.2]

theorem decodeString_ok_first {size : Nat} {u s u1 : List Nat}
    (h : decodeString size u = (.ok s, u1)) :
    ∃ c t, u = c :: t ∧ c ≠ 105 ∧ c ≠ 108 ∧ c ≠ 100 := by
  obtain ⟨buf, u2, len, hr, hp⟩ := decodeString_ok_inv h
  obtain ⟨i, hi, hb, _⟩ := readSlice_ok_inv hr
  obtain ⟨c, t, hs, hc⟩ := ParseInt_ok_head hp
  cases u with
  | nil => simp at hi
  | cons c0 t0 =>
    refine ⟨c0, t0, rfl, ?_⟩
    cases i with
    | zero => rw [hb] at hs; simp at hs
    | succ j =>
      rw [hb, List.take_succ_cons] at hs
      have : c0 = c := (List.cons.inj hs).1
      omega

theorem unmarshalList_of_parse {pf : List Nat → Option Float64} {size : Nat} (f : Nat)
    (ih : ∀ u b n u1 evs n1, parseFromReader pf size f u b n = some (.ok (), u1, evs, n1) →
      int64Only evs = true → ∃ v, unmarshal f u = some (.ok v, u1))
    (build : Nat) (k : Nat) : ∀ (u : List Nat) (i n : Nat) (u1 : List Nat) (evs : List Event)
      (n1 : Nat) (acc : ValueList),
      listLoop (parseFromReader pf size f) build k u i n = some (.ok (), u1, evs, n1) →
      int64Only evs = true →
      ∃ xs, unmarshalList (unmarshal f) k u acc = some (.ok (.list xs), u1) := by
  induction k with
  | zero => intro u i n u1 evs n1 acc h; simp [listLoop] at h
  | succ k ihk =>
    intro u i n u1 evs n1 acc h hw
    cases u with
    | nil => simp [listLoop] at h
    | cons c t0 =>
      by_cases hc : c = 101
      · simp only [listLoop, hc, if_true, Option.some.injEq, Prod.mk.injEq] at h
        exact ⟨acc, by simp [unmarshalList, hc, h.2.1]⟩
      · rw [listLoop] at h
        simp only [hc, if_false] at h
        cases hp : parseFromReader pf size f (c :: t0) n (n + 1) with
        | none => rw [hp] at h; simp at h
        | some x =>
          obtain ⟨res3, u3, evs3, n3⟩ := x
          rw [hp] at h
          cases res3 with
          | error er => simp at h
          | panic => simp at h
          | ok a =>
            cases a
            simp only at h
            cases hl : listLoop (parseFromReader pf size f) build k u3 (i + 1) n3 with
            | none => rw [hl] at h; simp at h
            | some y =>
              obtain ⟨res4, u4, evs4, n4⟩ := y
              rw [hl] at h
              simp only [Option.some.injEq, Prod.mk.injEq] at h
              obtain ⟨h1, h2, h3, _⟩ := h
              subst h1 h2 h3
              rw [List.cons_append, int64Only_cons, int64Only_append] at hw
              simp only [Bool.and_eq_true] at hw
              obtain ⟨v, hv⟩ := ih _ _ _ _ _ _ hp hw.2.1
              obtain ⟨xs, hxs⟩ := ihk _ _ _ _ _ _ (acc.snoc v) hl hw.2.2
              exact ⟨xs, by simp only [unmarshalList, hc, if_false, hv, hxs]⟩

theorem parse_zero (pf : List Nat → Option Float64) (size : Nat) (u : List Nat) (b n : Nat) :
    parseFromReader pf size 0 u b n = none := rfl

theorem unmarshalDict_of_parse {pf : List Nat → Option Float64} {size : Nat}
    (hsz : size ≤ maxAlloc) (f : Nat)
    (ih : ∀ u b n u1 evs n1, parseFromReader pf size f u b n = some (.ok (), u1, evs, n1) →
      int64Only evs = true → ∃ v, unmarshal f u = some (.ok v, u1))
    (build : Nat) (k : Nat) : ∀ (u : List Nat) (n : Nat) (u1 : List Nat) (evs : List Event)
      (n1 : Nat) (acc : ValueDict),
      dictLoop size (parseFromReader pf size f) build k u n = some (.ok (), u1, evs, n1) →
      int64Only evs = true →
      ∃ kvs, unmarshalDict (unmarshal f) k u acc = some (.ok (.dict kvs), u1) := by
  induction k with
  | zero => intro u n u1 evs n1 acc h; simp [dictLoop] at h
  | succ k ihk =>
    intro u n u1 evs n1 acc h hw
    cases u with
    | nil => simp [dictLoop] at h
    | cons c t0 =>
      by_cases hc : c = 101
      · simp only [dictLoop, hc, if_true, Option.some.injEq, Prod.mk.injEq] at h
        exact ⟨acc, by simp [unmarshalDict, hc, h.2.1]⟩
      · rw [dictLoop] at h
        simp only [hc, if_false] at h
        cases hd : decodeString size (c :: t0) with
        | mk dres u2 =>
          rw [hd] at h
          cases dres with
          | error er => simp at h
          | panic => simp at h
          | ok key =>
            simp only at h
            cases hp : parseFromReader pf size f u2 n (n + 1) with
            | none => rw [hp] at h; simp at h
            | some x =>
              obtain ⟨res3, u3, evs3, n3⟩ := x
              rw [hp] at h
              cases res3 with
              | error er => simp at h
              | panic => simp at h
              | ok a =>
                cases a
                simp only at h
                cases hl : dictLoop size (parseFromReader pf size f) build k u3 n3 with
                | none => rw [hl] at h; simp at h
                | some y =>
                  obtain ⟨res4, u4, evs4, n4⟩ := y
                  rw [hl] at h
                  simp only [Option.some.injEq, Prod.mk.injEq] at h
                  obtain ⟨h1, h2, h3, _⟩ := h
                  subst h1 h2 h3
                  rw [List.cons_append, int64Only_cons, int64Only_append] at hw
                  simp only [Bool.and_eq_true] at hw
                  obtain ⟨v, hv⟩ := ih _ _ _ _ _ _ hp hw.2.1
                  obtain ⟨kvs, hkvs⟩ := ihk _ _ _ _ _ (acc.set key v) hl hw.2.2
                  have hkey : unmarshal f (c :: t0) = some (.ok (.str key), u2) := by
                    cases f with
                    | zero => rw [parse_zero] at hp; cases hp
                    | succ f1 =>
                      obtain ⟨c1, t1, he, q1, q2, q3⟩ := decodeString_ok_first hd
                      cases he
                      rw [unmarshal_cons]
                      simp only [q1, q2, q3, if_false, unmarshalString_of_decode hsz hd]
                  exact ⟨kvs, by simp only [unmarshalDict, hc, if_false, hkey, hv, hkvs]⟩

/-- Whenever `parseFromReader` returns no error and has reported every
integer through `Int64`, `unmarshal` returns no error on the same bytes and
stops at the same place. -/
theorem unmarshal_of_parse (pf : List Nat → Option Float64) (size : Nat)
    (hsz : size ≤ maxAlloc) (f : Nat) :
    ∀ (u : List Nat) (b n : Nat) (u1 : List Nat) (evs : List Event) (n1 : Nat),
      parseFromReader pf size f u b n = some (.ok (), u1, evs, n1) → int64Only evs = true →
      ∃ v, unmarshal f u = some (.ok v, u1) := by
  induction f with
  | zero => intro u b n u1 evs n1 h; simp [parseFromReader] at h
  | succ f ih =>
    intro u b n u1 evs n1 h hw
    rw [parseFromReader] at h
    obtain ⟨evs0, hx, he⟩ := exit_returned h (by simp)
    subst he
    rw [int64Only_append] at hw
    simp only [Bool.and_eq_true] at hw
    unfold dispatch at hx
    cases u with
    | nil => simp at hx
    | cons c t0 =>
      simp only at hx
      rw [unmarshal_cons]
      by_cases hd : 48 ≤ c ∧ c ≤ 57
      · simp only [hd, and_self, if_true, Option.some.injEq] at hx
        have hi : ¬ c = 105 := by omega
        have hl : ¬ c = 108 := by omega
        have hdd : ¬ c = 100 := by omega
        simp only [hi, hl, hdd, if_false]
        unfold parseString at hx
        cases hds : decodeString size (c :: t0) with
        | mk x u2 =>
          rw [hds] at hx
          cases x with
          | ok s =>
            simp only [Prod.mk.injEq, true_and] at hx
            rw [← hx.1]
            exact ⟨.str s, by rw [unmarshalString_of_decode hsz hds]⟩
          | error er => simp at hx
          | panic => simp at hx
      · simp only [hd, if_false] at hx
        by_cases hi : c = 105
        · simp only [hi, if_true, Option.some.injEq] at hx ⊢
          obtain ⟨i, hu⟩ := unmarshalInt_of_parse hx hw.1
          exact ⟨.int i, by rw [hu]⟩
        · simp only [hi, if_false] at hx ⊢
          by_cases hdd : c = 100
          · have hl : ¬ c = 108 := by omega
            simp only [hdd, if_true, show ¬ (100 = 108) by decide, if_false] at hx ⊢
            cases hl2 : dictLoop size (parseFromReader pf size f) b f t0 n with
            | none => rw [hl2] at hx; simp at hx
            | some y =>
              obtain ⟨res2, u2, evs2, n2⟩ := y
              rw [hl2] at hx
              simp only [Option.some.injEq, Prod.mk.injEq] at hx
              obtain ⟨h1, h2, h3, _⟩ := hx
              subst h1 h2 h3
              rw [int64Only_cons] at hw
              simp only [Bool.and_eq_true] at hw
              obtain ⟨kvs, hk⟩ := unmarshalDict_of_parse hsz f ih b f _ _ _ _ _ .nil hl2 hw.1.2
              exact ⟨.dict kvs, hk⟩
          · simp only [hdd, if_false] at hx
            by_cases hll : c = 108
            · simp only [hll, if_true] at hx ⊢
              cases hl2 : listLoop (parseFromReader pf size f) b f t0 0 n with
              | none => rw [hl2] at hx; simp at hx
              | some y =>
                obtain ⟨res2, u2, evs2, n2⟩ := y
                rw [hl2] at hx
                simp only [Option.some.injEq, Prod.mk.injEq] at hx
                obtain ⟨h1, h2, h3, _⟩ := hx
                subst h1 h2 h3
                rw [int64Only_cons] at hw
                simp only [Bool.and_eq_true] at hw
                obtain ⟨xs, hk⟩ := unmarshalList_of_parse f ih b f _ _ _ _ _ _ .nil hl2 hw.1.2
                exact ⟨.list xs, hk⟩
            · simp [hll] at hx

end Stream

/-- C16 (amended): for every input on which `parseFromReader` returns no
error and reports every integer through `Int64` (no `Uint64`, no `Float64`
call), `unmarshal` returns no error on the same bytes, read through any
well-formed reader, and stops at the same place. The buffer of the reader of
`parseFromReader` is within the allocation limit, as every buffer that
`bufio` allocates. -/
theorem C16_unmarshal_accepts_int64_inputs (pf : List Nat → Option Float64) (r r2 : Reader)
    (hr : r.WF) (hr2 : r2.WF) (hsz : r.size ≤ maxAlloc) (hu : r2.unread = r.unread)
    (fuel build next : Nat) (u1 : List Nat) (evs : List Event) (n1 : Nat)
    (hp : (parseFromReader pf fuel r build next).map absRun = some (.ok (), u1, evs, n1))
    (hw : int64Only evs = true) :
    ∃ v r3, unmarshal fuel r2 = some (.ok v, r3) ∧ r3.unread = u1 := by
  cases hrun : parseFromReader pf fuel r build next with
  | none => rw [hrun] at hp; simp at hp
  | some run =>
    obtain ⟨res, r1, evs1, n2⟩ := run
    rw [hrun] at hp
    simp only [Option.map_some', absRun, Option.some.injEq, Prod.mk.injEq] at hp
    obtain ⟨q1, q2, q3, q4⟩ := hp
    subst q1 q2 q3 q4
    have hs := (parseFromReader_to_stream hr hrun).1
    obtain ⟨v, hv⟩ := Stream.unmarshal_of_parse pf r.size hsz fuel _ _ _ _ _ _ hs hw
    rw [← hu] at hv
    obtain ⟨r3, e1, _, e3, _⟩ := unmarshal_of_stream hr2 hv
    exact ⟨v, r3, e1, e3⟩

theorem C16_unmarshal_accepts_int64_inputs_witness :
    (Reader.new 4096 [bytes "d+1:ai1ee"]).WF ∧
    (Reader.new 16 [bytes "d+1", bytes ":ai1e", bytes "e"]).WF ∧
    (Reader.new 4096 [bytes "d+1:ai1ee"]).size ≤ maxAlloc ∧
    (Reader.new 16 [bytes "d+1", bytes ":ai1e", bytes "e"]).unread =
      (Reader.new 4096 [bytes "d+1:ai1ee"]).unread ∧
    (parseFromReader (fun _ => none) 10 (Reader.new 4096 [bytes "d+1:ai1ee"]) 0 1).map absRun =
      some (.ok (), [],
        [(0, .Map), (0, .Key (bytes "a") 1), (1, .Int64 1), (1, .Flush), (0, .Flush)], 2) ∧
    int64Only [(0, .Map), (0, .Key (bytes "a") 1), (1, .Int64 1), (1, .Flush), (0, .Flush)] =
      true ∧
    ∃ v r3, unmarshal 10 (Reader.new 16 [bytes "d+1", bytes ":ai1e", bytes "e"]) =
        some (.ok v, r3) ∧ r3.unread = [] :=
  ⟨by decide, by decide, by decide, by decide, by decide, by decide,
    C16_unmarshal_accepts_int64_inputs (fun _ => none) (Reader.new 4096 [bytes "d+1:ai1ee"])
      (Reader.new 16 [bytes "d+1", bytes ":ai1e", bytes "e"]) (by decide) (by decide)
      (by decide) (by decide) 10 0 1 []
      [(0, .Map), (0, .Key (bytes "a") 1), (1, .Int64 1), (1, .Flush), (0, .Flush)] 2
      (by decide) (by decide)⟩

end Bencode
